import Mathlib

/-!
Open-addressing hash tables of `rhhash`: `LazyLPHash`, `LPHash`, `RHHash`.

A shallow embedding of `hash.hpp`, `lazy_lp_hash.hpp`, `lp_hash.hpp` and `rh_hash.hpp`.

Conventions of the embedding.

* The bucket array `HashEntry * buckets` is a `List` of entries; `buckets[i]` is `rd bs i`
  and an assignment to `buckets[i]` is `wr bs i e`.
* `numEntries` is a C++ `int`; it is an `Int` here.  `numBuckets` is a `Nat`: tables are
  constructed and resized with capacities `>= 1`, and `resize( 0 )` is looked at only on
  tables without live entries, where it calls no `put` (so no `0 / 0` load factor and no
  `% 0` arises).
* `loadThreshold` is a `float`, and its only use is the comparison
  `getLoadFactor() >= loadThreshold` of `put`, where `getLoadFactor()` is
  `float(numEntries) / float(numBuckets)`.  Floating-point arithmetic is not modelled: the
  outcome of that comparison is a component `over numEntries numBuckets` of the parameters
  of a table, and every general statement holds for every such function, hence for the one
  the `float` arithmetic computes.  The concrete examples use `ratTest p q`, the exact
  comparison with `p / q`, for the thresholds `0.75f`, `0.5f`, `1.0f` and `2^-30` on the
  counts where the `float` comparison has the same outcome.
* `numBuckets * 2` in `put` is a product of `int`s.  From `numBuckets = 2^30` on it does not
  fit into an `int`: `resize` receives a negative `newBuckets`, assigns it to `numBuckets`
  and `new HashEntry[numBuckets]` throws `std::bad_array_new_length`; the pair is not
  stored and the call does not return.
* Every loop of the source (`while`, `for(;;)`) and the chain of calls `put -> resize -> put`
  is bounded by a `fuel : Nat`.  An operation returns `none` when it did not finish within
  the fuel or was left by the exception of the allocation just described, for every fuel
  then; `some r` is a run of the C++ code that returned normally with result `r`.
* `get` returns `Option (Option V)`: `some (some v)` is `return v`, `some none` is the
  `throw std::runtime_error("Key doesn't exist.")`, `none` is "not finished within the fuel".
* The digest `hasher.hash( key )` is any natural number.  `numEntries` stays below
  `numBuckets + 1` on every table `put` writes to when the threshold is at most 1, so
  `++numEntries` does not wrap around.
-/

set_option autoImplicit false

set_option linter.unusedVariables false
set_option linter.unusedSectionVars false

/-- The members of `IHash` that never change after construction: the hasher and the load
threshold.  The threshold is a `float` that is only ever compared with the load factor, so
it is carried as the outcome of that comparison: `over numEntries numBuckets` is the value of
`float(numEntries) / float(numBuckets) >= loadThreshold`. -/
structure Params (K : Type) where
  hasher : K → Nat
  over : Int → Nat → Bool

/-- The load threshold is at most 1: the comparison `getLoadFactor() >= loadThreshold` holds
whenever `numEntries >= numBuckets >= 1` (the quotient of the two `float`s is then at least
`1.0f`). -/
def Params.Capped {K : Type} (P : Params K) : Prop :=
  ∀ (numEntries : Int) (numBuckets : Nat), 1 ≤ numBuckets → (numBuckets : Int) ≤ numEntries →
    P.over numEntries numBuckets = true

/-- The comparison `getLoadFactor() >= loadThreshold` fails for every count up to `L` at
every capacity from `B` on: a table of capacity `B` or more holds `L` entries below the
threshold. -/
def Params.Fits {K : Type} (P : Params K) (L : Int) (B : Nat) : Prop :=
  ∀ (numEntries : Int) (numBuckets : Nat), numEntries ≤ L → B ≤ numBuckets →
    P.over numEntries numBuckets = false

/-- The comparison of the load factor with a threshold `p / q`, carried out exactly:
`numEntries / numBuckets >= p / q`, cross-multiplied. -/
def ratTest (p q : Nat) (numEntries : Int) (numBuckets : Nat) : Bool :=
  decide ((p : Int) * numBuckets ≤ numEntries * q)

namespace IHash

/-- `IHash::probeLength(desired, current)` with `this->numBuckets = numBuckets`. -/
def probeLength (numBuckets : Nat) (desired current : Nat) : Int :=
  if current ≥ desired then (current : Int) - desired
  else (current : Int) + numBuckets - desired

/-- `IHash::hash(key)`: `hasher.hash( key ) % numBuckets`, for `numBuckets >= 1` (with
`numBuckets == 0` the C++ `%` is undefined; the function is only used on tables with
`numBuckets >= 1`). -/
def hash {K : Type} (P : Params K) (numBuckets : Nat) (key : K) : Nat :=
  P.hasher key % numBuckets

/-- The test `getLoadFactor() >= loadThreshold` of `put`. -/
def overThreshold {K : Type} (P : Params K) (numEntries : Int) (numBuckets : Nat) : Bool :=
  P.over numEntries numBuckets

/-- Read `buckets[i]`. -/
def rd {E : Type} [Inhabited E] (bs : List E) (i : Nat) : E := bs.getD i default

/-- Assign `buckets[i] = e`. -/
def wr {E : Type} (bs : List E) (i : Nat) (e : E) : List E := bs.set i e

/-- The loop `for( int i = 0; i < oldBuckets; ++i ) if( live old[i] ) put( old[i].key, old[i].val )`
of `resize`, over the old array `old`, with `putf` the `put` of the table and `live`/`kv` the
test and the arguments of the call. -/
def replay {E S K V : Type} (live : E → Bool) (kv : E → K × V)
    (putf : S → K → V → Option S) : List E → S → Option S
  | [], T => some T
  | e :: old, T =>
    if live e then
      match putf T (kv e).1 (kv e).2 with
      | none => none
      | some T1 => replay live kv putf old T1
    else replay live kv putf old T

end IHash

open IHash

/-! ## LazyLPHash -/

namespace LazyLPHash

/-- `LazyLPHash::HashEntry`. A default-constructed entry has `occupied = deleted = false`. -/
structure HashEntry (K V : Type) where
  key : K
  val : V
  occupied : Bool
  deleted : Bool

instance {K V : Type} [Inhabited K] [Inhabited V] : Inhabited (HashEntry K V) :=
  ⟨⟨default, default, false, false⟩⟩

end LazyLPHash

/-- The mutable state of a `LazyLPHash`. -/
structure LazyLPHash (K V : Type) where
  numEntries : Int
  numBuckets : Nat
  buckets : List (LazyLPHash.HashEntry K V)

namespace LazyLPHash

variable {K V : Type} [DecidableEq K] [Inhabited K] [Inhabited V]

/-- `LazyLPHash( _numBuckets, _loadThreshold )`: `new HashEntry[numBuckets]`, `numEntries = 0`. -/
def mk0 (numBuckets : Nat) : LazyLPHash K V :=
  ⟨0, numBuckets, List.replicate numBuckets default⟩

/-- The `while` loop of `LazyLPHash::lookup`, from index `idx`. -/
def lookupLoop (T : LazyLPHash K V) (key : K) : Nat → Nat → Option Nat
  | 0, _ => none
  | fuel + 1, idx =>
    if (rd T.buckets idx).deleted ||
        ((rd T.buckets idx).occupied && decide ((rd T.buckets idx).key ≠ key)) then
      lookupLoop T key fuel ((idx + 1) % T.numBuckets)
    else some idx

/-- `LazyLPHash::lookup`. -/
def lookup (P : Params K) (fuel : Nat) (T : LazyLPHash K V) (key : K) : Option Nat :=
  lookupLoop T key fuel (hash P T.numBuckets key)

/-- The part of `LazyLPHash::put` after the threshold check: `lookup`, then the writes. -/
def putEntry (P : Params K) (fuel : Nat) (T : LazyLPHash K V) (key : K) (val : V) :
    Option (LazyLPHash K V) :=
  match lookup P fuel T key with
  | none => none
  | some idx =>
    let e := rd T.buckets idx
    if e.deleted then
      some ⟨T.numEntries, T.numBuckets, wr T.buckets idx ⟨key, val, true, false⟩⟩
    else
      some ⟨T.numEntries + 1, T.numBuckets, wr T.buckets idx ⟨key, val, true, e.deleted⟩⟩

/-- The entries `resize` replays: `!old[i].deleted && old[i].occupied`. -/
def liveEntry (e : HashEntry K V) : Bool := !e.deleted && e.occupied

/-- `LazyLPHash::put`, with the body of `resize( numBuckets * 2 )` in place of the call.  The
product `numBuckets * 2` is an `int`: when it is `2^31` or more, `new HashEntry[numBuckets]`
of `resize` throws and the call does not return. -/
def put (P : Params K) : Nat → LazyLPHash K V → K → V → Option (LazyLPHash K V)
  | 0, _, _, _ => none
  | fuel + 1, T, key, val =>
    if overThreshold P T.numEntries T.numBuckets then
      if 2 ^ 31 ≤ T.numBuckets * 2 then none
      else
        match replay liveEntry (fun e => (e.key, e.val)) (put P fuel) T.buckets
            (mk0 (T.numBuckets * 2)) with
        | none => none
        | some T1 => putEntry P (fuel + 1) T1 key val
    else putEntry P (fuel + 1) T key val

/-- `LazyLPHash::resize( newBuckets )`. -/
def resize (P : Params K) (fuel : Nat) (newBuckets : Nat) (T : LazyLPHash K V) :
    Option (LazyLPHash K V) :=
  replay liveEntry (fun e => (e.key, e.val)) (put P fuel) T.buckets (mk0 newBuckets)

/-- `LazyLPHash::get`. -/
def get (P : Params K) (fuel : Nat) (T : LazyLPHash K V) (key : K) : Option (Option V) :=
  match lookup P fuel T key with
  | none => none
  | some idx =>
    if (rd T.buckets idx).occupied then some (some (rd T.buckets idx).val) else some none

/-- `LazyLPHash::remove`. -/
def remove (P : Params K) (fuel : Nat) (T : LazyLPHash K V) (key : K) :
    Option (LazyLPHash K V) :=
  match lookup P fuel T key with
  | none => none
  | some idx =>
    let e := rd T.buckets idx
    if e.occupied then
      some ⟨T.numEntries, T.numBuckets, wr T.buckets idx ⟨e.key, e.val, false, true⟩⟩
    else some T

end LazyLPHash

/-! ## LPHash -/

namespace LPHash

/-- `LPHash::HashEntry`. -/
structure HashEntry (K V : Type) where
  key : K
  val : V
  hash : Nat
  occupied : Bool

instance {K V : Type} [Inhabited K] [Inhabited V] : Inhabited (HashEntry K V) :=
  ⟨⟨default, default, 0, false⟩⟩

end LPHash

/-- The mutable state of an `LPHash`. -/
structure LPHash (K V : Type) where
  numEntries : Int
  numBuckets : Nat
  buckets : List (LPHash.HashEntry K V)

namespace LPHash

variable {K V : Type} [DecidableEq K] [Inhabited K] [Inhabited V]

/-- `LPHash( _numBuckets, _loadThreshold )`. -/
def mk0 (numBuckets : Nat) : LPHash K V :=
  ⟨0, numBuckets, List.replicate numBuckets default⟩

/-- The `while` loop of `LPHash::lookup( key, hash )`, from index `idx`. -/
def lookupLoop (T : LPHash K V) (key : K) : Nat → Nat → Option Nat
  | 0, _ => none
  | fuel + 1, idx =>
    if (rd T.buckets idx).occupied && decide ((rd T.buckets idx).key ≠ key) then
      lookupLoop T key fuel ((idx + 1) % T.numBuckets)
    else some idx

/-- `LPHash::lookup( key )`; the out-parameter `hash` of the two-argument overload is
`IHash.hash P T.numBuckets key`. -/
def lookup (P : Params K) (fuel : Nat) (T : LPHash K V) (key : K) : Option Nat :=
  lookupLoop T key fuel (hash P T.numBuckets key)

/-- The part of `LPHash::put` after the threshold check. -/
def putEntry (P : Params K) (fuel : Nat) (T : LPHash K V) (key : K) (val : V) :
    Option (LPHash K V) :=
  match lookup P fuel T key with
  | none => none
  | some idx =>
    some ⟨T.numEntries + 1, T.numBuckets,
      wr T.buckets idx ⟨key, val, hash P T.numBuckets key, true⟩⟩

/-- `LPHash::put`, with the body of `resize( numBuckets * 2 )` in place of the call.  The
product `numBuckets * 2` is an `int`: when it is `2^31` or more, `new HashEntry[numBuckets]`
of `resize` throws and the call does not return. -/
def put (P : Params K) : Nat → LPHash K V → K → V → Option (LPHash K V)
  | 0, _, _, _ => none
  | fuel + 1, T, key, val =>
    if overThreshold P T.numEntries T.numBuckets then
      if 2 ^ 31 ≤ T.numBuckets * 2 then none
      else
        match replay (fun e => e.occupied) (fun e => (e.key, e.val)) (put P fuel) T.buckets
            (mk0 (T.numBuckets * 2)) with
        | none => none
        | some T1 => putEntry P (fuel + 1) T1 key val
    else putEntry P (fuel + 1) T key val

/-- `LPHash::resize( newBuckets )`. -/
def resize (P : Params K) (fuel : Nat) (newBuckets : Nat) (T : LPHash K V) :
    Option (LPHash K V) :=
  replay (fun e => e.occupied) (fun e => (e.key, e.val)) (put P fuel) T.buckets (mk0 newBuckets)

/-- `LPHash::get`. -/
def get (P : Params K) (fuel : Nat) (T : LPHash K V) (key : K) : Option (Option V) :=
  match lookup P fuel T key with
  | none => none
  | some idx =>
    if (rd T.buckets idx).occupied then some (some (rd T.buckets idx).val) else some none

/-- The shift test of `LPHash::remove`: `( c1 && c2 ) || ( j < k && ( c1 || c2 ) )` with
`c1 = k <= i`, `c2 = i <= j`. -/
def shiftTest (i j k : Nat) : Bool :=
  (decide (k ≤ i) && decide (i ≤ j)) || (decide (j < k) && (decide (k ≤ i) || decide (i ≤ j)))

/-- The `for(;;)` loop of `LPHash::remove`: `i` is the empty entry, `j` the scan index. -/
def removeLoop (numBuckets : Nat) :
    Nat → List (HashEntry K V) → Nat → Nat → Option (List (HashEntry K V))
  | 0, _, _, _ => none
  | fuel + 1, bs, i, j0 =>
    let j := (j0 + 1) % numBuckets
    if !(rd bs j).occupied then some bs
    else
      let k := (rd bs j).hash
      if shiftTest i j k then
        let bs1 := wr bs i (rd bs j)
        let ej := rd bs1 j
        removeLoop numBuckets fuel (wr bs1 j ⟨ej.key, ej.val, ej.hash, false⟩) j j
      else removeLoop numBuckets fuel bs i j

/-- `LPHash::remove`. -/
def remove (P : Params K) (fuel : Nat) (T : LPHash K V) (key : K) : Option (LPHash K V) :=
  match lookup P fuel T key with
  | none => none
  | some i =>
    let e := rd T.buckets i
    if !e.occupied then some T
    else
      match removeLoop T.numBuckets fuel
          (wr T.buckets i ⟨e.key, e.val, e.hash, false⟩) i i with
      | none => none
      | some bs => some ⟨T.numEntries - 1, T.numBuckets, bs⟩

end LPHash

/-! ## RHHash -/

namespace RHHash

/-- `RHHash::HashEntry`. -/
structure HashEntry (K V : Type) where
  key : K
  val : V
  hash : Nat
  occupied : Bool

instance {K V : Type} [Inhabited K] [Inhabited V] : Inhabited (HashEntry K V) :=
  ⟨⟨default, default, 0, false⟩⟩

end RHHash

/-- The mutable state of an `RHHash`. -/
structure RHHash (K V : Type) where
  numEntries : Int
  numBuckets : Nat
  buckets : List (RHHash.HashEntry K V)

namespace RHHash

variable {K V : Type} [DecidableEq K] [Inhabited K] [Inhabited V]

/-- `RHHash( _numBuckets, _loadThreshold )`. -/
def mk0 (numBuckets : Nat) : RHHash K V :=
  ⟨0, numBuckets, List.replicate numBuckets default⟩

/-- The `while` loop of `RHHash::put` together with the writes after it: `key`, `val`,
`hsh` (the local `hash`) are the carried entry, `cur` is `currentProbeLength`. -/
def putLoop (numBuckets : Nat) :
    Nat → List (HashEntry K V) → K → V → Nat → Nat → Int → Option (List (HashEntry K V))
  | 0, _, _, _, _, _, _ => none
  | fuel + 1, bs, key, val, hsh, idx, cur =>
    let e := rd bs idx
    if e.occupied && decide (e.key ≠ key) then
      let existing := probeLength numBuckets e.hash idx
      if existing < cur then
        putLoop numBuckets fuel (wr bs idx ⟨key, val, hsh, e.occupied⟩)
          e.key e.val e.hash ((idx + 1) % numBuckets) (existing + 1)
      else
        putLoop numBuckets fuel bs key val hsh ((idx + 1) % numBuckets) (cur + 1)
    else some (wr bs idx ⟨key, val, hsh, true⟩)

/-- The part of `RHHash::put` after the threshold check. -/
def putEntry (P : Params K) (fuel : Nat) (T : RHHash K V) (key : K) (val : V) :
    Option (RHHash K V) :=
  match putLoop T.numBuckets fuel T.buckets key val (hash P T.numBuckets key)
      (hash P T.numBuckets key) 0 with
  | none => none
  | some bs => some ⟨T.numEntries + 1, T.numBuckets, bs⟩

/-- `RHHash::put`, with the body of `resize( numBuckets * 2 )` in place of the call.  The
product `numBuckets * 2` is an `int`: when it is `2^31` or more, `new HashEntry[numBuckets]`
of `resize` throws and the call does not return. -/
def put (P : Params K) : Nat → RHHash K V → K → V → Option (RHHash K V)
  | 0, _, _, _ => none
  | fuel + 1, T, key, val =>
    if overThreshold P T.numEntries T.numBuckets then
      if 2 ^ 31 ≤ T.numBuckets * 2 then none
      else
        match replay (fun e => e.occupied) (fun e => (e.key, e.val)) (put P fuel) T.buckets
            (mk0 (T.numBuckets * 2)) with
        | none => none
        | some T1 => putEntry P (fuel + 1) T1 key val
    else putEntry P (fuel + 1) T key val

/-- `RHHash::resize( newBuckets )`. -/
def resize (P : Params K) (fuel : Nat) (newBuckets : Nat) (T : RHHash K V) :
    Option (RHHash K V) :=
  replay (fun e => e.occupied) (fun e => (e.key, e.val)) (put P fuel) T.buckets (mk0 newBuckets)

/-- The `for(;;)` loop of `RHHash::get`. -/
def getLoop (T : RHHash K V) (key : K) : Nat → Nat → Int → Option (Option V)
  | 0, _, _ => none
  | fuel + 1, idx, cur =>
    let e := rd T.buckets idx
    if !e.occupied then some none
    else if cur > probeLength T.numBuckets e.hash idx then some none
    else if e.key = key then some (some e.val)
    else getLoop T key fuel ((idx + 1) % T.numBuckets) (cur + 1)

/-- `RHHash::get`. -/
def get (P : Params K) (fuel : Nat) (T : RHHash K V) (key : K) : Option (Option V) :=
  getLoop T key fuel (hash P T.numBuckets key) 0

/-- The inner `for(;;)` loop of `RHHash::remove` (the backward shift). -/
def shiftLoop (numBuckets : Nat) :
    Nat → List (HashEntry K V) → Nat → Nat → Option (List (HashEntry K V))
  | 0, _, _, _ => none
  | fuel + 1, bs, i, j0 =>
    let j := (j0 + 1) % numBuckets
    if !(rd bs j).occupied then some bs
    else if probeLength numBuckets (rd bs j).hash j = 0 then some bs
    else
      let bs1 := wr bs i (rd bs j)
      let ej := rd bs1 j
      shiftLoop numBuckets fuel (wr bs1 j ⟨ej.key, ej.val, ej.hash, false⟩) j j

/-- The outer `for(;;)` loop of `RHHash::remove`. -/
def removeLoop (T : RHHash K V) (key : K) : Nat → Nat → Int → Option (RHHash K V)
  | 0, _, _ => none
  | fuel + 1, i, cur =>
    let e := rd T.buckets i
    if !e.occupied then some T
    else if cur > probeLength T.numBuckets e.hash i then some T
    else if e.key = key then
      match shiftLoop T.numBuckets (fuel + 1)
          (wr T.buckets i ⟨e.key, e.val, e.hash, false⟩) i i with
      | none => none
      | some bs => some ⟨T.numEntries - 1, T.numBuckets, bs⟩
    else removeLoop T key fuel ((i + 1) % T.numBuckets) (cur + 1)

/-- `RHHash::remove`. -/
def remove (P : Params K) (fuel : Nat) (T : RHHash K V) (key : K) : Option (RHHash K V) :=
  removeLoop T key fuel (hash P T.numBuckets key) 0

end RHHash

/-! ## Call sequences and the reference map -/

/-- One call on a table. -/
inductive Op (K V : Type) where
  | put (key : K) (val : V)
  | remove (key : K)
  | resize (newBuckets : Nat)

/-- A sequence of calls, run in order on a table whose operations are `putf`, `removef`,
`resizef`; `none` as soon as one call does not finish. -/
def runOps {S K V : Type} (putf : S → K → V → Option S) (removef : S → K → Option S)
    (resizef : Nat → S → Option S) : List (Op K V) → S → Option S
  | [], T => some T
  | Op.put k v :: ops, T =>
    match putf T k v with
    | none => none
    | some T1 => runOps putf removef resizef ops T1
  | Op.remove k :: ops, T =>
    match removef T k with
    | none => none
    | some T1 => runOps putf removef resizef ops T1
  | Op.resize n :: ops, T =>
    match resizef n T with
    | none => none
    | some T1 => runOps putf removef resizef ops T1

/-- The reference map after one call: `put` binds the key, `remove` unbinds it, `resize`
leaves the map alone. -/
def refStep {K V : Type} [DecidableEq K] (m : K → Option V) : Op K V → K → Option V
  | Op.put k v => fun x => if x = k then some v else m x
  | Op.remove k => fun x => if x = k then none else m x
  | Op.resize _ => m

/-- The reference map after a sequence of calls on an empty map: `refMap ops k = some v` when
the last call on `k` was `put(k, v)`, and `none` when `k` was never put or the last call on
`k` was `remove(k)`. -/
def refMap {K V : Type} [DecidableEq K] (ops : List (Op K V)) : K → Option V :=
  ops.foldl refStep (fun _ => none)

/-- Cyclic forward distance from index `a` to index `b` in an array of `n` slots. -/
def cdist (n a b : Nat) : Nat := if a ≤ b then b - a else b + n - a

/-- A linear probe `idx, idx+1, ...` (cyclically in `n` slots) that goes on while
`skip idx` holds: the common shape of the `lookup` loops. -/
def probeSearch (skip : Nat → Bool) (n : Nat) : Nat → Nat → Option Nat
  | 0, _ => none
  | fuel + 1, idx => if skip idx then probeSearch skip n fuel ((idx + 1) % n) else some idx

/-- The operations of a table that `put` and `resize` are built from, for the part of the
three classes that is the same text: the threshold check of `put` and the replay of `resize`. -/
structure Sys (S K V : Type) where
  nE : S → Int
  nB : S → Nat
  mk0 : Nat → S
  ents : S → List (K × V)
  putEntry : Nat → S → K → V → Option S

/-- The replay loop of `resize` over the list of live `(key, value)` pairs. -/
def replayL {S K V : Type} (putf : S → K → V → Option S) : List (K × V) → S → Option S
  | [], T => some T
  | (k, v) :: es, T =>
    match putf T k v with
    | none => none
    | some T1 => replayL putf es T1

namespace Sys

variable {S K V : Type}

/-- The common text of `put`. -/
def put (Y : Sys S K V) (P : Params K) : Nat → S → K → V → Option S
  | 0, _, _, _ => none
  | fuel + 1, T, key, val =>
    if overThreshold P (Y.nE T) (Y.nB T) then
      if 2 ^ 31 ≤ Y.nB T * 2 then none
      else
        match replayL (put Y P fuel) (Y.ents T) (Y.mk0 (Y.nB T * 2)) with
        | none => none
        | some T1 => Y.putEntry (fuel + 1) T1 key val
    else Y.putEntry (fuel + 1) T key val

/-- The common text of `resize`. -/
def resize (Y : Sys S K V) (P : Params K) (fuel : Nat) (newBuckets : Nat) (T : S) : Option S :=
  replayL (put Y P fuel) (Y.ents T) (Y.mk0 newBuckets)

end Sys

/-- The key/value list `es1` is `es` with `k` bound to `v`. -/
def Upd {K V : Type} (es1 es : List (K × V)) (k : K) (v : V) : Prop :=
  ∀ k1 v1, (k1, v1) ∈ es1 ↔ (k1 = k ∧ v1 = v) ∨ (k1 ≠ k ∧ (k1, v1) ∈ es)

/-- What the common text of `put` and `resize` needs from a class: a representation
invariant `Inv` that the empty table has and that the write of `put` keeps whenever the
table is not over the threshold. -/
structure Sys.Ok {S K V : Type} (Y : Sys S K V) (Inv : S → Prop) : Prop where
  mk0_inv : ∀ n, 1 ≤ n → Inv (Y.mk0 n)
  mk0_nE : ∀ n, Y.nE (Y.mk0 n) = 0
  mk0_nB : ∀ n, Y.nB (Y.mk0 n) = n
  mk0_ents : ∀ n, Y.ents (Y.mk0 n) = []
  nB_pos : ∀ T, Inv T → 1 ≤ Y.nB T
  nodup : ∀ T, Inv T → ((Y.ents T).map Prod.fst).Nodup
  len_le_nE : ∀ T, Inv T → ((Y.ents T).length : Int) ≤ Y.nE T
  len_le_nB : ∀ T, Inv T → (Y.ents T).length ≤ Y.nB T
  putEntry_mono : ∀ f g T k v T1, f ≤ g → Y.putEntry f T k v = some T1 →
    Y.putEntry g T k v = some T1
  putEntry_ok : ∀ T k v, Inv T → Y.nE T < Y.nB T →
    ∃ T1, Y.putEntry (Y.nB T) T k v = some T1 ∧ Inv T1 ∧ Y.nE T1 = Y.nE T + 1 ∧
      Y.nB T1 = Y.nB T ∧ Upd (Y.ents T1) (Y.ents T) k v

/-- What a run of `put` that finished guarantees. -/
def Sys.PutSpec {S K V : Type} (Y : Sys S K V) (Inv : S → Prop)
    (putf : S → K → V → Option S) : Prop :=
  ∀ T k v T1, Inv T → putf T k v = some T1 →
    Inv T1 ∧ Upd (Y.ents T1) (Y.ents T) k v ∧ Y.nE T1 ≤ Y.nE T + 1 ∧
      ∃ j, Y.nB T1 = Y.nB T * 2 ^ j

/-! ## Representation invariants -/

namespace LPHash

variable {K V : Type} [DecidableEq K] [Inhabited K] [Inhabited V]

/-- The live `(key, value)` pairs of the array, in index order. -/
def ents (T : LPHash K V) : List (K × V) :=
  (T.buckets.filter (fun e => e.occupied)).map (fun e => (e.key, e.val))

/-- The loop condition of `lookup` at index `i`. -/
def skip (bs : List (HashEntry K V)) (key : K) (i : Nat) : Bool :=
  (rd bs i).occupied && decide ((rd bs i).key ≠ key)

/-- The class as an instance of the common text. -/
def sys (P : Params K) : Sys (LPHash K V) K V :=
  ⟨fun T => T.numEntries, fun T => T.numBuckets, mk0, ents, putEntry P⟩

/-- Representation invariant of `LPHash`: the array has `numBuckets >= 1` slots, at most
`numEntries` of them are occupied, every occupied slot stores the home index of its key, and
the probe from that home index to the slot only meets occupied slots with other keys. -/
structure Inv (P : Params K) (T : LPHash K V) : Prop where
  len : T.buckets.length = T.numBuckets
  pos : 1 ≤ T.numBuckets
  cnt : (T.buckets.countP (fun e => e.occupied) : Int) ≤ T.numEntries
  home : ∀ p, p < T.numBuckets → (rd T.buckets p).occupied = true →
    (rd T.buckets p).hash = hash P T.numBuckets (rd T.buckets p).key
  path : ∀ p, p < T.numBuckets → (rd T.buckets p).occupied = true →
    ∀ x, x < T.numBuckets →
      cdist T.numBuckets (hash P T.numBuckets (rd T.buckets p).key) x
        < cdist T.numBuckets (hash P T.numBuckets (rd T.buckets p).key) p →
      (rd T.buckets x).occupied = true ∧ (rd T.buckets x).key ≠ (rd T.buckets p).key

end LPHash

/-- Total displacement: the sum over the occupied slots of the cyclic distance from the
stored home index to the slot, for the slots of `bs` seen as the slots `pos, pos+1, ...`. -/
def dispFrom {E : Type} (occ : E → Bool) (home : E → Nat) (n : Nat) : Nat → List E → Nat
  | _, [] => 0
  | pos, e :: es => (if occ e then cdist n (home e) pos else 0) + dispFrom occ home n (pos + 1) es

namespace LPHash

variable {K V : Type} [DecidableEq K] [Inhabited K] [Inhabited V]

/-- Invariant of the array inside the loop of `remove`, with the empty entry at `i`: as
`Inv`, except that a probe path may cross the slot `i`. -/
structure HoleInv (P : Params K) (n : Nat) (bs : List (HashEntry K V)) (i : Nat) : Prop where
  len : bs.length = n
  ilt : i < n
  hole : (rd bs i).occupied = false
  home : ∀ p, p < n → (rd bs p).occupied = true → (rd bs p).hash = hash P n (rd bs p).key
  path : ∀ p, p < n → (rd bs p).occupied = true → ∀ x, x < n →
    cdist n (hash P n (rd bs p).key) x < cdist n (hash P n (rd bs p).key) p → x ≠ i →
    (rd bs x).occupied = true ∧ (rd bs x).key ≠ (rd bs p).key

/-- The slots after the empty entry `i` up to the scan index `j` are occupied and none of
their probe paths crosses `i`. -/
def Scanned (n : Nat) (bs : List (HashEntry K V)) (i j : Nat) : Prop :=
  ∀ y, y < n → 0 < cdist n i y → cdist n i y ≤ cdist n i j →
    (rd bs y).occupied = true ∧ ¬ (cdist n (rd bs y).hash i < cdist n (rd bs y).hash y)

end LPHash

namespace LPHash

variable {K V : Type} [DecidableEq K] [Inhabited K] [Inhabited V]

/-- The part of `Inv` that is about the array alone. -/
structure ArrOk (P : Params K) (n : Nat) (bs : List (HashEntry K V)) : Prop where
  len : bs.length = n
  home : ∀ p, p < n → (rd bs p).occupied = true → (rd bs p).hash = hash P n (rd bs p).key
  path : ∀ p, p < n → (rd bs p).occupied = true → ∀ x, x < n →
    cdist n (hash P n (rd bs p).key) x < cdist n (hash P n (rd bs p).key) p →
    (rd bs x).occupied = true ∧ (rd bs x).key ≠ (rd bs p).key

/-- The pair `(k, v)` is in an occupied slot of the array. -/
def MemB (bs : List (HashEntry K V)) (k : K) (v : V) : Prop :=
  ∃ p, p < bs.length ∧ (rd bs p).occupied = true ∧ (rd bs p).key = k ∧ (rd bs p).val = v

end LPHash

namespace LazyLPHash

variable {K V : Type} [DecidableEq K] [Inhabited K] [Inhabited V]

/-- The live `(key, value)` pairs of the array, in index order. -/
def ents (T : LazyLPHash K V) : List (K × V) :=
  (T.buckets.filter liveEntry).map (fun e => (e.key, e.val))

/-- The loop condition of `lookup` at index `i`. -/
def skip (bs : List (HashEntry K V)) (key : K) (i : Nat) : Bool :=
  (rd bs i).deleted || ((rd bs i).occupied && decide ((rd bs i).key ≠ key))

/-- A slot that was used: occupied or tombstoned. -/
def usedEntry (e : HashEntry K V) : Bool := e.occupied || e.deleted

/-- The class as an instance of the common text. -/
def sys (P : Params K) : Sys (LazyLPHash K V) K V :=
  ⟨fun T => T.numEntries, fun T => T.numBuckets, mk0, ents, putEntry P⟩

/-- Representation invariant of `LazyLPHash`: the array has `numBuckets >= 1` slots, at most
`numEntries` of them are occupied or tombstoned, no slot is both, and the probe from the home
index of the key of an occupied slot to that slot only meets tombstones and occupied slots
with other keys. -/
structure Inv (P : Params K) (T : LazyLPHash K V) : Prop where
  len : T.buckets.length = T.numBuckets
  pos : 1 ≤ T.numBuckets
  cnt : (T.buckets.countP usedEntry : Int) ≤ T.numEntries
  excl : ∀ p, p < T.numBuckets → (rd T.buckets p).occupied = true →
    (rd T.buckets p).deleted = false
  path : ∀ p, p < T.numBuckets → (rd T.buckets p).occupied = true →
    ∀ x, x < T.numBuckets →
      cdist T.numBuckets (hash P T.numBuckets (rd T.buckets p).key) x
        < cdist T.numBuckets (hash P T.numBuckets (rd T.buckets p).key) p →
      skip T.buckets (rd T.buckets p).key x = true

end LazyLPHash

namespace RHHash

variable {K V : Type} [DecidableEq K] [Inhabited K] [Inhabited V]

/-- The live `(key, value)` pairs of the array, in index order. -/
def ents (T : RHHash K V) : List (K × V) :=
  (T.buckets.filter (fun e => e.occupied)).map (fun e => (e.key, e.val))

/-- The class as an instance of the common text. -/
def sys (P : Params K) : Sys (RHHash K V) K V :=
  ⟨fun T => T.numEntries, fun T => T.numBuckets, mk0, ents, putEntry P⟩

/-- The pair `(k, v)` is in an occupied slot of the array. -/
def MemB (bs : List (HashEntry K V)) (k : K) (v : V) : Prop :=
  ∃ p, p < bs.length ∧ (rd bs p).occupied = true ∧ (rd bs p).key = k ∧ (rd bs p).val = v

/-- Robin Hood invariant of the array: every occupied slot stores the home index of its key,
and each slot `x` on the probe from that home index to the slot is occupied, holds another
key, and holds an entry whose own probe length is at least the distance of `x` from that
home index. -/
structure ArrOk (P : Params K) (n : Nat) (bs : List (HashEntry K V)) : Prop where
  len : bs.length = n
  home : ∀ p, p < n → (rd bs p).occupied = true → (rd bs p).hash = hash P n (rd bs p).key
  path : ∀ p, p < n → (rd bs p).occupied = true → ∀ x, x < n →
    cdist n (rd bs p).hash x < cdist n (rd bs p).hash p →
    (rd bs x).occupied = true ∧ (rd bs x).key ≠ (rd bs p).key ∧
      cdist n (rd bs p).hash x ≤ cdist n (rd bs x).hash x

/-- Representation invariant of `RHHash`. -/
structure Inv (P : Params K) (T : RHHash K V) : Prop where
  arr : ArrOk P T.numBuckets T.buckets
  pos : 1 ≤ T.numBuckets
  cnt : (T.buckets.countP (fun e => e.occupied) : Int) ≤ T.numEntries

/-- Invariant of the array inside the backward shift of `remove`, with the empty entry at
`i`: as `ArrOk`, except that a probe path may cross the slot `i`. -/
structure HoleInv (P : Params K) (n : Nat) (bs : List (HashEntry K V)) (i : Nat) : Prop where
  len : bs.length = n
  ilt : i < n
  hole : (rd bs i).occupied = false
  home : ∀ p, p < n → (rd bs p).occupied = true → (rd bs p).hash = hash P n (rd bs p).key
  path : ∀ p, p < n → (rd bs p).occupied = true → ∀ x, x < n →
    cdist n (rd bs p).hash x < cdist n (rd bs p).hash p → x ≠ i →
    (rd bs x).occupied = true ∧ (rd bs x).key ≠ (rd bs p).key ∧
      cdist n (rd bs p).hash x ≤ cdist n (rd bs x).hash x

/-- The probe shared by the loops of `get` and `remove`: `some (some i)` when the key is
found at index `i`, `some none` when the probe stops without finding it. -/
def locate (T : RHHash K V) (key : K) : Nat → Nat → Int → Option (Option Nat)
  | 0, _, _ => none
  | fuel + 1, idx, cur =>
    let e := rd T.buckets idx
    if !e.occupied then some none
    else if cur > probeLength T.numBuckets e.hash idx then some none
    else if e.key = key then some (some idx)
    else locate T key fuel ((idx + 1) % T.numBuckets) (cur + 1)

end RHHash

/-! ## Runs of call sequences -/

/-- Every `remove` of the sequence is applied to a key that is live at that point,
starting from the reference map `m`. -/
def removesLive {K V : Type} [DecidableEq K] (m : K → Option V) : List (Op K V) → Bool
  | [] => true
  | Op.remove k :: ops => (m k).isSome && removesLive (refStep m (Op.remove k)) ops
  | op :: ops => removesLive (refStep m op) ops

/-- Every `resize` of the sequence has an argument `>= 1`. -/
def resizesPos {K V : Type} : List (Op K V) → Bool
  | [] => true
  | Op.resize n :: ops => decide (1 ≤ n) && resizesPos ops
  | _ :: ops => resizesPos ops

/-- The sequence has only `put` calls. -/
def onlyPuts {K V : Type} : List (Op K V) → Bool
  | [] => true
  | Op.put _ _ :: ops => onlyPuts ops
  | _ :: _ => false

/-- The sequence has only `put` and `remove` calls. -/
def noResize {K V : Type} : List (Op K V) → Bool
  | [] => true
  | Op.resize _ :: _ => false
  | _ :: ops => noResize ops

/-- The four operations of a class, with its instance of the common text. -/
structure Machine (S K V : Type) where
  sys : Sys S K V
  put : Nat → S → K → V → Option S
  remove : Nat → S → K → Option S
  resize : Nat → Nat → S → Option S
  get : Nat → S → K → Option (Option V)

/-- A call sequence on a table of the class, every call with the same fuel. -/
def Machine.run {S K V : Type} (M : Machine S K V) (fuel : Nat) :
    List (Op K V) → S → Option S :=
  runOps (M.put fuel) (M.remove fuel) (M.resize fuel)

/-- What the correctness of call sequences needs from a class. -/
structure Machine.Ok {S K V : Type} (M : Machine S K V) (P : Params K) (Inv : S → Prop) :
    Prop where
  sys_ok : M.sys.Ok Inv
  put_eq : ∀ f T k v, M.put f T k v = M.sys.put P f T k v
  resize_eq : ∀ f n T, M.resize f n T = M.sys.resize P f n T
  remove_mono : ∀ T k f g T1, f ≤ g → M.remove f T k = some T1 → M.remove g T k = some T1
  remove_pc : ∀ T k f T1, Inv T → M.remove f T k = some T1 →
    Inv T1 ∧ M.sys.nB T1 = M.sys.nB T ∧ M.sys.nE T1 ≤ M.sys.nE T ∧
      (∀ k1 v1, (k1, v1) ∈ M.sys.ents T1 ↔ (k1 ≠ k ∧ (k1, v1) ∈ M.sys.ents T)) ∧
      ((∀ v, (k, v) ∉ M.sys.ents T) → T1 = T)
  remove_live : ∀ T k v, Inv T → (k, v) ∈ M.sys.ents T → ∃ f T1, M.remove f T k = some T1
  get_mono : ∀ T k f g r, f ≤ g → M.get f T k = some r → M.get g T k = some r
  get_present : ∀ T k v f, Inv T → (k, v) ∈ M.sys.ents T → M.sys.nB T + 1 ≤ f →
    M.get f T k = some (some v)
  get_sound : ∀ T k v f, Inv T → M.get f T k = some (some v) → (k, v) ∈ M.sys.ents T

namespace LazyLPHash

variable {K V : Type} [DecidableEq K] [Inhabited K] [Inhabited V]

/-- The operations of `LazyLPHash`. -/
def machine (P : Params K) : Machine (LazyLPHash K V) K V :=
  ⟨sys P, put P, remove P, resize P, get P⟩

/-- A call sequence on a `LazyLPHash`. -/
def run (P : Params K) (fuel : Nat) : List (Op K V) → LazyLPHash K V → Option (LazyLPHash K V) :=
  runOps (put P fuel) (remove P fuel) (resize P fuel)

/-- The tables reachable from a fresh table of capacity `cap` by `put`, `remove` and
`resize` calls (with arguments `>= 1`), each of which returned. -/
def Reachable (P : Params K) (cap : Nat) (T : LazyLPHash K V) : Prop :=
  ∃ ops fuel, resizesPos ops = true ∧ run P fuel ops (mk0 cap) = some T

end LazyLPHash

namespace LPHash

variable {K V : Type} [DecidableEq K] [Inhabited K] [Inhabited V]

/-- The operations of `LPHash`. -/
def machine (P : Params K) : Machine (LPHash K V) K V :=
  ⟨sys P, put P, remove P, resize P, get P⟩

/-- A call sequence on an `LPHash`. -/
def run (P : Params K) (fuel : Nat) : List (Op K V) → LPHash K V → Option (LPHash K V) :=
  runOps (put P fuel) (remove P fuel) (resize P fuel)

/-- The tables reachable from a fresh table of capacity `cap` by `put`, `remove` and
`resize` calls (with arguments `>= 1`), each of which returned. -/
def Reachable (P : Params K) (cap : Nat) (T : LPHash K V) : Prop :=
  ∃ ops fuel, resizesPos ops = true ∧ run P fuel ops (mk0 cap) = some T

end LPHash

namespace RHHash

variable {K V : Type} [DecidableEq K] [Inhabited K] [Inhabited V]

/-- The operations of `RHHash`. -/
def machine (P : Params K) : Machine (RHHash K V) K V :=
  ⟨sys P, put P, remove P, resize P, get P⟩

/-- A call sequence on an `RHHash`. -/
def run (P : Params K) (fuel : Nat) : List (Op K V) → RHHash K V → Option (RHHash K V) :=
  runOps (put P fuel) (remove P fuel) (resize P fuel)

/-- The tables reachable from a fresh table of capacity `cap` by `put`, `remove` and
`resize` calls (with arguments `>= 1`), each of which returned. -/
def Reachable (P : Params K) (cap : Nat) (T : RHHash K V) : Prop :=
  ∃ ops fuel, resizesPos ops = true ∧ run P fuel ops (mk0 cap) = some T

end RHHash

/-! ## Concrete inputs -/

/-- Keys are their own digest (`MyIntHashFn`), threshold `0.75f`, compared exactly: at the
counts of the examples (`numEntries <= 4`, where a load factor of 3/4 or more needs a
capacity of at most 5) the `float` comparison of the code has the same outcome. -/
def exParams : Params Nat := ⟨fun k => k, ratTest 3 4⟩

/-- Keys are their own digest (`MyIntHashFn`), threshold `0.5f`, compared exactly: at the
counts of the examples (`numEntries <= 1`, capacities 1 and 2) the `float` comparison of the
code has the same outcome. -/
def halfParams : Params Nat := ⟨fun k => k, ratTest 1 2⟩

/-- The calls `put(1,10)`, `put(5,50)`, `put(9,90)`, `put(5,51)`. -/
def exPuts : List (Op Nat Nat) := [Op.put 1 10, Op.put 5 50, Op.put 9 90, Op.put 5 51]

/-- The calls `put(1,10)`, `put(5,50)`, `put(9,90)`, `remove(5)`. -/
def exOps : List (Op Nat Nat) := [Op.put 1 10, Op.put 5 50, Op.put 9 90, Op.remove 5]

/-- The calls `put(0,0)`, `put(1,1)`: at capacity 2 and threshold 3/4 they fill the array. -/
def fillOps : List (Op Nat Nat) := [Op.put 0 0, Op.put 1 1]

/-- The `LPHash` of capacity 2 and threshold 3/4 after `put(0,0)`, `put(1,1)`. -/
def fullLP : LPHash Nat Nat := ⟨2, 2, [⟨0, 0, 0, true⟩, ⟨1, 1, 1, true⟩]⟩

/-- The `LazyLPHash` of capacity 2 and threshold 3/4 after `put(0,0)`, `put(1,1)`. -/
def fullLazy : LazyLPHash Nat Nat := ⟨2, 2, [⟨0, 0, true, false⟩, ⟨1, 1, true, false⟩]⟩

/-- The `RHHash` of capacity 2 and threshold 3/4 after `put(0,0)`, `put(1,1)`. -/
def fullRH : RHHash Nat Nat := ⟨2, 2, [⟨0, 0, 0, true⟩, ⟨1, 1, 1, true⟩]⟩

/-- The `LPHash` of capacity 4 and threshold 3/4 after `put(1,10)`, `put(5,50)`, `put(9,90)`,
`remove(5)`: key 9 was shifted back from slot 3 to slot 2. -/
def exShiftedLP : LPHash Nat Nat :=
  ⟨2, 4, [default, ⟨1, 10, 1, true⟩, ⟨9, 90, 1, true⟩, ⟨9, 90, 1, false⟩]⟩

/-- The `RHHash` of capacity 4 and threshold 3/4 after `put(1,10)`, `put(5,50)`, `put(9,90)`,
`remove(5)`: key 9 was shifted back from slot 3 to slot 2. -/
def exShiftedRH : RHHash Nat Nat :=
  ⟨2, 4, [default, ⟨1, 10, 1, true⟩, ⟨9, 90, 1, true⟩, ⟨9, 90, 1, false⟩]⟩

/-- The `LazyLPHash` of capacity 4 and threshold 3/4 after `put(1,10)`, `put(5,50)`,
`put(9,90)`, `remove(1)`, `remove(5)`, `remove(9)`: three tombstones, `numEntries == 3`. -/
def exTombs : LazyLPHash Nat Nat :=
  ⟨3, 4, [default, ⟨1, 10, false, true⟩, ⟨5, 50, false, true⟩, ⟨9, 90, false, true⟩]⟩

/-- The `LazyLPHash` of capacity 4 and threshold 3/4 after `put(1,10)`. -/
def exOneLazy : LazyLPHash Nat Nat :=
  ⟨1, 4, [default, ⟨1, 10, true, false⟩, default, default]⟩

/-- The `LPHash` of capacity 4 and threshold 3/4 after `put(0,0)`, `put(1,1)`, `put(4,4)`:
key 4 (home index 0) is in slot 2, behind key 1, which is at its home index. -/
def exChainLP : LPHash Nat Nat :=
  ⟨3, 4, [⟨0, 0, 0, true⟩, ⟨1, 1, 1, true⟩, ⟨4, 4, 0, true⟩, default]⟩

/-- The array of `exChainLP` at the start of the loop of `remove(0)`: slot 0 was marked
empty. -/
def exHoleLP : List (LPHash.HashEntry Nat Nat) :=
  [⟨0, 0, 0, false⟩, ⟨1, 1, 1, true⟩, ⟨4, 4, 0, true⟩, default]

/-! ## Probe-length statistics -/

/-- The samples that `LazyLPHash::get_dib_stats` hands to `PERF_ADD`: for every occupied slot
`i`, in index order, `probeLength( hash( buckets[i].key ), i )`. -/
def LazyLPHash.dibStats {K V : Type} [Inhabited K] [Inhabited V] (P : Params K)
    (T : LazyLPHash K V) : List Int :=
  (List.range T.numBuckets).filterMap (fun i =>
    if (rd T.buckets i).occupied then
      some (probeLength T.numBuckets (hash P T.numBuckets (rd T.buckets i).key) i)
    else none)

/-- The samples that `RHHash::get_dib_stats` hands to `PERF_ADD`: for every occupied slot `i`,
in index order, `probeLength( hash( buckets[i].key ), i )`. -/
def RHHash.dibStats {K V : Type} [Inhabited K] [Inhabited V] (P : Params K)
    (T : RHHash K V) : List Int :=
  (List.range T.numBuckets).filterMap (fun i =>
    if (rd T.buckets i).occupied then
      some (probeLength T.numBuckets (hash P T.numBuckets (rd T.buckets i).key) i)
    else none)

/-- The maximum of a list of probe lengths (0 for the empty list; probe lengths are `>= 0`). -/
def maxSample (l : List Int) : Int := l.foldl max 0

/-- Seen from the slot `a`, no entry of the array lies before its home index: the probe path
of no entry crosses from the slot before `a` to `a`. -/
def RHHash.LinFrom {K V : Type} [Inhabited K] [Inhabited V] (n : Nat)
    (bs : List (RHHash.HashEntry K V)) (a : Nat) : Prop :=
  ∀ p, p < n → (rd bs p).occupied = true → cdist n a (rd bs p).hash ≤ cdist n a p

/-- Two tables agree in `numEntries`, in `numBuckets` and in the number of live entries. -/
def Sys.Same {S1 S2 K V : Type} (Y1 : Sys S1 K V) (Y2 : Sys S2 K V) (T1 : S1) (T2 : S2) :
    Prop :=
  Y1.nE T1 = Y2.nE T2 ∧ Y1.nB T1 = Y2.nB T2 ∧ (Y1.ents T1).length = (Y2.ents T2).length

/-- The calls `put(2,2)`, `put(1,1)`, `put(5,5)`: at capacity 4, key 5 (home index 1) meets
key 1 at its home index and then key 2 at its home index. -/
def exSteal : List (Op Nat Nat) := [Op.put 2 2, Op.put 1 1, Op.put 5 5]

/-- The `RHHash` of capacity 4 and threshold 3/4 after `put(2,2)`, `put(1,1)`, `put(5,5)`:
key 5 took slot 2 from key 2, which was carried on to slot 3. -/
def exStolenRH : RHHash Nat Nat :=
  ⟨3, 4, [default, ⟨1, 1, 1, true⟩, ⟨5, 5, 1, true⟩, ⟨2, 2, 2, true⟩]⟩

/-- Keys are their own digest (`MyIntHashFn`), threshold `1.0f`, compared exactly: at the
counts of the examples (`numEntries <= 3`, capacities 2 and 4) the `float` comparison of the
code has the same outcome. -/
def oneParams : Params Nat := ⟨fun k => k, ratTest 1 1⟩

/-- Keys are their own digest (`MyIntHashFn`), threshold `2^-30`, which is a `float`,
compared exactly. The examples evaluate the comparison at the load factors `0 / b` and
`1 / b` for `b` among 1, 2 and `2^30`, where the `float` quotient is exact and the `float`
comparison of the code has the same outcome. -/
def tinyParams : Params Nat := ⟨fun k => k, ratTest 1 (2 ^ 30)⟩

/-! ## Arrays -/

namespace IHash

theorem rd_wr_same {E : Type} [Inhabited E] (bs : List E) (i : Nat) (e : E)
    (h : i < bs.length) : rd (wr bs i e) i = e := by
  simp [rd, wr, List.getD, h]

theorem rd_wr_ne {E : Type} [Inhabited E] (bs : List E) (i j : Nat) (e : E)
    (h : i ≠ j) : rd (wr bs i e) j = rd bs j := by
  simp [rd, wr, List.getD, List.getElem?_set_ne h]

theorem length_wr {E : Type} (bs : List E) (i : Nat) (e : E) :
    (wr bs i e).length = bs.length := by
  simp [wr]

theorem rd_wr {E : Type} [Inhabited E] (bs : List E) (i j : Nat) (e : E)
    (h : i < bs.length) : rd (wr bs i e) j = if j = i then e else rd bs j := by
  by_cases hj : j = i
  · subst hj; simp [rd_wr_same _ _ _ h]
  · simp [hj, rd_wr_ne _ _ _ _ (Ne.symm hj)]

theorem rd_replicate {E : Type} [Inhabited E] (n i : Nat) :
    rd (List.replicate n (default : E)) i = default := by
  unfold rd
  by_cases h : i < n
  · simp [List.getD, List.getElem?_replicate, h]
  · simp [List.getD, List.getElem?_replicate, h]

theorem next_index (n idx : Nat) (h : idx < n) :
    (idx + 1) % n = if idx + 1 = n then 0 else idx + 1 := by
  split
  · next h1 => rw [h1]; exact Nat.mod_self n
  · next h1 => exact Nat.mod_eq_of_lt (by omega)

theorem next_index_lt (n idx : Nat) (h : 0 < n) : (idx + 1) % n < n := Nat.mod_lt _ h

theorem hash_lt {K : Type} (P : Params K) (n : Nat) (k : K) (h : 0 < n) : hash P n k < n :=
  Nat.mod_lt _ h

end IHash

/-! ## Counting slots -/

theorem countP_wr_le {E : Type} (p : E → Bool) (bs : List E) (i : Nat) (e : E) :
    (wr bs i e).countP p ≤ bs.countP p + 1 := by
  unfold wr
  induction bs generalizing i with
  | nil => simp
  | cons a as ih =>
    cases i with
    | zero =>
      simp only [List.set_cons_zero, List.countP_cons]
      split <;> split <;> omega
    | succ i =>
      simp only [List.set_cons_succ, List.countP_cons]
      have := ih i
      omega

theorem countP_wr_eq {E : Type} [Inhabited E] (p : E → Bool) (bs : List E) (i : Nat) (e : E)
    (h : i < bs.length) :
    (wr bs i e).countP p + (if p (rd bs i) then 1 else 0)
      = bs.countP p + (if p e then 1 else 0) := by
  unfold wr rd
  induction bs generalizing i with
  | nil => simp at h
  | cons a as ih =>
    cases i with
    | zero =>
      simp only [List.set_cons_zero, List.countP_cons, List.getD_cons_zero]
      omega
    | succ i =>
      simp only [List.set_cons_succ, List.countP_cons, List.getD_cons_succ]
      have := ih i (by simpa using h)
      omega

theorem exists_not_of_countP_lt {E : Type} [Inhabited E] (p : E → Bool) (bs : List E)
    (h : bs.countP p < bs.length) : ∃ i, i < bs.length ∧ p (rd bs i) = false := by
  unfold rd
  induction bs with
  | nil => simp at h
  | cons a as ih =>
    by_cases ha : p a = true
    · simp only [List.countP_cons, ha, if_true, List.length_cons] at h
      obtain ⟨i, hi, hp⟩ := ih (by omega)
      exact ⟨i + 1, by simp; omega, by simpa using hp⟩
    · exact ⟨0, by simp, by simpa using ha⟩

theorem countP_le_length' {E : Type} (p : E → Bool) (bs : List E) :
    bs.countP p ≤ bs.length := List.countP_le_length p

/-! ## Cyclic distance and the linear probe -/

theorem cdist_self (n a : Nat) : cdist n a a = 0 := by simp [cdist]

theorem cdist_lt (n a b : Nat) (ha : a < n) (hb : b < n) : cdist n a b < n := by
  simp only [cdist]; split_ifs <;> omega

theorem cdist_eq_zero (n a b : Nat) (ha : a < n) (hb : b < n) : cdist n a b = 0 ↔ a = b := by
  simp only [cdist]; split_ifs <;> omega

theorem cdist_next (n a b : Nat) (ha : a < n) (hb : b < n) (h : (b + 1) % n ≠ a) :
    cdist n a ((b + 1) % n) = cdist n a b + 1 := by
  rw [next_index n b hb] at h ⊢
  simp only [cdist]; split_ifs at h ⊢ <;> omega

theorem cdist_from_next (n a p : Nat) (ha : a < n) (hp : p < n) (h : p ≠ a) :
    cdist n a p = cdist n ((a + 1) % n) p + 1 := by
  rw [next_index n a ha]
  simp only [cdist]; split_ifs <;> omega

theorem cdist_lt_from_next (n a p x : Nat) (ha : a < n) (hp : p < n) (hx : x < n)
    (hpa : p ≠ a) (h : cdist n a x < cdist n a p) :
    x = a ∨ cdist n ((a + 1) % n) x < cdist n ((a + 1) % n) p := by
  rw [next_index n a ha]
  simp only [cdist] at h ⊢; split_ifs at h ⊢ <;> omega

theorem probeSearch_spec (skip : Nat → Bool) (n : Nat) (hn : 0 < n) :
    ∀ (f idx p : Nat), idx < n → probeSearch skip n f idx = some p →
      p < n ∧ skip p = false ∧ cdist n idx p < f ∧
        ∀ x, x < n → cdist n idx x < cdist n idx p → skip x = true := by
  intro f
  induction f with
  | zero => intro idx p _ h; simp [probeSearch] at h
  | succ f ih =>
    intro idx p hidx h
    unfold probeSearch at h
    by_cases hs : skip idx = true
    · rw [if_pos hs] at h
      obtain ⟨hp, hsp, hd, hall⟩ := ih _ p (next_index_lt n idx hn) h
      have hne : p ≠ idx := by
        intro he; rw [he] at hsp; rw [hsp] at hs; exact Bool.noConfusion hs
      have hc := cdist_from_next n idx p hidx hp hne
      refine ⟨hp, hsp, by omega, ?_⟩
      intro x hx hlt
      rcases cdist_lt_from_next n idx p x hidx hp hx hne hlt with h1 | h1
      · rw [h1]; exact hs
      · exact hall x hx h1
    · rw [if_neg hs] at h
      have hp : idx = p := by simpa using h
      subst hp
      refine ⟨hidx, by simpa using hs, by rw [cdist_self]; omega, ?_⟩
      intro x _ hlt
      rw [cdist_self] at hlt; omega

theorem probeSearch_found (skip : Nat → Bool) (n : Nat) :
    ∀ (f idx p : Nat), idx < n → p < n → skip p = false →
      (∀ x, x < n → cdist n idx x < cdist n idx p → skip x = true) →
      cdist n idx p < f → probeSearch skip n f idx = some p := by
  intro f
  induction f with
  | zero => intro idx p _ _ _ _ h; omega
  | succ f ih =>
    intro idx p hidx hp hsp hall hd
    have hn : 0 < n := by omega
    unfold probeSearch
    by_cases he : p = idx
    · subst he; simp [hsp]
    · have hs : skip idx = true := by
        apply hall idx hidx
        rw [cdist_self]
        have := (cdist_eq_zero n idx p hidx hp).not.mpr (fun h => he h.symm)
        omega
      rw [if_pos hs]
      have hc := cdist_from_next n idx p hidx hp he
      apply ih _ p (next_index_lt n idx hn) hp hsp
      · intro x hx hlt
        apply hall x hx
        by_cases hxi : x = idx
        · subst hxi; rw [cdist_self]; omega
        · have := cdist_from_next n idx x hidx hx hxi
          omega
      · omega

theorem probeSearch_mono (skip : Nat → Bool) (n : Nat) :
    ∀ (f f' idx p : Nat), f ≤ f' → probeSearch skip n f idx = some p →
      probeSearch skip n f' idx = some p := by
  intro f
  induction f with
  | zero => intro f' idx p _ h; simp [probeSearch] at h
  | succ f ih =>
    intro f' idx p hle h
    obtain ⟨g, rfl⟩ : ∃ g, f' = g + 1 := ⟨f' - 1, by omega⟩
    unfold probeSearch at h ⊢
    by_cases hs : skip idx = true
    · rw [if_pos hs] at h ⊢; exact ih g _ p (by omega) h
    · rw [if_neg hs] at h ⊢; exact h

theorem probeSearch_none (skip : Nat → Bool) (n : Nat) (hn : 0 < n) :
    ∀ (f idx : Nat), idx < n → probeSearch skip n f idx = none →
      ∀ x, x < n → cdist n idx x < f → skip x = true := by
  intro f
  induction f with
  | zero => intro idx _ _ x _ h; omega
  | succ f ih =>
    intro idx hidx h x hx hd
    unfold probeSearch at h
    by_cases hs : skip idx = true
    · rw [if_pos hs] at h
      by_cases hxi : x = idx
      · subst hxi; exact hs
      · have := cdist_from_next n idx x hidx hx hxi
        exact ih _ (next_index_lt n idx hn) h x hx (by omega)
    · rw [if_neg hs] at h; simp at h

/-- When some slot stops the probe, `n` steps are enough. -/
theorem probeSearch_exists (skip : Nat → Bool) (n idx : Nat) (hidx : idx < n)
    (h : ∃ p, p < n ∧ skip p = false) : ∃ p, probeSearch skip n n idx = some p := by
  obtain ⟨p, hp, hsp⟩ := h
  cases hres : probeSearch skip n n idx with
  | some q => exact ⟨q, rfl⟩
  | none =>
    have := probeSearch_none skip n (by omega) n idx hidx hres p hp (cdist_lt n idx p hidx hp)
    rw [hsp] at this; exact Bool.noConfusion this

/-- When every slot is skipped the probe never stops. -/
theorem probeSearch_diverges (skip : Nat → Bool) (n : Nat) (hn : 0 < n)
    (h : ∀ x, x < n → skip x = true) :
    ∀ (f idx : Nat), idx < n → probeSearch skip n f idx = none := by
  intro f
  induction f with
  | zero => intro idx _; rfl
  | succ f ih =>
    intro idx hidx
    unfold probeSearch
    rw [if_pos (h idx hidx)]
    exact ih _ (next_index_lt n idx hn)

/-! ## Key/value lists -/

section kvlists

variable {K V : Type}

theorem mem_keys_iff (es : List (K × V)) (k : K) :
    k ∈ es.map Prod.fst ↔ ∃ v, (k, v) ∈ es := by
  simp

theorem length_eq_of_mem_iff (a b : List (K × V)) (ha : (a.map Prod.fst).Nodup)
    (hb : (b.map Prod.fst).Nodup) (h : ∀ k v, (k, v) ∈ a ↔ (k, v) ∈ b) :
    a.length = b.length := by
  classical
  have h1 : (a.map Prod.fst).toFinset = (b.map Prod.fst).toFinset := by
    ext k
    simp only [List.mem_toFinset, mem_keys_iff]
    constructor
    · rintro ⟨v, hv⟩; exact ⟨v, (h k v).1 hv⟩
    · rintro ⟨v, hv⟩; exact ⟨v, (h k v).2 hv⟩
  have h2 := List.toFinset_card_of_nodup ha
  have h3 := List.toFinset_card_of_nodup hb
  rw [h1] at h2
  simp only [List.length_map] at h2 h3
  omega

theorem Upd.keys {es1 es : List (K × V)} {k : K} {v : V} (h : Upd es1 es k v) (k1 : K) :
    k1 ∈ es1.map Prod.fst ↔ k1 = k ∨ k1 ∈ es.map Prod.fst := by
  simp only [mem_keys_iff]
  constructor
  · rintro ⟨v1, hv1⟩
    rcases (h k1 v1).1 hv1 with ⟨h1, _⟩ | ⟨_, h2⟩
    · exact Or.inl h1
    · exact Or.inr ⟨v1, h2⟩
  · rintro (h1 | ⟨v1, hv1⟩)
    · exact ⟨v, (h k1 v).2 (Or.inl ⟨h1, rfl⟩)⟩
    · by_cases hk : k1 = k
      · exact ⟨v, (h k1 v).2 (Or.inl ⟨hk, rfl⟩)⟩
      · exact ⟨v1, (h k1 v1).2 (Or.inr ⟨hk, hv1⟩)⟩

theorem Upd.length_new {es1 es : List (K × V)} {k : K} {v : V} (h : Upd es1 es k v)
    (h1 : (es1.map Prod.fst).Nodup) (h0 : (es.map Prod.fst).Nodup)
    (hk : k ∉ es.map Prod.fst) : es1.length = es.length + 1 := by
  have hnd : (((k, v) :: es).map Prod.fst).Nodup := by
    simp only [List.map_cons, List.nodup_cons]
    exact ⟨hk, h0⟩
  have := length_eq_of_mem_iff es1 ((k, v) :: es) h1 hnd (by
    intro k1 v1
    rw [h k1 v1]
    simp only [List.mem_cons, Prod.mk.injEq]
    constructor
    · rintro (⟨a, b⟩ | ⟨_, b⟩)
      · exact Or.inl ⟨a, b⟩
      · exact Or.inr b
    · rintro (⟨a, b⟩ | b)
      · exact Or.inl ⟨a, b⟩
      · by_cases hkk : k1 = k
        · subst hkk
          exact absurd ((mem_keys_iff es k1).2 ⟨v1, b⟩) hk
        · exact Or.inr ⟨hkk, b⟩)
  simpa using this

theorem Upd.length_le {es1 es : List (K × V)} {k : K} {v : V} (h : Upd es1 es k v)
    (h1 : (es1.map Prod.fst).Nodup) (h0 : (es.map Prod.fst).Nodup) :
    es1.length ≤ es.length + 1 ∧ es.length ≤ es1.length := by
  classical
  have hs : (es1.map Prod.fst).toFinset = insert k (es.map Prod.fst).toFinset := by
    ext k1
    simp only [List.mem_toFinset, Finset.mem_insert]
    exact h.keys k1
  have h2 := List.toFinset_card_of_nodup h1
  have h3 := List.toFinset_card_of_nodup h0
  rw [hs] at h2
  simp only [List.length_map] at h2 h3
  have h4 := Finset.card_insert_le k (es.map Prod.fst).toFinset
  have h5 : (es.map Prod.fst).toFinset.card ≤ (insert k (es.map Prod.fst).toFinset).card :=
    Finset.card_le_card (Finset.subset_insert _ _)
  omega

end kvlists

/-! ## The common text of `put` and `resize` -/

theorem lt_of_not_overThreshold {K : Type} (P : Params K) (hq : P.Capped)
    (n : Int) (N : Nat) (hN : 1 ≤ N) (h : overThreshold P n N = false) : n < N := by
  by_contra hc
  have h1 := hq n N hN (by omega)
  simp only [overThreshold] at h
  rw [h1] at h
  exact Bool.noConfusion h

theorem Params.Fits.mono {K : Type} {P : Params K} {L L1 : Int} {B B1 : Nat}
    (h : P.Fits L B) (hl : L1 ≤ L) (hb : B ≤ B1) : P.Fits L1 B1 :=
  fun e b he hb1 => h e b (le_trans he hl) (le_trans hb hb1)

theorem ratTest_capped {K : Type} (hasher : K → Nat) (p q : Nat) (h : p ≤ q) :
    (Params.mk hasher (ratTest p q)).Capped := by
  intro e b _ hbe
  simp only [ratTest, decide_eq_true_eq]
  have h2 : (p : Int) * b ≤ q * b :=
    mul_le_mul_of_nonneg_right (by exact_mod_cast h) (by positivity)
  have h3 : (q : Int) * b ≤ q * e := mul_le_mul_of_nonneg_left hbe (by positivity)
  have h4 : (q : Int) * e = e * q := mul_comm _ _
  omega

theorem ratTest_half {K : Type} (hasher : K → Nat) (p q : Nat) (h : q < 2 * p)
    (e : Int) (b : Nat) (hb : 1 ≤ b) (he : 2 * e ≤ b) :
    overThreshold (Params.mk hasher (ratTest p q)) e b = false := by
  simp only [overThreshold, ratTest, decide_eq_false_iff_not, not_le]
  have h1 : (2 * e) * q ≤ (b : Int) * q := mul_le_mul_of_nonneg_right he (by positivity)
  have h2 : (b : Int) * q < b * (2 * p) :=
    mul_lt_mul_of_pos_left (by exact_mod_cast h) (by exact_mod_cast hb)
  have h3 : (b : Int) * (2 * p) = 2 * (p * b) := by ring
  have h4 : (2 * e) * q = 2 * (e * q) := by ring
  omega

theorem ratTest_fits {K : Type} (hasher : K → Nat) (p q L B : Nat) (h : L * q < p * B) :
    (Params.mk hasher (ratTest p q)).Fits L B := by
  intro e b he hb
  simp only [ratTest, decide_eq_false_iff_not, not_le]
  have h1 : e * q ≤ (L : Int) * q := mul_le_mul_of_nonneg_right he (by positivity)
  have h2 : ((L * q : Nat) : Int) < ((p * B : Nat) : Int) := by exact_mod_cast h
  push_cast at h2
  have h3 : (p : Int) * B ≤ p * b :=
    mul_le_mul_of_nonneg_left (by exact_mod_cast hb) (by positivity)
  omega

namespace Sys

variable {S K V : Type}

theorem replayL_mono (putf putg : S → K → V → Option S)
    (h : ∀ T k v T1, putf T k v = some T1 → putg T k v = some T1) :
    ∀ (es : List (K × V)) (T T1 : S), replayL putf es T = some T1 →
      replayL putg es T = some T1 := by
  intro es
  induction es with
  | nil => intro T T1 h1; exact h1
  | cons e es ih =>
    intro T T1 h1
    obtain ⟨k, v⟩ := e
    simp only [replayL] at h1 ⊢
    cases hp : putf T k v with
    | none => rw [hp] at h1; simp at h1
    | some T2 =>
      rw [hp] at h1
      rw [h T k v T2 hp]
      exact ih T2 T1 h1

theorem put_mono (Y : Sys S K V) (Inv : S → Prop) (ok : Y.Ok Inv) (P : Params K) :
    ∀ (f g : Nat) (T : S) (k : K) (v : V) (T1 : S), f ≤ g →
      Y.put P f T k v = some T1 → Y.put P g T k v = some T1 := by
  intro f
  induction f with
  | zero => intro g T k v T1 _ h; simp [put] at h
  | succ f ih =>
    intro g T k v T1 hle h
    obtain ⟨g, rfl⟩ : ∃ g1, g = g1 + 1 := ⟨g - 1, by omega⟩
    simp only [put] at h ⊢
    by_cases hov : overThreshold P (Y.nE T) (Y.nB T) = true
    · rw [if_pos hov] at h ⊢
      by_cases hofl : 2 ^ 31 ≤ Y.nB T * 2
      · rw [if_pos hofl] at h; simp at h
      rw [if_neg hofl] at h ⊢
      cases hr : replayL (Y.put P f) (Y.ents T) (Y.mk0 (Y.nB T * 2)) with
      | none => rw [hr] at h; simp at h
      | some T2 =>
        rw [hr] at h
        rw [replayL_mono (Y.put P f) (Y.put P g)
          (fun T k v T1 h1 => ih g T k v T1 (by omega) h1) _ _ _ hr]
        exact ok.putEntry_mono _ _ _ _ _ _ (by omega) h
    · rw [if_neg hov] at h ⊢
      exact ok.putEntry_mono _ _ _ _ _ _ (by omega) h

theorem resize_mono (Y : Sys S K V) (Inv : S → Prop) (ok : Y.Ok Inv) (P : Params K)
    (f g n : Nat) (T T1 : S) (hle : f ≤ g) (h : Y.resize P f n T = some T1) :
    Y.resize P g n T = some T1 :=
  replayL_mono _ _ (fun T k v T1 h1 => put_mono Y Inv ok P f g T k v T1 hle h1) _ _ _ h

/-- What a replay that finished guarantees, from what its `put` guarantees. -/
theorem replayL_pc (Y : Sys S K V) (Inv : S → Prop) (ok : Y.Ok Inv)
    (putf : S → K → V → Option S) (hput : Y.PutSpec Inv putf) :
    ∀ (es : List (K × V)) (T T1 : S), Inv T → replayL putf es T = some T1 →
      (es.map Prod.fst).Nodup → (∀ k, k ∈ es.map Prod.fst → k ∉ (Y.ents T).map Prod.fst) →
      Inv T1 ∧ (∀ k v, (k, v) ∈ Y.ents T1 ↔ (k, v) ∈ Y.ents T ∨ (k, v) ∈ es) ∧
        Y.nE T1 ≤ Y.nE T + es.length ∧ ∃ j, Y.nB T1 = Y.nB T * 2 ^ j := by
  intro es
  induction es with
  | nil =>
    intro T T1 hinv h _ _
    simp only [replayL, Option.some.injEq] at h
    subst h
    exact ⟨hinv, by simp, by simp, 0, by simp⟩
  | cons e es ih =>
    intro T T1 hinv h hnd hdis
    obtain ⟨k, v⟩ := e
    simp only [replayL] at h
    cases hp : putf T k v with
    | none => rw [hp] at h; simp at h
    | some T2 =>
      rw [hp] at h
      obtain ⟨hinv2, hupd, hnE, j2, hj2⟩ := hput T k v T2 hinv hp
      simp only [List.map_cons, List.nodup_cons] at hnd
      have hdis2 : ∀ k1, k1 ∈ es.map Prod.fst → k1 ∉ (Y.ents T2).map Prod.fst := by
        intro k1 hk1 hmem
        rcases (hupd.keys k1).1 hmem with h1 | h1
        · subst h1; exact hnd.1 hk1
        · exact hdis k1 (by simp only [List.map_cons, List.mem_cons]; exact Or.inr hk1) h1
      obtain ⟨hinv1, hmem, hnE1, j1, hj1⟩ := ih T2 T1 hinv2 h hnd.2 hdis2
      refine ⟨hinv1, ?_, ?_, j2 + j1, ?_⟩
      · intro k1 v1
        rw [hmem k1 v1, hupd k1 v1]
        simp only [List.mem_cons, Prod.mk.injEq]
        constructor
        · rintro ((⟨a, b⟩ | ⟨_, b⟩) | c)
          · exact Or.inr (Or.inl ⟨a, b⟩)
          · exact Or.inl b
          · exact Or.inr (Or.inr c)
        · rintro (b | ⟨a, b⟩ | c)
          · by_cases hk : k1 = k
            · subst hk
              exact absurd ((mem_keys_iff _ k1).2 ⟨v1, b⟩) (hdis k1 (by simp))
            · exact Or.inl (Or.inr ⟨hk, b⟩)
          · exact Or.inl (Or.inl ⟨a, b⟩)
          · exact Or.inr c
      · simp only [List.length_cons]; push_cast; omega
      · rw [hj1, hj2, pow_add, Nat.mul_assoc]

/-- A run of the common `put` that finished kept the invariant, bound the key, and at most
doubled the capacity a number of times. -/
theorem put_pc (Y : Sys S K V) (Inv : S → Prop) (ok : Y.Ok Inv) (P : Params K)
    (hq : P.Capped) : ∀ f, Y.PutSpec Inv (Y.put P f) := by
  intro f
  induction f with
  | zero => intro T k v T1 _ h; simp [put] at h
  | succ f ih =>
    intro T k v T1 hinv h
    have hpe : ∀ T0, Inv T0 → Y.putEntry (f + 1) T0 k v = some T1 → Y.nE T0 < Y.nB T0 →
        Inv T1 ∧ Upd (Y.ents T1) (Y.ents T0) k v ∧ Y.nE T1 = Y.nE T0 + 1 ∧
          Y.nB T1 = Y.nB T0 := by
      intro T0 hinv0 h0 hlt
      obtain ⟨T2, h2, hi, hn, hb, hu⟩ := ok.putEntry_ok T0 k v hinv0 hlt
      have e1 := ok.putEntry_mono _ (max (f + 1) (Y.nB T0)) _ _ _ _ (le_max_left _ _) h0
      have e2 := ok.putEntry_mono _ (max (f + 1) (Y.nB T0)) _ _ _ _ (le_max_right _ _) h2
      rw [e1] at e2
      simp only [Option.some.injEq] at e2
      subst e2
      exact ⟨hi, hu, hn, hb⟩
    simp only [put] at h
    by_cases hov : overThreshold P (Y.nE T) (Y.nB T) = true
    · rw [if_pos hov] at h
      by_cases hofl : 2 ^ 31 ≤ Y.nB T * 2
      · rw [if_pos hofl] at h; simp at h
      rw [if_neg hofl] at h
      cases hr : replayL (Y.put P f) (Y.ents T) (Y.mk0 (Y.nB T * 2)) with
      | none => rw [hr] at h; simp at h
      | some T2 =>
        rw [hr] at h
        have hN := ok.nB_pos T hinv
        obtain ⟨hinv2, hmem, hnE2, j, hj⟩ := replayL_pc Y Inv ok _ ih (Y.ents T)
          (Y.mk0 (Y.nB T * 2)) T2 (ok.mk0_inv _ (by omega)) hr (ok.nodup T hinv)
          (by intro k1 _; rw [ok.mk0_ents]; simp)
        rw [ok.mk0_nE] at hnE2
        rw [ok.mk0_nB] at hj
        have hlen := ok.len_le_nB T hinv
        have hlenE := ok.len_le_nE T hinv
        have hpow : 1 ≤ 2 ^ j := Nat.one_le_two_pow
        have hb2 : Y.nB T * 2 ≤ Y.nB T2 := by
          rw [hj]; exact Nat.le_mul_of_pos_right _ (by omega)
        obtain ⟨hi, hu, hn, hb⟩ := hpe T2 hinv2 h (by omega)
        refine ⟨hi, ?_, by omega, j + 1, ?_⟩
        · intro k1 v1
          rw [hu k1 v1, hmem k1 v1, ok.mk0_ents]
          simp
        · rw [hb, hj, pow_succ]; ring
    · rw [if_neg hov] at h
      have hlt := lt_of_not_overThreshold P hq _ _ (ok.nB_pos T hinv) (by simpa using hov)
      obtain ⟨hi, hu, hn, hb⟩ := hpe T hinv h hlt
      exact ⟨hi, hu, by omega, 0, by simp [hb]⟩

/-- A replay into an empty table that finished: same contents, exact count. -/
theorem replay_mk0_pc (Y : Sys S K V) (Inv : S → Prop) (ok : Y.Ok Inv) (P : Params K)
    (hq : P.Capped) (f m : Nat) (hm : 1 ≤ m) (es : List (K × V))
    (hnd : (es.map Prod.fst).Nodup) (T1 : S)
    (h : replayL (Y.put P f) es (Y.mk0 m) = some T1) :
    Inv T1 ∧ (∀ k v, (k, v) ∈ Y.ents T1 ↔ (k, v) ∈ es) ∧
      Y.nE T1 = (Y.ents T1).length ∧ (Y.ents T1).length = es.length ∧
        ∃ j, Y.nB T1 = m * 2 ^ j := by
  obtain ⟨hinv, hmem, hnE, j, hj⟩ := replayL_pc Y Inv ok _ (put_pc Y Inv ok P hq f) es
    (Y.mk0 m) T1 (ok.mk0_inv m hm) h hnd (by intro k1 _; rw [ok.mk0_ents]; simp)
  rw [ok.mk0_nE] at hnE
  rw [ok.mk0_nB] at hj
  have hmem1 : ∀ k v, (k, v) ∈ Y.ents T1 ↔ (k, v) ∈ es := by
    intro k v; rw [hmem k v, ok.mk0_ents]; simp
  have hlen := length_eq_of_mem_iff _ _ (ok.nodup T1 hinv) hnd hmem1
  have hle := ok.len_le_nE T1 hinv
  exact ⟨hinv, hmem1, by omega, hlen, j, hj⟩

theorem resize_pc (Y : Sys S K V) (Inv : S → Prop) (ok : Y.Ok Inv) (P : Params K)
    (hq : P.Capped) (f m : Nat) (hm : 1 ≤ m) (T T1 : S) (hinv : Inv T)
    (h : Y.resize P f m T = some T1) :
    Inv T1 ∧ (∀ k v, (k, v) ∈ Y.ents T1 ↔ (k, v) ∈ Y.ents T) ∧
      Y.nE T1 = (Y.ents T1).length ∧ (Y.ents T1).length = (Y.ents T).length ∧
        ∃ j, Y.nB T1 = m * 2 ^ j :=
  replay_mk0_pc Y Inv ok P hq f m hm (Y.ents T) (ok.nodup T hinv) T1 h

/-- One `put` finishes on a table, given that the doubled capacity fits into an `int` and
that replays into larger tables finish (`hrec`). -/
theorem put_total_step (Y : Sys S K V) (Inv : S → Prop) (ok : Y.Ok Inv) (P : Params K)
    (hq : P.Capped) (T : S) (k : K) (v : V) (hinv : Inv T)
    (hrec : overThreshold P (Y.nE T) (Y.nB T) = true → Y.nB T * 2 < 2 ^ 31 ∧
      ∃ f T1, replayL (Y.put P f) (Y.ents T) (Y.mk0 (Y.nB T * 2)) = some T1) :
    ∃ f T1, Y.put P f T k v = some T1 := by
  have hN := ok.nB_pos T hinv
  by_cases hov : overThreshold P (Y.nE T) (Y.nB T) = true
  · obtain ⟨hofl, f, T2, hr⟩ := hrec hov
    obtain ⟨hinv2, _, hnE2, hlen2, j, hj⟩ := replay_mk0_pc Y Inv ok P hq f _ (by omega)
      (Y.ents T) (ok.nodup T hinv) T2 hr
    have hlen := ok.len_le_nB T hinv
    have hpow : 1 ≤ 2 ^ j := Nat.one_le_two_pow
    have hb2 : Y.nB T * 2 ≤ Y.nB T2 := by
      rw [hj]; exact Nat.le_mul_of_pos_right _ (by omega)
    obtain ⟨T1, h1, _⟩ := ok.putEntry_ok T2 k v hinv2 (by omega)
    refine ⟨max f (Y.nB T2) + 1, T1, ?_⟩
    simp only [put]
    rw [if_pos hov, if_neg (by omega), replayL_mono _ _ (fun T k v T1 h1 =>
      put_mono Y Inv ok P f (max f (Y.nB T2)) T k v T1 (le_max_left _ _) h1) _ _ _ hr]
    exact ok.putEntry_mono _ _ _ _ _ _ (by have := le_max_right f (Y.nB T2); omega) h1
  · have hlt := lt_of_not_overThreshold P hq _ _ hN (by simpa using hov)
    obtain ⟨T1, h1, _⟩ := ok.putEntry_ok T k v hinv hlt
    refine ⟨Y.nB T, T1, ?_⟩
    obtain ⟨g, hg⟩ : ∃ g, Y.nB T = g + 1 := ⟨Y.nB T - 1, by omega⟩
    rw [hg]
    simp only [put]
    rw [if_neg hov, ← hg]
    exact h1

theorem nB_lt_of_over {K : Type} (P : Params K) (n : Int) (N : Nat) (L : Int) (B : Nat)
    (hov : overThreshold P n N = true) (hn : n ≤ L) (hB : P.Fits L B) : N < B := by
  by_contra hc
  have h1 := hB n N hn (by omega)
  simp only [overThreshold] at hov
  rw [h1] at hov
  exact Bool.noConfusion hov

/-- A `put` that is over the threshold at a capacity of `2^30` or more does not return:
the doubled capacity does not fit into an `int`. -/
theorem put_overflow (Y : Sys S K V) (P : Params K) (T : S) (k : K) (v : V)
    (hov : overThreshold P (Y.nE T) (Y.nB T) = true) (hB : 2 ^ 30 ≤ Y.nB T) :
    ∀ f, Y.put P f T k v = none := by
  intro f
  cases f with
  | zero => rfl
  | succ f =>
    simp only [put]
    rw [if_pos hov, if_pos (by omega)]

theorem replay_total_list (Y : Sys S K V) (Inv : S → Prop) (ok : Y.Ok Inv) (P : Params K)
    (hq : P.Capped) (B d : Nat) (hB30 : B ≤ 2 ^ 30)
    (hrec : ∀ T0, Inv T0 → B - Y.nB T0 ≤ d → overThreshold P (Y.nE T0) (Y.nB T0) = true →
      Y.nE T0 = (Y.ents T0).length → P.Fits (Y.ents T0).length B →
      ∃ f T1, replayL (Y.put P f) (Y.ents T0) (Y.mk0 (Y.nB T0 * 2)) = some T1) :
    ∀ (es : List (K × V)) (T0 : S), Inv T0 → Y.nE T0 = (Y.ents T0).length →
      (es.map Prod.fst).Nodup → (∀ k, k ∈ es.map Prod.fst → k ∉ (Y.ents T0).map Prod.fst) →
      P.Fits (((Y.ents T0).length + es.length : Nat) : Int) B → B - Y.nB T0 ≤ d →
      ∃ f T1, replayL (Y.put P f) es T0 = some T1 := by
  intro es
  induction es with
  | nil => intro T0 _ _ _ _ _ _; exact ⟨0, T0, rfl⟩
  | cons e es ih =>
    intro T0 hinv hex hnd hdis hB hd
    obtain ⟨k, v⟩ := e
    simp only [List.map_cons, List.nodup_cons] at hnd
    simp only [List.length_cons] at hB
    have hB0 : P.Fits (Y.ents T0).length B := hB.mono (by push_cast; omega) (le_refl _)
    obtain ⟨f1, T2, hp⟩ := put_total_step Y Inv ok P hq T0 k v hinv
      (fun hov => ⟨by
        have := nB_lt_of_over P _ _ _ B hov (le_of_eq hex) hB0
        omega, hrec T0 hinv hd hov hex hB0⟩)
    obtain ⟨hinv2, hupd, hnE2, j, hj⟩ := put_pc Y Inv ok P hq f1 T0 k v T2 hinv hp
    have hknew : k ∉ (Y.ents T0).map Prod.fst := hdis k (by simp)
    have hlen2 := hupd.length_new (ok.nodup T2 hinv2) (ok.nodup T0 hinv) hknew
    have hle2 := ok.len_le_nE T2 hinv2
    have hdis2 : ∀ k1, k1 ∈ es.map Prod.fst → k1 ∉ (Y.ents T2).map Prod.fst := by
      intro k1 hk1 hmem
      rcases (hupd.keys k1).1 hmem with h1 | h1
      · subst h1; exact hnd.1 hk1
      · exact hdis k1 (by simp only [List.map_cons, List.mem_cons]; exact Or.inr hk1) h1
    have hpow : 1 ≤ 2 ^ j := Nat.one_le_two_pow
    have hb2 : Y.nB T0 ≤ Y.nB T2 := by
      rw [hj]; exact Nat.le_mul_of_pos_right _ (by omega)
    obtain ⟨f2, T1, hr⟩ := ih T2 hinv2 (by omega) hnd.2 hdis2
      (by rw [hlen2]; have : (Y.ents T0).length + 1 + es.length
            = (Y.ents T0).length + (es.length + 1) := by omega
          rw [this]; exact hB) (by omega)
    refine ⟨max f1 f2, T1, ?_⟩
    simp only [replayL]
    rw [put_mono Y Inv ok P f1 (max f1 f2) T0 k v T2 (le_max_left _ _) hp]
    exact replayL_mono _ _ (fun T k v T1 h1 =>
      put_mono Y Inv ok P f2 (max f1 f2) T k v T1 (le_max_right _ _) h1) _ _ _ hr

/-- Every replay finishes when the entries fit at some capacity `B <= 2^30`: a nested
`resize` doubles the capacity, and once the capacity is `B` or more no `put` of the replay
is over the threshold, so no capacity of `2^30` or more is ever doubled. -/
theorem replay_total (Y : Sys S K V) (Inv : S → Prop) (ok : Y.Ok Inv) (P : Params K)
    (hq : P.Capped) (B : Nat) (hB30 : B ≤ 2 ^ 30) :
    ∀ (d : Nat) (es : List (K × V)) (T0 : S), Inv T0 → Y.nE T0 = (Y.ents T0).length →
      (es.map Prod.fst).Nodup → (∀ k, k ∈ es.map Prod.fst → k ∉ (Y.ents T0).map Prod.fst) →
      P.Fits (((Y.ents T0).length + es.length : Nat) : Int) B → B - Y.nB T0 ≤ d →
      ∃ f T1, replayL (Y.put P f) es T0 = some T1 := by
  intro d
  induction d with
  | zero =>
    apply replay_total_list Y Inv ok P hq B 0 hB30
    intro T0 _ hd hov hex hB
    have := nB_lt_of_over P _ _ _ B hov (le_of_eq hex) hB
    omega
  | succ d ih =>
    apply replay_total_list Y Inv ok P hq B (d + 1) hB30
    intro T0 hinv hd hov hex hB
    have hlt := nB_lt_of_over P _ _ _ B hov (le_of_eq hex) hB
    have hN := ok.nB_pos T0 hinv
    apply ih (Y.ents T0) (Y.mk0 (Y.nB T0 * 2)) (ok.mk0_inv _ (by omega))
    · rw [ok.mk0_nE, ok.mk0_ents]; simp
    · exact ok.nodup T0 hinv
    · intro k _; rw [ok.mk0_ents]; simp
    · rw [ok.mk0_ents]; simpa using hB
    · rw [ok.mk0_nB]; omega

theorem resize_total (Y : Sys S K V) (Inv : S → Prop) (ok : Y.Ok Inv) (P : Params K)
    (hq : P.Capped) (m : Nat) (hm : 1 ≤ m) (T : S) (hinv : Inv T)
    (hfit : P.Fits (Y.ents T).length (2 ^ 30)) : ∃ f T1, Y.resize P f m T = some T1 := by
  apply replay_total Y Inv ok P hq (2 ^ 30) (le_refl _) (2 ^ 30) (Y.ents T) (Y.mk0 m)
    (ok.mk0_inv m hm)
  · rw [ok.mk0_nE, ok.mk0_ents]; simp
  · exact ok.nodup T hinv
  · intro k _; rw [ok.mk0_ents]; simp
  · rw [ok.mk0_ents]; simpa using hfit
  · omega

theorem put_total (Y : Sys S K V) (Inv : S → Prop) (ok : Y.Ok Inv) (P : Params K)
    (hq : P.Capped) (T : S) (k : K) (v : V) (hinv : Inv T)
    (hfit : P.Fits (Y.nE T) (2 ^ 30)) : ∃ f T1, Y.put P f T k v = some T1 :=
  put_total_step Y Inv ok P hq T k v hinv
    (fun hov => ⟨by
      have := nB_lt_of_over P _ _ _ _ hov (le_refl _) hfit
      omega,
      resize_total Y Inv ok P hq _ (by have := ok.nB_pos T hinv; omega) T hinv
        (hfit.mono (ok.len_le_nE T hinv) (le_refl _))⟩)

end Sys

/-! ## Occupied slots as a key/value list -/

theorem cdist_inj (n h a b : Nat) (hh : h < n) (ha : a < n) (hb : b < n)
    (e : cdist n h a = cdist n h b) : a = b := by
  simp only [cdist] at e; split_ifs at e <;> omega

theorem replay_eq_replayL {E S K V : Type} (live : E → Bool) (kv : E → K × V)
    (putf : S → K → V → Option S) :
    ∀ (old : List E) (T : S),
      replay live kv putf old T = replayL putf ((old.filter live).map kv) T := by
  intro old
  induction old with
  | nil => intro T; rfl
  | cons e old ih =>
    intro T
    unfold replay
    by_cases hl : live e = true
    · rw [if_pos hl, List.filter_cons_of_pos hl, List.map_cons]
      simp only [replayL]
      cases putf T (kv e).1 (kv e).2 with
      | none => rfl
      | some T1 => exact ih T1
    · rw [if_neg hl, List.filter_cons_of_neg hl]
      exact ih T

theorem mem_filter_map_iff {E A : Type} [Inhabited E] (o : E → Bool) (g : E → A)
    (l : List E) (a : A) :
    a ∈ (l.filter o).map g ↔ ∃ p, p < l.length ∧ o (rd l p) = true ∧ g (rd l p) = a := by
  simp only [List.mem_map, List.mem_filter]
  constructor
  · rintro ⟨e, ⟨he, ho⟩, hg⟩
    obtain ⟨p, hp, hpe⟩ := List.mem_iff_getElem.1 he
    refine ⟨p, hp, ?_, ?_⟩
    · simp [rd, List.getD, hp, hpe, ho]
    · simp [rd, List.getD, hp, hpe, hg]
  · rintro ⟨p, hp, ho, hg⟩
    refine ⟨rd l p, ⟨?_, ho⟩, hg⟩
    have : rd l p = l[p] := by simp [rd, List.getD, hp]
    rw [this]
    exact List.getElem_mem hp

theorem nodup_keys_filter {E K : Type} [Inhabited E] (o : E → Bool) (κ : E → K) :
    ∀ (l : List E), (∀ i j, i < l.length → j < l.length → o (rd l i) = true →
        o (rd l j) = true → κ (rd l i) = κ (rd l j) → i = j) →
      ((l.filter o).map κ).Nodup := by
  intro l
  induction l with
  | nil => intro _; simp
  | cons a l ih =>
    intro h
    have hl : ((l.filter o).map κ).Nodup := by
      apply ih
      intro i j hi hj hoi hoj hk
      have := h (i + 1) (j + 1) (by simp; omega) (by simp; omega)
        (by simpa [rd] using hoi) (by simpa [rd] using hoj) (by simpa [rd] using hk)
      omega
    by_cases ha : o a = true
    · rw [List.filter_cons_of_pos ha, List.map_cons, List.nodup_cons]
      refine ⟨?_, hl⟩
      intro hmem
      obtain ⟨p, hp, hop, hkp⟩ := (mem_filter_map_iff o κ l (κ a)).1 hmem
      have := h (p + 1) 0 (by simp; omega) (by simp)
        (by simpa [rd] using hop) (by simpa [rd] using ha) (by simpa [rd] using hkp)
      omega
    · rw [List.filter_cons_of_neg ha]; exact hl

/-! ## Total displacement -/

theorem dispFrom_wr {E : Type} [Inhabited E] (occ : E → Bool) (home : E → Nat) (n : Nat) :
    ∀ (bs : List E) (pos i : Nat) (e : E), i < bs.length →
      dispFrom occ home n pos (wr bs i e)
          + (if occ (rd bs i) then cdist n (home (rd bs i)) (pos + i) else 0)
        = dispFrom occ home n pos bs + (if occ e then cdist n (home e) (pos + i) else 0) := by
  intro bs
  induction bs with
  | nil => intro pos i e h; simp at h
  | cons a bs ih =>
    intro pos i e h
    cases i with
    | zero =>
      simp only [wr, List.set_cons_zero, dispFrom, rd, List.getD_cons_zero, Nat.add_zero]
      omega
    | succ i =>
      have := ih (pos + 1) i e (by simpa using h)
      simp only [wr, rd] at this
      simp only [wr, List.set_cons_succ, dispFrom, rd, List.getD_cons_succ]
      have e1 : pos + (i + 1) = pos + 1 + i := by omega
      rw [e1]
      omega

/-! ## When a replay keeps the capacity -/

namespace Sys

variable {S K V : Type}

/-- A `put` on a table that is not over the threshold keeps the capacity. -/
theorem put_same_cap (Y : Sys S K V) (Inv : S → Prop) (ok : Y.Ok Inv) (P : Params K)
    (hq : P.Capped) (f : Nat) (T : S) (k : K) (v : V) (T1 : S) (hinv : Inv T)
    (hov : overThreshold P (Y.nE T) (Y.nB T) = false) (h : Y.put P f T k v = some T1) :
    Y.nB T1 = Y.nB T ∧ Y.nE T1 = Y.nE T + 1 := by
  cases f with
  | zero => simp [put] at h
  | succ f =>
    simp only [put, hov, Bool.false_eq_true, if_false] at h
    have hlt := lt_of_not_overThreshold P hq _ _ (ok.nB_pos T hinv) hov
    obtain ⟨T2, h2, _, hn, hb, _⟩ := ok.putEntry_ok T k v hinv hlt
    have e1 := ok.putEntry_mono _ (max (f + 1) (Y.nB T)) _ _ _ _ (le_max_left _ _) h
    have e2 := ok.putEntry_mono _ (max (f + 1) (Y.nB T)) _ _ _ _ (le_max_right _ _) h2
    rw [e1] at e2
    simp only [Option.some.injEq] at e2
    subst e2
    exact ⟨hb, hn⟩

/-- A replay keeps the capacity when no count it passes through is over the threshold at
that capacity. -/
theorem replay_same_cap (Y : Sys S K V) (Inv : S → Prop) (ok : Y.Ok Inv) (P : Params K)
    (hq : P.Capped) (f : Nat) :
    ∀ (es : List (K × V)) (T0 T1 : S), Inv T0 → Y.nE T0 = (Y.ents T0).length →
      (es.map Prod.fst).Nodup → (∀ k, k ∈ es.map Prod.fst → k ∉ (Y.ents T0).map Prod.fst) →
      (∀ e : Nat, e < (Y.ents T0).length + es.length →
        overThreshold P e (Y.nB T0) = false) →
      replayL (Y.put P f) es T0 = some T1 → Y.nB T1 = Y.nB T0 := by
  intro es
  induction es with
  | nil =>
    intro T0 T1 _ _ _ _ _ h
    simp only [replayL, Option.some.injEq] at h
    rw [h]
  | cons e es ih =>
    intro T0 T1 hinv hex hnd hdis hB h
    obtain ⟨k, v⟩ := e
    simp only [replayL] at h
    simp only [List.map_cons, List.nodup_cons] at hnd
    simp only [List.length_cons] at hB
    cases hput : Y.put P f T0 k v with
    | none => rw [hput] at h; simp at h
    | some T2 =>
      rw [hput] at h
      have hov : overThreshold P (Y.nE T0) (Y.nB T0) = false := by
        rw [hex]
        exact hB _ (by omega)
      obtain ⟨hb, hn⟩ := put_same_cap Y Inv ok P hq f T0 k v T2 hinv hov hput
      obtain ⟨hinv2, hupd, _, _⟩ := put_pc Y Inv ok P hq f T0 k v T2 hinv hput
      have hknew : k ∉ (Y.ents T0).map Prod.fst := hdis k (by simp)
      have hlen2 := hupd.length_new (ok.nodup T2 hinv2) (ok.nodup T0 hinv) hknew
      have hdis2 : ∀ k1, k1 ∈ es.map Prod.fst → k1 ∉ (Y.ents T2).map Prod.fst := by
        intro k1 hk1 hmem
        rcases (hupd.keys k1).1 hmem with h1 | h1
        · subst h1; exact hnd.1 hk1
        · exact hdis k1 (by simp only [List.map_cons, List.mem_cons]; exact Or.inr hk1) h1
      have := ih T2 T1 hinv2 (by rw [hn, hex, hlen2]; push_cast; ring) hnd.2 hdis2
        (by rw [hlen2, hb]; intro e he; exact hB e (by omega)) h
      rw [this, hb]

end Sys

/-! ## LazyLPHash: lookup, put, get, remove -/

namespace LazyLPHash

variable {K V : Type} [DecidableEq K] [Inhabited K] [Inhabited V]

theorem lz_lookupLoop_eq (T : LazyLPHash K V) (key : K) :
    ∀ (f idx : Nat), lookupLoop T key f idx
      = probeSearch (skip T.buckets key) T.numBuckets f idx := by
  intro f
  induction f with
  | zero => intro idx; rfl
  | succ f ih =>
    intro idx
    unfold lookupLoop probeSearch
    rw [ih]
    rfl

theorem lz_put_eq_sys (P : Params K) :
    ∀ (f : Nat) (T : LazyLPHash K V) (k : K) (v : V),
      put P f T k v = (sys P).put P f T k v := by
  intro f
  induction f with
  | zero => intro T k v; rfl
  | succ f ih =>
    intro T k v
    unfold put Sys.put
    rw [replay_eq_replayL]
    have : (put P f : LazyLPHash K V → K → V → Option (LazyLPHash K V)) = (sys P).put P f := by
      funext T k v; exact ih T k v
    rw [this]
    simp only [sys, ents]
    split
    · generalize replayL _ _ (mk0 (T.numBuckets * 2) : LazyLPHash K V) = r
      cases r <;> rfl
    · rfl

theorem lz_resize_eq_sys (P : Params K) (f n : Nat) (T : LazyLPHash K V) :
    resize P f n T = (sys P).resize P f n T := by
  unfold resize Sys.resize
  rw [replay_eq_replayL]
  have : (put P f : LazyLPHash K V → K → V → Option (LazyLPHash K V)) = (sys P).put P f := by
    funext T k v; exact lz_put_eq_sys P f T k v
  rw [this]
  rfl

theorem lz_mem_ents_iff (T : LazyLPHash K V) (k : K) (v : V) :
    (k, v) ∈ ents T ↔ ∃ p, p < T.buckets.length ∧ liveEntry (rd T.buckets p) = true ∧
      (rd T.buckets p).key = k ∧ (rd T.buckets p).val = v := by
  unfold ents
  rw [mem_filter_map_iff]
  simp only [Prod.mk.injEq]

theorem lz_liveEntry_iff (e : HashEntry K V) :
    liveEntry e = true ↔ e.occupied = true ∧ e.deleted = false := by
  unfold liveEntry
  cases e.occupied <;> cases e.deleted <;> simp

theorem lz_skip_false_iff (bs : List (HashEntry K V)) (key : K) (i : Nat) :
    skip bs key i = false ↔
      ((rd bs i).deleted = false ∧ ((rd bs i).occupied = true → (rd bs i).key = key)) := by
  unfold skip
  cases (rd bs i).occupied <;> cases (rd bs i).deleted <;> simp

theorem lz_lookup_occupied (P : Params K) (T : LazyLPHash K V) (hinv : Inv P T) (p : Nat)
    (hp : p < T.numBuckets) (ho : (rd T.buckets p).occupied = true) (f : Nat)
    (hf : T.numBuckets ≤ f) : lookup P f T (rd T.buckets p).key = some p := by
  unfold lookup
  rw [lz_lookupLoop_eq]
  have hh := hash_lt P T.numBuckets (rd T.buckets p).key hinv.pos
  apply probeSearch_found _ _ f _ p hh hp
  · rw [lz_skip_false_iff]; exact ⟨hinv.excl p hp ho, fun _ => rfl⟩
  · intro x hx hlt
    exact hinv.path p hp ho x hx hlt
  · have := cdist_lt T.numBuckets _ p hh hp
    omega

theorem lz_lookup_mono (P : Params K) (T : LazyLPHash K V) (k : K) (f g idx : Nat) (h : f ≤ g)
    (h1 : lookup P f T k = some idx) : lookup P g T k = some idx := by
  unfold lookup at h1 ⊢
  rw [lz_lookupLoop_eq] at h1 ⊢
  exact probeSearch_mono _ _ f g _ idx h h1

theorem lz_lookup_spec (P : Params K) (T : LazyLPHash K V) (hpos : 1 ≤ T.numBuckets) (k : K)
    (f idx : Nat) (h1 : lookup P f T k = some idx) :
    idx < T.numBuckets ∧ (rd T.buckets idx).deleted = false ∧
      ((rd T.buckets idx).occupied = true → (rd T.buckets idx).key = k) ∧
      ∀ x, x < T.numBuckets →
        cdist T.numBuckets (hash P T.numBuckets k) x
          < cdist T.numBuckets (hash P T.numBuckets k) idx →
        skip T.buckets k x = true := by
  unfold lookup at h1
  rw [lz_lookupLoop_eq] at h1
  obtain ⟨a, b, _, d⟩ := probeSearch_spec _ _ hpos f _ idx
    (hash_lt P T.numBuckets k hpos) h1
  have := (lz_skip_false_iff _ _ _).1 b
  exact ⟨a, this.1, this.2, d⟩

theorem lz_lookup_unique (P : Params K) (T : LazyLPHash K V) (hinv : Inv P T) (p : Nat)
    (hp : p < T.numBuckets) (ho : (rd T.buckets p).occupied = true) (f idx : Nat)
    (h1 : lookup P f T (rd T.buckets p).key = some idx) : idx = p := by
  have e1 := lz_lookup_mono P T _ f (max f T.numBuckets) idx (le_max_left _ _) h1
  have e2 := lz_lookup_occupied P T hinv p hp ho (max f T.numBuckets) (le_max_right _ _)
  rw [e1] at e2
  exact Option.some.inj e2

/-- With a never-used slot in the array `lookup` finishes within `numBuckets` steps. -/
theorem lz_lookup_total (P : Params K) (T : LazyLPHash K V) (hpos : 1 ≤ T.numBuckets)
    (hlen : T.buckets.length = T.numBuckets)
    (hfree : T.buckets.countP usedEntry < T.numBuckets) (k : K) :
    ∃ idx, lookup P T.numBuckets T k = some idx := by
  unfold lookup
  rw [lz_lookupLoop_eq]
  apply probeSearch_exists _ _ _ (hash_lt P T.numBuckets k hpos)
  obtain ⟨i, hi, hfi⟩ := exists_not_of_countP_lt (usedEntry : HashEntry K V → Bool)
    T.buckets (by omega)
  refine ⟨i, by omega, ?_⟩
  rw [lz_skip_false_iff]
  unfold usedEntry at hfi
  simp only [Bool.or_eq_false_iff] at hfi
  exact ⟨hfi.2, fun h => by rw [hfi.1] at h; exact Bool.noConfusion h⟩

/-- Without a never-used slot, `lookup` of a key that is in no occupied slot never
finishes. -/
theorem lz_lookup_diverges (P : Params K) (T : LazyLPHash K V) (hpos : 1 ≤ T.numBuckets) (k : K)
    (hall : ∀ x, x < T.numBuckets → skip T.buckets k x = true) (f : Nat) :
    lookup P f T k = none := by
  unfold lookup
  rw [lz_lookupLoop_eq]
  exact probeSearch_diverges _ _ hpos hall f _ (hash_lt P T.numBuckets k hpos)

theorem lz_putEntry_mono (P : Params K) (f g : Nat) (T : LazyLPHash K V) (k : K) (v : V)
    (T1 : LazyLPHash K V) (h : f ≤ g) (h1 : putEntry P f T k v = some T1) :
    putEntry P g T k v = some T1 := by
  unfold putEntry at h1 ⊢
  cases hl : lookup P f T k with
  | none => rw [hl] at h1; simp at h1
  | some idx =>
    rw [hl] at h1
    rw [lz_lookup_mono P T k f g idx h hl]
    exact h1

theorem lz_skip_wr (bs : List (HashEntry K V)) (idx : Nat) (e : HashEntry K V) (key : K)
    (x : Nat) (hx : x ≠ idx) : skip (wr bs idx e) key x = skip bs key x := by
  unfold skip
  rw [rd_wr_ne _ _ _ _ (Ne.symm hx)]

/-- The write of `put` on a table with a never-used slot: the slot found by `lookup` is
never a tombstone, so `numEntries` goes up by one. -/
theorem lz_putEntry_ok (P : Params K) (T : LazyLPHash K V) (k : K) (v : V) (hinv : Inv P T)
    (hlt : T.numEntries < T.numBuckets) :
    ∃ T1, putEntry P T.numBuckets T k v = some T1 ∧ Inv P T1 ∧
      T1.numEntries = T.numEntries + 1 ∧ T1.numBuckets = T.numBuckets ∧
      Upd (ents T1) (ents T) k v := by
  have hcnt := hinv.cnt
  have hfree : T.buckets.countP usedEntry < T.numBuckets := by omega
  obtain ⟨idx, hl⟩ := lz_lookup_total P T hinv.pos hinv.len hfree k
  obtain ⟨hidx, hnd, hstop, hbefore⟩ := lz_lookup_spec P T hinv.pos k _ idx hl
  have hilen : idx < T.buckets.length := by rw [hinv.len]; exact hidx
  have hrd : ∀ x, rd (wr T.buckets idx ⟨k, v, true, false⟩) x
      = if x = idx then ⟨k, v, true, false⟩ else rd T.buckets x :=
    fun x => rd_wr _ _ _ _ hilen
  refine ⟨⟨T.numEntries + 1, T.numBuckets, wr T.buckets idx ⟨k, v, true, false⟩⟩,
    ?_, ?_, rfl, rfl, ?_⟩
  · simp [putEntry, hl, hnd]
  · constructor
    · show (wr _ _ _).length = _
      rw [length_wr]; exact hinv.len
    · exact hinv.pos
    · show ((wr _ _ _).countP _ : Int) ≤ T.numEntries + 1
      have := countP_wr_le (usedEntry : HashEntry K V → Bool) T.buckets idx
        ⟨k, v, true, false⟩
      omega
    · intro p hp ho
      simp only [hrd] at ho ⊢
      by_cases hpi : p = idx
      · simp [hpi]
      · simp only [hpi, if_false] at ho ⊢
        exact hinv.excl p hp ho
    · intro p hp ho x hx hd
      show skip (wr T.buckets idx _) _ x = true
      simp only [hrd] at ho hd ⊢
      by_cases hpi : p = idx
      · simp only [hpi, if_true] at hd ⊢
        have hxi : x ≠ idx := by rintro rfl; omega
        rw [lz_skip_wr _ _ _ _ _ hxi]
        exact hbefore x hx hd
      · simp only [hpi, if_false] at ho hd ⊢
        have h1 := hinv.path p hp ho x hx hd
        by_cases hxi : x = idx
        · subst hxi
          unfold skip at h1 ⊢
          rw [hrd]
          simp only [if_true, Bool.false_or, Bool.true_and, decide_eq_true_eq]
          rw [hnd] at h1
          simp only [Bool.false_or, Bool.and_eq_true, decide_eq_true_eq] at h1
          rw [← hstop h1.1]; exact h1.2
        · rw [lz_skip_wr _ _ _ _ _ hxi]
          exact h1
  · intro k1 v1
    rw [lz_mem_ents_iff, lz_mem_ents_iff]
    show (∃ p, p < (wr _ _ _).length ∧ _) ↔ _
    simp only [length_wr, hrd]
    constructor
    · rintro ⟨p, hp, ho, hk, hv⟩
      by_cases hpi : p = idx
      · simp only [hpi, if_true] at hk hv
        exact Or.inl ⟨hk.symm, hv.symm⟩
      · simp only [hpi, if_false] at ho hk hv
        refine Or.inr ⟨?_, p, hp, ho, hk, hv⟩
        intro hkk
        apply hpi
        have := lz_lookup_unique P T hinv p (by rw [← hinv.len]; exact hp)
          ((lz_liveEntry_iff _).1 ho).1 _ idx (by rw [hk, hkk]; exact hl)
        exact this.symm
    · rintro (⟨hk, hv⟩ | ⟨hne, p, hp, ho, hk, hv⟩)
      · exact ⟨idx, hilen, by simp [liveEntry], by simp [hk], by simp [hv]⟩
      · have hpi : p ≠ idx := by
          rintro rfl
          exact hne (by rw [← hk]; exact hstop ((lz_liveEntry_iff _).1 ho).1)
        exact ⟨p, hp, by simpa [hpi] using ho, by simpa [hpi] using hk,
          by simpa [hpi] using hv⟩

theorem lz_inv_mk0 (P : Params K) (n : Nat) (hn : 1 ≤ n) : Inv P (mk0 n : LazyLPHash K V) := by
  constructor
  · simp [mk0]
  · exact hn
  · simp [mk0, List.countP_replicate, usedEntry]
  · intro p _ ho
    simp only [mk0, rd_replicate] at ho
    exact Bool.noConfusion ho
  · intro p _ ho
    simp only [mk0, rd_replicate] at ho
    exact Bool.noConfusion ho

theorem lz_ents_mk0 (n : Nat) : ents (mk0 n : LazyLPHash K V) = [] := by
  simp [ents, mk0, List.filter_replicate, liveEntry]

theorem lz_keys_unique (P : Params K) (T : LazyLPHash K V) (hinv : Inv P T) (i j : Nat)
    (hi : i < T.numBuckets) (hj : j < T.numBuckets) (hoi : (rd T.buckets i).occupied = true)
    (hoj : (rd T.buckets j).occupied = true)
    (hk : (rd T.buckets i).key = (rd T.buckets j).key) : i = j := by
  have h1 := lz_lookup_occupied P T hinv i hi hoi T.numBuckets (le_refl _)
  have h2 := lz_lookup_occupied P T hinv j hj hoj T.numBuckets (le_refl _)
  rw [hk, h2] at h1
  exact (Option.some.inj h1).symm

theorem lz_nodup_ents (P : Params K) (T : LazyLPHash K V) (hinv : Inv P T) :
    ((ents T).map Prod.fst).Nodup := by
  unfold ents
  rw [List.map_map]
  apply nodup_keys_filter (liveEntry : HashEntry K V → Bool)
  intro i j hi hj hoi hoj hk
  exact lz_keys_unique P T hinv i j (by rw [← hinv.len]; exact hi) (by rw [← hinv.len]; exact hj)
    ((lz_liveEntry_iff _).1 hoi).1 ((lz_liveEntry_iff _).1 hoj).1 hk

theorem lz_countP_live_le_used (bs : List (HashEntry K V)) :
    bs.countP liveEntry ≤ bs.countP usedEntry := by
  apply List.countP_mono_left
  intro e _ h
  have := (lz_liveEntry_iff e).1 h
  simp [usedEntry, this.1]

theorem lz_length_ents (T : LazyLPHash K V) :
    (ents T).length = T.buckets.countP liveEntry := by
  simp [ents, List.countP_eq_length_filter]

theorem lz_sys_ok (P : Params K) : (sys P : Sys (LazyLPHash K V) K V).Ok (Inv P) where
  mk0_inv := lz_inv_mk0 P
  mk0_nE := fun _ => rfl
  mk0_nB := fun _ => rfl
  mk0_ents := lz_ents_mk0
  nB_pos := fun _ h => h.pos
  nodup := lz_nodup_ents P
  len_le_nE := fun T h => by
    show ((ents T).length : Int) ≤ T.numEntries
    rw [lz_length_ents]
    have := lz_countP_live_le_used T.buckets
    have := h.cnt
    omega
  len_le_nB := fun T h => by
    show (ents T).length ≤ T.numBuckets
    rw [lz_length_ents, ← h.len]; exact List.countP_le_length _
  putEntry_mono := fun f g T k v T1 h h1 => lz_putEntry_mono P f g T k v T1 h h1
  putEntry_ok := fun T k v h hlt => lz_putEntry_ok P T k v h hlt

/-! ### `get` -/

theorem lz_get_mono (P : Params K) (T : LazyLPHash K V) (k : K) (f g : Nat) (r : Option V)
    (h : f ≤ g) (h1 : get P f T k = some r) : get P g T k = some r := by
  unfold get at h1 ⊢
  cases hl : lookup P f T k with
  | none => rw [hl] at h1; simp at h1
  | some idx =>
    rw [hl] at h1
    rw [lz_lookup_mono P T k f g idx h hl]
    exact h1

theorem lz_get_present (P : Params K) (T : LazyLPHash K V) (hinv : Inv P T) (k : K) (v : V)
    (hm : (k, v) ∈ ents T) (f : Nat) (hf : T.numBuckets ≤ f) :
    get P f T k = some (some v) := by
  obtain ⟨p, hp, ho, hk, hv⟩ := (lz_mem_ents_iff T k v).1 hm
  have ho1 := ((lz_liveEntry_iff _).1 ho).1
  have hl := lz_lookup_occupied P T hinv p (by rw [← hinv.len]; exact hp) ho1 f hf
  rw [hk] at hl
  simp [get, hl, ho1, hv]

theorem lz_get_sound (P : Params K) (T : LazyLPHash K V) (hinv : Inv P T) (k : K) (v : V)
    (f : Nat) (h : get P f T k = some (some v)) : (k, v) ∈ ents T := by
  unfold get at h
  cases hl : lookup P f T k with
  | none => rw [hl] at h; simp at h
  | some idx =>
    rw [hl] at h
    obtain ⟨hidx, hnd, hstop, _⟩ := lz_lookup_spec P T hinv.pos k f idx hl
    by_cases ho : (rd T.buckets idx).occupied = true
    · simp only [ho, if_true, Option.some.injEq] at h
      exact (lz_mem_ents_iff T k v).2 ⟨idx, by rw [hinv.len]; exact hidx,
        (lz_liveEntry_iff _).2 ⟨ho, hnd⟩, hstop ho, h⟩
    · simp [ho] at h

theorem lz_get_notfound (P : Params K) (T : LazyLPHash K V) (hinv : Inv P T) (k : K) (f : Nat)
    (h : get P f T k = some none) : ∀ v, (k, v) ∉ ents T := by
  intro v hm
  have := lz_get_present P T hinv k v hm (max f T.numBuckets) (le_max_right _ _)
  rw [lz_get_mono P T k f _ none (le_max_left _ _) h] at this
  simp at this

/-- With a never-used slot, `get` of a key that is not live throws. -/
theorem lz_get_absent (P : Params K) (T : LazyLPHash K V) (hinv : Inv P T) (k : K)
    (hk : ∀ v, (k, v) ∉ ents T) (hfree : T.buckets.countP usedEntry < T.numBuckets) :
    get P T.numBuckets T k = some none := by
  obtain ⟨idx, hl⟩ := lz_lookup_total P T hinv.pos hinv.len hfree k
  obtain ⟨hidx, hnd, hstop, _⟩ := lz_lookup_spec P T hinv.pos k _ idx hl
  unfold get
  rw [hl]
  by_cases ho : (rd T.buckets idx).occupied = true
  · exact absurd ((lz_mem_ents_iff T k _).2 ⟨idx, by rw [hinv.len]; exact hidx,
      (lz_liveEntry_iff _).2 ⟨ho, hnd⟩, hstop ho, rfl⟩) (hk _)
  · simp [ho]

/-! ### `remove` -/

theorem lz_remove_mono (P : Params K) (T : LazyLPHash K V) (k : K) (f g : Nat)
    (T1 : LazyLPHash K V) (h : f ≤ g) (h1 : remove P f T k = some T1) :
    remove P g T k = some T1 := by
  unfold remove at h1 ⊢
  cases hl : lookup P f T k with
  | none => rw [hl] at h1; simp at h1
  | some i =>
    rw [hl] at h1
    rw [lz_lookup_mono P T k f g i h hl]
    exact h1

/-- A `remove` that finished kept the invariant, the capacity and `numEntries`, and
unbound exactly the key. -/
theorem lz_remove_pc (P : Params K) (T : LazyLPHash K V) (hinv : Inv P T) (k : K) (f : Nat)
    (T1 : LazyLPHash K V) (h : remove P f T k = some T1) :
    Inv P T1 ∧ T1.numBuckets = T.numBuckets ∧ T1.numEntries = T.numEntries ∧
      (∀ k1 v1, (k1, v1) ∈ ents T1 ↔ (k1 ≠ k ∧ (k1, v1) ∈ ents T)) ∧
      ((∀ v, (k, v) ∉ ents T) → T1 = T) := by
  unfold remove at h
  cases hl : lookup P f T k with
  | none => rw [hl] at h; simp at h
  | some i =>
    rw [hl] at h
    obtain ⟨hi, hnd, hstop, _⟩ := lz_lookup_spec P T hinv.pos k f i hl
    simp only [] at h
    have hil : i < T.buckets.length := by rw [hinv.len]; exact hi
    split at h
    · next ho =>
      have hki := hstop ho
      simp only [Option.some.injEq] at h
      subst h
      have hrd : ∀ x, rd (wr T.buckets i
          ⟨(rd T.buckets i).key, (rd T.buckets i).val, false, true⟩) x
          = if x = i then ⟨(rd T.buckets i).key, (rd T.buckets i).val, false, true⟩
            else rd T.buckets x := fun x => rd_wr _ _ _ _ hil
      refine ⟨⟨?_, hinv.pos, ?_, ?_, ?_⟩, rfl, rfl, ?_, ?_⟩
      · show (wr _ _ _).length = _
        rw [length_wr]; exact hinv.len
      · show ((wr _ _ _).countP _ : Int) ≤ T.numEntries
        have c1 := countP_wr_eq (usedEntry : HashEntry K V → Bool) T.buckets i
          ⟨(rd T.buckets i).key, (rd T.buckets i).val, false, true⟩ hil
        simp only [usedEntry, ho, Bool.true_or, Bool.or_true, if_true] at c1
        have := hinv.cnt
        simp only [usedEntry] at this ⊢
        omega
      · intro p hp hop
        simp only [hrd] at hop ⊢
        by_cases hpi : p = i
        · simp [hpi] at hop
        · simp only [hpi, if_false] at hop ⊢
          exact hinv.excl p hp hop
      · intro p hp hop x hx hd
        show skip (wr T.buckets i _) _ x = true
        simp only [hrd] at hop hd ⊢
        by_cases hpi : p = i
        · simp [hpi] at hop
        · simp only [hpi, if_false] at hop hd ⊢
          by_cases hxi : x = i
          · subst hxi
            unfold skip
            rw [hrd]; simp
          · rw [lz_skip_wr _ _ _ _ _ hxi]
            exact hinv.path p hp hop x hx hd
      · intro k1 v1
        rw [lz_mem_ents_iff, lz_mem_ents_iff]
        show (∃ p, p < (wr _ _ _).length ∧ _) ↔ _
        simp only [length_wr, hrd]
        constructor
        · rintro ⟨p, hp, hop, hk, hv⟩
          by_cases hpi : p = i
          · simp [hpi, liveEntry] at hop
          · simp only [hpi, if_false] at hop hk hv
            refine ⟨?_, p, hp, hop, hk, hv⟩
            intro hkk
            apply hpi
            exact lz_keys_unique P T hinv p i (by rw [← hinv.len]; exact hp) hi
              ((lz_liveEntry_iff _).1 hop).1 ho (by rw [hk, hkk, hki])
        · rintro ⟨hne, p, hp, hop, hk, hv⟩
          have hpi : p ≠ i := by rintro rfl; exact hne (by rw [← hk, hki])
          exact ⟨p, hp, by simpa [hpi] using hop, by simpa [hpi] using hk,
            by simpa [hpi] using hv⟩
      · intro habs
        exact absurd ((lz_mem_ents_iff T k _).2
          ⟨i, hil, (lz_liveEntry_iff _).2 ⟨ho, hnd⟩, hki, rfl⟩) (habs _)
    · next ho =>
      simp only [Option.some.injEq] at h
      subst h
      have habs : ∀ v, (k, v) ∉ ents T := by
        intro v hm
        obtain ⟨p, hp, hop, hk, _⟩ := (lz_mem_ents_iff T k v).1 hm
        have hop1 := ((lz_liveEntry_iff _).1 hop).1
        have := lz_lookup_unique P T hinv p (by rw [← hinv.len]; exact hp) hop1 f i
          (by rw [hk]; exact hl)
        rw [this] at ho
        exact ho hop1
      refine ⟨hinv, rfl, rfl, ?_, fun _ => rfl⟩
      intro k1 v1
      constructor
      · intro hm
        exact ⟨by rintro rfl; exact habs v1 hm, hm⟩
      · exact fun hm => hm.2

/-- The `remove` of a live key finishes; so does every `remove` when the array has a
never-used slot. -/
theorem lz_remove_total (P : Params K) (T : LazyLPHash K V) (hinv : Inv P T) (k : K)
    (h : (∃ v, (k, v) ∈ ents T) ∨ T.buckets.countP usedEntry < T.numBuckets) :
    ∃ T1, remove P T.numBuckets T k = some T1 := by
  have hlk : ∃ i, lookup P T.numBuckets T k = some i := by
    rcases h with ⟨v, hm⟩ | hfree
    · obtain ⟨p, hp, hop, hk, _⟩ := (lz_mem_ents_iff T k v).1 hm
      refine ⟨p, ?_⟩
      rw [← hk]
      exact lz_lookup_occupied P T hinv p (by rw [← hinv.len]; exact hp)
        ((lz_liveEntry_iff _).1 hop).1 _ (le_refl _)
    · exact lz_lookup_total P T hinv.pos hinv.len hfree k
  obtain ⟨i, hl⟩ := hlk
  unfold remove
  rw [hl]
  simp only []
  split
  · exact ⟨_, rfl⟩
  · exact ⟨_, rfl⟩

/-- On a table that satisfies the invariant, `remove` of the key of an occupied slot `p`
only flips that slot to a tombstone. -/
theorem lz_remove_present (P : Params K) (T : LazyLPHash K V) (hinv : Inv P T) (p : Nat)
    (hp : p < T.numBuckets) (ho : (rd T.buckets p).occupied = true) (f : Nat)
    (hf : T.numBuckets ≤ f) :
    remove P f T (rd T.buckets p).key
      = some ⟨T.numEntries, T.numBuckets,
          wr T.buckets p ⟨(rd T.buckets p).key, (rd T.buckets p).val, false, true⟩⟩ := by
  unfold remove
  rw [lz_lookup_occupied P T hinv p hp ho f hf]
  simp [ho]

end LazyLPHash

/-! ## LPHash: lookup, put, get -/

namespace LPHash

variable {K V : Type} [DecidableEq K] [Inhabited K] [Inhabited V]

theorem lp_lookupLoop_eq (T : LPHash K V) (key : K) :
    ∀ (f idx : Nat), lookupLoop T key f idx
      = probeSearch (skip T.buckets key) T.numBuckets f idx := by
  intro f
  induction f with
  | zero => intro idx; rfl
  | succ f ih =>
    intro idx
    unfold lookupLoop probeSearch
    rw [ih]
    rfl

theorem lp_put_eq_sys (P : Params K) :
    ∀ (f : Nat) (T : LPHash K V) (k : K) (v : V), put P f T k v = (sys P).put P f T k v := by
  intro f
  induction f with
  | zero => intro T k v; rfl
  | succ f ih =>
    intro T k v
    unfold put Sys.put
    rw [replay_eq_replayL]
    have : (put P f : LPHash K V → K → V → Option (LPHash K V)) = (sys P).put P f := by
      funext T k v; exact ih T k v
    rw [this]
    simp only [sys, ents]
    split
    · generalize replayL _ _ (mk0 (T.numBuckets * 2) : LPHash K V) = r
      cases r <;> rfl
    · rfl

theorem lp_resize_eq_sys (P : Params K) (f n : Nat) (T : LPHash K V) :
    resize P f n T = (sys P).resize P f n T := by
  unfold resize Sys.resize
  rw [replay_eq_replayL]
  have : (put P f : LPHash K V → K → V → Option (LPHash K V)) = (sys P).put P f := by
    funext T k v; exact lp_put_eq_sys P f T k v
  rw [this]
  rfl

theorem lp_mem_ents_iff (T : LPHash K V) (k : K) (v : V) :
    (k, v) ∈ ents T ↔ ∃ p, p < T.buckets.length ∧ (rd T.buckets p).occupied = true ∧
      (rd T.buckets p).key = k ∧ (rd T.buckets p).val = v := by
  unfold ents
  rw [mem_filter_map_iff]
  simp only [Prod.mk.injEq]

theorem lp_skip_false_iff (bs : List (HashEntry K V)) (key : K) (i : Nat) :
    skip bs key i = false ↔ ((rd bs i).occupied = true → (rd bs i).key = key) := by
  unfold skip
  cases (rd bs i).occupied <;> simp

theorem lp_skip_true_iff (bs : List (HashEntry K V)) (key : K) (i : Nat) :
    skip bs key i = true ↔ ((rd bs i).occupied = true ∧ (rd bs i).key ≠ key) := by
  unfold skip
  cases (rd bs i).occupied <;> simp

/-- Under the invariant, `lookup` of the key of an occupied slot returns that slot. -/
theorem lp_lookup_occupied (P : Params K) (T : LPHash K V) (hinv : Inv P T) (p : Nat)
    (hp : p < T.numBuckets) (ho : (rd T.buckets p).occupied = true) (f : Nat)
    (hf : T.numBuckets ≤ f) : lookup P f T (rd T.buckets p).key = some p := by
  unfold lookup
  rw [lp_lookupLoop_eq]
  have hh := hash_lt P T.numBuckets (rd T.buckets p).key hinv.pos
  apply probeSearch_found _ _ f _ p hh hp
  · rw [lp_skip_false_iff]; intro _; rfl
  · intro x hx hlt
    rw [lp_skip_true_iff]
    exact hinv.path p hp ho x hx hlt
  · have := cdist_lt T.numBuckets _ p hh hp
    omega

theorem lp_lookup_mono (P : Params K) (T : LPHash K V) (k : K) (f g idx : Nat) (h : f ≤ g)
    (h1 : lookup P f T k = some idx) : lookup P g T k = some idx := by
  unfold lookup at h1 ⊢
  rw [lp_lookupLoop_eq] at h1 ⊢
  exact probeSearch_mono _ _ f g _ idx h h1

theorem lp_lookup_spec (P : Params K) (T : LPHash K V) (hpos : 1 ≤ T.numBuckets) (k : K)
    (f idx : Nat) (h1 : lookup P f T k = some idx) :
    idx < T.numBuckets ∧ ((rd T.buckets idx).occupied = true → (rd T.buckets idx).key = k) ∧
      ∀ x, x < T.numBuckets →
        cdist T.numBuckets (hash P T.numBuckets k) x
          < cdist T.numBuckets (hash P T.numBuckets k) idx →
        (rd T.buckets x).occupied = true ∧ (rd T.buckets x).key ≠ k := by
  unfold lookup at h1
  rw [lp_lookupLoop_eq] at h1
  obtain ⟨a, b, _, d⟩ := probeSearch_spec _ _ hpos f _ idx
    (hash_lt P T.numBuckets k hpos) h1
  refine ⟨a, (lp_skip_false_iff _ _ _).1 b, ?_⟩
  intro x hx hlt
  exact (lp_skip_true_iff _ _ _).1 (d x hx hlt)

/-- Under the invariant, a finished `lookup` of a key that is in an occupied slot returns
that slot. -/
theorem lp_lookup_unique (P : Params K) (T : LPHash K V) (hinv : Inv P T) (p : Nat)
    (hp : p < T.numBuckets) (ho : (rd T.buckets p).occupied = true) (f idx : Nat)
    (h1 : lookup P f T (rd T.buckets p).key = some idx) : idx = p := by
  have e1 := lp_lookup_mono P T _ f (max f T.numBuckets) idx (le_max_left _ _) h1
  have e2 := lp_lookup_occupied P T hinv p hp ho (max f T.numBuckets) (le_max_right _ _)
  rw [e1] at e2
  exact Option.some.inj e2

/-- With a free slot in the array `lookup` finishes within `numBuckets` steps. -/
theorem lp_lookup_total (P : Params K) (T : LPHash K V) (hpos : 1 ≤ T.numBuckets)
    (hlen : T.buckets.length = T.numBuckets)
    (hfree : (T.buckets.countP (fun e => e.occupied)) < T.numBuckets) (k : K) :
    ∃ idx, lookup P T.numBuckets T k = some idx := by
  unfold lookup
  rw [lp_lookupLoop_eq]
  apply probeSearch_exists _ _ _ (hash_lt P T.numBuckets k hpos)
  obtain ⟨i, hi, hfi⟩ := exists_not_of_countP_lt (fun e : HashEntry K V => e.occupied)
    T.buckets (by omega)
  exact ⟨i, by omega, by rw [lp_skip_false_iff]; intro h; rw [hfi] at h; exact Bool.noConfusion h⟩

theorem lp_putEntry_mono (P : Params K) (f g : Nat) (T : LPHash K V) (k : K) (v : V)
    (T1 : LPHash K V) (h : f ≤ g) (h1 : putEntry P f T k v = some T1) :
    putEntry P g T k v = some T1 := by
  unfold putEntry at h1 ⊢
  cases hl : lookup P f T k with
  | none => rw [hl] at h1; simp at h1
  | some idx =>
    rw [hl] at h1
    rw [lp_lookup_mono P T k f g idx h hl]
    exact h1

/-- The write of `put` on a table with a free slot. -/
theorem lp_putEntry_ok (P : Params K) (T : LPHash K V) (k : K) (v : V) (hinv : Inv P T)
    (hlt : T.numEntries < T.numBuckets) :
    ∃ T1, putEntry P T.numBuckets T k v = some T1 ∧ Inv P T1 ∧
      T1.numEntries = T.numEntries + 1 ∧ T1.numBuckets = T.numBuckets ∧
      Upd (ents T1) (ents T) k v := by
  have hcnt := hinv.cnt
  have hfree : T.buckets.countP (fun e => e.occupied) < T.numBuckets := by omega
  obtain ⟨idx, hl⟩ := lp_lookup_total P T hinv.pos hinv.len hfree k
  obtain ⟨hidx, hstop, hbefore⟩ := lp_lookup_spec P T hinv.pos k _ idx hl
  have hilen : idx < T.buckets.length := by rw [hinv.len]; exact hidx
  have hrd : ∀ x, rd (wr T.buckets idx ⟨k, v, hash P T.numBuckets k, true⟩) x
      = if x = idx then ⟨k, v, hash P T.numBuckets k, true⟩ else rd T.buckets x :=
    fun x => rd_wr _ _ _ _ hilen
  refine ⟨⟨T.numEntries + 1, T.numBuckets,
    wr T.buckets idx ⟨k, v, hash P T.numBuckets k, true⟩⟩, ?_, ?_, rfl, rfl, ?_⟩
  · simp [putEntry, hl]
  · constructor
    · show (wr _ _ _).length = _
      rw [length_wr]; exact hinv.len
    · exact hinv.pos
    · show ((wr _ _ _).countP _ : Int) ≤ T.numEntries + 1
      have := countP_wr_le (fun e : HashEntry K V => e.occupied) T.buckets idx
        ⟨k, v, hash P T.numBuckets k, true⟩
      omega
    · intro p hp ho
      simp only [hrd] at ho ⊢
      by_cases hpi : p = idx
      · simp [hpi]
      · simp only [hpi, if_false] at ho ⊢
        exact hinv.home p hp ho
    · intro p hp ho x hx hd
      simp only [hrd] at ho hd ⊢
      by_cases hpi : p = idx
      · simp only [hpi, if_true] at hd ⊢
        have hxi : x ≠ idx := by rintro rfl; omega
        simp only [hxi, if_false]
        exact hbefore x hx hd
      · simp only [hpi, if_false] at ho hd ⊢
        obtain ⟨h1, h2⟩ := hinv.path p hp ho x hx hd
        by_cases hxi : x = idx
        · subst hxi
          simp only [if_true]
          exact ⟨trivial, by rw [← hstop h1]; exact h2⟩
        · simp only [hxi, if_false]
          exact ⟨h1, h2⟩
  · intro k1 v1
    rw [lp_mem_ents_iff, lp_mem_ents_iff]
    show (∃ p, p < (wr _ _ _).length ∧ _) ↔ _
    simp only [length_wr, hrd]
    constructor
    · rintro ⟨p, hp, ho, hk, hv⟩
      by_cases hpi : p = idx
      · simp only [hpi, if_true] at hk hv
        exact Or.inl ⟨hk.symm, hv.symm⟩
      · simp only [hpi, if_false] at ho hk hv
        refine Or.inr ⟨?_, p, hp, ho, hk, hv⟩
        intro hkk
        apply hpi
        have := lp_lookup_unique P T hinv p (by rw [← hinv.len]; exact hp) ho _ idx
          (by rw [hk, hkk]; exact hl)
        exact this.symm
    · rintro (⟨hk, hv⟩ | ⟨hne, p, hp, ho, hk, hv⟩)
      · exact ⟨idx, hilen, by simp, by simp [hk], by simp [hv]⟩
      · have hpi : p ≠ idx := by
          rintro rfl
          exact hne (by rw [← hk]; exact hstop ho)
        exact ⟨p, hp, by simpa [hpi] using ho, by simpa [hpi] using hk,
          by simpa [hpi] using hv⟩

theorem lp_inv_mk0 (P : Params K) (n : Nat) (hn : 1 ≤ n) : Inv P (mk0 n : LPHash K V) := by
  constructor
  · simp [mk0]
  · exact hn
  · simp [mk0, List.countP_replicate]
  · intro p _ ho
    simp only [mk0, rd_replicate] at ho
    exact Bool.noConfusion ho
  · intro p _ ho
    simp only [mk0, rd_replicate] at ho
    exact Bool.noConfusion ho

theorem lp_ents_mk0 (n : Nat) : ents (mk0 n : LPHash K V) = [] := by
  simp [ents, mk0, List.filter_replicate]

theorem lp_keys_unique (P : Params K) (T : LPHash K V) (hinv : Inv P T) (i j : Nat)
    (hi : i < T.numBuckets) (hj : j < T.numBuckets) (hoi : (rd T.buckets i).occupied = true)
    (hoj : (rd T.buckets j).occupied = true)
    (hk : (rd T.buckets i).key = (rd T.buckets j).key) : i = j := by
  have h1 := lp_lookup_occupied P T hinv i hi hoi T.numBuckets (le_refl _)
  have h2 := lp_lookup_occupied P T hinv j hj hoj T.numBuckets (le_refl _)
  rw [hk, h2] at h1
  exact (Option.some.inj h1).symm

theorem lp_nodup_ents (P : Params K) (T : LPHash K V) (hinv : Inv P T) :
    ((ents T).map Prod.fst).Nodup := by
  unfold ents
  rw [List.map_map]
  apply nodup_keys_filter (fun e : HashEntry K V => e.occupied)
  intro i j hi hj hoi hoj hk
  exact lp_keys_unique P T hinv i j (by rw [← hinv.len]; exact hi) (by rw [← hinv.len]; exact hj)
    hoi hoj hk

theorem lp_length_ents (T : LPHash K V) :
    (ents T).length = T.buckets.countP (fun e => e.occupied) := by
  simp [ents, List.countP_eq_length_filter]

theorem lp_sys_ok (P : Params K) : (sys P : Sys (LPHash K V) K V).Ok (Inv P) where
  mk0_inv := lp_inv_mk0 P
  mk0_nE := fun _ => rfl
  mk0_nB := fun _ => rfl
  mk0_ents := lp_ents_mk0
  nB_pos := fun _ h => h.pos
  nodup := lp_nodup_ents P
  len_le_nE := fun T h => by
    show ((ents T).length : Int) ≤ T.numEntries
    rw [lp_length_ents]; exact h.cnt
  len_le_nB := fun T h => by
    show (ents T).length ≤ T.numBuckets
    rw [lp_length_ents, ← h.len]; exact List.countP_le_length _
  putEntry_mono := fun f g T k v T1 h h1 => lp_putEntry_mono P f g T k v T1 h h1
  putEntry_ok := fun T k v h hlt => lp_putEntry_ok P T k v h hlt

/-! ### `get` -/

theorem lp_get_mono (P : Params K) (T : LPHash K V) (k : K) (f g : Nat) (r : Option V)
    (h : f ≤ g) (h1 : get P f T k = some r) : get P g T k = some r := by
  unfold get at h1 ⊢
  cases hl : lookup P f T k with
  | none => rw [hl] at h1; simp at h1
  | some idx =>
    rw [hl] at h1
    rw [lp_lookup_mono P T k f g idx h hl]
    exact h1

/-- Under the invariant `get` returns the value of every live key. -/
theorem lp_get_present (P : Params K) (T : LPHash K V) (hinv : Inv P T) (k : K) (v : V)
    (hm : (k, v) ∈ ents T) (f : Nat) (hf : T.numBuckets ≤ f) :
    get P f T k = some (some v) := by
  obtain ⟨p, hp, ho, hk, hv⟩ := (lp_mem_ents_iff T k v).1 hm
  have hl := lp_lookup_occupied P T hinv p (by rw [← hinv.len]; exact hp) ho f hf
  rw [hk] at hl
  simp [get, hl, ho, hv]

/-- A value returned by `get` is the value of a live slot with that key. -/
theorem lp_get_sound (P : Params K) (T : LPHash K V) (hinv : Inv P T) (k : K) (v : V) (f : Nat)
    (h : get P f T k = some (some v)) : (k, v) ∈ ents T := by
  unfold get at h
  cases hl : lookup P f T k with
  | none => rw [hl] at h; simp at h
  | some idx =>
    rw [hl] at h
    obtain ⟨hidx, hstop, _⟩ := lp_lookup_spec P T hinv.pos k f idx hl
    by_cases ho : (rd T.buckets idx).occupied = true
    · simp only [ho, if_true, Option.some.injEq] at h
      exact (lp_mem_ents_iff T k v).2 ⟨idx, by rw [hinv.len]; exact hidx, ho, hstop ho, h⟩
    · simp [ho] at h

/-- When `get` throws, the key is in no occupied slot. -/
theorem lp_get_notfound (P : Params K) (T : LPHash K V) (hinv : Inv P T) (k : K) (f : Nat)
    (h : get P f T k = some none) : ∀ v, (k, v) ∉ ents T := by
  intro v hm
  have := lp_get_present P T hinv k v hm (max f T.numBuckets) (le_max_right _ _)
  rw [lp_get_mono P T k f _ none (le_max_left _ _) h] at this
  simp at this

/-- With a free slot, `get` of a key that is not live throws. -/
theorem lp_get_absent (P : Params K) (T : LPHash K V) (hinv : Inv P T) (k : K)
    (hk : ∀ v, (k, v) ∉ ents T)
    (hfree : T.buckets.countP (fun e => e.occupied) < T.numBuckets) :
    get P T.numBuckets T k = some none := by
  obtain ⟨idx, hl⟩ := lp_lookup_total P T hinv.pos hinv.len hfree k
  obtain ⟨hidx, hstop, _⟩ := lp_lookup_spec P T hinv.pos k _ idx hl
  unfold get
  rw [hl]
  by_cases ho : (rd T.buckets idx).occupied = true
  · exact absurd ((lp_mem_ents_iff T k _).2 ⟨idx, by rw [hinv.len]; exact hidx, ho, hstop ho, rfl⟩)
      (hk _)
  · simp [ho]

/-! ### `remove`: the backward shift -/

theorem lp_shiftTest_iff (n i j k : Nat) (hi : i < n) (hj : j < n) (hk : k < n) (hij : i ≠ j) :
    shiftTest i j k = true ↔ cdist n k i < cdist n k j := by
  simp only [shiftTest, cdist, Bool.or_eq_true, Bool.and_eq_true, decide_eq_true_eq]
  split_ifs <;> omega

theorem lp_scan_exit_arith (n h i j0 p : Nat) (hh : h < n) (hi : i < n) (hj0 : j0 < n)
    (hp : p < n) (hpi : p ≠ i) (hon : cdist n h i < cdist n h p)
    (hns : ¬ (0 < cdist n i p ∧ cdist n i p ≤ cdist n i j0)) :
    (j0 + 1) % n = p ∨ ((j0 + 1) % n ≠ i ∧ cdist n h ((j0 + 1) % n) < cdist n h p) := by
  rw [next_index n j0 hj0]
  simp only [cdist] at hon hns ⊢
  split_ifs at hon hns ⊢ <;> omega

theorem lp_scan_step_arith (n i j0 y : Nat) (hi : i < n) (hj0 : j0 < n) (hy : y < n)
    (hji : (j0 + 1) % n ≠ i) (h0 : 0 < cdist n i y)
    (h1 : cdist n i y ≤ cdist n i ((j0 + 1) % n)) :
    y = (j0 + 1) % n ∨ cdist n i y ≤ cdist n i j0 := by
  rw [next_index n j0 hj0] at hji h1 ⊢
  simp only [cdist] at h0 h1 ⊢
  split_ifs at hji h0 h1 ⊢ <;> omega

theorem lp_hole_keys_unique (P : Params K) (n : Nat) (hn : 1 ≤ n) (bs : List (HashEntry K V))
    (i : Nat) (hI : HoleInv P n bs i) (a b : Nat) (ha : a < n) (hb : b < n)
    (hoa : (rd bs a).occupied = true) (hob : (rd bs b).occupied = true)
    (hk : (rd bs a).key = (rd bs b).key) : a = b := by
  have hh := hash_lt P n (rd bs b).key hn
  have hai : a ≠ i := by rintro rfl; rw [hI.hole] at hoa; exact Bool.noConfusion hoa
  have hbi : b ≠ i := by rintro rfl; rw [hI.hole] at hob; exact Bool.noConfusion hob
  rcases Nat.lt_trichotomy (cdist n (hash P n (rd bs b).key) a)
      (cdist n (hash P n (rd bs b).key) b) with h | h | h
  · exact absurd hk (hI.path b hb hob a ha h hai).2
  · exact cdist_inj n _ a b hh ha hb h
  · rw [← hk] at h
    exact absurd hk.symm (hI.path a ha hoa b hb h hbi).2

/-- Reading the array after the two writes of a shift. -/
theorem lp_rd_shift (bs : List (HashEntry K V)) (i j : Nat) (hi : i < bs.length)
    (hj : j < bs.length) (hij : j ≠ i) (x : Nat) :
    rd (wr (wr bs i (rd bs j)) j
        ⟨(rd (wr bs i (rd bs j)) j).key, (rd (wr bs i (rd bs j)) j).val,
          (rd (wr bs i (rd bs j)) j).hash, false⟩) x
      = if x = j then ⟨(rd bs j).key, (rd bs j).val, (rd bs j).hash, false⟩
        else if x = i then rd bs j else rd bs x := by
  have e1 : rd (wr bs i (rd bs j)) j = rd bs j := rd_wr_ne _ _ _ _ (Ne.symm hij)
  rw [e1, rd_wr _ _ _ _ (by rw [length_wr]; exact hj), rd_wr _ _ _ _ hi]

/-- One shift of the loop of `remove`: the entry at `j` moves into the empty entry `i`,
and `j` becomes the empty entry. -/
theorem lp_shift_step (P : Params K) (n : Nat) (hn : 1 ≤ n) (bs : List (HashEntry K V))
    (i j : Nat) (hI : HoleInv P n bs i) (hj : j < n) (hoj : (rd bs j).occupied = true)
    (hsh : cdist n (rd bs j).hash i < cdist n (rd bs j).hash j) :
    HoleInv P n (wr (wr bs i (rd bs j)) j
        ⟨(rd (wr bs i (rd bs j)) j).key, (rd (wr bs i (rd bs j)) j).val,
          (rd (wr bs i (rd bs j)) j).hash, false⟩) j := by
  have hji : j ≠ i := by rintro rfl; rw [hI.hole] at hoj; exact Bool.noConfusion hoj
  have hil : i < bs.length := by rw [hI.len]; exact hI.ilt
  have hjl : j < bs.length := by rw [hI.len]; exact hj
  have hrd := lp_rd_shift bs i j hil hjl hji
  have hkj := hI.home j hj hoj
  constructor
  · rw [length_wr, length_wr]; exact hI.len
  · exact hj
  · rw [hrd]; simp
  · intro p hp ho
    rw [hrd] at ho ⊢
    by_cases hpj : p = j
    · simp [hpj] at ho
    · simp only [hpj, if_false] at ho ⊢
      by_cases hpi : p = i
      · simp only [hpi, if_true] at ho ⊢; exact hkj
      · simp only [hpi, if_false] at ho ⊢; exact hI.home p hp ho
  · intro p hp ho x hx hd hxj
    rw [hrd] at ho
    rw [hrd p] at hd ⊢
    rw [hrd x]
    simp only [hxj, if_false]
    by_cases hpj : p = j
    · simp [hpj] at ho
    · simp only [hpj, if_false] at ho hd ⊢
      by_cases hpi : p = i
      · simp only [hpi, if_true] at ho hd ⊢
        have hxi : x ≠ i := by rintro rfl; omega
        simp only [hxi, if_false]
        rw [← hkj] at hd
        apply hI.path j hj hoj x hx _ hxi
        rw [← hkj]; omega
      · simp only [hpi, if_false] at ho hd ⊢
        by_cases hxi : x = i
        · simp only [hxi, if_true]
          refine ⟨hoj, ?_⟩
          intro hk
          exact hpj (lp_hole_keys_unique P n hn bs i hI j p hj hp hoj ho hk).symm
        · simp only [hxi, if_false]
          exact hI.path p hp ho x hx hd hxi

theorem lp_shift_count (bs : List (HashEntry K V)) (i j : Nat) (hi : i < bs.length)
    (hj : j < bs.length) (hji : j ≠ i) (hoi : (rd bs i).occupied = false)
    (hoj : (rd bs j).occupied = true) :
    (wr (wr bs i (rd bs j)) j
        ⟨(rd (wr bs i (rd bs j)) j).key, (rd (wr bs i (rd bs j)) j).val,
          (rd (wr bs i (rd bs j)) j).hash, false⟩).countP (fun e => e.occupied)
      = bs.countP (fun e => e.occupied) := by
  have c1 := countP_wr_eq (fun e : HashEntry K V => e.occupied) bs i (rd bs j) hi
  have c2 := countP_wr_eq (fun e : HashEntry K V => e.occupied) (wr bs i (rd bs j)) j
    ⟨(rd (wr bs i (rd bs j)) j).key, (rd (wr bs i (rd bs j)) j).val,
      (rd (wr bs i (rd bs j)) j).hash, false⟩ (by rw [length_wr]; exact hj)
  have e1 : rd (wr bs i (rd bs j)) j = rd bs j := rd_wr_ne _ _ _ _ (Ne.symm hji)
  rw [e1] at c2 ⊢
  simp only [hoi, hoj, if_true] at c1 c2
  simp at c1 c2
  omega

theorem lp_shift_disp (n : Nat) (bs : List (HashEntry K V)) (i j : Nat) (hi : i < bs.length)
    (hj : j < bs.length) (hji : j ≠ i) (hoi : (rd bs i).occupied = false)
    (hoj : (rd bs j).occupied = true)
    (hsh : cdist n (rd bs j).hash i < cdist n (rd bs j).hash j) :
    dispFrom (fun e : HashEntry K V => e.occupied) (fun e => e.hash) n 0
        (wr (wr bs i (rd bs j)) j
          ⟨(rd (wr bs i (rd bs j)) j).key, (rd (wr bs i (rd bs j)) j).val,
            (rd (wr bs i (rd bs j)) j).hash, false⟩)
      < dispFrom (fun e : HashEntry K V => e.occupied) (fun e => e.hash) n 0 bs := by
  have c1 := dispFrom_wr (fun e : HashEntry K V => e.occupied) (fun e => e.hash) n bs 0 i
    (rd bs j) hi
  have c2 := dispFrom_wr (fun e : HashEntry K V => e.occupied) (fun e => e.hash) n
    (wr bs i (rd bs j)) 0 j
    ⟨(rd (wr bs i (rd bs j)) j).key, (rd (wr bs i (rd bs j)) j).val,
      (rd (wr bs i (rd bs j)) j).hash, false⟩ (by rw [length_wr]; exact hj)
  have e1 : rd (wr bs i (rd bs j)) j = rd bs j := rd_wr_ne _ _ _ _ (Ne.symm hji)
  rw [e1] at c2 ⊢
  simp only [hoi, hoj, if_true, Nat.zero_add] at c1 c2
  simp at c1 c2
  omega

theorem lp_shift_mem (bs : List (HashEntry K V)) (i j : Nat) (hi : i < bs.length)
    (hj : j < bs.length) (hji : j ≠ i) (hoi : (rd bs i).occupied = false) (k : K) (v : V) :
    MemB (wr (wr bs i (rd bs j)) j
        ⟨(rd (wr bs i (rd bs j)) j).key, (rd (wr bs i (rd bs j)) j).val,
          (rd (wr bs i (rd bs j)) j).hash, false⟩) k v ↔ MemB bs k v := by
  have hrd := lp_rd_shift bs i j hi hj hji
  unfold MemB
  simp only [length_wr, hrd]
  constructor
  · rintro ⟨p, hp, ho, hk, hv⟩
    by_cases hpj : p = j
    · simp [hpj] at ho
    · simp only [hpj, if_false] at ho hk hv
      by_cases hpi : p = i
      · simp only [hpi, if_true] at ho hk hv
        exact ⟨j, hj, ho, hk, hv⟩
      · simp only [hpi, if_false] at ho hk hv
        exact ⟨p, hp, ho, hk, hv⟩
  · rintro ⟨p, hp, ho, hk, hv⟩
    have hpi : p ≠ i := by rintro rfl; rw [hoi] at ho; exact Bool.noConfusion ho
    by_cases hpj : p = j
    · subst hpj
      exact ⟨i, hi, by simp [Ne.symm hji, ho], by simp [Ne.symm hji, hk],
        by simp [Ne.symm hji, hv]⟩
    · exact ⟨p, hp, by simp [hpj, hpi, ho], by simp [hpj, hpi, hk], by simp [hpj, hpi, hv]⟩

theorem lp_removeLoop_mono (n : Nat) :
    ∀ (f g : Nat) (bs : List (HashEntry K V)) (i j0 : Nat) (bs1 : List (HashEntry K V)),
      f ≤ g → removeLoop n f bs i j0 = some bs1 → removeLoop n g bs i j0 = some bs1 := by
  intro f
  induction f with
  | zero => intro g bs i j0 bs1 _ h; simp [removeLoop] at h
  | succ f ih =>
    intro g bs i j0 bs1 hle h
    obtain ⟨g, rfl⟩ : ∃ g1, g = g1 + 1 := ⟨g - 1, by omega⟩
    unfold removeLoop at h ⊢
    simp only [] at h ⊢
    split at h
    · next h1 => rw [if_pos h1]; exact h
    · next h1 =>
      rw [if_neg h1]
      split at h
      · next h2 => rw [if_pos h2]; exact ih g _ _ _ _ (by omega) h
      · next h2 => rw [if_neg h2]; exact ih g _ _ _ _ (by omega) h

/-- When the loop of `remove` finishes, the array satisfies the invariant again, with the
same occupied entries. -/
theorem lp_removeLoop_pc (P : Params K) (n : Nat) (hn : 1 ≤ n) :
    ∀ (f : Nat) (bs : List (HashEntry K V)) (i j0 : Nat) (bs1 : List (HashEntry K V)),
      HoleInv P n bs i → Scanned n bs i j0 → j0 < n → removeLoop n f bs i j0 = some bs1 →
      ArrOk P n bs1 ∧ bs1.countP (fun e => e.occupied) = bs.countP (fun e => e.occupied) ∧
        ∀ k v, MemB bs1 k v ↔ MemB bs k v := by
  intro f
  induction f with
  | zero => intro bs i j0 bs1 _ _ _ h; simp [removeLoop] at h
  | succ f ih =>
    intro bs i j0 bs1 hI hS hj0 h
    have hj : (j0 + 1) % n < n := next_index_lt n j0 (by omega)
    unfold removeLoop at h
    simp only [] at h
    split at h
    · next h1 =>
      have hnot : (rd bs ((j0 + 1) % n)).occupied = false := by simpa using h1
      simp only [Option.some.injEq] at h
      subst h
      refine ⟨⟨hI.len, hI.home, ?_⟩, rfl, fun _ _ => Iff.rfl⟩
      intro p hp ho x hx hd
      by_cases hxi : x = i
      · exfalso
        subst hxi
        have hpx : p ≠ x := by rintro rfl; rw [hI.hole] at ho; exact Bool.noConfusion ho
        have hh := hash_lt P n (rd bs p).key hn
        by_cases hs : 0 < cdist n x p ∧ cdist n x p ≤ cdist n x j0
        · have := (hS p hp hs.1 hs.2).2
          rw [hI.home p hp ho] at this
          exact this hd
        · rcases lp_scan_exit_arith n _ x j0 p hh hx hj0 hp hpx hd hs with h2 | ⟨h2, h3⟩
          · rw [h2, ho] at hnot; exact Bool.noConfusion hnot
          · have := (hI.path p hp ho _ hj h3 h2).1
            rw [this] at hnot; exact Bool.noConfusion hnot
      · exact hI.path p hp ho x hx hd hxi
    · next h1 =>
      have hoj : (rd bs ((j0 + 1) % n)).occupied = true := by simpa using h1
      have hji : (j0 + 1) % n ≠ i := by
        intro e; rw [e, hI.hole] at hoj; exact Bool.noConfusion hoj
      have hk : (rd bs ((j0 + 1) % n)).hash < n := by
        rw [hI.home _ hj hoj]; exact hash_lt P n _ hn
      have htest := lp_shiftTest_iff n i ((j0 + 1) % n) _ hI.ilt hj hk (Ne.symm hji)
      split at h
      · next h2 =>
        have hsh := htest.1 h2
        obtain ⟨a, b, c⟩ := ih _ _ _ bs1 (lp_shift_step P n hn bs i _ hI hj hoj hsh)
          (by intro y hy h0 h3; rw [cdist_self] at h3; omega) hj h
        have hil : i < bs.length := by rw [hI.len]; exact hI.ilt
        have hjl : (j0 + 1) % n < bs.length := by rw [hI.len]; exact hj
        refine ⟨a, ?_, ?_⟩
        · rw [b]; exact lp_shift_count bs i _ hil hjl hji hI.hole hoj
        · intro k v; rw [c k v]; exact lp_shift_mem bs i _ hil hjl hji hI.hole k v
      · next h2 =>
        have hsh : ¬ cdist n (rd bs ((j0 + 1) % n)).hash i
            < cdist n (rd bs ((j0 + 1) % n)).hash ((j0 + 1) % n) := fun hc => h2 (htest.2 hc)
        apply ih _ _ _ bs1 hI _ hj h
        intro y hy h0 h3
        rcases lp_scan_step_arith n i j0 y hI.ilt hj0 hy hji h0 h3 with h4 | h4
        · rw [h4]; exact ⟨hoj, hsh⟩
        · exact hS y hy h0 h4

/-- The loop of `remove` finishes: a shift lowers the total displacement, and between two
shifts the scan index only moves away from the empty entry. -/
theorem lp_removeLoop_total (P : Params K) (n : Nat) (hn : 1 ≤ n) :
    ∀ (m : Nat) (bs : List (HashEntry K V)) (i j0 : Nat),
      HoleInv P n bs i → j0 < n →
      dispFrom (fun e : HashEntry K V => e.occupied) (fun e => e.hash) n 0 bs * (n + 1)
        + (n - cdist n i j0) ≤ m →
      ∃ f bs1, removeLoop n f bs i j0 = some bs1 := by
  intro m
  induction m with
  | zero =>
    intro bs i j0 hI hj0 hm
    have := cdist_lt n i j0 hI.ilt hj0
    omega
  | succ m ih =>
    intro bs i j0 hI hj0 hm
    have hj : (j0 + 1) % n < n := next_index_lt n j0 (by omega)
    by_cases h1 : (rd bs ((j0 + 1) % n)).occupied = true
    · have hji : (j0 + 1) % n ≠ i := by
        intro e; rw [e, hI.hole] at h1; exact Bool.noConfusion h1
      have hk : (rd bs ((j0 + 1) % n)).hash < n := by
        rw [hI.home _ hj h1]; exact hash_lt P n _ hn
      have htest := lp_shiftTest_iff n i ((j0 + 1) % n) _ hI.ilt hj hk (Ne.symm hji)
      by_cases h2 : shiftTest i ((j0 + 1) % n) (rd bs ((j0 + 1) % n)).hash = true
      · have hsh := htest.1 h2
        have hil : i < bs.length := by rw [hI.len]; exact hI.ilt
        have hjl : (j0 + 1) % n < bs.length := by rw [hI.len]; exact hj
        have hd := lp_shift_disp n bs i _ hil hjl hji hI.hole h1 hsh
        obtain ⟨f, bs1, hf⟩ := ih _ _ _ (lp_shift_step P n hn bs i _ hI hj h1 hsh) hj (by
          rw [cdist_self]
          have := Nat.mul_le_mul_right (n + 1) (Nat.succ_le_of_lt hd)
          rw [Nat.succ_mul] at this
          omega)
        refine ⟨f + 1, bs1, ?_⟩
        unfold removeLoop
        simp only [h1, h2, Bool.not_true, if_true]
        exact hf
      · have hc := cdist_next n i j0 hI.ilt hj0 hji
        have hlt := cdist_lt n i _ hI.ilt hj
        obtain ⟨f, bs1, hf⟩ := ih bs i _ hI hj (by omega)
        refine ⟨f + 1, bs1, ?_⟩
        unfold removeLoop
        simp only [h1, h2, Bool.not_true]
        exact hf
    · refine ⟨1, bs, ?_⟩
      unfold removeLoop
      simp [h1]

/-- The array right after `remove` marked the slot of the key empty. -/
theorem lp_hole_init (P : Params K) (T : LPHash K V) (hinv : Inv P T) (i : Nat)
    (hi : i < T.numBuckets) (ho : (rd T.buckets i).occupied = true) :
    HoleInv P T.numBuckets
      (wr T.buckets i ⟨(rd T.buckets i).key, (rd T.buckets i).val, (rd T.buckets i).hash, false⟩) i
    ∧ (wr T.buckets i ⟨(rd T.buckets i).key, (rd T.buckets i).val, (rd T.buckets i).hash,
        false⟩).countP (fun e => e.occupied) + 1 = T.buckets.countP (fun e => e.occupied)
    ∧ ∀ k v, MemB (wr T.buckets i ⟨(rd T.buckets i).key, (rd T.buckets i).val,
        (rd T.buckets i).hash, false⟩) k v ↔ (k ≠ (rd T.buckets i).key ∧ MemB T.buckets k v) := by
  have hil : i < T.buckets.length := by rw [hinv.len]; exact hi
  have hrd : ∀ x, rd (wr T.buckets i
      ⟨(rd T.buckets i).key, (rd T.buckets i).val, (rd T.buckets i).hash, false⟩) x
      = if x = i then ⟨(rd T.buckets i).key, (rd T.buckets i).val, (rd T.buckets i).hash, false⟩
        else rd T.buckets x := fun x => rd_wr _ _ _ _ hil
  refine ⟨⟨?_, hi, ?_, ?_, ?_⟩, ?_, ?_⟩
  · rw [length_wr]; exact hinv.len
  · rw [hrd]; simp
  · intro p hp hop
    rw [hrd] at hop ⊢
    by_cases hpi : p = i
    · simp [hpi] at hop
    · simp only [hpi, if_false] at hop ⊢; exact hinv.home p hp hop
  · intro p hp hop x hx hd hxi
    rw [hrd] at hop
    rw [hrd p] at hd ⊢
    rw [hrd x]
    by_cases hpi : p = i
    · simp [hpi] at hop
    · simp only [hpi, hxi, if_false] at hop hd ⊢
      exact hinv.path p hp hop x hx hd
  · have c1 := countP_wr_eq (fun e : HashEntry K V => e.occupied) T.buckets i
      ⟨(rd T.buckets i).key, (rd T.buckets i).val, (rd T.buckets i).hash, false⟩ hil
    simp only [ho, if_true] at c1
    simp at c1
    omega
  · intro k v
    unfold MemB
    simp only [length_wr, hrd]
    constructor
    · rintro ⟨p, hp, hop, hk, hv⟩
      by_cases hpi : p = i
      · simp [hpi] at hop
      · simp only [hpi, if_false] at hop hk hv
        refine ⟨?_, p, hp, hop, hk, hv⟩
        intro hkk
        apply hpi
        exact lp_keys_unique P T hinv p i (by rw [← hinv.len]; exact hp) hi hop ho
          (by rw [hk, hkk])
    · rintro ⟨hne, p, hp, hop, hk, hv⟩
      have hpi : p ≠ i := by rintro rfl; exact hne hk.symm
      exact ⟨p, hp, by simp [hpi, hop], by simp [hpi, hk], by simp [hpi, hv]⟩

theorem lp_remove_mono (P : Params K) (T : LPHash K V) (k : K) (f g : Nat) (T1 : LPHash K V)
    (h : f ≤ g) (h1 : remove P f T k = some T1) : remove P g T k = some T1 := by
  unfold remove at h1 ⊢
  cases hl : lookup P f T k with
  | none => rw [hl] at h1; simp at h1
  | some i =>
    rw [hl] at h1
    rw [lp_lookup_mono P T k f g i h hl]
    simp only [] at h1 ⊢
    split at h1
    · next h2 => rw [if_pos h2]; exact h1
    · next h2 =>
      rw [if_neg h2]
      cases hr : removeLoop T.numBuckets f (wr T.buckets i
          ⟨(rd T.buckets i).key, (rd T.buckets i).val, (rd T.buckets i).hash, false⟩) i i with
      | none => rw [hr] at h1; simp at h1
      | some bs =>
        rw [hr] at h1
        rw [lp_removeLoop_mono _ f g _ _ _ _ h hr]
        exact h1

/-- A `remove` that finished kept the invariant and unbound exactly the key. -/
theorem lp_remove_pc (P : Params K) (T : LPHash K V) (hinv : Inv P T) (k : K) (f : Nat)
    (T1 : LPHash K V) (h : remove P f T k = some T1) :
    Inv P T1 ∧ T1.numBuckets = T.numBuckets ∧ T1.numEntries ≤ T.numEntries ∧
      (∀ k1 v1, (k1, v1) ∈ ents T1 ↔ (k1 ≠ k ∧ (k1, v1) ∈ ents T)) ∧
      ((∀ v, (k, v) ∉ ents T) → T1 = T) := by
  unfold remove at h
  cases hl : lookup P f T k with
  | none => rw [hl] at h; simp at h
  | some i =>
    rw [hl] at h
    obtain ⟨hi, hstop, _⟩ := lp_lookup_spec P T hinv.pos k f i hl
    simp only [] at h
    split at h
    · next h2 =>
      have hno : (rd T.buckets i).occupied = false := by simpa using h2
      simp only [Option.some.injEq] at h
      subst h
      have habs : ∀ v, (k, v) ∉ ents T := by
        intro v hm
        obtain ⟨p, hp, hop, hk, _⟩ := (lp_mem_ents_iff T k v).1 hm
        have := lp_lookup_unique P T hinv p (by rw [← hinv.len]; exact hp) hop f i
          (by rw [hk]; exact hl)
        rw [this, hop] at hno
        exact Bool.noConfusion hno
      refine ⟨hinv, rfl, le_refl _, ?_, fun _ => rfl⟩
      intro k1 v1
      constructor
      · intro hm
        exact ⟨by rintro rfl; exact habs v1 hm, hm⟩
      · exact fun hm => hm.2
    · next h2 =>
      have ho : (rd T.buckets i).occupied = true := by simpa using h2
      have hki := hstop ho
      cases hr : removeLoop T.numBuckets f (wr T.buckets i
          ⟨(rd T.buckets i).key, (rd T.buckets i).val, (rd T.buckets i).hash, false⟩) i i with
      | none => rw [hr] at h; simp at h
      | some bs =>
        rw [hr] at h
        simp only [Option.some.injEq] at h
        subst h
        obtain ⟨hH, hc0, hm0⟩ := lp_hole_init P T hinv i hi ho
        obtain ⟨hA, hc1, hm1⟩ := lp_removeLoop_pc P T.numBuckets hinv.pos f _ i i bs hH
          (by intro y _ h0 h3; rw [cdist_self] at h3; omega) hi hr
        have hcnt := hinv.cnt
        refine ⟨⟨hA.len, hinv.pos, ?_, hA.home, hA.path⟩, rfl, ?_, ?_, ?_⟩
        · show ((bs.countP _ : Nat) : Int) ≤ T.numEntries - 1
          omega
        · show T.numEntries - 1 ≤ T.numEntries
          omega
        · intro k1 v1
          rw [lp_mem_ents_iff, lp_mem_ents_iff]
          have := hm1 k1 v1
          unfold MemB at this hm0
          rw [this, hm0 k1 v1, hki]
        · intro habs
          exact absurd ((lp_mem_ents_iff T k _).2
            ⟨i, by rw [hinv.len]; exact hi, ho, hki, rfl⟩) (habs _)

/-- The `remove` of a live key finishes; so does every `remove` when the array has a free
slot. -/
theorem lp_remove_total (P : Params K) (T : LPHash K V) (hinv : Inv P T) (k : K)
    (h : (∃ v, (k, v) ∈ ents T) ∨ T.buckets.countP (fun e => e.occupied) < T.numBuckets) :
    ∃ f T1, remove P f T k = some T1 := by
  have hlk : ∃ i, lookup P T.numBuckets T k = some i := by
    rcases h with ⟨v, hm⟩ | hfree
    · obtain ⟨p, hp, hop, hk, _⟩ := (lp_mem_ents_iff T k v).1 hm
      refine ⟨p, ?_⟩
      rw [← hk]
      exact lp_lookup_occupied P T hinv p (by rw [← hinv.len]; exact hp) hop _ (le_refl _)
    · exact lp_lookup_total P T hinv.pos hinv.len hfree k
  obtain ⟨i, hl⟩ := hlk
  obtain ⟨hi, _, _⟩ := lp_lookup_spec P T hinv.pos k _ i hl
  by_cases ho : (rd T.buckets i).occupied = true
  · obtain ⟨hH, _, _⟩ := lp_hole_init P T hinv i hi ho
    obtain ⟨f, bs, hf⟩ := lp_removeLoop_total P T.numBuckets hinv.pos _ _ i i hH hi (le_refl _)
    refine ⟨max f T.numBuckets, ⟨T.numEntries - 1, T.numBuckets, bs⟩, ?_⟩
    unfold remove
    rw [lp_lookup_mono P T k _ _ i (le_max_right _ _) hl]
    simp only [ho, Bool.not_true]
    rw [lp_removeLoop_mono _ f _ _ _ _ _ (le_max_left _ _) hf]
    rfl
  · refine ⟨T.numBuckets, T, ?_⟩
    unfold remove
    rw [hl]
    simp [ho]

/-- When every slot is occupied by another key, `lookup` never finishes. -/
theorem lp_lookup_diverges (P : Params K) (T : LPHash K V) (hpos : 1 ≤ T.numBuckets) (k : K)
    (hall : ∀ x, x < T.numBuckets → skip T.buckets k x = true) (f : Nat) :
    lookup P f T k = none := by
  unfold lookup
  rw [lp_lookupLoop_eq]
  exact probeSearch_diverges _ _ hpos hall f _ (hash_lt P T.numBuckets k hpos)

end LPHash

/-! ## RHHash -/

theorem probeLength_eq_cdist (n a b : Nat) (ha : a ≤ b + n) :
    probeLength n a b = (cdist n a b : Int) := by
  unfold probeLength cdist
  split_ifs <;> omega

theorem cdist_next_of_lt (n a b : Nat) (ha : a < n) (hb : b < n) (h : cdist n a b + 1 < n) :
    cdist n a ((b + 1) % n) = cdist n a b + 1 := by
  rw [next_index n b hb]
  simp only [cdist] at h ⊢
  split_ifs at h ⊢ <;> omega

theorem cdist_triangle (n a b c : Nat) (ha : a < n) (hb : b < n) (hc : c < n)
    (h : cdist n a b < cdist n a c) : cdist n a c = cdist n a b + cdist n b c := by
  simp only [cdist] at h ⊢
  split_ifs at h ⊢ <;> omega

namespace RHHash

variable {K V : Type} [DecidableEq K] [Inhabited K] [Inhabited V]

theorem rh_put_eq_sys (P : Params K) :
    ∀ (f : Nat) (T : RHHash K V) (k : K) (v : V), put P f T k v = (sys P).put P f T k v := by
  intro f
  induction f with
  | zero => intro T k v; rfl
  | succ f ih =>
    intro T k v
    unfold put Sys.put
    rw [replay_eq_replayL]
    have : (put P f : RHHash K V → K → V → Option (RHHash K V)) = (sys P).put P f := by
      funext T k v; exact ih T k v
    rw [this]
    simp only [sys, ents]
    split
    · generalize replayL _ _ (mk0 (T.numBuckets * 2) : RHHash K V) = r
      cases r <;> rfl
    · rfl

theorem rh_resize_eq_sys (P : Params K) (f n : Nat) (T : RHHash K V) :
    resize P f n T = (sys P).resize P f n T := by
  unfold resize Sys.resize
  rw [replay_eq_replayL]
  have : (put P f : RHHash K V → K → V → Option (RHHash K V)) = (sys P).put P f := by
    funext T k v; exact rh_put_eq_sys P f T k v
  rw [this]
  rfl

theorem rh_mem_ents_iff (T : RHHash K V) (k : K) (v : V) :
    (k, v) ∈ ents T ↔ MemB T.buckets k v := by
  unfold ents MemB
  rw [mem_filter_map_iff]
  simp only [Prod.mk.injEq]

theorem rh_getLoop_eq_locate (T : RHHash K V) (key : K) :
    ∀ (f idx : Nat) (cur : Int), getLoop T key f idx cur
      = (locate T key f idx cur).map (fun r => r.map (fun i => (rd T.buckets i).val)) := by
  intro f
  induction f with
  | zero => intro idx cur; rfl
  | succ f ih =>
    intro idx cur
    unfold getLoop locate
    simp only []
    split
    · rfl
    · split
      · rfl
      · split
        · rfl
        · exact ih _ _

/-- The probe of `get` and `remove` reaches every occupied slot from the home index of its
key: the early-termination test never fires on the way. -/
theorem rh_locate_path (P : Params K) (T : RHHash K V) (hinv : Inv P T) (p : Nat)
    (hp : p < T.numBuckets) (ho : (rd T.buckets p).occupied = true) :
    ∀ (f idx : Nat), idx < T.numBuckets →
      cdist T.numBuckets (rd T.buckets p).hash idx + f > cdist T.numBuckets (rd T.buckets p).hash p →
      cdist T.numBuckets (rd T.buckets p).hash idx ≤ cdist T.numBuckets (rd T.buckets p).hash p →
      locate T (rd T.buckets p).key f idx (cdist T.numBuckets (rd T.buckets p).hash idx : Nat)
        = some (some p) := by
  have hh : (rd T.buckets p).hash < T.numBuckets := by
    rw [hinv.arr.home p hp ho]; exact hash_lt P _ _ hinv.pos
  intro f
  induction f with
  | zero => intro idx _ h1 h2; omega
  | succ f ih =>
    intro idx hidx h1 h2
    unfold locate
    simp only []
    by_cases hd : cdist T.numBuckets (rd T.buckets p).hash idx
        = cdist T.numBuckets (rd T.buckets p).hash p
    · have : idx = p := cdist_inj _ _ _ _ hh hidx hp hd
      subst this
      have hpl := probeLength_eq_cdist T.numBuckets (rd T.buckets idx).hash idx (by omega)
      simp only [ho, Bool.not_true, Bool.false_eq_true, if_false, hpl, gt_iff_lt, lt_self_iff_false,
        if_true]
    · have hlt : cdist T.numBuckets (rd T.buckets p).hash idx
          < cdist T.numBuckets (rd T.buckets p).hash p := by omega
      obtain ⟨hox, hkx, hord⟩ := hinv.arr.path p hp ho idx hidx hlt
      have hhx : (rd T.buckets idx).hash < T.numBuckets := by
        rw [hinv.arr.home idx hidx hox]; exact hash_lt P _ _ hinv.pos
      have hpl := probeLength_eq_cdist T.numBuckets (rd T.buckets idx).hash idx (by omega)
      have hnot : ¬ ((cdist T.numBuckets (rd T.buckets p).hash idx : Nat) : Int)
          > (cdist T.numBuckets (rd T.buckets idx).hash idx : Int) := by omega
      simp only [hox, Bool.not_true, Bool.false_eq_true, if_false, hpl, hnot, hkx]
      have hpl2 := cdist_lt T.numBuckets _ p hh hp
      have hnx := cdist_next_of_lt T.numBuckets _ idx hh hidx (by omega)
      have := ih ((idx + 1) % T.numBuckets) (next_index_lt _ _ (by omega)) (by omega) (by omega)
      rw [hnx] at this
      push_cast at this
      exact this

theorem rh_locate_present (P : Params K) (T : RHHash K V) (hinv : Inv P T) (p : Nat)
    (hp : p < T.numBuckets) (ho : (rd T.buckets p).occupied = true) (f : Nat)
    (hf : T.numBuckets ≤ f) :
    locate T (rd T.buckets p).key f (hash P T.numBuckets (rd T.buckets p).key) 0
      = some (some p) := by
  have hh : (rd T.buckets p).hash < T.numBuckets := by
    rw [hinv.arr.home p hp ho]; exact hash_lt P _ _ hinv.pos
  have := rh_locate_path P T hinv p hp ho f (rd T.buckets p).hash hh
    (by have := cdist_lt T.numBuckets _ p hh hp; rw [cdist_self]; omega)
    (by rw [cdist_self]; omega)
  rw [cdist_self, hinv.arr.home p hp ho] at this
  exact this

theorem rh_locate_mono (T : RHHash K V) (key : K) :
    ∀ (f g idx : Nat) (cur : Int) (r : Option Nat), f ≤ g →
      locate T key f idx cur = some r → locate T key g idx cur = some r := by
  intro f
  induction f with
  | zero => intro g idx cur r _ h; simp [locate] at h
  | succ f ih =>
    intro g idx cur r hle h
    obtain ⟨g, rfl⟩ : ∃ g1, g = g1 + 1 := ⟨g - 1, by omega⟩
    unfold locate at h ⊢
    simp only [] at h ⊢
    split at h
    · next h1 => rw [if_pos h1]; exact h
    · next h1 =>
      rw [if_neg h1]
      split at h
      · next h2 => rw [if_pos h2]; exact h
      · next h2 =>
        rw [if_neg h2]
        split at h
        · next h3 => rw [if_pos h3]; exact h
        · next h3 => rw [if_neg h3]; exact ih g _ _ r (by omega) h

theorem rh_locate_sound (T : RHHash K V) (hpos : 1 ≤ T.numBuckets) (key : K) :
    ∀ (f idx : Nat) (cur : Int) (i : Nat), idx < T.numBuckets →
      locate T key f idx cur = some (some i) →
      i < T.numBuckets ∧ (rd T.buckets i).occupied = true ∧ (rd T.buckets i).key = key := by
  intro f
  induction f with
  | zero => intro idx cur i _ h; simp [locate] at h
  | succ f ih =>
    intro idx cur i hidx h
    unfold locate at h
    simp only [] at h
    split at h
    · simp at h
    · next h1 =>
      split at h
      · simp at h
      · split at h
        · next h3 =>
          simp only [Option.some.injEq] at h
          subst h
          exact ⟨hidx, by simpa using h1, h3⟩
        · exact ih _ _ i (next_index_lt _ _ (by omega)) h

/-- The probe of `get` and `remove` stops after at most `numBuckets + 1` slots, on any
array whose stored home indices are below `numBuckets`. -/
theorem rh_locate_total (T : RHHash K V) (key : K)
    (hhome : ∀ p, p < T.numBuckets → (rd T.buckets p).occupied = true →
      (rd T.buckets p).hash < T.numBuckets) :
    ∀ (f idx : Nat) (cur : Int), idx < T.numBuckets → (T.numBuckets : Int) ≤ cur + f →
      ∃ r, locate T key (f + 1) idx cur = some r := by
  intro f
  induction f with
  | zero =>
    intro idx cur hidx hc
    unfold locate
    simp only []
    by_cases ho : (rd T.buckets idx).occupied = true
    · have hh := hhome idx hidx ho
      have hpl := probeLength_eq_cdist T.numBuckets (rd T.buckets idx).hash idx (by omega)
      have := cdist_lt T.numBuckets _ idx hh hidx
      have hgt : cur > probeLength T.numBuckets (rd T.buckets idx).hash idx := by
        rw [hpl]; omega
      simp [ho, hgt]
    · simp [ho]
  | succ f ih =>
    intro idx cur hidx hc
    unfold locate
    simp only []
    split
    · exact ⟨_, rfl⟩
    · split
      · exact ⟨_, rfl⟩
      · split
        · exact ⟨_, rfl⟩
        · exact ih _ _ (next_index_lt _ _ (by omega)) (by push_cast at hc ⊢; omega)

/-! ### `get` -/

theorem rh_get_eq_locate (P : Params K) (T : RHHash K V) (k : K) (f : Nat) :
    get P f T k = (locate T k f (hash P T.numBuckets k) 0).map
      (fun r => r.map (fun i => (rd T.buckets i).val)) := by
  unfold get
  exact rh_getLoop_eq_locate T k f _ 0

theorem rh_get_mono (P : Params K) (T : RHHash K V) (k : K) (f g : Nat) (r : Option V)
    (h : f ≤ g) (h1 : get P f T k = some r) : get P g T k = some r := by
  rw [rh_get_eq_locate] at h1 ⊢
  cases hl : locate T k f (hash P T.numBuckets k) 0 with
  | none => rw [hl] at h1; simp at h1
  | some r1 =>
    rw [hl] at h1
    rw [rh_locate_mono T k f g _ _ r1 h hl]
    exact h1

/-- Under the invariant `get` returns the value of every live key. -/
theorem rh_get_present (P : Params K) (T : RHHash K V) (hinv : Inv P T) (k : K) (v : V)
    (hm : (k, v) ∈ ents T) (f : Nat) (hf : T.numBuckets ≤ f) :
    get P f T k = some (some v) := by
  obtain ⟨p, hp, ho, hk, hv⟩ := (rh_mem_ents_iff T k v).1 hm
  have hl := rh_locate_present P T hinv p (by rw [← hinv.arr.len]; exact hp) ho f hf
  rw [hk] at hl
  rw [rh_get_eq_locate, hl]
  simp [hv]

theorem rh_get_sound (P : Params K) (T : RHHash K V) (hinv : Inv P T) (k : K) (v : V) (f : Nat)
    (h : get P f T k = some (some v)) : (k, v) ∈ ents T := by
  rw [rh_get_eq_locate] at h
  cases hl : locate T k f (hash P T.numBuckets k) 0 with
  | none => rw [hl] at h; simp at h
  | some r =>
    rw [hl] at h
    cases r with
    | none => simp at h
    | some i =>
      simp only [Option.map_some', Option.some.injEq] at h
      obtain ⟨hi, ho, hk⟩ := rh_locate_sound T hinv.pos k f _ 0 i (hash_lt P _ k hinv.pos) hl
      exact (rh_mem_ents_iff T k v).2 ⟨i, by rw [hinv.arr.len]; exact hi, ho, hk, h⟩

theorem rh_get_notfound (P : Params K) (T : RHHash K V) (hinv : Inv P T) (k : K) (f : Nat)
    (h : get P f T k = some none) : ∀ v, (k, v) ∉ ents T := by
  intro v hm
  have := rh_get_present P T hinv k v hm (max f T.numBuckets) (le_max_right _ _)
  rw [rh_get_mono P T k f _ none (le_max_left _ _) h] at this
  simp at this

/-- Under the invariant `get` always finishes within `numBuckets + 1` steps. -/
theorem rh_get_total (P : Params K) (T : RHHash K V) (hinv : Inv P T) (k : K) :
    ∃ r, get P (T.numBuckets + 1) T k = some r := by
  obtain ⟨r, hr⟩ := rh_locate_total T k
    (fun p hp ho => by rw [hinv.arr.home p hp ho]; exact hash_lt P _ _ hinv.pos)
    T.numBuckets (hash P T.numBuckets k) 0 (hash_lt P _ k hinv.pos) (by omega)
  rw [rh_get_eq_locate, hr]
  exact ⟨_, rfl⟩

/-- Under the invariant `get` of a key that is not live throws. -/
theorem rh_get_absent (P : Params K) (T : RHHash K V) (hinv : Inv P T) (k : K)
    (hk : ∀ v, (k, v) ∉ ents T) : get P (T.numBuckets + 1) T k = some none := by
  obtain ⟨r, hr⟩ := rh_get_total P T hinv k
  cases r with
  | none => exact hr
  | some v => exact absurd (rh_get_sound P T hinv k v _ hr) (hk v)

/-! ### `put` -/

theorem rh_arr_keys_unique (P : Params K) (n : Nat) (hn : 1 ≤ n) (bs : List (HashEntry K V))
    (hA : ArrOk P n bs) (a b : Nat) (ha : a < n) (hb : b < n)
    (hoa : (rd bs a).occupied = true) (hob : (rd bs b).occupied = true)
    (hk : (rd bs a).key = (rd bs b).key) : a = b := by
  have hha := hA.home a ha hoa
  have hhb := hA.home b hb hob
  have hh : (rd bs b).hash < n := by rw [hhb]; exact hash_lt P n _ hn
  have hab : (rd bs a).hash = (rd bs b).hash := by rw [hha, hhb, hk]
  rcases Nat.lt_trichotomy (cdist n (rd bs b).hash a) (cdist n (rd bs b).hash b) with h | h | h
  · exact absurd hk (hA.path b hb hob a ha h).2.1
  · exact cdist_inj n _ a b hh ha hb h
  · rw [← hab] at h
    exact absurd hk.symm (hA.path a ha hoa b hb h).2.1

/-- Where the carried key can be in the array, given that the slots probed so far hold
other keys: at the current index or beyond it, and then the current slot is occupied by
another key whose probe length is at least the current one. -/
theorem rh_carried_key_pos (P : Params K) (n : Nat) (hn : 1 ≤ n) (bs : List (HashEntry K V))
    (hA : ArrOk P n bs) (key : K) (idx : Nat) (hidx : idx < n)
    (hpre : ∀ x, x < n → cdist n (hash P n key) x < cdist n (hash P n key) idx →
      (rd bs x).occupied = true ∧ (rd bs x).key ≠ key ∧
        cdist n (hash P n key) x ≤ cdist n (rd bs x).hash x)
    (p : Nat) (hp : p < n) (hop : (rd bs p).occupied = true) (hkp : (rd bs p).key = key) :
    p = idx ∨ ((rd bs idx).occupied = true ∧ (rd bs idx).key ≠ key ∧
      cdist n (hash P n key) idx ≤ cdist n (rd bs idx).hash idx) := by
  have hhp : (rd bs p).hash = hash P n key := by rw [hA.home p hp hop, hkp]
  have hh := hash_lt P n key hn
  rcases Nat.lt_trichotomy (cdist n (hash P n key) p) (cdist n (hash P n key) idx) with h | h | h
  · exact absurd hkp (hpre p hp h).2.1
  · exact Or.inl (cdist_inj n _ p idx hh hp hidx h)
  · right
    rw [← hhp] at h
    obtain ⟨a, b, c⟩ := hA.path p hp hop idx hidx h
    rw [hkp] at b
    rw [hhp] at c
    exact ⟨a, b, c⟩

/-- The final writes of `put`, into a slot that is empty or holds the key. -/
theorem rh_put_write_ok (P : Params K) (n : Nat) (hn : 1 ≤ n) (bs : List (HashEntry K V))
    (hA : ArrOk P n bs) (key : K) (val : V) (idx : Nat) (hidx : idx < n)
    (hpre : ∀ x, x < n → cdist n (hash P n key) x < cdist n (hash P n key) idx →
      (rd bs x).occupied = true ∧ (rd bs x).key ≠ key ∧
        cdist n (hash P n key) x ≤ cdist n (rd bs x).hash x)
    (hstop : (rd bs idx).occupied = true → (rd bs idx).key = key) :
    ArrOk P n (wr bs idx ⟨key, val, hash P n key, true⟩) ∧
      (∀ k1 v1, MemB (wr bs idx ⟨key, val, hash P n key, true⟩) k1 v1 ↔
        (k1 = key ∧ v1 = val) ∨ (k1 ≠ key ∧ MemB bs k1 v1)) ∧
      (wr bs idx ⟨key, val, hash P n key, true⟩).countP (fun e => e.occupied)
        ≤ bs.countP (fun e => e.occupied) + 1 := by
  have hil : idx < bs.length := by rw [hA.len]; exact hidx
  have hrd : ∀ x, rd (wr bs idx ⟨key, val, hash P n key, true⟩) x
      = if x = idx then ⟨key, val, hash P n key, true⟩ else rd bs x :=
    fun x => rd_wr _ _ _ _ hil
  refine ⟨⟨?_, ?_, ?_⟩, ?_, countP_wr_le _ _ _ _⟩
  · rw [length_wr]; exact hA.len
  · intro p hp ho
    rw [hrd] at ho ⊢
    by_cases hpi : p = idx
    · simp [hpi]
    · simp only [hpi, if_false] at ho ⊢
      exact hA.home p hp ho
  · intro p hp ho x hx hd
    rw [hrd] at ho
    rw [hrd p] at hd ⊢
    rw [hrd x]
    by_cases hpi : p = idx
    · simp only [hpi, if_true] at hd ⊢
      have hxi : x ≠ idx := by rintro rfl; omega
      simp only [hxi, if_false]
      exact hpre x hx hd
    · simp only [hpi, if_false] at ho hd ⊢
      obtain ⟨h1, h2, h3⟩ := hA.path p hp ho x hx hd
      by_cases hxi : x = idx
      · subst hxi
        simp only [if_true]
        have hk := hstop h1
        refine ⟨trivial, by rw [← hk]; exact h2, ?_⟩
        rw [hA.home x hx h1, hk] at h3
        exact h3
      · simp only [hxi, if_false]
        exact ⟨h1, h2, h3⟩
  · intro k1 v1
    unfold MemB
    simp only [length_wr, hrd]
    constructor
    · rintro ⟨p, hp, ho, hk, hv⟩
      by_cases hpi : p = idx
      · simp only [hpi, if_true] at hk hv
        exact Or.inl ⟨hk.symm, hv.symm⟩
      · simp only [hpi, if_false] at ho hk hv
        refine Or.inr ⟨?_, p, hp, ho, hk, hv⟩
        intro hkk
        rcases rh_carried_key_pos P n hn bs hA key idx hidx hpre p (by rw [← hA.len]; exact hp) ho
          (by rw [hk, hkk]) with h | ⟨h1, h2, _⟩
        · exact hpi h
        · exact h2 (hstop h1)
    · rintro (⟨hk, hv⟩ | ⟨hne, p, hp, ho, hk, hv⟩)
      · exact ⟨idx, hil, by simp, by simp [hk], by simp [hv]⟩
      · have hpi : p ≠ idx := by
          rintro rfl
          exact hne (by rw [← hk]; exact hstop ho)
        exact ⟨p, hp, by simpa [hpi] using ho, by simpa [hpi] using hk,
          by simpa [hpi] using hv⟩

/-- A swap of `put`: the carried entry takes the slot of a resident with a smaller probe
length. -/
theorem rh_put_swap_ok (P : Params K) (n : Nat) (hn : 1 ≤ n) (bs : List (HashEntry K V))
    (hA : ArrOk P n bs) (key : K) (val : V) (idx : Nat) (hidx : idx < n)
    (hpre : ∀ x, x < n → cdist n (hash P n key) x < cdist n (hash P n key) idx →
      (rd bs x).occupied = true ∧ (rd bs x).key ≠ key ∧
        cdist n (hash P n key) x ≤ cdist n (rd bs x).hash x)
    (ho : (rd bs idx).occupied = true) (hne : (rd bs idx).key ≠ key)
    (hlt : cdist n (rd bs idx).hash idx < cdist n (hash P n key) idx) :
    ArrOk P n (wr bs idx ⟨key, val, hash P n key, true⟩) ∧
      (∀ v1, ¬ MemB bs key v1) ∧
      (∀ k1 v1, MemB (wr bs idx ⟨key, val, hash P n key, true⟩) k1 v1 ↔
        (k1 = key ∧ v1 = val) ∨ (k1 ≠ (rd bs idx).key ∧ MemB bs k1 v1)) ∧
      (wr bs idx ⟨key, val, hash P n key, true⟩).countP (fun e => e.occupied)
        = bs.countP (fun e => e.occupied) ∧
      (∀ x, x < n → cdist n (rd bs idx).hash x ≤ cdist n (rd bs idx).hash idx →
        (rd (wr bs idx ⟨key, val, hash P n key, true⟩) x).occupied = true ∧
        (rd (wr bs idx ⟨key, val, hash P n key, true⟩) x).key ≠ (rd bs idx).key ∧
        cdist n (rd bs idx).hash x
          ≤ cdist n (rd (wr bs idx ⟨key, val, hash P n key, true⟩) x).hash x) := by
  have hil : idx < bs.length := by rw [hA.len]; exact hidx
  have hrd : ∀ x, rd (wr bs idx ⟨key, val, hash P n key, true⟩) x
      = if x = idx then ⟨key, val, hash P n key, true⟩ else rd bs x :=
    fun x => rd_wr _ _ _ _ hil
  have habs : ∀ p, p < n → (rd bs p).occupied = true → (rd bs p).key ≠ key := by
    intro p hp hop hkp
    rcases rh_carried_key_pos P n hn bs hA key idx hidx hpre p hp hop hkp with h | ⟨_, _, h3⟩
    · rw [h] at hkp; exact hne hkp
    · omega
  have hhi : (rd bs idx).hash < n := by rw [hA.home idx hidx ho]; exact hash_lt P n _ hn
  refine ⟨⟨?_, ?_, ?_⟩, ?_, ?_, ?_, ?_⟩
  · rw [length_wr]; exact hA.len
  · intro p hp hop
    rw [hrd] at hop ⊢
    by_cases hpi : p = idx
    · simp [hpi]
    · simp only [hpi, if_false] at hop ⊢
      exact hA.home p hp hop
  · intro p hp hop x hx hd
    rw [hrd] at hop
    rw [hrd p] at hd ⊢
    rw [hrd x]
    by_cases hpi : p = idx
    · simp only [hpi, if_true] at hd ⊢
      have hxi : x ≠ idx := by rintro rfl; omega
      simp only [hxi, if_false]
      exact hpre x hx hd
    · simp only [hpi, if_false] at hop hd ⊢
      obtain ⟨h1, h2, h3⟩ := hA.path p hp hop x hx hd
      by_cases hxi : x = idx
      · subst hxi
        simp only [if_true]
        exact ⟨trivial, fun hk => habs p hp hop hk.symm, by omega⟩
      · simp only [hxi, if_false]
        exact ⟨h1, h2, h3⟩
  · rintro v1 ⟨p, hp, hop, hk, _⟩
    exact habs p (by rw [← hA.len]; exact hp) hop hk
  · intro k1 v1
    unfold MemB
    simp only [length_wr, hrd]
    constructor
    · rintro ⟨p, hp, hop, hk, hv⟩
      by_cases hpi : p = idx
      · simp only [hpi, if_true] at hk hv
        exact Or.inl ⟨hk.symm, hv.symm⟩
      · simp only [hpi, if_false] at hop hk hv
        refine Or.inr ⟨?_, p, hp, hop, hk, hv⟩
        intro hkk
        exact hpi (rh_arr_keys_unique P n hn bs hA p idx (by rw [← hA.len]; exact hp) hidx hop ho
          (by rw [hk, hkk]))
    · rintro (⟨hk, hv⟩ | ⟨hne1, p, hp, hop, hk, hv⟩)
      · exact ⟨idx, hil, by simp, by simp [hk], by simp [hv]⟩
      · have hpi : p ≠ idx := by rintro rfl; exact hne1 hk.symm
        exact ⟨p, hp, by simpa [hpi] using hop, by simpa [hpi] using hk,
          by simpa [hpi] using hv⟩
  · have c1 := countP_wr_eq (fun e : HashEntry K V => e.occupied) bs idx
      ⟨key, val, hash P n key, true⟩ hil
    simp only [ho, if_true] at c1
    omega
  · intro x hx hle
    rw [hrd]
    by_cases hxi : x = idx
    · subst hxi
      simp only [if_true]
      exact ⟨trivial, fun hk => hne hk.symm, by omega⟩
    · simp only [hxi, if_false]
      have hlt2 : cdist n (rd bs idx).hash x < cdist n (rd bs idx).hash idx := by
        rcases Nat.lt_or_ge (cdist n (rd bs idx).hash x) (cdist n (rd bs idx).hash idx) with h | h
        · exact h
        · exact absurd (cdist_inj n _ x idx hhi hx hidx (by omega)) hxi
      exact hA.path idx hidx ho x hx hlt2

/-- The loop of `put` on an array with a free slot `f0`: it ends within the distance to
that slot, keeps the Robin Hood invariant and binds the key. -/
theorem rh_putLoop_ok (P : Params K) (n : Nat) (hn : 1 ≤ n) :
    ∀ (f : Nat) (bs : List (HashEntry K V)) (key : K) (val : V) (hsh idx : Nat) (cur : Int)
      (f0 : Nat), ArrOk P n bs → hsh = hash P n key → idx < n →
      cur = ((cdist n hsh idx : Nat) : Int) →
      (∀ x, x < n → cdist n hsh x < cdist n hsh idx →
        (rd bs x).occupied = true ∧ (rd bs x).key ≠ key ∧
          cdist n hsh x ≤ cdist n (rd bs x).hash x) →
      f0 < n → (rd bs f0).occupied = false → cdist n idx f0 < f →
      ∃ bs1, putLoop n f bs key val hsh idx cur = some bs1 ∧ ArrOk P n bs1 ∧
        (∀ k1 v1, MemB bs1 k1 v1 ↔ (k1 = key ∧ v1 = val) ∨ (k1 ≠ key ∧ MemB bs k1 v1)) ∧
        bs1.countP (fun e => e.occupied) ≤ bs.countP (fun e => e.occupied) + 1 := by
  intro f
  induction f with
  | zero => intro bs key val hsh idx cur f0 _ _ _ _ _ _ _ h; omega
  | succ f ih =>
    intro bs key val hsh idx cur f0 hA hh hidx hcur hpre hf0 hfree hfuel
    subst hh
    subst hcur
    have hhk := hash_lt P n key hn
    unfold putLoop
    simp only []
    by_cases hc : ((rd bs idx).occupied && decide ((rd bs idx).key ≠ key)) = true
    · rw [if_pos hc]
      simp only [Bool.and_eq_true, decide_eq_true_eq] at hc
      obtain ⟨ho, hne⟩ := hc
      have hhi : (rd bs idx).hash < n := by rw [hA.home idx hidx ho]; exact hash_lt P n _ hn
      have hpl := probeLength_eq_cdist n (rd bs idx).hash idx (by omega)
      have hf0i : f0 ≠ idx := by rintro rfl; rw [hfree] at ho; exact Bool.noConfusion ho
      have hfuel1 : cdist n ((idx + 1) % n) f0 < f := by
        have := cdist_from_next n idx f0 hidx hf0 hf0i; omega
      have hnl := next_index_lt n idx (by omega)
      rw [hpl]
      by_cases hsw : ((cdist n (rd bs idx).hash idx : Nat) : Int)
          < ((cdist n (hash P n key) idx : Nat) : Int)
      · rw [if_pos hsw, ho]
        obtain ⟨hA2, habs, hmem2, hcnt2, hpre2⟩ := rh_put_swap_ok P n hn bs hA key val idx hidx
          hpre ho hne (by omega)
        have hil : idx < bs.length := by rw [hA.len]; exact hidx
        have hfree2 : (rd (wr bs idx ⟨key, val, hash P n key, true⟩) f0).occupied = false := by
          rw [rd_wr_ne _ _ _ _ (Ne.symm hf0i)]; exact hfree
        have hex : cdist n (rd bs idx).hash idx + 1 < n := by
          have h1 := cdist_lt n _ f0 hhi hf0
          rcases Nat.lt_or_ge (cdist n (rd bs idx).hash idx) (cdist n (rd bs idx).hash f0)
            with h | h
          · omega
          · have := (hpre2 f0 hf0 h).1
            rw [hfree2] at this
            exact Bool.noConfusion this
        have hnx := cdist_next_of_lt n _ idx hhi hidx hex
        obtain ⟨bs1, hr, hA1, hmem1, hcnt1⟩ := ih (wr bs idx ⟨key, val, hash P n key, true⟩)
          (rd bs idx).key (rd bs idx).val (rd bs idx).hash ((idx + 1) % n)
          (((cdist n (rd bs idx).hash idx : Nat) : Int) + 1) f0 hA2 (hA.home idx hidx ho) hnl
          (by rw [hnx]; push_cast; rfl)
          (by intro x hx hd; rw [hnx] at hd; exact hpre2 x hx (by omega))
          hf0 hfree2 hfuel1
        refine ⟨bs1, hr, hA1, ?_, by omega⟩
        have hF3 : MemB bs (rd bs idx).key (rd bs idx).val := ⟨idx, hil, ho, rfl, rfl⟩
        have hF4 : ∀ v1, MemB bs (rd bs idx).key v1 → v1 = (rd bs idx).val := by
          rintro v1 ⟨p, hp, hop, hk, hv⟩
          have := rh_arr_keys_unique P n hn bs hA p idx (by rw [← hA.len]; exact hp) hidx hop ho hk
          rw [← hv, this]
        intro k1 v1
        rw [hmem1 k1 v1, hmem2 k1 v1]
        constructor
        · rintro (⟨a, b⟩ | ⟨a, (⟨b, c⟩ | ⟨_, c⟩)⟩)
          · right; rw [a, b]; exact ⟨hne, hF3⟩
          · exact Or.inl ⟨b, c⟩
          · right
            refine ⟨?_, c⟩
            rintro rfl
            exact habs v1 c
        · rintro (⟨a, b⟩ | ⟨a, c⟩)
          · right
            refine ⟨?_, Or.inl ⟨a, b⟩⟩
            rw [a]; exact fun h => hne h.symm
          · by_cases hk : k1 = (rd bs idx).key
            · left
              rw [hk] at c
              exact ⟨hk, hF4 v1 c⟩
            · exact Or.inr ⟨hk, Or.inr ⟨hk, c⟩⟩
      · rw [if_neg hsw]
        have hex : cdist n (hash P n key) idx + 1 < n := by
          have h1 := cdist_lt n _ f0 hhk hf0
          rcases Nat.lt_trichotomy (cdist n (hash P n key) f0) (cdist n (hash P n key) idx)
            with h | h | h
          · have := (hpre f0 hf0 h).1
            rw [hfree] at this
            exact Bool.noConfusion this
          · exact absurd (cdist_inj n _ f0 idx hhk hf0 hidx h) hf0i
          · omega
        have hnx := cdist_next_of_lt n _ idx hhk hidx hex
        obtain ⟨bs1, hr, hA1, hmem1, hcnt1⟩ := ih bs key val (hash P n key) ((idx + 1) % n)
          (((cdist n (hash P n key) idx : Nat) : Int) + 1) f0 hA rfl hnl
          (by rw [hnx]; push_cast; rfl)
          (by
            intro x hx hd
            rw [hnx] at hd
            rcases Nat.lt_or_ge (cdist n (hash P n key) x) (cdist n (hash P n key) idx)
              with h | h
            · exact hpre x hx h
            · have hxi : x = idx := cdist_inj n _ x idx hhk hx hidx (by omega)
              subst hxi
              exact ⟨ho, hne, by omega⟩)
          hf0 hfree hfuel1
        exact ⟨bs1, hr, hA1, hmem1, hcnt1⟩
    · rw [if_neg hc]
      have hstop : (rd bs idx).occupied = true → (rd bs idx).key = key := by
        intro ho
        by_contra hne
        exact hc (by simp [ho, hne])
      obtain ⟨a, b, c⟩ := rh_put_write_ok P n hn bs hA key val idx hidx hpre hstop
      exact ⟨_, rfl, a, b, c⟩

theorem rh_putLoop_mono (n : Nat) :
    ∀ (f g : Nat) (bs : List (HashEntry K V)) (key : K) (val : V) (hsh idx : Nat) (cur : Int)
      (bs1 : List (HashEntry K V)), f ≤ g →
      putLoop n f bs key val hsh idx cur = some bs1 →
      putLoop n g bs key val hsh idx cur = some bs1 := by
  intro f
  induction f with
  | zero => intro g bs key val hsh idx cur bs1 _ h; simp [putLoop] at h
  | succ f ih =>
    intro g bs key val hsh idx cur bs1 hle h
    obtain ⟨g, rfl⟩ : ∃ g1, g = g1 + 1 := ⟨g - 1, by omega⟩
    unfold putLoop at h ⊢
    simp only [] at h ⊢
    split at h
    · next h1 =>
      rw [if_pos h1]
      split at h
      · next h2 => rw [if_pos h2]; exact ih g _ _ _ _ _ _ _ (by omega) h
      · next h2 => rw [if_neg h2]; exact ih g _ _ _ _ _ _ _ (by omega) h
    · next h1 => rw [if_neg h1]; exact h

theorem rh_putEntry_mono (P : Params K) (f g : Nat) (T : RHHash K V) (k : K) (v : V)
    (T1 : RHHash K V) (h : f ≤ g) (h1 : putEntry P f T k v = some T1) :
    putEntry P g T k v = some T1 := by
  unfold putEntry at h1 ⊢
  cases hl : putLoop T.numBuckets f T.buckets k v (hash P T.numBuckets k)
      (hash P T.numBuckets k) 0 with
  | none => rw [hl] at h1; simp at h1
  | some bs =>
    rw [hl] at h1
    rw [rh_putLoop_mono _ f g _ _ _ _ _ _ _ h hl]
    exact h1

/-- The write of `put` on a table with a free slot. -/
theorem rh_putEntry_ok (P : Params K) (T : RHHash K V) (k : K) (v : V) (hinv : Inv P T)
    (hlt : T.numEntries < T.numBuckets) :
    ∃ T1, putEntry P T.numBuckets T k v = some T1 ∧ Inv P T1 ∧
      T1.numEntries = T.numEntries + 1 ∧ T1.numBuckets = T.numBuckets ∧
      Upd (ents T1) (ents T) k v := by
  have hcnt := hinv.cnt
  have hfree : T.buckets.countP (fun e => e.occupied) < T.buckets.length := by
    rw [hinv.arr.len]; omega
  obtain ⟨f0, hf0, hfo⟩ := exists_not_of_countP_lt (fun e : HashEntry K V => e.occupied)
    T.buckets hfree
  rw [hinv.arr.len] at hf0
  have hh := hash_lt P T.numBuckets k hinv.pos
  obtain ⟨bs1, hr, hA1, hmem1, hcnt1⟩ := rh_putLoop_ok P T.numBuckets hinv.pos T.numBuckets
    T.buckets k v (hash P T.numBuckets k) (hash P T.numBuckets k) 0 f0 hinv.arr rfl hh
    (by rw [cdist_self]; rfl) (by intro x _ hd; rw [cdist_self] at hd; omega) hf0 hfo
    (cdist_lt _ _ _ hh hf0)
  refine ⟨⟨T.numEntries + 1, T.numBuckets, bs1⟩, ?_, ⟨hA1, hinv.pos, ?_⟩, rfl, rfl, ?_⟩
  · unfold putEntry; rw [hr]
  · show ((bs1.countP _ : Nat) : Int) ≤ T.numEntries + 1
    omega
  · intro k1 v1
    rw [rh_mem_ents_iff, rh_mem_ents_iff]
    exact hmem1 k1 v1

theorem rh_inv_mk0 (P : Params K) (n : Nat) (hn : 1 ≤ n) : Inv P (mk0 n : RHHash K V) := by
  refine ⟨⟨?_, ?_, ?_⟩, hn, ?_⟩
  · simp [mk0]
  · intro p _ ho
    simp only [mk0, rd_replicate] at ho
    exact Bool.noConfusion ho
  · intro p _ ho
    simp only [mk0, rd_replicate] at ho
    exact Bool.noConfusion ho
  · simp [mk0, List.countP_replicate]

theorem rh_ents_mk0 (n : Nat) : ents (mk0 n : RHHash K V) = [] := by
  simp [ents, mk0, List.filter_replicate]

theorem rh_nodup_ents (P : Params K) (T : RHHash K V) (hinv : Inv P T) :
    ((ents T).map Prod.fst).Nodup := by
  unfold ents
  rw [List.map_map]
  apply nodup_keys_filter (fun e : HashEntry K V => e.occupied)
  intro i j hi hj hoi hoj hk
  exact rh_arr_keys_unique P T.numBuckets hinv.pos T.buckets hinv.arr i j
    (by rw [← hinv.arr.len]; exact hi) (by rw [← hinv.arr.len]; exact hj) hoi hoj hk

theorem rh_length_ents (T : RHHash K V) :
    (ents T).length = T.buckets.countP (fun e => e.occupied) := by
  simp [ents, List.countP_eq_length_filter]

theorem rh_sys_ok (P : Params K) : (sys P : Sys (RHHash K V) K V).Ok (Inv P) where
  mk0_inv := rh_inv_mk0 P
  mk0_nE := fun _ => rfl
  mk0_nB := fun _ => rfl
  mk0_ents := rh_ents_mk0
  nB_pos := fun _ h => h.pos
  nodup := rh_nodup_ents P
  len_le_nE := fun T h => by
    show ((ents T).length : Int) ≤ T.numEntries
    rw [rh_length_ents]; exact h.cnt
  len_le_nB := fun T h => by
    show (ents T).length ≤ T.numBuckets
    rw [rh_length_ents, ← h.arr.len]; exact List.countP_le_length _
  putEntry_mono := fun f g T k v T1 h h1 => rh_putEntry_mono P f g T k v T1 h h1
  putEntry_ok := fun T k v h hlt => rh_putEntry_ok P T k v h hlt

/-! ### `remove`: the backward shift -/

theorem rh_hole_keys_unique (P : Params K) (n : Nat) (hn : 1 ≤ n) (bs : List (HashEntry K V))
    (i : Nat) (hI : HoleInv P n bs i) (a b : Nat) (ha : a < n) (hb : b < n)
    (hoa : (rd bs a).occupied = true) (hob : (rd bs b).occupied = true)
    (hk : (rd bs a).key = (rd bs b).key) : a = b := by
  have hha := hI.home a ha hoa
  have hhb := hI.home b hb hob
  have hh : (rd bs b).hash < n := by rw [hhb]; exact hash_lt P n _ hn
  have hab : (rd bs a).hash = (rd bs b).hash := by rw [hha, hhb, hk]
  have hai : a ≠ i := by rintro rfl; rw [hI.hole] at hoa; exact Bool.noConfusion hoa
  have hbi : b ≠ i := by rintro rfl; rw [hI.hole] at hob; exact Bool.noConfusion hob
  rcases Nat.lt_trichotomy (cdist n (rd bs b).hash a) (cdist n (rd bs b).hash b) with h | h | h
  · exact absurd hk (hI.path b hb hob a ha h hai).2.1
  · exact cdist_inj n _ a b hh ha hb h
  · rw [← hab] at h
    exact absurd hk.symm (hI.path a ha hoa b hb h hbi).2.1

theorem rh_rd_shift (bs : List (HashEntry K V)) (i j : Nat) (hi : i < bs.length)
    (hj : j < bs.length) (hij : j ≠ i) (x : Nat) :
    rd (wr (wr bs i (rd bs j)) j
        ⟨(rd (wr bs i (rd bs j)) j).key, (rd (wr bs i (rd bs j)) j).val,
          (rd (wr bs i (rd bs j)) j).hash, false⟩) x
      = if x = j then ⟨(rd bs j).key, (rd bs j).val, (rd bs j).hash, false⟩
        else if x = i then rd bs j else rd bs x := by
  have e1 : rd (wr bs i (rd bs j)) j = rd bs j := rd_wr_ne _ _ _ _ (Ne.symm hij)
  rw [e1, rd_wr _ _ _ _ (by rw [length_wr]; exact hj), rd_wr _ _ _ _ hi]

theorem rh_cdist_pred (n k i : Nat) (hk : k < n) (hi : i < n)
    (h : cdist n k ((i + 1) % n) ≠ 0) : cdist n k ((i + 1) % n) = cdist n k i + 1 := by
  rw [next_index n i hi] at h ⊢
  simp only [cdist] at h ⊢
  split_ifs at h ⊢ <;> omega

/-- One backward shift of `remove`: the entry after the empty entry `i`, not at its home,
moves into `i`. -/
theorem rh_shift_step (P : Params K) (n : Nat) (hn : 1 ≤ n) (bs : List (HashEntry K V))
    (i : Nat) (hI : HoleInv P n bs i) (hoj : (rd bs ((i + 1) % n)).occupied = true)
    (hd0 : cdist n (rd bs ((i + 1) % n)).hash ((i + 1) % n) ≠ 0) :
    HoleInv P n (wr (wr bs i (rd bs ((i + 1) % n))) ((i + 1) % n)
        ⟨(rd (wr bs i (rd bs ((i + 1) % n))) ((i + 1) % n)).key,
          (rd (wr bs i (rd bs ((i + 1) % n))) ((i + 1) % n)).val,
          (rd (wr bs i (rd bs ((i + 1) % n))) ((i + 1) % n)).hash, false⟩) ((i + 1) % n) := by
  have hj : (i + 1) % n < n := next_index_lt n i (by omega)
  generalize hjdef : (i + 1) % n = j at hoj hd0 hj ⊢
  have hji : j ≠ i := by rintro rfl; rw [hI.hole] at hoj; exact Bool.noConfusion hoj
  have hil : i < bs.length := by rw [hI.len]; exact hI.ilt
  have hjl : j < bs.length := by rw [hI.len]; exact hj
  have hrd := rh_rd_shift bs i j hil hjl hji
  have hkj := hI.home j hj hoj
  have hk : (rd bs j).hash < n := by rw [hkj]; exact hash_lt P n _ hn
  have hpred : cdist n (rd bs j).hash j = cdist n (rd bs j).hash i + 1 := by
    have := rh_cdist_pred n (rd bs j).hash i hk hI.ilt (by rw [hjdef]; exact hd0)
    rw [hjdef] at this; exact this
  constructor
  · rw [length_wr, length_wr]; exact hI.len
  · exact hj
  · rw [hrd]; simp
  · intro p hp ho
    rw [hrd] at ho ⊢
    by_cases hpj : p = j
    · simp [hpj] at ho
    · simp only [hpj, if_false] at ho ⊢
      by_cases hpi : p = i
      · simp only [hpi, if_true] at ho ⊢; exact hkj
      · simp only [hpi, if_false] at ho ⊢; exact hI.home p hp ho
  · intro p hp ho x hx hd hxj
    rw [hrd] at ho
    rw [hrd p] at hd ⊢
    rw [hrd x]
    simp only [hxj, if_false]
    by_cases hpj : p = j
    · simp [hpj] at ho
    · simp only [hpj, if_false] at ho hd ⊢
      by_cases hpi : p = i
      · simp only [hpi, if_true] at ho hd ⊢
        have hxi : x ≠ i := by rintro rfl; omega
        simp only [hxi, if_false]
        exact hI.path j hj hoj x hx (by omega) hxi
      · simp only [hpi, if_false] at ho hd ⊢
        by_cases hxi : x = i
        · subst hxi
          simp only [if_true]
          have hhp : (rd bs p).hash < n := by
            rw [hI.home p hp ho]; exact hash_lt P n _ hn
          have hlt := cdist_lt n _ p hhp hp
          have hnx := cdist_next_of_lt n (rd bs p).hash x hhp hx (by omega)
          rw [hjdef] at hnx
          have hjp : cdist n (rd bs p).hash j < cdist n (rd bs p).hash p := by
            rcases Nat.lt_or_ge (cdist n (rd bs p).hash j) (cdist n (rd bs p).hash p) with h | h
            · exact h
            · exact absurd (cdist_inj n _ j p hhp hj hp (by omega)).symm hpj
          obtain ⟨_, _, h3⟩ := hI.path p hp ho j hj hjp hji
          refine ⟨hoj, ?_, by omega⟩
          intro hkk
          exact hpj (rh_hole_keys_unique P n hn bs x hI j p hj hp hoj ho hkk).symm
        · simp only [hxi, if_false]
          exact hI.path p hp ho x hx hd hxi

/-- When the backward shift stops (next slot empty or at its home), no probe path crosses
the empty entry. -/
theorem rh_shift_exit (P : Params K) (n : Nat) (hn : 1 ≤ n) (bs : List (HashEntry K V))
    (i : Nat) (hI : HoleInv P n bs i)
    (hex : (rd bs ((i + 1) % n)).occupied = true →
      cdist n (rd bs ((i + 1) % n)).hash ((i + 1) % n) = 0) : ArrOk P n bs := by
  have hj : (i + 1) % n < n := next_index_lt n i (by omega)
  refine ⟨hI.len, hI.home, ?_⟩
  intro p hp ho x hx hd
  by_cases hxi : x = i
  · exfalso
    subst hxi
    have hhp : (rd bs p).hash < n := by rw [hI.home p hp ho]; exact hash_lt P n _ hn
    have hlt := cdist_lt n _ p hhp hp
    have hnx := cdist_next_of_lt n (rd bs p).hash x hhp hx (by omega)
    by_cases hjp : (x + 1) % n = p
    · rw [hjp] at hex hnx
      have := hex ho
      omega
    · have hjp2 : cdist n (rd bs p).hash ((x + 1) % n) < cdist n (rd bs p).hash p := by
        rcases Nat.lt_or_ge (cdist n (rd bs p).hash ((x + 1) % n)) (cdist n (rd bs p).hash p)
          with h | h
        · exact h
        · exact absurd (cdist_inj n _ _ p hhp hj hp (by omega)) hjp
      have hjx : (x + 1) % n ≠ x := by
        intro e; rw [e] at hnx; omega
      obtain ⟨h1, _, h3⟩ := hI.path p hp ho _ hj hjp2 hjx
      have := hex h1
      omega
  · exact hI.path p hp ho x hx hd hxi

theorem rh_shift_count (bs : List (HashEntry K V)) (i j : Nat) (hi : i < bs.length)
    (hj : j < bs.length) (hji : j ≠ i) (hoi : (rd bs i).occupied = false)
    (hoj : (rd bs j).occupied = true) :
    (wr (wr bs i (rd bs j)) j
        ⟨(rd (wr bs i (rd bs j)) j).key, (rd (wr bs i (rd bs j)) j).val,
          (rd (wr bs i (rd bs j)) j).hash, false⟩).countP (fun e => e.occupied)
      = bs.countP (fun e => e.occupied) := by
  have c1 := countP_wr_eq (fun e : HashEntry K V => e.occupied) bs i (rd bs j) hi
  have c2 := countP_wr_eq (fun e : HashEntry K V => e.occupied) (wr bs i (rd bs j)) j
    ⟨(rd (wr bs i (rd bs j)) j).key, (rd (wr bs i (rd bs j)) j).val,
      (rd (wr bs i (rd bs j)) j).hash, false⟩ (by rw [length_wr]; exact hj)
  have e1 : rd (wr bs i (rd bs j)) j = rd bs j := rd_wr_ne _ _ _ _ (Ne.symm hji)
  rw [e1] at c2 ⊢
  simp only [hoi, hoj, if_true] at c1 c2
  simp at c1 c2
  omega

theorem rh_shift_disp (n : Nat) (bs : List (HashEntry K V)) (i j : Nat) (hi : i < bs.length)
    (hj : j < bs.length) (hji : j ≠ i) (hoi : (rd bs i).occupied = false)
    (hoj : (rd bs j).occupied = true)
    (hsh : cdist n (rd bs j).hash i < cdist n (rd bs j).hash j) :
    dispFrom (fun e : HashEntry K V => e.occupied) (fun e => e.hash) n 0
        (wr (wr bs i (rd bs j)) j
          ⟨(rd (wr bs i (rd bs j)) j).key, (rd (wr bs i (rd bs j)) j).val,
            (rd (wr bs i (rd bs j)) j).hash, false⟩)
      < dispFrom (fun e : HashEntry K V => e.occupied) (fun e => e.hash) n 0 bs := by
  have c1 := dispFrom_wr (fun e : HashEntry K V => e.occupied) (fun e => e.hash) n bs 0 i
    (rd bs j) hi
  have c2 := dispFrom_wr (fun e : HashEntry K V => e.occupied) (fun e => e.hash) n
    (wr bs i (rd bs j)) 0 j
    ⟨(rd (wr bs i (rd bs j)) j).key, (rd (wr bs i (rd bs j)) j).val,
      (rd (wr bs i (rd bs j)) j).hash, false⟩ (by rw [length_wr]; exact hj)
  have e1 : rd (wr bs i (rd bs j)) j = rd bs j := rd_wr_ne _ _ _ _ (Ne.symm hji)
  rw [e1] at c2 ⊢
  simp only [hoi, hoj, if_true, Nat.zero_add] at c1 c2
  simp at c1 c2
  omega

theorem rh_shift_mem (bs : List (HashEntry K V)) (i j : Nat) (hi : i < bs.length)
    (hj : j < bs.length) (hji : j ≠ i) (hoi : (rd bs i).occupied = false) (k : K) (v : V) :
    MemB (wr (wr bs i (rd bs j)) j
        ⟨(rd (wr bs i (rd bs j)) j).key, (rd (wr bs i (rd bs j)) j).val,
          (rd (wr bs i (rd bs j)) j).hash, false⟩) k v ↔ MemB bs k v := by
  have hrd := rh_rd_shift bs i j hi hj hji
  unfold MemB
  simp only [length_wr, hrd]
  constructor
  · rintro ⟨p, hp, ho, hk, hv⟩
    by_cases hpj : p = j
    · simp [hpj] at ho
    · simp only [hpj, if_false] at ho hk hv
      by_cases hpi : p = i
      · simp only [hpi, if_true] at ho hk hv
        exact ⟨j, hj, ho, hk, hv⟩
      · simp only [hpi, if_false] at ho hk hv
        exact ⟨p, hp, ho, hk, hv⟩
  · rintro ⟨p, hp, ho, hk, hv⟩
    have hpi : p ≠ i := by rintro rfl; rw [hoi] at ho; exact Bool.noConfusion ho
    by_cases hpj : p = j
    · subst hpj
      exact ⟨i, hi, by simp [Ne.symm hji, ho], by simp [Ne.symm hji, hk],
        by simp [Ne.symm hji, hv]⟩
    · exact ⟨p, hp, by simp [hpj, hpi, ho], by simp [hpj, hpi, hk], by simp [hpj, hpi, hv]⟩

theorem rh_shiftLoop_mono (n : Nat) :
    ∀ (f g : Nat) (bs : List (HashEntry K V)) (i j0 : Nat) (bs1 : List (HashEntry K V)),
      f ≤ g → shiftLoop n f bs i j0 = some bs1 → shiftLoop n g bs i j0 = some bs1 := by
  intro f
  induction f with
  | zero => intro g bs i j0 bs1 _ h; simp [shiftLoop] at h
  | succ f ih =>
    intro g bs i j0 bs1 hle h
    obtain ⟨g, rfl⟩ : ∃ g1, g = g1 + 1 := ⟨g - 1, by omega⟩
    unfold shiftLoop at h ⊢
    simp only [] at h ⊢
    split at h
    · next h1 => rw [if_pos h1]; exact h
    · next h1 =>
      rw [if_neg h1]
      split at h
      · next h2 => rw [if_pos h2]; exact h
      · next h2 => rw [if_neg h2]; exact ih g _ _ _ _ (by omega) h

/-- When the backward shift finishes, the array satisfies the Robin Hood invariant again,
with the same occupied entries. -/
theorem rh_shiftLoop_pc (P : Params K) (n : Nat) (hn : 1 ≤ n) :
    ∀ (f : Nat) (bs : List (HashEntry K V)) (i : Nat) (bs1 : List (HashEntry K V)),
      HoleInv P n bs i → shiftLoop n f bs i i = some bs1 →
      ArrOk P n bs1 ∧ bs1.countP (fun e => e.occupied) = bs.countP (fun e => e.occupied) ∧
        ∀ k v, MemB bs1 k v ↔ MemB bs k v := by
  intro f
  induction f with
  | zero => intro bs i bs1 _ h; simp [shiftLoop] at h
  | succ f ih =>
    intro bs i bs1 hI h
    have hj : (i + 1) % n < n := next_index_lt n i (by omega)
    unfold shiftLoop at h
    simp only [] at h
    split at h
    · next h1 =>
      have hnot : (rd bs ((i + 1) % n)).occupied = false := by simpa using h1
      simp only [Option.some.injEq] at h
      subst h
      exact ⟨rh_shift_exit P n hn bs i hI (fun ho => by rw [hnot] at ho; exact Bool.noConfusion ho),
        rfl, fun _ _ => Iff.rfl⟩
    · next h1 =>
      have hoj : (rd bs ((i + 1) % n)).occupied = true := by simpa using h1
      have hk : (rd bs ((i + 1) % n)).hash < n := by
        rw [hI.home _ hj hoj]; exact hash_lt P n _ hn
      have hpl := probeLength_eq_cdist n (rd bs ((i + 1) % n)).hash ((i + 1) % n) (by omega)
      rw [hpl] at h
      split at h
      · next h2 =>
        simp only [Option.some.injEq] at h
        subst h
        exact ⟨rh_shift_exit P n hn bs i hI (fun _ => by exact_mod_cast h2), rfl,
          fun _ _ => Iff.rfl⟩
      · next h2 =>
        have hd0 : cdist n (rd bs ((i + 1) % n)).hash ((i + 1) % n) ≠ 0 := by
          intro e; apply h2; rw [e]; rfl
        have hji : (i + 1) % n ≠ i := by
          intro e; rw [e, hI.hole] at hoj; exact Bool.noConfusion hoj
        have hil : i < bs.length := by rw [hI.len]; exact hI.ilt
        have hjl : (i + 1) % n < bs.length := by rw [hI.len]; exact hj
        obtain ⟨a, b, c⟩ := ih _ _ bs1 (rh_shift_step P n hn bs i hI hoj hd0) h
        refine ⟨a, ?_, ?_⟩
        · rw [b]; exact rh_shift_count bs i _ hil hjl hji hI.hole hoj
        · intro k v; rw [c k v]; exact rh_shift_mem bs i _ hil hjl hji hI.hole k v

/-- The backward shift finishes: each step lowers the total displacement. -/
theorem rh_shiftLoop_total (P : Params K) (n : Nat) (hn : 1 ≤ n) :
    ∀ (m : Nat) (bs : List (HashEntry K V)) (i : Nat), HoleInv P n bs i →
      dispFrom (fun e : HashEntry K V => e.occupied) (fun e => e.hash) n 0 bs ≤ m →
      ∃ bs1, shiftLoop n (m + 1) bs i i = some bs1 := by
  intro m
  induction m with
  | zero =>
    intro bs i hI hm
    have hj : (i + 1) % n < n := next_index_lt n i (by omega)
    unfold shiftLoop
    simp only []
    split
    · exact ⟨_, rfl⟩
    · next h1 =>
      have hoj : (rd bs ((i + 1) % n)).occupied = true := by simpa using h1
      split
      · exact ⟨_, rfl⟩
      · next h2 =>
        exfalso
        have hk : (rd bs ((i + 1) % n)).hash < n := by
          rw [hI.home _ hj hoj]; exact hash_lt P n _ hn
        have hpl := probeLength_eq_cdist n (rd bs ((i + 1) % n)).hash ((i + 1) % n) (by omega)
        rw [hpl] at h2
        have hd0 : cdist n (rd bs ((i + 1) % n)).hash ((i + 1) % n) ≠ 0 := by
          intro e; apply h2; rw [e]; rfl
        have hji : (i + 1) % n ≠ i := by
          intro e; rw [e, hI.hole] at hoj; exact Bool.noConfusion hoj
        have hpred := rh_cdist_pred n _ i hk hI.ilt hd0
        have := rh_shift_disp n bs i _ (by rw [hI.len]; exact hI.ilt) (by rw [hI.len]; exact hj)
          hji hI.hole hoj (by omega)
        omega
  | succ m ih =>
    intro bs i hI hm
    have hj : (i + 1) % n < n := next_index_lt n i (by omega)
    unfold shiftLoop
    simp only []
    split
    · exact ⟨_, rfl⟩
    · next h1 =>
      have hoj : (rd bs ((i + 1) % n)).occupied = true := by simpa using h1
      split
      · exact ⟨_, rfl⟩
      · next h2 =>
        have hk : (rd bs ((i + 1) % n)).hash < n := by
          rw [hI.home _ hj hoj]; exact hash_lt P n _ hn
        have hpl := probeLength_eq_cdist n (rd bs ((i + 1) % n)).hash ((i + 1) % n) (by omega)
        rw [hpl] at h2
        have hd0 : cdist n (rd bs ((i + 1) % n)).hash ((i + 1) % n) ≠ 0 := by
          intro e; apply h2; rw [e]; rfl
        have hji : (i + 1) % n ≠ i := by
          intro e; rw [e, hI.hole] at hoj; exact Bool.noConfusion hoj
        have hpred := rh_cdist_pred n _ i hk hI.ilt hd0
        have hd := rh_shift_disp n bs i _ (by rw [hI.len]; exact hI.ilt)
          (by rw [hI.len]; exact hj) hji hI.hole hoj (by omega)
        exact ih _ _ (rh_shift_step P n hn bs i hI hoj hd0) (by omega)

theorem rh_hole_init (P : Params K) (T : RHHash K V) (hinv : Inv P T) (i : Nat)
    (hi : i < T.numBuckets) (ho : (rd T.buckets i).occupied = true) :
    HoleInv P T.numBuckets
      (wr T.buckets i ⟨(rd T.buckets i).key, (rd T.buckets i).val, (rd T.buckets i).hash, false⟩) i
    ∧ (wr T.buckets i ⟨(rd T.buckets i).key, (rd T.buckets i).val, (rd T.buckets i).hash,
        false⟩).countP (fun e => e.occupied) + 1 = T.buckets.countP (fun e => e.occupied)
    ∧ ∀ k v, MemB (wr T.buckets i ⟨(rd T.buckets i).key, (rd T.buckets i).val,
        (rd T.buckets i).hash, false⟩) k v ↔ (k ≠ (rd T.buckets i).key ∧ MemB T.buckets k v) := by
  have hil : i < T.buckets.length := by rw [hinv.arr.len]; exact hi
  have hrd : ∀ x, rd (wr T.buckets i
      ⟨(rd T.buckets i).key, (rd T.buckets i).val, (rd T.buckets i).hash, false⟩) x
      = if x = i then ⟨(rd T.buckets i).key, (rd T.buckets i).val, (rd T.buckets i).hash, false⟩
        else rd T.buckets x := fun x => rd_wr _ _ _ _ hil
  refine ⟨⟨?_, hi, ?_, ?_, ?_⟩, ?_, ?_⟩
  · rw [length_wr]; exact hinv.arr.len
  · rw [hrd]; simp
  · intro p hp hop
    rw [hrd] at hop ⊢
    by_cases hpi : p = i
    · simp [hpi] at hop
    · simp only [hpi, if_false] at hop ⊢; exact hinv.arr.home p hp hop
  · intro p hp hop x hx hd hxi
    rw [hrd] at hop
    rw [hrd p] at hd ⊢
    rw [hrd x]
    by_cases hpi : p = i
    · simp [hpi] at hop
    · simp only [hpi, hxi, if_false] at hop hd ⊢
      exact hinv.arr.path p hp hop x hx hd
  · have c1 := countP_wr_eq (fun e : HashEntry K V => e.occupied) T.buckets i
      ⟨(rd T.buckets i).key, (rd T.buckets i).val, (rd T.buckets i).hash, false⟩ hil
    simp only [ho, if_true] at c1
    simp at c1
    omega
  · intro k v
    unfold MemB
    simp only [length_wr, hrd]
    constructor
    · rintro ⟨p, hp, hop, hk, hv⟩
      by_cases hpi : p = i
      · simp [hpi] at hop
      · simp only [hpi, if_false] at hop hk hv
        refine ⟨?_, p, hp, hop, hk, hv⟩
        intro hkk
        apply hpi
        exact rh_arr_keys_unique P _ hinv.pos _ hinv.arr p i (by rw [← hinv.arr.len]; exact hp) hi
          hop ho (by rw [hk, hkk])
    · rintro ⟨hne, p, hp, hop, hk, hv⟩
      have hpi : p ≠ i := by rintro rfl; exact hne hk.symm
      exact ⟨p, hp, by simp [hpi, hop], by simp [hpi, hk], by simp [hpi, hv]⟩

theorem rh_removeLoop_mono (T : RHHash K V) (key : K) :
    ∀ (f g idx : Nat) (cur : Int) (T1 : RHHash K V), f ≤ g →
      removeLoop T key f idx cur = some T1 → removeLoop T key g idx cur = some T1 := by
  intro f
  induction f with
  | zero => intro g idx cur T1 _ h; simp [removeLoop] at h
  | succ f ih =>
    intro g idx cur T1 hle h
    obtain ⟨g, rfl⟩ : ∃ g1, g = g1 + 1 := ⟨g - 1, by omega⟩
    unfold removeLoop at h ⊢
    simp only [] at h ⊢
    split at h
    · next h1 => rw [if_pos h1]; exact h
    · next h1 =>
      rw [if_neg h1]
      split at h
      · next h2 => rw [if_pos h2]; exact h
      · next h2 =>
        rw [if_neg h2]
        split at h
        · next h3 =>
          rw [if_pos h3]
          cases hs : shiftLoop T.numBuckets (f + 1) (wr T.buckets idx
              ⟨(rd T.buckets idx).key, (rd T.buckets idx).val, (rd T.buckets idx).hash, false⟩)
              idx idx with
          | none => rw [hs] at h; simp at h
          | some bs =>
            rw [hs] at h
            rw [rh_shiftLoop_mono _ (f + 1) (g + 1) _ _ _ _ (by omega) hs]
            exact h
        · next h3 => rw [if_neg h3]; exact ih g _ _ T1 (by omega) h

/-- What a finished `remove` did, in terms of the probe and the backward shift. -/
theorem rh_removeLoop_cases (T : RHHash K V) (key : K) :
    ∀ (f idx : Nat) (cur : Int) (T1 : RHHash K V), removeLoop T key f idx cur = some T1 →
      (locate T key f idx cur = some none ∧ T1 = T) ∨
      ∃ i g bs, locate T key f idx cur = some (some i) ∧
        shiftLoop T.numBuckets g (wr T.buckets i
          ⟨(rd T.buckets i).key, (rd T.buckets i).val, (rd T.buckets i).hash, false⟩) i i
          = some bs ∧ T1 = ⟨T.numEntries - 1, T.numBuckets, bs⟩ := by
  intro f
  induction f with
  | zero => intro idx cur T1 h; simp [removeLoop] at h
  | succ f ih =>
    intro idx cur T1 h
    unfold removeLoop at h
    unfold locate
    simp only [] at h ⊢
    split at h
    · next h1 =>
      rw [if_pos h1]
      exact Or.inl ⟨rfl, (Option.some.inj h).symm⟩
    · next h1 =>
      rw [if_neg h1]
      split at h
      · next h2 =>
        rw [if_pos h2]
        exact Or.inl ⟨rfl, (Option.some.inj h).symm⟩
      · next h2 =>
        rw [if_neg h2]
        split at h
        · next h3 =>
          rw [if_pos h3]
          cases hs : shiftLoop T.numBuckets (f + 1) (wr T.buckets idx
              ⟨(rd T.buckets idx).key, (rd T.buckets idx).val, (rd T.buckets idx).hash, false⟩)
              idx idx with
          | none => rw [hs] at h; simp at h
          | some bs =>
            rw [hs] at h
            exact Or.inr ⟨idx, f + 1, bs, rfl, hs, (Option.some.inj h).symm⟩
        · next h3 =>
          rw [if_neg h3]
          exact ih _ _ T1 h

theorem rh_removeLoop_of_locate (T : RHHash K V) (key : K) :
    ∀ (f idx : Nat) (cur : Int) (r : Option Nat), locate T key f idx cur = some r →
      match r with
      | none => removeLoop T key f idx cur = some T
      | some i => ∀ g bs, shiftLoop T.numBuckets g (wr T.buckets i
          ⟨(rd T.buckets i).key, (rd T.buckets i).val, (rd T.buckets i).hash, false⟩) i i
          = some bs →
          removeLoop T key (f + g) idx cur = some ⟨T.numEntries - 1, T.numBuckets, bs⟩ := by
  intro f
  induction f with
  | zero => intro idx cur r h; simp [locate] at h
  | succ f ih =>
    intro idx cur r h
    unfold locate at h
    simp only [] at h
    split at h
    · next h1 =>
      simp only [Option.some.injEq] at h
      subst h
      show removeLoop T key (f + 1) idx cur = some T
      unfold removeLoop
      simp only []
      rw [if_pos h1]
    · next h1 =>
      split at h
      · next h2 =>
        simp only [Option.some.injEq] at h
        subst h
        show removeLoop T key (f + 1) idx cur = some T
        unfold removeLoop
        simp only []
        rw [if_neg h1, if_pos h2]
      · next h2 =>
        split at h
        · next h3 =>
          simp only [Option.some.injEq] at h
          subst h
          intro g bs hs
          have e : f + 1 + g = (f + g) + 1 := by omega
          rw [e]
          unfold removeLoop
          simp only []
          rw [if_neg h1, if_neg h2, if_pos h3,
            rh_shiftLoop_mono _ g (f + g + 1) _ _ _ _ (by omega) hs]
        · next h3 =>
          have := ih _ _ r h
          cases r with
          | none =>
            show removeLoop T key (f + 1) idx cur = some T
            unfold removeLoop
            simp only []
            rw [if_neg h1, if_neg h2, if_neg h3]
            exact this
          | some i =>
            intro g bs hs
            have e : f + 1 + g = (f + g) + 1 := by omega
            rw [e]
            unfold removeLoop
            simp only []
            rw [if_neg h1, if_neg h2, if_neg h3]
            exact this g bs hs

theorem rh_remove_mono (P : Params K) (T : RHHash K V) (k : K) (f g : Nat) (T1 : RHHash K V)
    (h : f ≤ g) (h1 : remove P f T k = some T1) : remove P g T k = some T1 :=
  rh_removeLoop_mono T k f g _ _ T1 h h1

/-- The probe of a key that is in no occupied slot stops without finding it. -/
theorem rh_locate_absent (P : Params K) (T : RHHash K V) (hinv : Inv P T) (k : K)
    (hk : ∀ v, (k, v) ∉ ents T) (f : Nat) (r : Option Nat)
    (h : locate T k f (hash P T.numBuckets k) 0 = some r) : r = none := by
  cases r with
  | none => rfl
  | some i =>
    obtain ⟨hi, ho, hki⟩ := rh_locate_sound T hinv.pos k f _ 0 i (hash_lt P _ k hinv.pos) h
    exact absurd ((rh_mem_ents_iff T k _).2 ⟨i, by rw [hinv.arr.len]; exact hi, ho, hki, rfl⟩)
      (hk _)

/-- The probe of a live key finds its slot. -/
theorem rh_locate_live (P : Params K) (T : RHHash K V) (hinv : Inv P T) (k : K) (v : V)
    (hm : (k, v) ∈ ents T) (f : Nat) (r : Option Nat)
    (h : locate T k f (hash P T.numBuckets k) 0 = some r) :
    ∃ i, r = some i ∧ i < T.numBuckets ∧ (rd T.buckets i).occupied = true ∧
      (rd T.buckets i).key = k := by
  obtain ⟨p, hp, ho, hkp, _⟩ := (rh_mem_ents_iff T k v).1 hm
  have hp1 : p < T.numBuckets := by rw [← hinv.arr.len]; exact hp
  have h1 := rh_locate_present P T hinv p hp1 ho (max f T.numBuckets) (le_max_right _ _)
  rw [hkp] at h1
  have h2 := rh_locate_mono T k f _ _ 0 r (le_max_left f T.numBuckets) h
  rw [h1] at h2
  exact ⟨p, (Option.some.inj h2).symm, hp1, ho, hkp⟩

/-- A `remove` that finished kept the invariant and unbound exactly the key. -/
theorem rh_remove_pc (P : Params K) (T : RHHash K V) (hinv : Inv P T) (k : K) (f : Nat)
    (T1 : RHHash K V) (h : remove P f T k = some T1) :
    Inv P T1 ∧ T1.numBuckets = T.numBuckets ∧ T1.numEntries ≤ T.numEntries ∧
      (∀ k1 v1, (k1, v1) ∈ ents T1 ↔ (k1 ≠ k ∧ (k1, v1) ∈ ents T)) ∧
      ((∀ v, (k, v) ∉ ents T) → T1 = T) := by
  unfold remove at h
  rcases rh_removeLoop_cases T k f _ 0 T1 h with ⟨hl, rfl⟩ | ⟨i, g, bs, hl, hs, rfl⟩
  · have habs : ∀ v, (k, v) ∉ ents T1 := by
      intro v hm
      obtain ⟨i, hi, _⟩ := rh_locate_live P T1 hinv k v hm f none hl
      exact Option.noConfusion hi
    refine ⟨hinv, rfl, le_refl _, ?_, fun _ => rfl⟩
    intro k1 v1
    constructor
    · intro hm
      exact ⟨by rintro rfl; exact habs v1 hm, hm⟩
    · exact fun hm => hm.2
  · obtain ⟨hi, ho, hki⟩ := rh_locate_sound T hinv.pos k f _ 0 i (hash_lt P _ k hinv.pos) hl
    obtain ⟨hH, hc0, hm0⟩ := rh_hole_init P T hinv i hi ho
    obtain ⟨hA, hc1, hm1⟩ := rh_shiftLoop_pc P T.numBuckets hinv.pos g _ i bs hH hs
    have hcnt := hinv.cnt
    refine ⟨⟨hA, hinv.pos, ?_⟩, rfl, ?_, ?_, ?_⟩
    · show ((bs.countP _ : Nat) : Int) ≤ T.numEntries - 1
      omega
    · show T.numEntries - 1 ≤ T.numEntries
      omega
    · intro k1 v1
      rw [rh_mem_ents_iff, rh_mem_ents_iff]
      show MemB bs k1 v1 ↔ _
      rw [hm1 k1 v1, hm0 k1 v1, hki]
    · intro habs
      exact absurd ((rh_mem_ents_iff T k _).2
        ⟨i, by rw [hinv.arr.len]; exact hi, ho, hki, rfl⟩) (habs _)

/-- Under the invariant every `remove` finishes. -/
theorem rh_remove_total (P : Params K) (T : RHHash K V) (hinv : Inv P T) (k : K) :
    ∃ f T1, remove P f T k = some T1 := by
  obtain ⟨r, hr⟩ := rh_locate_total T k
    (fun p hp ho => by rw [hinv.arr.home p hp ho]; exact hash_lt P _ _ hinv.pos)
    T.numBuckets (hash P T.numBuckets k) 0 (hash_lt P _ k hinv.pos) (by omega)
  have h1 := rh_removeLoop_of_locate T k _ _ 0 r hr
  cases r with
  | none => exact ⟨_, T, h1⟩
  | some i =>
    obtain ⟨hi, ho, _⟩ := rh_locate_sound T hinv.pos k _ _ 0 i (hash_lt P _ k hinv.pos) hr
    obtain ⟨hH, _, _⟩ := rh_hole_init P T hinv i hi ho
    obtain ⟨bs, hs⟩ := rh_shiftLoop_total P T.numBuckets hinv.pos _ _ i hH (le_refl _)
    exact ⟨_, _, h1 _ bs hs⟩

/-- The loop of `put` for a key that is in an occupied slot `p`: no swap on the way, the
loop ends at `p` and only the value of that slot is written. -/
theorem rh_putLoop_path (P : Params K) (T : RHHash K V) (hinv : Inv P T) (p : Nat)
    (hp : p < T.numBuckets) (ho : (rd T.buckets p).occupied = true) (v : V) :
    ∀ (f idx : Nat), idx < T.numBuckets →
      cdist T.numBuckets (rd T.buckets p).hash idx + f > cdist T.numBuckets (rd T.buckets p).hash p →
      cdist T.numBuckets (rd T.buckets p).hash idx ≤ cdist T.numBuckets (rd T.buckets p).hash p →
      putLoop T.numBuckets f T.buckets (rd T.buckets p).key v (rd T.buckets p).hash idx
          (cdist T.numBuckets (rd T.buckets p).hash idx : Nat)
        = some (wr T.buckets p ⟨(rd T.buckets p).key, v, (rd T.buckets p).hash, true⟩) := by
  have hh : (rd T.buckets p).hash < T.numBuckets := by
    rw [hinv.arr.home p hp ho]; exact hash_lt P _ _ hinv.pos
  intro f
  induction f with
  | zero => intro idx _ h1 h2; omega
  | succ f ih =>
    intro idx hidx h1 h2
    unfold putLoop
    simp only []
    by_cases hd : cdist T.numBuckets (rd T.buckets p).hash idx
        = cdist T.numBuckets (rd T.buckets p).hash p
    · have : idx = p := cdist_inj _ _ _ _ hh hidx hp hd
      subst this
      simp
    · have hlt : cdist T.numBuckets (rd T.buckets p).hash idx
          < cdist T.numBuckets (rd T.buckets p).hash p := by omega
      obtain ⟨hox, hkx, hord⟩ := hinv.arr.path p hp ho idx hidx hlt
      have hhx : (rd T.buckets idx).hash < T.numBuckets := by
        rw [hinv.arr.home idx hidx hox]; exact hash_lt P _ _ hinv.pos
      have hpl := probeLength_eq_cdist T.numBuckets (rd T.buckets idx).hash idx (by omega)
      have hnot : ¬ ((cdist T.numBuckets (rd T.buckets idx).hash idx : Nat) : Int)
          < ((cdist T.numBuckets (rd T.buckets p).hash idx : Nat) : Int) := by omega
      have hc : ((rd T.buckets idx).occupied
          && decide ((rd T.buckets idx).key ≠ (rd T.buckets p).key)) = true := by
        simp [hox, hkx]
      rw [if_pos hc, hpl, if_neg hnot]
      have hpl2 := cdist_lt T.numBuckets _ p hh hp
      have hnx := cdist_next_of_lt T.numBuckets _ idx hh hidx (by omega)
      have := ih ((idx + 1) % T.numBuckets) (next_index_lt _ _ (by omega)) (by omega) (by omega)
      rw [hnx] at this
      push_cast at this
      exact this

/-- On a table that satisfies the invariant, the write of `put` for the key of an occupied
slot `p` changes that slot alone, to the same key and home index with the new value. -/
theorem rh_putEntry_present (P : Params K) (T : RHHash K V) (hinv : Inv P T) (p : Nat)
    (hp : p < T.numBuckets) (ho : (rd T.buckets p).occupied = true) (v : V) (f : Nat)
    (hf : T.numBuckets ≤ f) :
    putEntry P f T (rd T.buckets p).key v
      = some ⟨T.numEntries + 1, T.numBuckets,
          wr T.buckets p ⟨(rd T.buckets p).key, v, (rd T.buckets p).hash, true⟩⟩ := by
  have hh : (rd T.buckets p).hash < T.numBuckets := by
    rw [hinv.arr.home p hp ho]; exact hash_lt P _ _ hinv.pos
  have := rh_putLoop_path P T hinv p hp ho v f (rd T.buckets p).hash hh
    (by have := cdist_lt T.numBuckets _ p hh hp; rw [cdist_self]; omega)
    (by rw [cdist_self]; omega)
  rw [cdist_self] at this
  unfold putEntry
  rw [← hinv.arr.home p hp ho]
  simp only [Nat.cast_zero] at this
  rw [this]

end RHHash

/-! ## Call sequences -/

namespace Machine

variable {S K V : Type} [DecidableEq K]

theorem mach_put_mono (M : Machine S K V) (P : Params K) (Inv : S → Prop) (ok : M.Ok P Inv)
    (f g : Nat) (T : S) (k : K) (v : V) (T1 : S) (h : f ≤ g)
    (h1 : M.put f T k v = some T1) : M.put g T k v = some T1 := by
  rw [ok.put_eq] at h1 ⊢
  exact Sys.put_mono M.sys Inv ok.sys_ok P f g T k v T1 h h1

theorem mach_resize_mono (M : Machine S K V) (P : Params K) (Inv : S → Prop) (ok : M.Ok P Inv)
    (f g n : Nat) (T T1 : S) (h : f ≤ g) (h1 : M.resize f n T = some T1) :
    M.resize g n T = some T1 := by
  rw [ok.resize_eq] at h1 ⊢
  exact Sys.resize_mono M.sys Inv ok.sys_ok P f g n T T1 h h1

theorem mach_run_mono (M : Machine S K V) (P : Params K) (Inv : S → Prop) (ok : M.Ok P Inv)
    (f g : Nat) (h : f ≤ g) :
    ∀ (ops : List (Op K V)) (T T1 : S), M.run f ops T = some T1 → M.run g ops T = some T1 := by
  intro ops
  induction ops with
  | nil => intro T T1 h1; exact h1
  | cons op ops ih =>
    intro T T1 h1
    unfold run at h1 ⊢
    cases op with
    | put k v =>
      simp only [runOps] at h1 ⊢
      cases hp : M.put f T k v with
      | none => rw [hp] at h1; simp at h1
      | some T2 =>
        rw [hp] at h1
        rw [mach_put_mono M P Inv ok f g T k v T2 h hp]
        exact ih T2 T1 h1
    | remove k =>
      simp only [runOps] at h1 ⊢
      cases hp : M.remove f T k with
      | none => rw [hp] at h1; simp at h1
      | some T2 =>
        rw [hp] at h1
        rw [ok.remove_mono T k f g T2 h hp]
        exact ih T2 T1 h1
    | resize n =>
      simp only [runOps] at h1 ⊢
      cases hp : M.resize f n T with
      | none => rw [hp] at h1; simp at h1
      | some T2 =>
        rw [hp] at h1
        rw [mach_resize_mono M P Inv ok f g n T T2 h hp]
        exact ih T2 T1 h1

/-- A call sequence that finished kept the invariant, and the live pairs of the table are
the bindings of the reference map. -/
theorem mach_run_pc (M : Machine S K V) (P : Params K) (Inv : S → Prop) (ok : M.Ok P Inv)
    (hq : P.Capped) (f : Nat) :
    ∀ (ops : List (Op K V)) (T T1 : S) (m : K → Option V), resizesPos ops = true → Inv T →
      (∀ k v, (k, v) ∈ M.sys.ents T ↔ m k = some v) → M.run f ops T = some T1 →
      Inv T1 ∧ ∀ k v, (k, v) ∈ M.sys.ents T1 ↔ ops.foldl refStep m k = some v := by
  intro ops
  induction ops with
  | nil =>
    intro T T1 m _ hinv hm h
    simp only [run, runOps, Option.some.injEq] at h
    subst h
    exact ⟨hinv, hm⟩
  | cons op ops ih =>
    intro T T1 m hres hinv hm h
    unfold run at h
    cases op with
    | put k v =>
      simp only [runOps] at h
      simp only [resizesPos] at hres
      cases hp : M.put f T k v with
      | none => rw [hp] at h; simp at h
      | some T2 =>
        rw [hp] at h
        rw [ok.put_eq] at hp
        obtain ⟨hinv2, hupd, _, _⟩ := Sys.put_pc M.sys Inv ok.sys_ok P hq f T k v T2 hinv hp
        apply ih T2 T1 (refStep m (Op.put k v)) hres hinv2 _ h
        intro k1 v1
        rw [hupd k1 v1, hm k1 v1]
        simp only [refStep]
        by_cases hk : k1 = k
        · simp [hk, eq_comm]
        · simp [hk]
    | remove k =>
      simp only [runOps] at h
      simp only [resizesPos] at hres
      cases hp : M.remove f T k with
      | none => rw [hp] at h; simp at h
      | some T2 =>
        rw [hp] at h
        obtain ⟨hinv2, _, _, hmem, _⟩ := ok.remove_pc T k f T2 hinv hp
        apply ih T2 T1 (refStep m (Op.remove k)) hres hinv2 _ h
        intro k1 v1
        rw [hmem k1 v1, hm k1 v1]
        simp only [refStep]
        by_cases hk : k1 = k
        · simp [hk]
        · simp [hk]
    | resize n =>
      simp only [runOps] at h
      simp only [resizesPos, Bool.and_eq_true, decide_eq_true_eq] at hres
      cases hp : M.resize f n T with
      | none => rw [hp] at h; simp at h
      | some T2 =>
        rw [hp] at h
        rw [ok.resize_eq] at hp
        obtain ⟨hinv2, hmem, _, _, _⟩ := Sys.resize_pc M.sys Inv ok.sys_ok P hq f n hres.1 T T2
          hinv hp
        apply ih T2 T1 (refStep m (Op.resize n)) hres.2 hinv2 _ h
        intro k1 v1
        rw [hmem k1 v1, hm k1 v1]
        rfl

/-- A call sequence finishes when each of its `remove` calls is applied to a live key, or
when `remove` finishes on every table that satisfies the invariant, provided a table of
`2^30` buckets or more holds `numEntries` plus the number of calls below the threshold: no
`put` then doubles a capacity of `2^30` or more. -/
theorem mach_run_total (M : Machine S K V) (P : Params K) (Inv : S → Prop) (ok : M.Ok P Inv)
    (hq : P.Capped) :
    ∀ (ops : List (Op K V)) (T : S) (m : K → Option V), resizesPos ops = true → Inv T →
      (∀ k v, (k, v) ∈ M.sys.ents T ↔ m k = some v) →
      (removesLive m ops = true ∨ ∀ T k, Inv T → ∃ f T1, M.remove f T k = some T1) →
      P.Fits (M.sys.nE T + ops.length) (2 ^ 30) →
      ∃ f T1, M.run f ops T = some T1 := by
  intro ops
  induction ops with
  | nil => intro T m _ _ _ _ _; exact ⟨0, T, rfl⟩
  | cons op ops ih =>
    intro T m hres hinv hm hrem hfit
    simp only [List.length_cons] at hfit
    have hnE0 : 0 ≤ M.sys.nE T :=
      le_trans (by positivity) (ok.sys_ok.len_le_nE T hinv)
    have step : ∀ (T2 : S) (f1 : Nat), Inv T2 →
        (∀ k v, (k, v) ∈ M.sys.ents T2 ↔ refStep m op k = some v) →
        resizesPos ops = true →
        (removesLive (refStep m op) ops = true ∨
          ∀ T k, Inv T → ∃ f T1, M.remove f T k = some T1) →
        M.sys.nE T2 ≤ M.sys.nE T + 1 →
        (∀ g, f1 ≤ g → M.run g (op :: ops) T = M.run g ops T2) →
        ∃ f T1, M.run f (op :: ops) T = some T1 := by
      intro T2 f1 hinv2 hm2 hres2 hrem2 hnE2 hstep
      obtain ⟨f2, T1, h2⟩ := ih T2 (refStep m op) hres2 hinv2 hm2 hrem2
        (hfit.mono (by push_cast; omega) (le_refl _))
      refine ⟨max f1 f2, T1, ?_⟩
      rw [hstep _ (le_max_left _ _)]
      exact mach_run_mono M P Inv ok f2 _ (le_max_right _ _) ops T2 T1 h2
    cases op with
    | put k v =>
      simp only [resizesPos] at hres
      obtain ⟨f1, T2, h1⟩ := Sys.put_total M.sys Inv ok.sys_ok P hq T k v hinv
        (hfit.mono (by push_cast; omega) (le_refl _))
      obtain ⟨hinv2, hupd, hnE2, _⟩ := Sys.put_pc M.sys Inv ok.sys_ok P hq f1 T k v T2 hinv h1
      apply step T2 f1 hinv2 _ hres
      · rcases hrem with h | h
        · left; simpa [removesLive] using h
        · exact Or.inr h
      · exact hnE2
      · intro g hg
        have := mach_put_mono M P Inv ok f1 g T k v T2 hg (by rw [ok.put_eq]; exact h1)
        simp only [run, runOps, this]
      · intro k1 v1
        rw [hupd k1 v1, hm k1 v1]
        simp only [refStep]
        by_cases hk : k1 = k
        · simp [hk, eq_comm]
        · simp [hk]
    | remove k =>
      simp only [resizesPos] at hres
      have htot : ∃ f1 T2, M.remove f1 T k = some T2 := by
        rcases hrem with h | h
        · simp only [removesLive, Bool.and_eq_true] at h
          obtain ⟨v, hv⟩ := Option.isSome_iff_exists.1 h.1
          exact ok.remove_live T k v hinv ((hm k v).2 hv)
        · exact h T k hinv
      obtain ⟨f1, T2, h1⟩ := htot
      obtain ⟨hinv2, _, hnE2, hmem, _⟩ := ok.remove_pc T k f1 T2 hinv h1
      apply step T2 f1 hinv2 _ hres
      · rcases hrem with h | h
        · left
          simp only [removesLive, Bool.and_eq_true] at h
          exact h.2
        · exact Or.inr h
      · omega
      · intro g hg
        have := ok.remove_mono T k f1 g T2 hg h1
        simp only [run, runOps, this]
      · intro k1 v1
        rw [hmem k1 v1, hm k1 v1]
        simp only [refStep]
        by_cases hk : k1 = k
        · simp [hk]
        · simp [hk]
    | resize n =>
      simp only [resizesPos, Bool.and_eq_true, decide_eq_true_eq] at hres
      have hle := ok.sys_ok.len_le_nE T hinv
      obtain ⟨f1, T2, h1⟩ := Sys.resize_total M.sys Inv ok.sys_ok P hq n hres.1 T hinv
        (hfit.mono (by push_cast; omega) (le_refl _))
      obtain ⟨hinv2, hmem, hnE2, hlen2, _⟩ := Sys.resize_pc M.sys Inv ok.sys_ok P hq f1 n
        hres.1 T T2 hinv h1
      apply step T2 f1 hinv2 _ hres.2
      · rcases hrem with h | h
        · left; simpa [removesLive] using h
        · exact Or.inr h
      · rw [hnE2, hlen2]; omega
      · intro g hg
        have := mach_resize_mono M P Inv ok f1 g n T T2 hg (by rw [ok.resize_eq]; exact h1)
        simp only [run, runOps, this]
      · intro k1 v1
        rw [hmem k1 v1, hm k1 v1]
        rfl

/-- From a fresh table, a call sequence whose `remove` calls finish ends in one table `T`
for every large enough fuel, the live pairs of `T` are the bindings of the reference map,
and `get` returns the value of every bound key. -/
theorem mach_run_get (M : Machine S K V) (P : Params K) (Inv : S → Prop) (ok : M.Ok P Inv)
    (hq : P.Capped) (cap : Nat) (hcap : 1 ≤ cap)
    (ops : List (Op K V)) (hfit : P.Fits ops.length (2 ^ 30)) (hres : resizesPos ops = true)
    (hrem : removesLive (fun _ => none) ops = true ∨
      ∀ T k, Inv T → ∃ f T1, M.remove f T k = some T1) :
    ∃ T f0, Inv T ∧ (∀ k v, (k, v) ∈ M.sys.ents T ↔ refMap ops k = some v) ∧
      ∀ f, f0 ≤ f → M.run f ops (M.sys.mk0 cap) = some T ∧
        ∀ k v, refMap ops k = some v → M.get f T k = some (some v) := by
  have hm0 : ∀ k v, (k, v) ∈ M.sys.ents (M.sys.mk0 cap)
      ↔ (fun _ => none : K → Option V) k = some v := by
    intro k v; rw [ok.sys_ok.mk0_ents]; simp
  obtain ⟨f1, T, h1⟩ := mach_run_total M P Inv ok hq ops (M.sys.mk0 cap) _ hres
    (ok.sys_ok.mk0_inv cap hcap) hm0 hrem (by rw [ok.sys_ok.mk0_nE]; simpa using hfit)
  obtain ⟨hinv, hmem⟩ := mach_run_pc M P Inv ok hq f1 ops _ T _ hres (ok.sys_ok.mk0_inv cap hcap)
    hm0 h1
  refine ⟨T, max f1 (M.sys.nB T + 1), hinv, hmem, ?_⟩
  intro f hf
  refine ⟨mach_run_mono M P Inv ok f1 f (le_trans (le_max_left _ _) hf) ops _ T h1, ?_⟩
  intro k v hkv
  exact ok.get_present T k v f hinv ((hmem k v).2 hkv) (le_trans (le_max_right _ _) hf)

/-- Reachable tables satisfy the invariant. -/
theorem mach_inv_of_run (M : Machine S K V) (P : Params K) (Inv : S → Prop) (ok : M.Ok P Inv)
    (hq : P.Capped) (cap : Nat) (hcap : 1 ≤ cap) (ops : List (Op K V)) (f : Nat)
    (T : S) (hres : resizesPos ops = true) (h : M.run f ops (M.sys.mk0 cap) = some T) :
    Inv T :=
  (mach_run_pc M P Inv ok hq f ops _ T (fun _ => none) hres (ok.sys_ok.mk0_inv cap hcap)
    (by intro k v; rw [ok.sys_ok.mk0_ents]; simp) h).1

end Machine

/-! ## Kinds of call sequences -/

theorem resizesPos_of_noResize {K V : Type} :
    ∀ (ops : List (Op K V)), noResize ops = true → resizesPos ops = true := by
  intro ops
  induction ops with
  | nil => intro _; rfl
  | cons op ops ih =>
    intro h
    cases op with
    | put k v => simpa [noResize, resizesPos] using ih (by simpa [noResize] using h)
    | remove k => simpa [noResize, resizesPos] using ih (by simpa [noResize] using h)
    | resize n => simp [noResize] at h

theorem noResize_of_onlyPuts {K V : Type} :
    ∀ (ops : List (Op K V)), onlyPuts ops = true → noResize ops = true := by
  intro ops
  induction ops with
  | nil => intro _; rfl
  | cons op ops ih =>
    intro h
    cases op with
    | put k v => simpa [noResize, onlyPuts] using ih (by simpa [onlyPuts] using h)
    | remove k => simp [onlyPuts] at h
    | resize n => simp [onlyPuts] at h

theorem removesLive_of_onlyPuts {K V : Type} [DecidableEq K] :
    ∀ (ops : List (Op K V)) (m : K → Option V), onlyPuts ops = true →
      removesLive m ops = true := by
  intro ops
  induction ops with
  | nil => intro _ _; rfl
  | cons op ops ih =>
    intro m h
    cases op with
    | put k v => simpa [removesLive] using ih _ (by simpa [onlyPuts] using h)
    | remove k => simp [onlyPuts] at h
    | resize n => simp [onlyPuts] at h

/-! ## `resize` on a table that satisfies the invariant -/

namespace Machine

variable {S K V : Type} [DecidableEq K]

/-- On a table that satisfies the invariant and whose live entries a table of `2^30`
buckets or more holds below the threshold, `resize(n)`, `n >= 1`, finishes: the result has
the same live pairs, an exact `numEntries`, a capacity `n * 2 ^ j`, and the capacity `n`
when the threshold check does not fire at capacity `n` for any count below the number of
live entries. -/
theorem mach_resize_ok (M : Machine S K V) (P : Params K) (Inv : S → Prop) (ok : M.Ok P Inv)
    (hq : P.Capped) (T : S) (hinv : Inv T) (n : Nat) (hn : 1 ≤ n)
    (hfit : P.Fits (M.sys.ents T).length (2 ^ 30)) :
    ∃ T1 f0, (∀ f, f0 ≤ f → M.resize f n T = some T1) ∧ Inv T1 ∧
      (∀ k v, (k, v) ∈ M.sys.ents T1 ↔ (k, v) ∈ M.sys.ents T) ∧
      M.sys.nE T1 = (M.sys.ents T1).length ∧
      (M.sys.ents T1).length = (M.sys.ents T).length ∧
      (∃ j, M.sys.nB T1 = n * 2 ^ j) ∧
      ((∀ e : Nat, e < (M.sys.ents T).length → overThreshold P e n = false) →
        M.sys.nB T1 = n) := by
  obtain ⟨f0, T1, h⟩ := Sys.resize_total M.sys Inv ok.sys_ok P hq n hn T hinv hfit
  obtain ⟨a, b, c, d, e⟩ := Sys.resize_pc M.sys Inv ok.sys_ok P hq f0 n hn T T1 hinv h
  refine ⟨T1, f0, ?_, a, b, c, d, e, ?_⟩
  · intro f hf
    rw [ok.resize_eq]
    exact Sys.resize_mono M.sys Inv ok.sys_ok P f0 f n T T1 hf h
  · intro hsame
    have := Sys.replay_same_cap M.sys Inv ok.sys_ok P hq f0 (M.sys.ents T) (M.sys.mk0 n) T1
      (ok.sys_ok.mk0_inv n hn) (by rw [ok.sys_ok.mk0_nE, ok.sys_ok.mk0_ents]; simp)
      (ok.sys_ok.nodup T hinv) (by intro k _; rw [ok.sys_ok.mk0_ents]; simp)
      (by rw [ok.sys_ok.mk0_ents, ok.sys_ok.mk0_nB]
          simp only [List.length_nil, Nat.zero_add]
          exact hsame) h
    rw [this, ok.sys_ok.mk0_nB]

/-- After `resize`, the keys for which `get` returns a value are the keys that were live,
with the same values. -/
theorem mach_resize_get (M : Machine S K V) (P : Params K) (Inv : S → Prop) (ok : M.Ok P Inv)
    (hq : P.Capped) (T : S) (hinv : Inv T) (n : Nat) (hn : 1 ≤ n)
    (hfit : P.Fits (M.sys.ents T).length (2 ^ 30)) :
    ∃ T1 f0, (∀ f, f0 ≤ f → M.resize f n T = some T1) ∧
      ∀ k v, (∃ g, M.get g T1 k = some (some v)) ↔ (k, v) ∈ M.sys.ents T := by
  obtain ⟨T1, f0, h, hinv1, hmem, _⟩ := mach_resize_ok M P Inv ok hq T hinv n hn hfit
  refine ⟨T1, f0, h, ?_⟩
  intro k v
  constructor
  · rintro ⟨g, hg⟩
    exact (hmem k v).1 (ok.get_sound T1 k v g hinv1 hg)
  · intro hm
    exact ⟨M.sys.nB T1 + 1, ok.get_present T1 k v _ hinv1 ((hmem k v).2 hm) (le_refl _)⟩

/-- The table on which `put` does its write: the table itself when the threshold check does
not fire, the result of `resize( numBuckets * 2 )` when it does. In the second case
`numEntries` is the number of live entries before the resize and the capacity has at least
doubled. The doubled capacity fits into an `int` when a table of `2^30` buckets or more
holds `numEntries` entries below the threshold. -/
theorem mach_put_prepare (M : Machine S K V) (P : Params K) (Inv : S → Prop) (ok : M.Ok P Inv)
    (hq : P.Capped) (T : S) (hinv : Inv T) (k : K) (v : V)
    (hfit : P.Fits (M.sys.nE T) (2 ^ 30)) :
    ∃ T1 f0, ∀ f, f0 ≤ f →
      M.put (f + 1) T k v = M.sys.putEntry (f + 1) T1 k v ∧
      (overThreshold P (M.sys.nE T) (M.sys.nB T) = false → T1 = T) ∧
      (overThreshold P (M.sys.nE T) (M.sys.nB T) = true →
        M.resize f (M.sys.nB T * 2) T = some T1 ∧
        M.sys.nE T1 = (M.sys.ents T).length ∧ M.sys.nB T * 2 ≤ M.sys.nB T1) := by
  have hN := ok.sys_ok.nB_pos T hinv
  by_cases hov : overThreshold P (M.sys.nE T) (M.sys.nB T) = true
  · obtain ⟨T1, f0, h, hinv1, _, hnE, hlen, ⟨j, hj⟩, _⟩ :=
      mach_resize_ok M P Inv ok hq T hinv (M.sys.nB T * 2) (by omega)
        (hfit.mono (ok.sys_ok.len_le_nE T hinv) (le_refl _))
    have hofl := Sys.nB_lt_of_over P _ _ _ _ hov (le_refl _) hfit
    have hpow : 1 ≤ 2 ^ j := Nat.one_le_two_pow
    have hb2 : M.sys.nB T * 2 ≤ M.sys.nB T1 := by
      rw [hj]; exact Nat.le_mul_of_pos_right _ (by omega)
    refine ⟨T1, f0, fun f hf => ⟨?_, ?_, ?_⟩⟩
    · have hr := h f hf
      rw [ok.resize_eq] at hr
      unfold Sys.resize at hr
      rw [ok.put_eq]
      simp only [Sys.put]
      rw [if_pos hov, if_neg (by omega), hr]
    · intro hc; rw [hc] at hov; exact Bool.noConfusion hov
    · intro _
      exact ⟨h f hf, by rw [hnE, hlen], hb2⟩
  · have hov1 : overThreshold P (M.sys.nE T) (M.sys.nB T) = false := by simpa using hov
    refine ⟨T, 0, fun f _ => ⟨?_, fun _ => rfl, ?_⟩⟩
    · rw [ok.put_eq]
      simp only [Sys.put, hov1, Bool.false_eq_true, if_false]
    · intro hc; rw [hc] at hov1; exact Bool.noConfusion hov1

/-- The threshold test on the table on which `put` writes (`T1` of `mach_put_prepare`): it
fails there when it fails for the live entries at every capacity from the doubled one on,
and this is so when the test fails for every load factor up to 1/2. -/
theorem mach_put_prepare_test (M : Machine S K V) (P : Params K) (Inv : S → Prop)
    (ok : M.Ok P Inv) (T T1 : S) (hinv : Inv T)
    (hno : overThreshold P (M.sys.nE T) (M.sys.nB T) = false → T1 = T)
    (hov : overThreshold P (M.sys.nE T) (M.sys.nB T) = true →
      M.sys.nE T1 = (M.sys.ents T).length ∧ M.sys.nB T * 2 ≤ M.sys.nB T1) :
    ((overThreshold P (M.sys.nE T) (M.sys.nB T) = true →
        ∀ b, M.sys.nB T * 2 ≤ b → overThreshold P (M.sys.ents T).length b = false) →
      overThreshold P (M.sys.nE T1) (M.sys.nB T1) = false) ∧
    ((∀ (e : Int) (b : Nat), 1 ≤ b → 2 * e ≤ b → overThreshold P e b = false) →
      overThreshold P (M.sys.nE T1) (M.sys.nB T1) = false) := by
  have main : (overThreshold P (M.sys.nE T) (M.sys.nB T) = true →
        ∀ b, M.sys.nB T * 2 ≤ b → overThreshold P (M.sys.ents T).length b = false) →
      overThreshold P (M.sys.nE T1) (M.sys.nB T1) = false := by
    intro hfit
    cases ho : overThreshold P (M.sys.nE T) (M.sys.nB T) with
    | false => rw [hno ho]; exact ho
    | true =>
      obtain ⟨hnE, hnB⟩ := hov ho
      rw [hnE]
      exact hfit ho _ hnB
  have hl := ok.sys_ok.len_le_nB T hinv
  have hN := ok.sys_ok.nB_pos T hinv
  refine ⟨main, fun hhalf => main (fun _ b hb => hhalf _ _ (by omega) ?_)⟩
  have : 2 * (M.sys.ents T).length ≤ b := by omega
  exact_mod_cast this

end Machine

/-! ## A capacity whose double does not fit into an `int` -/

namespace Sys

variable {S K V : Type}

/-- On an empty table of capacity `cap >= 2^30` on which the threshold check fires at one
entry, the first `put` returns, with `numEntries == 1` and the capacity unchanged, and no
`put` after it does. -/
theorem put_mk0_then_overflow (Y : Sys S K V) (Inv : S → Prop) (ok : Y.Ok Inv) (P : Params K)
    (cap : Nat) (hcap : 2 ^ 30 ≤ cap) (h0 : overThreshold P 0 cap = false)
    (h1 : overThreshold P 1 cap = true) (k1 : K) (v1 : V) :
    ∃ T, (∀ f, cap ≤ f → Y.put P f (Y.mk0 cap) k1 v1 = some T) ∧
      (∀ f T1, Y.put P f (Y.mk0 cap) k1 v1 = some T1 → T1 = T) ∧
      Y.nE T = 1 ∧ Y.nB T = cap ∧ ∀ f k2 v2, Y.put P f T k2 v2 = none := by
  have hc1 : 1 ≤ cap := le_trans Nat.one_le_two_pow hcap
  have hinv := ok.mk0_inv cap hc1
  obtain ⟨T, hT, _, hn, hb, _⟩ := ok.putEntry_ok (Y.mk0 cap) k1 v1 hinv
    (by rw [ok.mk0_nE, ok.mk0_nB]; exact_mod_cast hc1)
  rw [ok.mk0_nE] at hn
  rw [ok.mk0_nB] at hb hT
  have hput : ∀ f, cap ≤ f → Y.put P f (Y.mk0 cap) k1 v1 = some T := by
    intro f hf
    obtain ⟨g, rfl⟩ : ∃ g, f = g + 1 := ⟨f - 1, by omega⟩
    simp only [put]
    rw [ok.mk0_nE, ok.mk0_nB, h0]
    simp only [Bool.false_eq_true, if_false]
    exact ok.putEntry_mono _ _ _ _ _ _ hf hT
  refine ⟨T, hput, ?_, by rw [hn]; rfl, hb, ?_⟩
  · intro f T1 h
    have e1 := put_mono Y Inv ok P f (max f cap) _ _ _ _ (le_max_left _ _) h
    rw [hput _ (le_max_right _ _)] at e1
    exact (Option.some.inj e1).symm
  · intro f k2 v2
    apply put_overflow Y P T k2 v2 _ (by rw [hb]; exact hcap)
    rw [hn, hb]
    exact h1

/-- The replay of two entries into such a table does not return. -/
theorem replay_two_overflow (Y : Sys S K V) (Inv : S → Prop) (ok : Y.Ok Inv) (P : Params K)
    (cap : Nat) (hcap : 2 ^ 30 ≤ cap) (h0 : overThreshold P 0 cap = false)
    (h1 : overThreshold P 1 cap = true) (k1 k2 : K) (v1 v2 : V) (f : Nat) :
    replayL (Y.put P f) [(k1, v1), (k2, v2)] (Y.mk0 cap) = none := by
  obtain ⟨T, _, huniq, _, _, hofl⟩ := put_mk0_then_overflow Y Inv ok P cap hcap h0 h1 k1 v1
  simp only [replayL]
  cases h : Y.put P f (Y.mk0 cap) k1 v1 with
  | none => rfl
  | some T1 =>
    have e := huniq f T1 h
    subst e
    simp only [hofl]

end Sys

namespace Machine

variable {S K V : Type} [DecidableEq K]

/-- A call sequence that starts with two `put` calls on a fresh table of capacity
`cap >= 2^30` does not return when the threshold check fires at one entry: the second `put`
doubles the capacity. -/
theorem mach_two_puts_overflow (M : Machine S K V) (P : Params K) (Inv : S → Prop)
    (ok : M.Ok P Inv) (cap : Nat) (hcap : 2 ^ 30 ≤ cap) (h0 : overThreshold P 0 cap = false)
    (h1 : overThreshold P 1 cap = true) (k1 k2 : K) (v1 v2 : V) (rest : List (Op K V))
    (f : Nat) :
    M.run f (Op.put k1 v1 :: Op.put k2 v2 :: rest) (M.sys.mk0 cap) = none := by
  have h := Sys.replay_two_overflow M.sys Inv ok.sys_ok P cap hcap h0 h1 k1 k2 v1 v2 f
  simp only [replayL] at h
  simp only [run, runOps, ok.put_eq]
  cases hp : M.sys.put P f (M.sys.mk0 cap) k1 v1 with
  | none => rfl
  | some T1 =>
    rw [hp] at h
    simp only [] at h ⊢
    cases hp2 : M.sys.put P f T1 k2 v2 with
    | none => rfl
    | some T2 => rw [hp2] at h; simp at h

/-- The table a first `put` leaves at a capacity `cap >= 2^30` is reachable, and no `put`
on it returns when the threshold check fires at one entry. -/
theorem mach_reachable_overflow (M : Machine S K V) (P : Params K) (Inv : S → Prop)
    (ok : M.Ok P Inv) (cap : Nat) (hcap : 2 ^ 30 ≤ cap) (h0 : overThreshold P 0 cap = false)
    (h1 : overThreshold P 1 cap = true) (k1 : K) (v1 : V) :
    ∃ T, M.run cap [Op.put k1 v1] (M.sys.mk0 cap) = some T ∧ M.sys.nE T = 1 ∧
      M.sys.nB T = cap ∧ ∀ f k2 v2, M.put f T k2 v2 = none := by
  obtain ⟨T, hput, _, hn, hb, hofl⟩ :=
    Sys.put_mk0_then_overflow M.sys Inv ok.sys_ok P cap hcap h0 h1 k1 v1
  refine ⟨T, ?_, hn, hb, fun f k2 v2 => by rw [ok.put_eq]; exact hofl f k2 v2⟩
  simp only [run, runOps, ok.put_eq, hput cap (le_refl _)]

/-- The `resize` to a capacity `cap >= 2^30` of a table with two live entries does not
return when the threshold check fires at one entry: the replay of the second entry doubles
the capacity. -/
theorem mach_resize_overflow (M : Machine S K V) (P : Params K) (Inv : S → Prop)
    (ok : M.Ok P Inv) (cap : Nat) (hcap : 2 ^ 30 ≤ cap) (h0 : overThreshold P 0 cap = false)
    (h1 : overThreshold P 1 cap = true) (T : S) (k1 k2 : K) (v1 v2 : V)
    (hents : M.sys.ents T = [(k1, v1), (k2, v2)]) (f : Nat) :
    M.resize f cap T = none := by
  rw [ok.resize_eq]
  unfold Sys.resize
  rw [hents]
  exact Sys.replay_two_overflow M.sys Inv ok.sys_ok P cap hcap h0 h1 k1 k2 v1 v2 f

end Machine

/-! ## The three classes as machines -/

theorem LazyLPHash.lz_machine_ok {K V : Type} [DecidableEq K] [Inhabited K] [Inhabited V]
    (P : Params K) : (LazyLPHash.machine P : Machine (LazyLPHash K V) K V).Ok P
      (LazyLPHash.Inv P) where
  sys_ok := LazyLPHash.lz_sys_ok P
  put_eq := LazyLPHash.lz_put_eq_sys P
  resize_eq := LazyLPHash.lz_resize_eq_sys P
  remove_mono := fun T k f g T1 h h1 => LazyLPHash.lz_remove_mono P T k f g T1 h h1
  remove_pc := fun T k f T1 hinv h => by
    obtain ⟨a, b, c, d, e⟩ := LazyLPHash.lz_remove_pc P T hinv k f T1 h
    exact ⟨a, b, le_of_eq c, d, e⟩
  remove_live := fun T k v hinv hm => by
    obtain ⟨T1, h⟩ := LazyLPHash.lz_remove_total P T hinv k (Or.inl ⟨v, hm⟩)
    exact ⟨_, T1, h⟩
  get_mono := fun T k f g r h h1 => LazyLPHash.lz_get_mono P T k f g r h h1
  get_present := fun T k v f hinv hm hf =>
    LazyLPHash.lz_get_present P T hinv k v hm f (Nat.le_of_succ_le hf)
  get_sound := fun T k v f hinv h => LazyLPHash.lz_get_sound P T hinv k v f h

theorem LPHash.lp_machine_ok {K V : Type} [DecidableEq K] [Inhabited K] [Inhabited V]
    (P : Params K) : (LPHash.machine P : Machine (LPHash K V) K V).Ok P (LPHash.Inv P) where
  sys_ok := LPHash.lp_sys_ok P
  put_eq := LPHash.lp_put_eq_sys P
  resize_eq := LPHash.lp_resize_eq_sys P
  remove_mono := fun T k f g T1 h h1 => LPHash.lp_remove_mono P T k f g T1 h h1
  remove_pc := fun T k f T1 hinv h => LPHash.lp_remove_pc P T hinv k f T1 h
  remove_live := fun T k v hinv hm => LPHash.lp_remove_total P T hinv k (Or.inl ⟨v, hm⟩)
  get_mono := fun T k f g r h h1 => LPHash.lp_get_mono P T k f g r h h1
  get_present := fun T k v f hinv hm hf =>
    LPHash.lp_get_present P T hinv k v hm f (Nat.le_of_succ_le hf)
  get_sound := fun T k v f hinv h => LPHash.lp_get_sound P T hinv k v f h

theorem RHHash.rh_machine_ok {K V : Type} [DecidableEq K] [Inhabited K] [Inhabited V]
    (P : Params K) : (RHHash.machine P : Machine (RHHash K V) K V).Ok P (RHHash.Inv P) where
  sys_ok := RHHash.rh_sys_ok P
  put_eq := RHHash.rh_put_eq_sys P
  resize_eq := RHHash.rh_resize_eq_sys P
  remove_mono := fun T k f g T1 h h1 => RHHash.rh_remove_mono P T k f g T1 h h1
  remove_pc := fun T k f T1 hinv h => RHHash.rh_remove_pc P T hinv k f T1 h
  remove_live := fun T k _ hinv _ => RHHash.rh_remove_total P T hinv k
  get_mono := fun T k f g r h h1 => RHHash.rh_get_mono P T k f g r h h1
  get_present := fun T k v f hinv hm hf =>
    RHHash.rh_get_present P T hinv k v hm f (Nat.le_of_succ_le hf)
  get_sound := fun T k v f hinv h => RHHash.rh_get_sound P T hinv k v f h

/-! ## The reference map and the last call on a key -/

theorem refMap_foldl_other {K V : Type} [DecidableEq K] (k : K) :
    ∀ (post : List (Op K V)) (m : K → Option V),
      (∀ v, Op.put k v ∉ post) → Op.remove k ∉ post → post.foldl refStep m k = m k := by
  intro post
  induction post with
  | nil => intro m _ _; rfl
  | cons op post ih =>
    intro m hp hr
    simp only [List.foldl_cons]
    rw [ih _ (fun v hv => hp v (List.mem_cons_of_mem _ hv))
      (fun hv => hr (List.mem_cons_of_mem _ hv))]
    cases op with
    | put k1 v1 =>
      have : k ≠ k1 := by
        rintro rfl
        exact hp v1 (List.mem_cons_self _ _)
      simp [refStep, this]
    | remove k1 =>
      have : k ≠ k1 := by
        rintro rfl
        exact hr (List.mem_cons_self _ _)
      simp [refStep, this]
    | resize n => rfl

/-- When the last call on `k` is `put(k, v)`, the reference map binds `k` to `v`. -/
theorem refMap_last_put {K V : Type} [DecidableEq K] (pre post : List (Op K V)) (k : K) (v : V)
    (hp : ∀ v1, Op.put k v1 ∉ post) (hr : Op.remove k ∉ post) :
    refMap (pre ++ Op.put k v :: post) k = some v := by
  unfold refMap
  rw [List.foldl_append, List.foldl_cons, refMap_foldl_other k post _ hp hr]
  simp [refStep]

/-- When the last call on `k` is `remove(k)`, the reference map does not bind `k`. -/
theorem refMap_last_remove {K V : Type} [DecidableEq K] (pre post : List (Op K V)) (k : K)
    (hp : ∀ v1, Op.put k v1 ∉ post) (hr : Op.remove k ∉ post) :
    refMap (pre ++ Op.remove k :: post) k = none := by
  unfold refMap
  rw [List.foldl_append, List.foldl_cons, refMap_foldl_other k post _ hp hr]
  simp [refStep]

/-- When `k` was never put, the reference map does not bind `k`. -/
theorem refMap_never_put {K V : Type} [DecidableEq K] (k : K) :
    ∀ (ops : List (Op K V)) (m : K → Option V), (∀ v, Op.put k v ∉ ops) → m k = none →
      ops.foldl refStep m k = none := by
  intro ops
  induction ops with
  | nil => intro m _ h; exact h
  | cons op ops ih =>
    intro m hp hm
    simp only [List.foldl_cons]
    apply ih _ (fun v hv => hp v (List.mem_cons_of_mem _ hv))
    cases op with
    | put k1 v1 =>
      have : k ≠ k1 := by
        rintro rfl
        exact hp v1 (List.mem_cons_self _ _)
      simp [refStep, this, hm]
    | remove k1 =>
      simp only [refStep]
      split
      · rfl
      · exact hm
    | resize n => exact hm

theorem onlyPuts_no_remove {K V : Type} :
    ∀ (ops : List (Op K V)), onlyPuts ops = true → ∀ k, Op.remove k ∉ ops := by
  intro ops
  induction ops with
  | nil => intro _ k h; simp at h
  | cons op ops ih =>
    intro h k hm
    cases op with
    | put k1 v1 =>
      simp only [List.mem_cons] at hm
      rcases hm with hm | hm
      · exact Op.noConfusion hm
      · exact ih (by simpa [onlyPuts] using h) k hm
    | remove k1 => simp [onlyPuts] at h
    | resize n => simp [onlyPuts] at h

/-! ## Reachable tables -/

theorem LazyLPHash.lz_inv_of_reachable {K V : Type} [DecidableEq K] [Inhabited K] [Inhabited V]
    (P : Params K) (cap : Nat) (hcap : 1 ≤ cap) (hq : P.Capped)
    (T : LazyLPHash K V) (h : LazyLPHash.Reachable P cap T) : LazyLPHash.Inv P T := by
  obtain ⟨ops, f, hres, hrun⟩ := h
  exact Machine.mach_inv_of_run (LazyLPHash.machine P) P _ (LazyLPHash.lz_machine_ok P) hq cap
    hcap ops f T hres hrun

theorem LPHash.lp_inv_of_reachable {K V : Type} [DecidableEq K] [Inhabited K] [Inhabited V]
    (P : Params K) (cap : Nat) (hcap : 1 ≤ cap) (hq : P.Capped)
    (T : LPHash K V) (h : LPHash.Reachable P cap T) : LPHash.Inv P T := by
  obtain ⟨ops, f, hres, hrun⟩ := h
  exact Machine.mach_inv_of_run (LPHash.machine P) P _ (LPHash.lp_machine_ok P) hq cap
    hcap ops f T hres hrun

theorem RHHash.rh_inv_of_reachable {K V : Type} [DecidableEq K] [Inhabited K] [Inhabited V]
    (P : Params K) (cap : Nat) (hcap : 1 ≤ cap) (hq : P.Capped)
    (T : RHHash K V) (h : RHHash.Reachable P cap T) : RHHash.Inv P T := by
  obtain ⟨ops, f, hres, hrun⟩ := h
  exact Machine.mach_inv_of_run (RHHash.machine P) P _ (RHHash.rh_machine_ok P) hq cap
    hcap ops f T hres hrun

theorem LazyLPHash.lz_mem_ents_slots {K V : Type} [DecidableEq K] [Inhabited K] [Inhabited V]
    (P : Params K) (T : LazyLPHash K V) (hinv : LazyLPHash.Inv P T) (k : K) (v : V) :
    (k, v) ∈ LazyLPHash.ents T ↔ ∃ i, i < T.numBuckets ∧ (rd T.buckets i).occupied = true ∧
      (rd T.buckets i).deleted = false ∧ (rd T.buckets i).key = k ∧ (rd T.buckets i).val = v := by
  rw [LazyLPHash.lz_mem_ents_iff, hinv.len]
  constructor
  · rintro ⟨i, hi, hl, hk, hv⟩
    have := (LazyLPHash.lz_liveEntry_iff _).1 hl
    exact ⟨i, hi, this.1, this.2, hk, hv⟩
  · rintro ⟨i, hi, ho, hd, hk, hv⟩
    exact ⟨i, hi, (LazyLPHash.lz_liveEntry_iff _).2 ⟨ho, hd⟩, hk, hv⟩

theorem LPHash.lp_mem_ents_slots {K V : Type} [DecidableEq K] [Inhabited K] [Inhabited V]
    (P : Params K) (T : LPHash K V) (hinv : LPHash.Inv P T) (k : K) (v : V) :
    (k, v) ∈ LPHash.ents T ↔ ∃ i, i < T.numBuckets ∧ (rd T.buckets i).occupied = true ∧
      (rd T.buckets i).key = k ∧ (rd T.buckets i).val = v := by
  rw [LPHash.lp_mem_ents_iff, hinv.len]

theorem RHHash.rh_mem_ents_slots {K V : Type} [DecidableEq K] [Inhabited K] [Inhabited V]
    (P : Params K) (T : RHHash K V) (hinv : RHHash.Inv P T) (k : K) (v : V) :
    (k, v) ∈ RHHash.ents T ↔ ∃ i, i < T.numBuckets ∧ (rd T.buckets i).occupied = true ∧
      (rd T.buckets i).key = k ∧ (rd T.buckets i).val = v := by
  rw [RHHash.rh_mem_ents_iff]
  unfold RHHash.MemB
  rw [hinv.arr.len]

/-! ## Claims C1 to C10 -/

/-- Counterexample to C1 as stated: capacity `2^30`, threshold `2^-30`, `put(0,0)`,
`put(1,1)`. The first `put` returns with `numEntries == 1` and `numBuckets == 2^30`; the
second finds the load factor `1 / 2^30 >= loadThreshold` and calls
`resize( numBuckets * 2 )` with a product that does not fit into an `int`: the allocation
throws, the pair is not stored and the call does not return. The sequence does not finish
in a `LazyLPHash` nor in a `LPHash`, so no `get(1)` after it returns 1. -/
theorem roundtrip_linear_probing_overflow :
    (overThreshold tinyParams 0 (2 ^ 30) = false ∧
      overThreshold tinyParams 1 (2 ^ 30) = true) ∧
    (∃ T : LazyLPHash Nat Nat,
      LazyLPHash.run tinyParams (2 ^ 30) [Op.put 0 0] (LazyLPHash.mk0 (2 ^ 30)) = some T ∧
      T.numEntries = 1 ∧ T.numBuckets = 2 ^ 30 ∧
      ∀ f, LazyLPHash.put tinyParams f T 1 1 = none) ∧
    (∀ f, LazyLPHash.run tinyParams f [Op.put 0 0, Op.put 1 1] (LazyLPHash.mk0 (2 ^ 30))
      = none) ∧
    (∃ T : LPHash Nat Nat,
      LPHash.run tinyParams (2 ^ 30) [Op.put 0 0] (LPHash.mk0 (2 ^ 30)) = some T ∧
      T.numEntries = 1 ∧ T.numBuckets = 2 ^ 30 ∧
      ∀ f, LPHash.put tinyParams f T 1 1 = none) ∧
    (∀ f, LPHash.run tinyParams f [Op.put 0 0, Op.put 1 1] (LPHash.mk0 (2 ^ 30)) = none) := by
  have h0 : overThreshold tinyParams 0 (2 ^ 30) = false := by decide
  have h1 : overThreshold tinyParams 1 (2 ^ 30) = true := by decide
  refine ⟨⟨h0, h1⟩, ?_, ?_, ?_, ?_⟩
  · obtain ⟨T, hr, hn, hb, hofl⟩ := Machine.mach_reachable_overflow
      (LazyLPHash.machine tinyParams) tinyParams _ (LazyLPHash.lz_machine_ok tinyParams)
      (2 ^ 30) (le_refl _) h0 h1 0 0
    exact ⟨T, hr, hn, hb, fun f => hofl f 1 1⟩
  · exact Machine.mach_two_puts_overflow (LazyLPHash.machine tinyParams) tinyParams _
      (LazyLPHash.lz_machine_ok tinyParams) (2 ^ 30) (le_refl _) h0 h1 0 1 0 1 []
  · obtain ⟨T, hr, hn, hb, hofl⟩ := Machine.mach_reachable_overflow
      (LPHash.machine tinyParams) tinyParams _ (LPHash.lp_machine_ok tinyParams)
      (2 ^ 30) (le_refl _) h0 h1 0 0
    exact ⟨T, hr, hn, hb, fun f => hofl f 1 1⟩
  · exact Machine.mach_two_puts_overflow (LPHash.machine tinyParams) tinyParams _
      (LPHash.lp_machine_ok tinyParams) (2 ^ 30) (le_refl _) h0 h1 0 1 0 1 []

/-- C1, amended. Round trip for `LazyLPHash` and `LPHash`: for every capacity `>= 1`, every
threshold at most 1 (whatever the outcome of the `float` comparison on each pair of counts),
every hasher and every sequence of `put` calls on a fresh table such that a table of `2^30`
buckets or more holds as many entries as there are calls below the threshold (so that no
`put` doubles a capacity of `2^30` or more), the calls finish (with one result `T` for every
large enough fuel), and for every key `k` whose last `put` in the sequence is `put(k, v)`,
`get(k)` on `T` returns `v`. -/
theorem roundtrip_linear_probing {K V : Type} [DecidableEq K] [Inhabited K] [Inhabited V]
    (P : Params K) (cap : Nat) (ops : List (Op K V)) (hcap : 1 ≤ cap) (hthr : P.Capped)
    (hfit : P.Fits ops.length (2 ^ 30)) (hops : onlyPuts ops = true) :
    (∃ (T : LazyLPHash K V) (f0 : Nat), ∀ f, f0 ≤ f →
      LazyLPHash.run P f ops (LazyLPHash.mk0 cap) = some T ∧
      ∀ pre k v post, ops = pre ++ Op.put k v :: post → (∀ v1, Op.put k v1 ∉ post) →
        LazyLPHash.get P f T k = some (some v)) ∧
    (∃ (T : LPHash K V) (f0 : Nat), ∀ f, f0 ≤ f →
      LPHash.run P f ops (LPHash.mk0 cap) = some T ∧
      ∀ pre k v post, ops = pre ++ Op.put k v :: post → (∀ v1, Op.put k v1 ∉ post) →
        LPHash.get P f T k = some (some v)) := by
  have hres := resizesPos_of_noResize ops (noResize_of_onlyPuts ops hops)
  have hlive := removesLive_of_onlyPuts ops (fun _ => none) hops
  have hlast : ∀ pre k v post, ops = pre ++ Op.put k v :: post → (∀ v1, Op.put k v1 ∉ post) →
      refMap ops k = some v := by
    intro pre k v post he hpost
    rw [he]
    apply refMap_last_put pre post k v hpost
    intro hm
    exact onlyPuts_no_remove ops hops k (by rw [he]; simp [hm])
  constructor
  · obtain ⟨T, f0, _, _, h⟩ := Machine.mach_run_get (LazyLPHash.machine P) P _
      (LazyLPHash.lz_machine_ok P) hthr cap hcap ops hfit hres (Or.inl hlive)
    refine ⟨T, f0, fun f hf => ⟨(h f hf).1, ?_⟩⟩
    intro pre k v post he hpost
    exact (h f hf).2 k v (hlast pre k v post he hpost)
  · obtain ⟨T, f0, _, _, h⟩ := Machine.mach_run_get (LPHash.machine P) P _
      (LPHash.lp_machine_ok P) hthr cap hcap ops hfit hres (Or.inl hlive)
    refine ⟨T, f0, fun f hf => ⟨(h f hf).1, ?_⟩⟩
    intro pre k v post he hpost
    exact (h f hf).2 k v (hlast pre k v post he hpost)

/-- Witness of C1: capacity 4, threshold 3/4, `put(1,10)`, `put(5,50)`, `put(9,90)`,
`put(5,51)`. -/
theorem roundtrip_linear_probing_witness :
    (1 ≤ 4 ∧ exParams.Capped ∧ exParams.Fits exPuts.length (2 ^ 30) ∧
      onlyPuts exPuts = true) ∧
    ((∃ (T : LazyLPHash Nat Nat) (f0 : Nat), ∀ f, f0 ≤ f →
      LazyLPHash.run exParams f exPuts (LazyLPHash.mk0 4) = some T ∧
      ∀ pre k v post, exPuts = pre ++ Op.put k v :: post → (∀ v1, Op.put k v1 ∉ post) →
        LazyLPHash.get exParams f T k = some (some v)) ∧
    (∃ (T : LPHash Nat Nat) (f0 : Nat), ∀ f, f0 ≤ f →
      LPHash.run exParams f exPuts (LPHash.mk0 4) = some T ∧
      ∀ pre k v post, exPuts = pre ++ Op.put k v :: post → (∀ v1, Op.put k v1 ∉ post) →
        LPHash.get exParams f T k = some (some v))) :=
  ⟨⟨by decide, ratTest_capped _ 3 4 (by decide), ratTest_fits _ 3 4 4 (2 ^ 30) (by decide),
      rfl⟩,
    roundtrip_linear_probing exParams 4 exPuts (by decide)
      (ratTest_capped _ 3 4 (by decide)) (ratTest_fits _ 3 4 4 (2 ^ 30) (by decide)) rfl⟩

/-- Counterexample to C2 as stated: capacity `2^30`, threshold `2^-30`, `put(0,0)`,
`put(1,1)` on a fresh `RHHash`. The first `put` returns with `numEntries == 1` and
`numBuckets == 2^30`; the second finds the load factor `1 / 2^30 >= loadThreshold` and calls
`resize( numBuckets * 2 )` with a product that does not fit into an `int`: the allocation
throws, the pair is not stored and the call does not return, so no `get(1)` after the
sequence returns 1. -/
theorem roundtrip_robin_hood_overflow :
    (overThreshold tinyParams 0 (2 ^ 30) = false ∧
      overThreshold tinyParams 1 (2 ^ 30) = true) ∧
    (∃ T : RHHash Nat Nat,
      RHHash.run tinyParams (2 ^ 30) [Op.put 0 0] (RHHash.mk0 (2 ^ 30)) = some T ∧
      T.numEntries = 1 ∧ T.numBuckets = 2 ^ 30 ∧
      ∀ f, RHHash.put tinyParams f T 1 1 = none) ∧
    (∀ f, RHHash.run tinyParams f [Op.put 0 0, Op.put 1 1] (RHHash.mk0 (2 ^ 30)) = none) := by
  have h0 : overThreshold tinyParams 0 (2 ^ 30) = false := by decide
  have h1 : overThreshold tinyParams 1 (2 ^ 30) = true := by decide
  refine ⟨⟨h0, h1⟩, ?_, ?_⟩
  · obtain ⟨T, hr, hn, hb, hofl⟩ := Machine.mach_reachable_overflow
      (RHHash.machine tinyParams) tinyParams _ (RHHash.rh_machine_ok tinyParams)
      (2 ^ 30) (le_refl _) h0 h1 0 0
    exact ⟨T, hr, hn, hb, fun f => hofl f 1 1⟩
  · exact Machine.mach_two_puts_overflow (RHHash.machine tinyParams) tinyParams _
      (RHHash.rh_machine_ok tinyParams) (2 ^ 30) (le_refl _) h0 h1 0 1 0 1 []

/-- C2, amended. Round trip for `RHHash`: for every capacity `>= 1`, every threshold at most 1
(whatever the outcome of the `float` comparison on each pair of counts), every hasher and
every sequence of `put` calls on a fresh table such that a table of `2^30` buckets or more
holds as many entries as there are calls below the threshold (so that no `put` doubles a
capacity of `2^30` or more), the calls finish in a table `T`; for every key `k` whose last
`put` is `put(k, v)`, `get(k)` on `T` returns `v` (so the early-termination test of `get` did
not stop before the slot of `k`); and on `T` the write phase of a `put` on the key of an
occupied slot `i` changes that slot alone, keeping its key and home index and storing the new
value: no resident is swapped. -/
theorem roundtrip_robin_hood {K V : Type} [DecidableEq K] [Inhabited K] [Inhabited V]
    (P : Params K) (cap : Nat) (ops : List (Op K V)) (hcap : 1 ≤ cap) (hthr : P.Capped)
    (hfit : P.Fits ops.length (2 ^ 30)) (hops : onlyPuts ops = true) :
    ∃ (T : RHHash K V) (f0 : Nat), ∀ f, f0 ≤ f →
      RHHash.run P f ops (RHHash.mk0 cap) = some T ∧
      (∀ pre k v post, ops = pre ++ Op.put k v :: post → (∀ v1, Op.put k v1 ∉ post) →
        RHHash.get P f T k = some (some v)) ∧
      (∀ i v1, i < T.numBuckets → (rd T.buckets i).occupied = true →
        RHHash.putEntry P f T (rd T.buckets i).key v1
          = some ⟨T.numEntries + 1, T.numBuckets,
              wr T.buckets i ⟨(rd T.buckets i).key, v1, (rd T.buckets i).hash, true⟩⟩) := by
  have hres := resizesPos_of_noResize ops (noResize_of_onlyPuts ops hops)
  have hlive := removesLive_of_onlyPuts ops (fun _ => none) hops
  obtain ⟨T, f0, hinv, _, h⟩ := Machine.mach_run_get (RHHash.machine P) P _
    (RHHash.rh_machine_ok P) hthr cap hcap ops hfit hres (Or.inl hlive)
  refine ⟨T, max f0 T.numBuckets, fun f hf => ⟨(h f (le_trans (le_max_left _ _) hf)).1, ?_, ?_⟩⟩
  · intro pre k v post he hpost
    apply (h f (le_trans (le_max_left _ _) hf)).2 k v
    rw [he]
    apply refMap_last_put pre post k v hpost
    intro hm
    exact onlyPuts_no_remove ops hops k (by rw [he]; simp [hm])
  · intro i v1 hi ho
    exact RHHash.rh_putEntry_present P T hinv i hi ho v1 f (le_trans (le_max_right _ _) hf)

/-- Witness of C2: capacity 4, threshold 3/4, `put(1,10)`, `put(5,50)`, `put(9,90)`,
`put(5,51)`. -/
theorem roundtrip_robin_hood_witness :
    (1 ≤ 4 ∧ exParams.Capped ∧ exParams.Fits exPuts.length (2 ^ 30) ∧
      onlyPuts exPuts = true) ∧
    ∃ (T : RHHash Nat Nat) (f0 : Nat), ∀ f, f0 ≤ f →
      RHHash.run exParams f exPuts (RHHash.mk0 4) = some T ∧
      (∀ pre k v post, exPuts = pre ++ Op.put k v :: post → (∀ v1, Op.put k v1 ∉ post) →
        RHHash.get exParams f T k = some (some v)) ∧
      (∀ i v1, i < T.numBuckets → (rd T.buckets i).occupied = true →
        RHHash.putEntry exParams f T (rd T.buckets i).key v1
          = some ⟨T.numEntries + 1, T.numBuckets,
              wr T.buckets i ⟨(rd T.buckets i).key, v1, (rd T.buckets i).hash, true⟩⟩) :=
  ⟨⟨by decide, ratTest_capped _ 3 4 (by decide), ratTest_fits _ 3 4 4 (2 ^ 30) (by decide),
      rfl⟩,
    roundtrip_robin_hood exParams 4 exPuts (by decide)
      (ratTest_capped _ 3 4 (by decide)) (ratTest_fits _ 3 4 4 (2 ^ 30) (by decide)) rfl⟩

/-- Counterexample to C3 as stated: capacity `2^30`, threshold `2^-30`, `put(0,0)`,
`put(1,1)`, `remove(0)` on a fresh `RHHash`. The second `put` finds the load factor
`1 / 2^30 >= loadThreshold` and calls `resize( numBuckets * 2 )` with a product that does not
fit into an `int`: the allocation throws and the call does not return. The sequence does not
finish, so no `get(1)` after it returns 1 and no `get(0)` after it signals the not-found
error. -/
theorem remove_agrees_robin_hood_overflow :
    noResize [(Op.put 0 0 : Op Nat Nat), Op.put 1 1, Op.remove 0] = true ∧
    refMap [(Op.put 0 0 : Op Nat Nat), Op.put 1 1, Op.remove 0] 1 = some 1 ∧
    refMap [(Op.put 0 0 : Op Nat Nat), Op.put 1 1, Op.remove 0] 0 = none ∧
    (overThreshold tinyParams 0 (2 ^ 30) = false ∧
      overThreshold tinyParams 1 (2 ^ 30) = true) ∧
    ∀ f, RHHash.run tinyParams f [Op.put 0 0, Op.put 1 1, Op.remove 0] (RHHash.mk0 (2 ^ 30))
      = none := by
  have h0 : overThreshold tinyParams 0 (2 ^ 30) = false := by decide
  have h1 : overThreshold tinyParams 1 (2 ^ 30) = true := by decide
  exact ⟨rfl, rfl, rfl, ⟨h0, h1⟩,
    Machine.mach_two_puts_overflow (RHHash.machine tinyParams) tinyParams _
      (RHHash.rh_machine_ok tinyParams) (2 ^ 30) (le_refl _) h0 h1 0 1 0 1 [Op.remove 0]⟩

/-- C3, amended. Deletion in `RHHash` agrees with the reference map: for every capacity
`>= 1`, every threshold at most 1 (whatever the outcome of the `float` comparison on each
pair of counts), every hasher and every sequence of `put` and `remove` calls on a fresh table
such that a table of `2^30` buckets or more holds as many entries as there are calls below
the threshold (so that no `put` doubles a capacity of `2^30` or more), the calls finish in a
table `T`, and for every key `k`, `get(k)` on `T` returns `v` when the last call on `k` was
`put(k, v)` and throws the not-found error when `k` was never put or the last call on `k` was
`remove(k)`: `get(k)` is `refMap ops k`. -/
theorem remove_agrees_robin_hood {K V : Type} [DecidableEq K] [Inhabited K] [Inhabited V]
    (P : Params K) (cap : Nat) (ops : List (Op K V)) (hcap : 1 ≤ cap) (hthr : P.Capped)
    (hfit : P.Fits ops.length (2 ^ 30)) (hops : noResize ops = true) :
    ∃ (T : RHHash K V) (f0 : Nat), ∀ f, f0 ≤ f →
      RHHash.run P f ops (RHHash.mk0 cap) = some T ∧
      ∀ k, RHHash.get P f T k = some (refMap ops k) := by
  have hres := resizesPos_of_noResize ops hops
  obtain ⟨T, f0, hinv, hmem, h⟩ := Machine.mach_run_get (RHHash.machine P) P _
    (RHHash.rh_machine_ok P) hthr cap hcap ops hfit hres
    (Or.inr (fun T k hinv => RHHash.rh_remove_total P T hinv k))
  refine ⟨T, max f0 (T.numBuckets + 1), fun f hf =>
    ⟨(h f (le_trans (le_max_left _ _) hf)).1, ?_⟩⟩
  intro k
  cases hr : refMap ops k with
  | some v => exact (h f (le_trans (le_max_left _ _) hf)).2 k v hr
  | none =>
    apply RHHash.rh_get_mono P T k _ f none (le_trans (le_max_right _ _) hf)
    apply RHHash.rh_get_absent P T hinv k
    intro v hm
    have := (hmem k v).1 hm
    rw [hr] at this
    exact Option.noConfusion this

/-- Witness of C3: capacity 4, threshold 3/4, `put(1,10)`, `put(5,50)`, `put(9,90)`,
`remove(5)`. -/
theorem remove_agrees_robin_hood_witness :
    (1 ≤ 4 ∧ exParams.Capped ∧ exParams.Fits exOps.length (2 ^ 30) ∧
      noResize exOps = true) ∧
    ∃ (T : RHHash Nat Nat) (f0 : Nat), ∀ f, f0 ≤ f →
      RHHash.run exParams f exOps (RHHash.mk0 4) = some T ∧
      ∀ k, RHHash.get exParams f T k = some (refMap exOps k) :=
  ⟨⟨by decide, ratTest_capped _ 3 4 (by decide), ratTest_fits _ 3 4 4 (2 ^ 30) (by decide),
      rfl⟩,
    remove_agrees_robin_hood exParams 4 exOps (by decide)
      (ratTest_capped _ 3 4 (by decide)) (ratTest_fits _ 3 4 4 (2 ^ 30) (by decide)) rfl⟩

/-- C4 at its failing input. At capacity 2 and threshold 3/4, after `put(0,0)` and `put(1,1)`
the array of the `LPHash` is full (`fullLP`), and the `remove(2)` of the sequence `put(0,0)`,
`put(1,1)`, `remove(2)` never returns: the sequence does not finish for any fuel, so the
`get(0)` and `get(1)` that should still return the stored values are never reached. The
defect is the one of C6 and C7: `lookup` on a full array. -/
theorem lp_sequence_with_absent_remove_hangs :
    (∀ f, LPHash.run exParams (f + 1) fillOps (LPHash.mk0 2) = some fullLP) ∧
    ∀ f, LPHash.run exParams f [Op.put 0 0, Op.put 1 1, Op.remove 2] (LPHash.mk0 2) = none := by
  refine ⟨fun f => rfl, ?_⟩
  intro f
  cases f with
  | zero => rfl
  | succ f =>
    have hput1 : LPHash.put exParams (f + 1) (LPHash.mk0 2) 0 0
        = some ⟨1, 2, [⟨0, 0, 0, true⟩, default]⟩ := rfl
    have hput2 : LPHash.put exParams (f + 1) ⟨1, 2, [⟨0, 0, 0, true⟩, default]⟩ 1 1
        = some fullLP := rfl
    have h2 : LPHash.lookup exParams (f + 1) fullLP 2 = none := by
      apply LPHash.lp_lookup_diverges exParams fullLP (by decide) 2
      intro x hx
      have : x = 0 ∨ x = 1 := by
        have : x < 2 := hx
        omega
      rcases this with rfl | rfl <;> rfl
    have hrem : LPHash.remove exParams (f + 1) fullLP 2 = none := by
      unfold LPHash.remove
      rw [h2]
    simp only [LPHash.run, runOps, hput1, hput2, hrem]

/-- Backward-shift deletion in `LPHash` wherever the calls return: for every capacity `>= 1`,
threshold at most 1, hasher and sequence of `put` and `remove` calls on a fresh table,
(1) whenever the sequence runs to completion in a table `T`, `get(k)` on `T`
returns `v` for every key `k` whose last call was `put(k, v)`, whatever removes and backward
shifts (wrap-around included) happened in between; and (2) the sequence does run to
completion when each `remove` is applied to a key that is live at that point and no `put`
doubles a capacity of `2^30` or more. -/
theorem lp_shift_keeps_keys {K V : Type} [DecidableEq K] [Inhabited K] [Inhabited V]
    (P : Params K) (cap : Nat) (ops : List (Op K V)) (hcap : 1 ≤ cap) (hthr : P.Capped)
    (hops : noResize ops = true) :
    (∀ f (T : LPHash K V), LPHash.run P f ops (LPHash.mk0 cap) = some T →
      ∀ g, T.numBuckets ≤ g → ∀ k v, refMap ops k = some v →
        LPHash.get P g T k = some (some v)) ∧
    (removesLive (fun _ => none) ops = true → P.Fits ops.length (2 ^ 30) →
      ∃ (T : LPHash K V) (f0 : Nat), ∀ f, f0 ≤ f →
        LPHash.run P f ops (LPHash.mk0 cap) = some T) := by
  have hres := resizesPos_of_noResize ops hops
  constructor
  · intro f T h g hg k v hkv
    obtain ⟨hinv, hmem⟩ := Machine.mach_run_pc (LPHash.machine P) P _ (LPHash.lp_machine_ok P)
      hthr f ops (LPHash.mk0 cap) T (fun _ => none) hres
      (LPHash.lp_inv_mk0 P cap hcap)
      (by intro k v; show (k, v) ∈ LPHash.ents (LPHash.mk0 cap) ↔ _
          rw [LPHash.lp_ents_mk0]; simp) h
    exact LPHash.lp_get_present P T hinv k v ((hmem k v).2 hkv) g hg
  · intro hlive hfit
    obtain ⟨T, f0, _, _, h⟩ := Machine.mach_run_get (LPHash.machine P) P _
      (LPHash.lp_machine_ok P) hthr cap hcap ops hfit hres (Or.inl hlive)
    exact ⟨T, f0, fun f hf => (h f hf).1⟩

/-- The scenario of the spec for `LPHash`: capacity 4, hash `k mod 4`, threshold 3/4, `put` of
1, 5, 9 places them at indices 1, 2, 3; `remove(5)` moves key 9 from index 3 to index 2,
leaves index 3 empty, and `get(9)` returns its value. -/
theorem lp_shift_keeps_keys_witness :
    (1 ≤ 4 ∧ exParams.Capped ∧ exParams.Fits exOps.length (2 ^ 30) ∧
      noResize exOps = true ∧ removesLive (fun _ => none) exOps = true) ∧
    ((∀ f (T : LPHash Nat Nat), LPHash.run exParams f exOps (LPHash.mk0 4) = some T →
      ∀ g, T.numBuckets ≤ g → ∀ k v, refMap exOps k = some v →
        LPHash.get exParams g T k = some (some v)) ∧
    (removesLive (fun _ => none) exOps = true → exParams.Fits exOps.length (2 ^ 30) →
      ∃ (T : LPHash Nat Nat) (f0 : Nat), ∀ f, f0 ≤ f →
        LPHash.run exParams f exOps (LPHash.mk0 4) = some T)) ∧
    LPHash.run exParams 4 [Op.put 1 10, Op.put 5 50, Op.put 9 90] (LPHash.mk0 4)
      = some ⟨3, 4, [default, ⟨1, 10, 1, true⟩, ⟨5, 50, 1, true⟩, ⟨9, 90, 1, true⟩]⟩ ∧
    LPHash.run exParams 4 exOps (LPHash.mk0 4)
      = some ⟨2, 4, [default, ⟨1, 10, 1, true⟩, ⟨9, 90, 1, true⟩, ⟨9, 90, 1, false⟩]⟩ ∧
    LPHash.get exParams 4
      ⟨2, 4, [default, ⟨1, 10, 1, true⟩, ⟨9, 90, 1, true⟩, ⟨9, 90, 1, false⟩]⟩ 9
      = some (some 90) :=
  ⟨⟨by decide, ratTest_capped _ 3 4 (by decide), ratTest_fits _ 3 4 4 (2 ^ 30) (by decide),
      rfl, rfl⟩,
    lp_shift_keeps_keys exParams 4 exOps (by decide) (ratTest_capped _ 3 4 (by decide)) rfl,
    rfl, rfl, rfl⟩

/-- C5 at its failing input. At capacity 2 and threshold 3/4, after `put(0,0)` and `put(1,1)`
the array of the `LazyLPHash` is full (`fullLazy`), and the `remove(2)` of the sequence
`put(0,0)`, `put(1,1)`, `remove(2)` never returns: the sequence does not finish for any fuel,
so the `get(0)` and `get(1)` that should still return the stored values are never reached.
The defect is the one of C6 and C7: `lookup` on a full array. -/
theorem lazy_sequence_with_absent_remove_hangs :
    (∀ f, LazyLPHash.run exParams (f + 1) fillOps (LazyLPHash.mk0 2) = some fullLazy) ∧
    ∀ f, LazyLPHash.run exParams f [Op.put 0 0, Op.put 1 1, Op.remove 2] (LazyLPHash.mk0 2)
      = none := by
  refine ⟨fun f => rfl, ?_⟩
  intro f
  cases f with
  | zero => rfl
  | succ f =>
    have hput1 : LazyLPHash.put exParams (f + 1) (LazyLPHash.mk0 2) 0 0
        = some ⟨1, 2, [⟨0, 0, true, false⟩, default]⟩ := rfl
    have hput2 : LazyLPHash.put exParams (f + 1) ⟨1, 2, [⟨0, 0, true, false⟩, default]⟩ 1 1
        = some fullLazy := rfl
    have h2 : LazyLPHash.lookup exParams (f + 1) fullLazy 2 = none := by
      apply LazyLPHash.lz_lookup_diverges exParams fullLazy (by decide) 2
      intro x hx
      have : x = 0 ∨ x = 1 := by
        have : x < 2 := hx
        omega
      rcases this with rfl | rfl <;> rfl
    have hrem : LazyLPHash.remove exParams (f + 1) fullLazy 2 = none := by
      unfold LazyLPHash.remove
      rw [h2]
    simp only [LazyLPHash.run, runOps, hput1, hput2, hrem]

/-- Tombstone deletion in `LazyLPHash` wherever the calls return: for every capacity `>= 1`,
threshold at most 1, hasher and sequence of `put` and `remove` calls on a
fresh table, (1) whenever the sequence runs to completion in a table `T`,
`get(k)` on `T` returns `v` for every key `k` whose last call was `put(k, v)`, and a `remove`
of the key of an occupied slot of `T` only flips that slot to a tombstone (`lookup` probes
past tombstones); and (2) the sequence does run to completion when each `remove` is applied
to a key that is live at that point and no `put` doubles a capacity of `2^30` or more. -/
theorem lazy_tombstone_keeps_keys {K V : Type} [DecidableEq K] [Inhabited K] [Inhabited V]
    (P : Params K) (cap : Nat) (ops : List (Op K V)) (hcap : 1 ≤ cap) (hthr : P.Capped)
    (hops : noResize ops = true) :
    (∀ f (T : LazyLPHash K V), LazyLPHash.run P f ops (LazyLPHash.mk0 cap) = some T →
      ∀ g, T.numBuckets ≤ g →
        (∀ k v, refMap ops k = some v → LazyLPHash.get P g T k = some (some v)) ∧
        (∀ i, i < T.numBuckets → (rd T.buckets i).occupied = true →
          LazyLPHash.remove P g T (rd T.buckets i).key
            = some ⟨T.numEntries, T.numBuckets,
                wr T.buckets i ⟨(rd T.buckets i).key, (rd T.buckets i).val, false, true⟩⟩)) ∧
    (removesLive (fun _ => none) ops = true → P.Fits ops.length (2 ^ 30) →
      ∃ (T : LazyLPHash K V) (f0 : Nat), ∀ f, f0 ≤ f →
        LazyLPHash.run P f ops (LazyLPHash.mk0 cap) = some T) := by
  have hres := resizesPos_of_noResize ops hops
  constructor
  · intro f T h g hg
    obtain ⟨hinv, hmem⟩ := Machine.mach_run_pc (LazyLPHash.machine P) P _
      (LazyLPHash.lz_machine_ok P) hthr f ops (LazyLPHash.mk0 cap) T (fun _ => none)
      hres (LazyLPHash.lz_inv_mk0 P cap hcap)
      (by intro k v; show (k, v) ∈ LazyLPHash.ents (LazyLPHash.mk0 cap) ↔ _
          rw [LazyLPHash.lz_ents_mk0]; simp) h
    refine ⟨fun k v hkv => LazyLPHash.lz_get_present P T hinv k v ((hmem k v).2 hkv) g hg, ?_⟩
    intro i hi ho
    exact LazyLPHash.lz_remove_present P T hinv i hi ho g hg
  · intro hlive hfit
    obtain ⟨T, f0, _, _, h⟩ := Machine.mach_run_get (LazyLPHash.machine P) P _
      (LazyLPHash.lz_machine_ok P) hthr cap hcap ops hfit hres (Or.inl hlive)
    exact ⟨T, f0, fun f hf => (h f hf).1⟩

/-- The scenario of the spec for `LazyLPHash`: capacity 4, hash `k mod 4`, threshold 3/4,
`put` of 1, 5, 9 places them at indices 1, 2, 3; after `remove(5)` index 2 is a tombstone
and `get(9)` returns the value stored at index 3. -/
theorem lazy_tombstone_keeps_keys_witness :
    (1 ≤ 4 ∧ exParams.Capped ∧ exParams.Fits exOps.length (2 ^ 30) ∧
      noResize exOps = true ∧ removesLive (fun _ => none) exOps = true) ∧
    ((∀ f (T : LazyLPHash Nat Nat), LazyLPHash.run exParams f exOps (LazyLPHash.mk0 4) = some T →
      ∀ g, T.numBuckets ≤ g →
        (∀ k v, refMap exOps k = some v → LazyLPHash.get exParams g T k = some (some v)) ∧
        (∀ i, i < T.numBuckets → (rd T.buckets i).occupied = true →
          LazyLPHash.remove exParams g T (rd T.buckets i).key
            = some ⟨T.numEntries, T.numBuckets,
                wr T.buckets i ⟨(rd T.buckets i).key, (rd T.buckets i).val, false, true⟩⟩)) ∧
    (removesLive (fun _ => none) exOps = true → exParams.Fits exOps.length (2 ^ 30) →
      ∃ (T : LazyLPHash Nat Nat) (f0 : Nat), ∀ f, f0 ≤ f →
        LazyLPHash.run exParams f exOps (LazyLPHash.mk0 4) = some T)) ∧
    LazyLPHash.run exParams 4 [Op.put 1 10, Op.put 5 50, Op.put 9 90] (LazyLPHash.mk0 4)
      = some ⟨3, 4, [default, ⟨1, 10, true, false⟩, ⟨5, 50, true, false⟩,
          ⟨9, 90, true, false⟩]⟩ ∧
    LazyLPHash.run exParams 4 exOps (LazyLPHash.mk0 4)
      = some ⟨3, 4, [default, ⟨1, 10, true, false⟩, ⟨5, 50, false, true⟩,
          ⟨9, 90, true, false⟩]⟩ ∧
    LazyLPHash.get exParams 4
      ⟨3, 4, [default, ⟨1, 10, true, false⟩, ⟨5, 50, false, true⟩, ⟨9, 90, true, false⟩]⟩ 9
      = some (some 90) :=
  ⟨⟨by decide, ratTest_capped _ 3 4 (by decide), ratTest_fits _ 3 4 4 (2 ^ 30) (by decide),
      rfl, rfl⟩,
    lazy_tombstone_keeps_keys exParams 4 exOps (by decide) (ratTest_capped _ 3 4 (by decide))
      rfl,
    rfl, rfl, rfl⟩

/-- C6 at its failing input. At capacity 2 and threshold 3/4, `put(0,0)` and `put(1,1)` fill
the array of a `LPHash` and of a `LazyLPHash` (the threshold check of `put` runs before the
write, never after it). On these reachable tables `get(2)`, of a key that was never put, does
not finish for any fuel: `lookup` finds neither an empty slot nor the key and probes forever,
instead of throwing. The sibling `RHHash::get` on the same contents throws. -/
theorem get_absent_hangs_on_full_table :
    (LPHash.run exParams 3 fillOps (LPHash.mk0 2) = some fullLP ∧
      ∀ f, LPHash.get exParams f fullLP 2 = none) ∧
    (LazyLPHash.run exParams 3 fillOps (LazyLPHash.mk0 2) = some fullLazy ∧
      ∀ f, LazyLPHash.get exParams f fullLazy 2 = none) ∧
    (RHHash.run exParams 3 fillOps (RHHash.mk0 2) = some fullRH ∧
      RHHash.get exParams 3 fullRH 2 = some none) := by
  refine ⟨⟨rfl, ?_⟩, ⟨rfl, ?_⟩, rfl, rfl⟩
  · intro f
    have h2 : LPHash.lookup exParams f fullLP 2 = none := by
      apply LPHash.lp_lookup_diverges exParams fullLP (by decide) 2
      intro x hx
      have : x = 0 ∨ x = 1 := by
        have : x < 2 := hx
        omega
      rcases this with rfl | rfl <;> rfl
    unfold LPHash.get
    rw [h2]
  · intro f
    have h2 : LazyLPHash.lookup exParams f fullLazy 2 = none := by
      apply LazyLPHash.lz_lookup_diverges exParams fullLazy (by decide) 2
      intro x hx
      have : x = 0 ∨ x = 1 := by
        have : x < 2 := hx
        omega
      rcases this with rfl | rfl <;> rfl
    unfold LazyLPHash.get
    rw [h2]

/-- C7 at its failing input. On the full `LPHash` and `LazyLPHash` reached at capacity 2 and
threshold 3/4 by `put(0,0)`, `put(1,1)`, the call `remove(2)`, of a key that was never put,
does not finish for any fuel (its `lookup` probes forever); the sibling `RHHash::remove` on
the same contents returns and leaves the table as it was. -/
theorem remove_absent_hangs_on_full_table :
    (LPHash.Reachable exParams 2 fullLP ∧ ∀ f, LPHash.remove exParams f fullLP 2 = none) ∧
    (LazyLPHash.Reachable exParams 2 fullLazy ∧
      ∀ f, LazyLPHash.remove exParams f fullLazy 2 = none) ∧
    (RHHash.Reachable exParams 2 fullRH ∧ RHHash.remove exParams 3 fullRH 2 = some fullRH) := by
  refine ⟨⟨⟨fillOps, 3, rfl, rfl⟩, ?_⟩, ⟨⟨fillOps, 3, rfl, rfl⟩, ?_⟩, ⟨fillOps, 3, rfl, rfl⟩, rfl⟩
  · intro f
    have h2 : LPHash.lookup exParams f fullLP 2 = none := by
      apply LPHash.lp_lookup_diverges exParams fullLP (by decide) 2
      intro x hx
      have : x = 0 ∨ x = 1 := by
        have : x < 2 := hx
        omega
      rcases this with rfl | rfl <;> rfl
    unfold LPHash.remove
    rw [h2]
  · intro f
    have h2 : LazyLPHash.lookup exParams f fullLazy 2 = none := by
      apply LazyLPHash.lz_lookup_diverges exParams fullLazy (by decide) 2
      intro x hx
      have : x = 0 ∨ x = 1 := by
        have : x < 2 := hx
        omega
      rcases this with rfl | rfl <;> rfl
    unfold LazyLPHash.remove
    rw [h2]

/-- Counterexample to C8 as stated: threshold `2^-30`; `put(0,0)`, `put(1,1)` on a fresh
table of capacity 1 give the table with both slots of its capacity 2 live. On it
`resize(2^30)` replays the first entry into the new array, finds the load factor
`1 / 2^30 >= loadThreshold` at the `put` of the second and calls `resize( numBuckets * 2 )`
with a product that does not fit into an `int`: the allocation throws and `resize(2^30)` does
not return, in each of the three classes. -/
theorem resize_preserves_contents_overflow :
    (overThreshold tinyParams 0 (2 ^ 30) = false ∧
      overThreshold tinyParams 1 (2 ^ 30) = true) ∧
    (LazyLPHash.Reachable tinyParams 1 fullLazy ∧
      ∀ f, LazyLPHash.resize tinyParams f (2 ^ 30) fullLazy = none) ∧
    (LPHash.Reachable tinyParams 1 fullLP ∧
      ∀ f, LPHash.resize tinyParams f (2 ^ 30) fullLP = none) ∧
    (RHHash.Reachable tinyParams 1 fullRH ∧
      ∀ f, RHHash.resize tinyParams f (2 ^ 30) fullRH = none) := by
  have h0 : overThreshold tinyParams 0 (2 ^ 30) = false := by decide
  have h1 : overThreshold tinyParams 1 (2 ^ 30) = true := by decide
  refine ⟨⟨h0, h1⟩, ⟨⟨fillOps, 3, rfl, rfl⟩, ?_⟩, ⟨⟨fillOps, 3, rfl, rfl⟩, ?_⟩,
    ⟨fillOps, 3, rfl, rfl⟩, ?_⟩
  · exact Machine.mach_resize_overflow (LazyLPHash.machine tinyParams) tinyParams _
      (LazyLPHash.lz_machine_ok tinyParams) (2 ^ 30) (le_refl _) h0 h1 fullLazy 0 1 0 1 rfl
  · exact Machine.mach_resize_overflow (LPHash.machine tinyParams) tinyParams _
      (LPHash.lp_machine_ok tinyParams) (2 ^ 30) (le_refl _) h0 h1 fullLP 0 1 0 1 rfl
  · exact Machine.mach_resize_overflow (RHHash.machine tinyParams) tinyParams _
      (RHHash.rh_machine_ok tinyParams) (2 ^ 30) (le_refl _) h0 h1 fullRH 0 1 0 1 rfl

/-- C8, amended. Resize preserves contents: in each of `LazyLPHash`, `LPHash` and `RHHash`,
for every reachable table `T` (capacity `>= 1`, threshold at most 1) whose live entries a
table of `2^30` buckets or more holds below the threshold (so that no `put` of the replay
doubles a capacity of `2^30` or more) and every `n >= 1`, `resize(n)` finishes in a table
`T1`, and `get(k)` on `T1` returns `v` exactly when `(k, v)` was in a live slot (occupied, not
tombstoned) of `T`. -/
theorem resize_preserves_contents {K V : Type} [DecidableEq K] [Inhabited K] [Inhabited V]
    (P : Params K) (cap n : Nat) (hcap : 1 ≤ cap) (hthr : P.Capped) (hn : 1 ≤ n) :
    (∀ T : LazyLPHash K V, LazyLPHash.Reachable P cap T →
      P.Fits (T.buckets.countP LazyLPHash.liveEntry) (2 ^ 30) →
      ∃ T1 f0, (∀ f, f0 ≤ f → LazyLPHash.resize P f n T = some T1) ∧
        ∀ k v, (∃ g, LazyLPHash.get P g T1 k = some (some v)) ↔
          ∃ i, i < T.numBuckets ∧ (rd T.buckets i).occupied = true ∧
            (rd T.buckets i).deleted = false ∧ (rd T.buckets i).key = k ∧
            (rd T.buckets i).val = v) ∧
    (∀ T : LPHash K V, LPHash.Reachable P cap T →
      P.Fits (T.buckets.countP (fun e => e.occupied)) (2 ^ 30) →
      ∃ T1 f0, (∀ f, f0 ≤ f → LPHash.resize P f n T = some T1) ∧
        ∀ k v, (∃ g, LPHash.get P g T1 k = some (some v)) ↔
          ∃ i, i < T.numBuckets ∧ (rd T.buckets i).occupied = true ∧
            (rd T.buckets i).key = k ∧ (rd T.buckets i).val = v) ∧
    (∀ T : RHHash K V, RHHash.Reachable P cap T →
      P.Fits (T.buckets.countP (fun e => e.occupied)) (2 ^ 30) →
      ∃ T1 f0, (∀ f, f0 ≤ f → RHHash.resize P f n T = some T1) ∧
        ∀ k v, (∃ g, RHHash.get P g T1 k = some (some v)) ↔
          ∃ i, i < T.numBuckets ∧ (rd T.buckets i).occupied = true ∧
            (rd T.buckets i).key = k ∧ (rd T.buckets i).val = v) := by
  refine ⟨?_, ?_, ?_⟩
  · intro T hT hfit
    have hinv := LazyLPHash.lz_inv_of_reachable P cap hcap hthr T hT
    obtain ⟨T1, f0, h, hget⟩ := Machine.mach_resize_get (LazyLPHash.machine P) P _
      (LazyLPHash.lz_machine_ok P) hthr T hinv n hn
      (by show P.Fits ((LazyLPHash.ents T).length : Nat) _
          rw [LazyLPHash.lz_length_ents]; exact hfit)
    refine ⟨T1, f0, h, fun k v => ?_⟩
    rw [← LazyLPHash.lz_mem_ents_slots P T hinv k v]
    exact hget k v
  · intro T hT hfit
    have hinv := LPHash.lp_inv_of_reachable P cap hcap hthr T hT
    obtain ⟨T1, f0, h, hget⟩ := Machine.mach_resize_get (LPHash.machine P) P _
      (LPHash.lp_machine_ok P) hthr T hinv n hn
      (by show P.Fits ((LPHash.ents T).length : Nat) _
          rw [LPHash.lp_length_ents]; exact hfit)
    refine ⟨T1, f0, h, fun k v => ?_⟩
    rw [← LPHash.lp_mem_ents_slots P T hinv k v]
    exact hget k v
  · intro T hT hfit
    have hinv := RHHash.rh_inv_of_reachable P cap hcap hthr T hT
    obtain ⟨T1, f0, h, hget⟩ := Machine.mach_resize_get (RHHash.machine P) P _
      (RHHash.rh_machine_ok P) hthr T hinv n hn
      (by show P.Fits ((RHHash.ents T).length : Nat) _
          rw [RHHash.rh_length_ents]; exact hfit)
    refine ⟨T1, f0, h, fun k v => ?_⟩
    rw [← RHHash.rh_mem_ents_slots P T hinv k v]
    exact hget k v

/-- Witness of C8: `resize(1)` on the three full tables reached at capacity 2 and threshold
3/4 by `put(0,0)`, `put(1,1)`. -/
theorem resize_preserves_contents_witness :
    (1 ≤ 2 ∧ exParams.Capped ∧ 1 ≤ 1) ∧
    (LazyLPHash.Reachable exParams 2 fullLazy ∧ LPHash.Reachable exParams 2 fullLP ∧
      RHHash.Reachable exParams 2 fullRH) ∧
    (exParams.Fits (fullLazy.buckets.countP LazyLPHash.liveEntry) (2 ^ 30) ∧
      exParams.Fits (fullLP.buckets.countP (fun e => e.occupied)) (2 ^ 30) ∧
      exParams.Fits (fullRH.buckets.countP (fun e => e.occupied)) (2 ^ 30)) ∧
    (∃ T1 f0, (∀ f, f0 ≤ f → LazyLPHash.resize exParams f 1 fullLazy = some T1) ∧
      ∀ k v, (∃ g, LazyLPHash.get exParams g T1 k = some (some v)) ↔
        ∃ i, i < fullLazy.numBuckets ∧ (rd fullLazy.buckets i).occupied = true ∧
          (rd fullLazy.buckets i).deleted = false ∧ (rd fullLazy.buckets i).key = k ∧
          (rd fullLazy.buckets i).val = v) ∧
    (∃ T1 f0, (∀ f, f0 ≤ f → LPHash.resize exParams f 1 fullLP = some T1) ∧
      ∀ k v, (∃ g, LPHash.get exParams g T1 k = some (some v)) ↔
        ∃ i, i < fullLP.numBuckets ∧ (rd fullLP.buckets i).occupied = true ∧
          (rd fullLP.buckets i).key = k ∧ (rd fullLP.buckets i).val = v) ∧
    (∃ T1 f0, (∀ f, f0 ≤ f → RHHash.resize exParams f 1 fullRH = some T1) ∧
      ∀ k v, (∃ g, RHHash.get exParams g T1 k = some (some v)) ↔
        ∃ i, i < fullRH.numBuckets ∧ (rd fullRH.buckets i).occupied = true ∧
          (rd fullRH.buckets i).key = k ∧ (rd fullRH.buckets i).val = v) :=
  ⟨⟨by decide, ratTest_capped _ 3 4 (by decide), by decide⟩,
    ⟨⟨fillOps, 3, rfl, rfl⟩, ⟨fillOps, 3, rfl, rfl⟩, ⟨fillOps, 3, rfl, rfl⟩⟩,
    ⟨ratTest_fits _ 3 4 2 (2 ^ 30) (by decide), ratTest_fits _ 3 4 2 (2 ^ 30) (by decide),
      ratTest_fits _ 3 4 2 (2 ^ 30) (by decide)⟩,
    (resize_preserves_contents exParams 2 1 (by decide) (ratTest_capped _ 3 4 (by decide))
      (by decide)).1 fullLazy ⟨fillOps, 3, rfl, rfl⟩
      (ratTest_fits _ 3 4 2 (2 ^ 30) (by decide)),
    (resize_preserves_contents exParams 2 1 (by decide) (ratTest_capped _ 3 4 (by decide))
      (by decide)).2.1 fullLP ⟨fillOps, 3, rfl, rfl⟩
      (ratTest_fits _ 3 4 2 (2 ^ 30) (by decide)),
    (resize_preserves_contents exParams 2 1 (by decide) (ratTest_capped _ 3 4 (by decide))
      (by decide)).2.2 fullRH ⟨fillOps, 3, rfl, rfl⟩
      (ratTest_fits _ 3 4 2 (2 ^ 30) (by decide))⟩

/-- Counterexample to C9 as stated: on the full tables reached at capacity 2 and threshold
3/4 by `put(0,0)`, `put(1,1)`, `resize(1)` returns with `numBuckets == 2`, not 1: the replay
of the second entry finds the load factor 1/1 over the threshold and resizes again. -/
theorem resize_capacity_not_exact :
    (LPHash.Reachable exParams 2 fullLP ∧
      ∃ T1, LPHash.resize exParams 3 1 fullLP = some T1 ∧ T1.numBuckets = 2) ∧
    (LazyLPHash.Reachable exParams 2 fullLazy ∧
      ∃ T1, LazyLPHash.resize exParams 3 1 fullLazy = some T1 ∧ T1.numBuckets = 2) ∧
    (RHHash.Reachable exParams 2 fullRH ∧
      ∃ T1, RHHash.resize exParams 3 1 fullRH = some T1 ∧ T1.numBuckets = 2) :=
  ⟨⟨⟨fillOps, 3, rfl, rfl⟩, _, rfl, rfl⟩, ⟨⟨fillOps, 3, rfl, rfl⟩, _, rfl, rfl⟩,
    ⟨⟨fillOps, 3, rfl, rfl⟩, _, rfl, rfl⟩⟩

/-- C9, amended. In each of `LazyLPHash`, `LPHash` and `RHHash`, for every reachable table `T`
(capacity `>= 1`, threshold at most 1) whose live entries a table of `2^30` buckets or more
holds below the threshold (so that no `put` of the replay doubles a capacity of `2^30` or
more) and every `n >= 1`, `resize(n)` finishes with `numBuckets == n * 2 ^ j` for some
`j >= 0` (the replay through `put` may double the capacity again), and with
`numBuckets == n` whenever the comparison `getLoadFactor() >= loadThreshold` of `put` fails
at capacity `n` for every count below `live`, the number of live slots of `T`. -/
theorem resize_capacity {K V : Type} [DecidableEq K] [Inhabited K] [Inhabited V]
    (P : Params K) (cap n : Nat) (hcap : 1 ≤ cap) (hthr : P.Capped) (hn : 1 ≤ n) :
    (∀ T : LazyLPHash K V, LazyLPHash.Reachable P cap T →
      P.Fits (T.buckets.countP LazyLPHash.liveEntry) (2 ^ 30) →
      ∃ T1 f0, (∀ f, f0 ≤ f → LazyLPHash.resize P f n T = some T1) ∧
        (∃ j, T1.numBuckets = n * 2 ^ j) ∧
        ((∀ e : Nat, e < T.buckets.countP LazyLPHash.liveEntry →
            overThreshold P e n = false) → T1.numBuckets = n)) ∧
    (∀ T : LPHash K V, LPHash.Reachable P cap T →
      P.Fits (T.buckets.countP (fun e => e.occupied)) (2 ^ 30) →
      ∃ T1 f0, (∀ f, f0 ≤ f → LPHash.resize P f n T = some T1) ∧
        (∃ j, T1.numBuckets = n * 2 ^ j) ∧
        ((∀ e : Nat, e < T.buckets.countP (fun e => e.occupied) →
            overThreshold P e n = false) → T1.numBuckets = n)) ∧
    (∀ T : RHHash K V, RHHash.Reachable P cap T →
      P.Fits (T.buckets.countP (fun e => e.occupied)) (2 ^ 30) →
      ∃ T1 f0, (∀ f, f0 ≤ f → RHHash.resize P f n T = some T1) ∧
        (∃ j, T1.numBuckets = n * 2 ^ j) ∧
        ((∀ e : Nat, e < T.buckets.countP (fun e => e.occupied) →
            overThreshold P e n = false) → T1.numBuckets = n)) := by
  refine ⟨?_, ?_, ?_⟩
  · intro T hT hfit
    have hinv := LazyLPHash.lz_inv_of_reachable P cap hcap hthr T hT
    have hlen : (LazyLPHash.ents T).length = T.buckets.countP LazyLPHash.liveEntry :=
      LazyLPHash.lz_length_ents T
    obtain ⟨T1, f0, h, _, _, _, _, hj, hsame⟩ := Machine.mach_resize_ok
      (LazyLPHash.machine P) P _ (LazyLPHash.lz_machine_ok P) hthr T hinv n hn
      (by show P.Fits ((LazyLPHash.ents T).length : Nat) _
          rw [hlen]; exact hfit)
    refine ⟨T1, f0, h, hj, fun hc => hsame ?_⟩
    intro e he
    exact hc e (by rw [← hlen]; exact he)
  · intro T hT hfit
    have hinv := LPHash.lp_inv_of_reachable P cap hcap hthr T hT
    have hlen : (LPHash.ents T).length = T.buckets.countP (fun e => e.occupied) :=
      LPHash.lp_length_ents T
    obtain ⟨T1, f0, h, _, _, _, _, hj, hsame⟩ := Machine.mach_resize_ok
      (LPHash.machine P) P _ (LPHash.lp_machine_ok P) hthr T hinv n hn
      (by show P.Fits ((LPHash.ents T).length : Nat) _
          rw [hlen]; exact hfit)
    refine ⟨T1, f0, h, hj, fun hc => hsame ?_⟩
    intro e he
    exact hc e (by rw [← hlen]; exact he)
  · intro T hT hfit
    have hinv := RHHash.rh_inv_of_reachable P cap hcap hthr T hT
    have hlen : (RHHash.ents T).length = T.buckets.countP (fun e => e.occupied) :=
      RHHash.rh_length_ents T
    obtain ⟨T1, f0, h, _, _, _, _, hj, hsame⟩ := Machine.mach_resize_ok
      (RHHash.machine P) P _ (RHHash.rh_machine_ok P) hthr T hinv n hn
      (by show P.Fits ((RHHash.ents T).length : Nat) _
          rw [hlen]; exact hfit)
    refine ⟨T1, f0, h, hj, fun hc => hsame ?_⟩
    intro e he
    exact hc e (by rw [← hlen]; exact he)

/-- Witness of C9: `resize(4)` on the three full tables reached at capacity 2 and threshold
3/4 by `put(0,0)`, `put(1,1)`; the comparison fails at the load factors 0/4 and 1/4, and the
capacity after the call is 4. -/
theorem resize_capacity_witness :
    (1 ≤ 2 ∧ exParams.Capped ∧ 1 ≤ 4) ∧
    (LazyLPHash.Reachable exParams 2 fullLazy ∧ LPHash.Reachable exParams 2 fullLP ∧
      RHHash.Reachable exParams 2 fullRH) ∧
    (exParams.Fits (fullLazy.buckets.countP LazyLPHash.liveEntry) (2 ^ 30) ∧
      exParams.Fits (fullLP.buckets.countP (fun e => e.occupied)) (2 ^ 30) ∧
      exParams.Fits (fullRH.buckets.countP (fun e => e.occupied)) (2 ^ 30)) ∧
    (∃ T1 f0, (∀ f, f0 ≤ f → LazyLPHash.resize exParams f 4 fullLazy = some T1) ∧
      (∃ j, T1.numBuckets = 4 * 2 ^ j) ∧
      ((∀ e : Nat, e < fullLazy.buckets.countP LazyLPHash.liveEntry →
          overThreshold exParams e 4 = false) → T1.numBuckets = 4)) ∧
    (∃ T1 f0, (∀ f, f0 ≤ f → LPHash.resize exParams f 4 fullLP = some T1) ∧
      (∃ j, T1.numBuckets = 4 * 2 ^ j) ∧
      ((∀ e : Nat, e < fullLP.buckets.countP (fun e => e.occupied) →
          overThreshold exParams e 4 = false) → T1.numBuckets = 4)) ∧
    (∃ T1 f0, (∀ f, f0 ≤ f → RHHash.resize exParams f 4 fullRH = some T1) ∧
      (∃ j, T1.numBuckets = 4 * 2 ^ j) ∧
      ((∀ e : Nat, e < fullRH.buckets.countP (fun e => e.occupied) →
          overThreshold exParams e 4 = false) → T1.numBuckets = 4)) ∧
    (overThreshold exParams 0 4 = false ∧ overThreshold exParams 1 4 = false) :=
  ⟨⟨by decide, ratTest_capped _ 3 4 (by decide), by decide⟩,
    ⟨⟨fillOps, 3, rfl, rfl⟩, ⟨fillOps, 3, rfl, rfl⟩, ⟨fillOps, 3, rfl, rfl⟩⟩,
    ⟨ratTest_fits _ 3 4 2 (2 ^ 30) (by decide), ratTest_fits _ 3 4 2 (2 ^ 30) (by decide),
      ratTest_fits _ 3 4 2 (2 ^ 30) (by decide)⟩,
    (resize_capacity exParams 2 4 (by decide) (ratTest_capped _ 3 4 (by decide))
      (by decide)).1 fullLazy ⟨fillOps, 3, rfl, rfl⟩
      (ratTest_fits _ 3 4 2 (2 ^ 30) (by decide)),
    (resize_capacity exParams 2 4 (by decide) (ratTest_capped _ 3 4 (by decide))
      (by decide)).2.1 fullLP ⟨fillOps, 3, rfl, rfl⟩
      (ratTest_fits _ 3 4 2 (2 ^ 30) (by decide)),
    (resize_capacity exParams 2 4 (by decide) (ratTest_capped _ 3 4 (by decide))
      (by decide)).2.2 fullRH ⟨fillOps, 3, rfl, rfl⟩
      (ratTest_fits _ 3 4 2 (2 ^ 30) (by decide)),
    ⟨by decide, by decide⟩⟩

/-- Counterexample to C10 as stated: at capacity 1 and threshold 1/2, after `put(0,0)` the
table has `numEntries == 1`, `numBuckets == 1`; the next `put` finds the load factor 1/1 over
the threshold, calls `resize(2)` once, and writes on a table with `numEntries == 1` and
`numBuckets == 2`, whose load factor 1/2 is not strictly below the threshold 1/2: the
comparison `getLoadFactor() >= loadThreshold` holds on the table written to. -/
theorem load_not_below_threshold_after_resize :
    (LPHash.run halfParams 1 [Op.put 0 0] (LPHash.mk0 1) = some ⟨1, 1, [⟨0, 0, 0, true⟩]⟩ ∧
      overThreshold halfParams 1 1 = true ∧
      LPHash.resize halfParams 1 2 ⟨1, 1, [⟨0, 0, 0, true⟩]⟩
        = some ⟨1, 2, [⟨0, 0, 0, true⟩, default]⟩ ∧
      LPHash.put halfParams 2 ⟨1, 1, [⟨0, 0, 0, true⟩]⟩ 1 1
        = LPHash.putEntry halfParams 2 ⟨1, 2, [⟨0, 0, 0, true⟩, default]⟩ 1 1) ∧
    (LazyLPHash.run halfParams 1 [Op.put 0 0] (LazyLPHash.mk0 1)
        = some ⟨1, 1, [⟨0, 0, true, false⟩]⟩ ∧
      LazyLPHash.resize halfParams 1 2 ⟨1, 1, [⟨0, 0, true, false⟩]⟩
        = some ⟨1, 2, [⟨0, 0, true, false⟩, default]⟩ ∧
      LazyLPHash.put halfParams 2 ⟨1, 1, [⟨0, 0, true, false⟩]⟩ 1 1
        = LazyLPHash.putEntry halfParams 2 ⟨1, 2, [⟨0, 0, true, false⟩, default]⟩ 1 1) ∧
    (RHHash.run halfParams 1 [Op.put 0 0] (RHHash.mk0 1) = some ⟨1, 1, [⟨0, 0, 0, true⟩]⟩ ∧
      RHHash.resize halfParams 1 2 ⟨1, 1, [⟨0, 0, 0, true⟩]⟩
        = some ⟨1, 2, [⟨0, 0, 0, true⟩, default]⟩ ∧
      RHHash.put halfParams 2 ⟨1, 1, [⟨0, 0, 0, true⟩]⟩ 1 1
        = RHHash.putEntry halfParams 2 ⟨1, 2, [⟨0, 0, 0, true⟩, default]⟩ 1 1) ∧
    overThreshold halfParams 1 2 = true :=
  ⟨⟨rfl, rfl, rfl, rfl⟩, ⟨rfl, rfl, rfl⟩, ⟨rfl, rfl, rfl⟩, by decide⟩

/-- C10, amended. In each of `LazyLPHash`, `LPHash` and `RHHash`, for every reachable table `T`
(capacity `>= 1`, threshold at most 1) holding a `numEntries` that a table of `2^30` buckets
or more holds below the threshold (so that `numBuckets * 2` fits into an `int` whenever the
check fires) and every `put(k, v)`, let `T1` be the table on which `put` does its write. When
the threshold check does not fire, `T1` is `T`, on which the comparison
`getLoadFactor() >= loadThreshold` has just failed. When it fires, `T1` is the result of
`resize( numBuckets * 2 )`: its `numEntries` is the number `live` of live slots of `T` and
its capacity is at least `2 * numBuckets`. The comparison fails on `T1`, that is the load
factor `put` computes is below `loadThreshold`, provided it fails for `live` entries at every
capacity from `2 * numBuckets` on, which is so whenever it fails for every load factor up to
1/2 at every capacity `>= 1` (a threshold above 1/2). -/
theorem load_below_threshold_at_write {K V : Type} [DecidableEq K] [Inhabited K] [Inhabited V]
    (P : Params K) (cap : Nat) (hcap : 1 ≤ cap) (hthr : P.Capped) :
    (∀ (T : LazyLPHash K V) (k : K) (v : V), LazyLPHash.Reachable P cap T →
      P.Fits T.numEntries (2 ^ 30) →
      ∃ T1 f0, ∀ f, f0 ≤ f →
        LazyLPHash.put P (f + 1) T k v = LazyLPHash.putEntry P (f + 1) T1 k v ∧
        (overThreshold P T.numEntries T.numBuckets = false → T1 = T) ∧
        (overThreshold P T.numEntries T.numBuckets = true →
          LazyLPHash.resize P f (T.numBuckets * 2) T = some T1 ∧
          T1.numEntries = T.buckets.countP LazyLPHash.liveEntry ∧
          T.numBuckets * 2 ≤ T1.numBuckets) ∧
        ((overThreshold P T.numEntries T.numBuckets = true →
            ∀ b, T.numBuckets * 2 ≤ b →
              overThreshold P (T.buckets.countP LazyLPHash.liveEntry : Nat) b = false) →
          overThreshold P T1.numEntries T1.numBuckets = false) ∧
        ((∀ (e : Int) (b : Nat), 1 ≤ b → 2 * e ≤ b → overThreshold P e b = false) →
          overThreshold P T1.numEntries T1.numBuckets = false)) ∧
    (∀ (T : LPHash K V) (k : K) (v : V), LPHash.Reachable P cap T →
      P.Fits T.numEntries (2 ^ 30) →
      ∃ T1 f0, ∀ f, f0 ≤ f →
        LPHash.put P (f + 1) T k v = LPHash.putEntry P (f + 1) T1 k v ∧
        (overThreshold P T.numEntries T.numBuckets = false → T1 = T) ∧
        (overThreshold P T.numEntries T.numBuckets = true →
          LPHash.resize P f (T.numBuckets * 2) T = some T1 ∧
          T1.numEntries = T.buckets.countP (fun e => e.occupied) ∧
          T.numBuckets * 2 ≤ T1.numBuckets) ∧
        ((overThreshold P T.numEntries T.numBuckets = true →
            ∀ b, T.numBuckets * 2 ≤ b →
              overThreshold P (T.buckets.countP (fun e => e.occupied) : Nat) b = false) →
          overThreshold P T1.numEntries T1.numBuckets = false) ∧
        ((∀ (e : Int) (b : Nat), 1 ≤ b → 2 * e ≤ b → overThreshold P e b = false) →
          overThreshold P T1.numEntries T1.numBuckets = false)) ∧
    (∀ (T : RHHash K V) (k : K) (v : V), RHHash.Reachable P cap T →
      P.Fits T.numEntries (2 ^ 30) →
      ∃ T1 f0, ∀ f, f0 ≤ f →
        RHHash.put P (f + 1) T k v = RHHash.putEntry P (f + 1) T1 k v ∧
        (overThreshold P T.numEntries T.numBuckets = false → T1 = T) ∧
        (overThreshold P T.numEntries T.numBuckets = true →
          RHHash.resize P f (T.numBuckets * 2) T = some T1 ∧
          T1.numEntries = T.buckets.countP (fun e => e.occupied) ∧
          T.numBuckets * 2 ≤ T1.numBuckets) ∧
        ((overThreshold P T.numEntries T.numBuckets = true →
            ∀ b, T.numBuckets * 2 ≤ b →
              overThreshold P (T.buckets.countP (fun e => e.occupied) : Nat) b = false) →
          overThreshold P T1.numEntries T1.numBuckets = false) ∧
        ((∀ (e : Int) (b : Nat), 1 ≤ b → 2 * e ≤ b → overThreshold P e b = false) →
          overThreshold P T1.numEntries T1.numBuckets = false)) := by
  refine ⟨?_, ?_, ?_⟩
  · intro T k v hT hfit
    have hinv := LazyLPHash.lz_inv_of_reachable P cap hcap hthr T hT
    obtain ⟨T1, f0, h⟩ := Machine.mach_put_prepare (LazyLPHash.machine P) P _
      (LazyLPHash.lz_machine_ok P) hthr T hinv k v hfit
    have hlen : (LazyLPHash.ents T).length = T.buckets.countP LazyLPHash.liveEntry :=
      LazyLPHash.lz_length_ents T
    refine ⟨T1, f0, fun f hf => ?_⟩
    obtain ⟨a, b, c⟩ := h f hf
    obtain ⟨d, e⟩ := Machine.mach_put_prepare_test (LazyLPHash.machine P) P _
      (LazyLPHash.lz_machine_ok P) T T1 hinv b (fun hov => (c hov).2)
    refine ⟨a, b, ?_, ?_, e⟩
    · intro hov
      obtain ⟨c1, c2, c3⟩ := c hov
      exact ⟨c1, by rw [← hlen]; exact c2, c3⟩
    · intro hc
      exact d (fun hov b hb => by
        show overThreshold P ((LazyLPHash.ents T).length : Nat) b = false
        rw [hlen]; exact hc hov b hb)
  · intro T k v hT hfit
    have hinv := LPHash.lp_inv_of_reachable P cap hcap hthr T hT
    obtain ⟨T1, f0, h⟩ := Machine.mach_put_prepare (LPHash.machine P) P _
      (LPHash.lp_machine_ok P) hthr T hinv k v hfit
    have hlen : (LPHash.ents T).length = T.buckets.countP (fun e => e.occupied) :=
      LPHash.lp_length_ents T
    refine ⟨T1, f0, fun f hf => ?_⟩
    obtain ⟨a, b, c⟩ := h f hf
    obtain ⟨d, e⟩ := Machine.mach_put_prepare_test (LPHash.machine P) P _
      (LPHash.lp_machine_ok P) T T1 hinv b (fun hov => (c hov).2)
    refine ⟨a, b, ?_, ?_, e⟩
    · intro hov
      obtain ⟨c1, c2, c3⟩ := c hov
      exact ⟨c1, by rw [← hlen]; exact c2, c3⟩
    · intro hc
      exact d (fun hov b hb => by
        show overThreshold P ((LPHash.ents T).length : Nat) b = false
        rw [hlen]; exact hc hov b hb)
  · intro T k v hT hfit
    have hinv := RHHash.rh_inv_of_reachable P cap hcap hthr T hT
    obtain ⟨T1, f0, h⟩ := Machine.mach_put_prepare (RHHash.machine P) P _
      (RHHash.rh_machine_ok P) hthr T hinv k v hfit
    have hlen : (RHHash.ents T).length = T.buckets.countP (fun e => e.occupied) :=
      RHHash.rh_length_ents T
    refine ⟨T1, f0, fun f hf => ?_⟩
    obtain ⟨a, b, c⟩ := h f hf
    obtain ⟨d, e⟩ := Machine.mach_put_prepare_test (RHHash.machine P) P _
      (RHHash.rh_machine_ok P) T T1 hinv b (fun hov => (c hov).2)
    refine ⟨a, b, ?_, ?_, e⟩
    · intro hov
      obtain ⟨c1, c2, c3⟩ := c hov
      exact ⟨c1, by rw [← hlen]; exact c2, c3⟩
    · intro hc
      exact d (fun hov b hb => by
        show overThreshold P ((RHHash.ents T).length : Nat) b = false
        rw [hlen]; exact hc hov b hb)

/-- Witness of C10: a `put(2,2)` on the full `LPHash` reached at capacity 2 and threshold 3/4
by `put(0,0)`, `put(1,1)`; the threshold check fires, and the comparison with 3/4 fails for
every load factor up to 1/2. -/
theorem load_below_threshold_at_write_witness :
    (1 ≤ 2 ∧ exParams.Capped) ∧
    (LPHash.Reachable exParams 2 fullLP ∧ exParams.Fits fullLP.numEntries (2 ^ 30)) ∧
    (∃ T1 f0, ∀ f, f0 ≤ f →
      LPHash.put exParams (f + 1) fullLP 2 2 = LPHash.putEntry exParams (f + 1) T1 2 2 ∧
      (overThreshold exParams fullLP.numEntries fullLP.numBuckets = false → T1 = fullLP) ∧
      (overThreshold exParams fullLP.numEntries fullLP.numBuckets = true →
        LPHash.resize exParams f (fullLP.numBuckets * 2) fullLP = some T1 ∧
        T1.numEntries = fullLP.buckets.countP (fun e => e.occupied) ∧
        fullLP.numBuckets * 2 ≤ T1.numBuckets) ∧
      ((overThreshold exParams fullLP.numEntries fullLP.numBuckets = true →
          ∀ b, fullLP.numBuckets * 2 ≤ b →
            overThreshold exParams (fullLP.buckets.countP (fun e => e.occupied) : Nat) b
              = false) →
        overThreshold exParams T1.numEntries T1.numBuckets = false) ∧
      ((∀ (e : Int) (b : Nat), 1 ≤ b → 2 * e ≤ b → overThreshold exParams e b = false) →
        overThreshold exParams T1.numEntries T1.numBuckets = false)) ∧
    overThreshold exParams fullLP.numEntries fullLP.numBuckets = true ∧
    (∀ (e : Int) (b : Nat), 1 ≤ b → 2 * e ≤ b → overThreshold exParams e b = false) :=
  ⟨⟨by decide, ratTest_capped _ 3 4 (by decide)⟩,
    ⟨⟨fillOps, 3, rfl, rfl⟩, ratTest_fits _ 3 4 2 (2 ^ 30) (by decide)⟩,
    (load_below_threshold_at_write exParams 2 (by decide)
      (ratTest_capped _ 3 4 (by decide))).2.1 fullLP 2 2 ⟨fillOps, 3, rfl, rfl⟩
      (ratTest_fits _ 3 4 2 (2 ^ 30) (by decide)),
    rfl, ratTest_half _ 3 4 (by decide)⟩

/-! ## Cyclic distance as a remainder -/

theorem cdist_eq_emod (n a b : Nat) (ha : a < n) (hb : b < n) :
    ((cdist n a b : Nat) : Int) = ((b : Int) - a) % n := by
  unfold cdist
  split_ifs with h
  · rw [Int.emod_eq_of_lt (by omega) (by omega)]
    omega
  · have h1 : ((b : Int) - a) % n = ((b : Int) - a + n) % n := by
      rw [Int.add_emod_self]
    rw [h1, Int.emod_eq_of_lt (by omega) (by omega)]
    omega

theorem cdist_add_mod (n a b : Nat) (ha : a < n) (hb : b < n) :
    (a + cdist n a b) % n = b := by
  unfold cdist
  split_ifs with h
  · rw [Nat.mod_eq_of_lt (by omega)]; omega
  · have : a + (b + n - a) = b + n := by omega
    rw [this, Nat.add_mod_right, Nat.mod_eq_of_lt hb]

theorem cdist_add (n h t : Nat) (hh : h < n) (ht : t < n) : cdist n h ((h + t) % n) = t := by
  by_cases hlt : h + t < n
  · rw [Nat.mod_eq_of_lt hlt]
    unfold cdist
    split_ifs <;> omega
  · have e : (h + t) % n = h + t - n := by
      rw [Nat.mod_eq_sub_mod (by omega), Nat.mod_eq_of_lt (by omega)]
    rw [e]
    unfold cdist
    split_ifs <;> omega

theorem prev_index (n p : Nat) (hp : p < n) :
    (p + n - 1) % n = if p = 0 then n - 1 else p - 1 := by
  split_ifs with h
  · subst h
    rw [Nat.zero_add, Nat.mod_eq_of_lt (by omega)]
  · have e : p + n - 1 = (p - 1) + n := by omega
    rw [e, Nat.add_mod_right, Nat.mod_eq_of_lt (by omega)]

theorem cdist_prev (n h p : Nat) (hh : h < n) (hp : p < n) (hd : 0 < cdist n h p) :
    cdist n h ((p + n - 1) % n) + 1 = cdist n h p := by
  rw [prev_index n p hp]
  simp only [cdist] at hd ⊢
  split_ifs at hd ⊢ <;> omega

/-! ## Replay of an array without live entries -/

theorem replay_no_live {E S K V : Type} (live : E → Bool) (kv : E → K × V)
    (putf : S → K → V → Option S) :
    ∀ (old : List E) (T : S), (∀ e, e ∈ old → live e = false) →
      replay live kv putf old T = some T := by
  intro old
  induction old with
  | nil => intro T _; rfl
  | cons e old ih =>
    intro T h
    have he : live e = false := h e (List.mem_cons_self _ _)
    simp only [replay, he, Bool.false_eq_true, if_false]
    exact ih T (fun x hx => h x (List.mem_cons_of_mem _ hx))

/-! ## The scan of `LPHash::remove` over entries that stay -/

namespace LPHash

variable {K V : Type} [DecidableEq K] [Inhabited K] [Inhabited V]

theorem lp_removeLoop_skip (n : Nat) (hn : 1 ≤ n) (bs : List (HashEntry K V)) (i f : Nat) :
    ∀ (t j0 : Nat), j0 < n →
      (∀ s, s < t → (rd bs ((j0 + 1 + s) % n)).occupied = true ∧
        shiftTest i ((j0 + 1 + s) % n) (rd bs ((j0 + 1 + s) % n)).hash = false) →
      removeLoop n (f + t) bs i j0 = removeLoop n f bs i ((j0 + t) % n) := by
  intro t
  induction t with
  | zero =>
    intro j0 hj0 _
    rw [Nat.add_zero, Nat.add_zero, Nat.mod_eq_of_lt hj0]
  | succ t ih =>
    intro j0 hj0 h
    obtain ⟨ho, hs⟩ := h 0 (by omega)
    rw [Nat.add_zero] at ho hs
    have e : f + (t + 1) = (f + t) + 1 := by omega
    rw [e]
    conv => lhs; unfold removeLoop
    simp only [ho, Bool.not_true, Bool.false_eq_true, if_false, hs]
    have hj : (j0 + 1) % n < n := Nat.mod_lt _ (by omega)
    have hmod : ∀ s, ((j0 + 1) % n + s) % n = (j0 + 1 + s) % n := by
      intro s
      rw [Nat.add_mod, Nat.mod_mod, ← Nat.add_mod]
    rw [ih ((j0 + 1) % n) hj]
    · rw [hmod t]
      have : j0 + 1 + t = j0 + (t + 1) := by omega
      rw [this]
    · intro s hs1
      have := h (s + 1) (by omega)
      have e2 : (j0 + 1) % n + 1 + s = (j0 + 1) % n + (1 + s) := by omega
      have e3 : j0 + 1 + (s + 1) = j0 + 1 + (1 + s) := by omega
      rw [e2, hmod (1 + s), ← e3]
      exact this

end LPHash

/-! ## Strengthening the invariant of the common text -/

namespace Sys

variable {S K V : Type}

theorem ok_and (Y : Sys S K V) (Inv Q : S → Prop) (ok : Y.Ok Inv)
    (hmk : ∀ n, 1 ≤ n → Q (Y.mk0 n))
    (hput : ∀ T k v T1, Inv T → Q T → Y.nE T < Y.nB T →
      Y.putEntry (Y.nB T) T k v = some T1 → Q T1) :
    Y.Ok (fun T => Inv T ∧ Q T) where
  mk0_inv := fun n h => ⟨ok.mk0_inv n h, hmk n h⟩
  mk0_nE := ok.mk0_nE
  mk0_nB := ok.mk0_nB
  mk0_ents := ok.mk0_ents
  nB_pos := fun T h => ok.nB_pos T h.1
  nodup := fun T h => ok.nodup T h.1
  len_le_nE := fun T h => ok.len_le_nE T h.1
  len_le_nB := fun T h => ok.len_le_nB T h.1
  putEntry_mono := ok.putEntry_mono
  putEntry_ok := fun T k v h hlt => by
    obtain ⟨T1, e, i1, r⟩ := ok.putEntry_ok T k v h.1 hlt
    exact ⟨T1, e, ⟨i1, hput T k v T1 h.1 h.2 hlt e⟩, r⟩

end Sys

/-! ## `LazyLPHash`: tables without tombstones -/

namespace LazyLPHash

variable {K V : Type} [DecidableEq K] [Inhabited K] [Inhabited V]

theorem lz_putEntry_notomb (P : Params K) (T : LazyLPHash K V) (k : K) (v : V)
    (T1 : LazyLPHash K V) (f : Nat) (hinv : Inv P T)
    (hq : ∀ i, i < T.numBuckets → (rd T.buckets i).deleted = false)
    (h : putEntry P f T k v = some T1) :
    ∀ i, i < T1.numBuckets → (rd T1.buckets i).deleted = false := by
  unfold putEntry at h
  cases hl : lookup P f T k with
  | none => rw [hl] at h; simp at h
  | some idx =>
    rw [hl] at h
    obtain ⟨hidx, hnd, _, _⟩ := lz_lookup_spec P T hinv.pos k f idx hl
    simp only [hnd, Bool.false_eq_true, if_false, Option.some.injEq] at h
    subst h
    intro i hi
    show (rd (wr T.buckets idx _) i).deleted = false
    rw [rd_wr _ _ _ _ (by rw [hinv.len]; exact hidx)]
    split_ifs
    · rfl
    · exact hq i hi

theorem lz_sys_ok_notomb (P : Params K) :
    (sys P : Sys (LazyLPHash K V) K V).Ok
      (fun T => Inv P T ∧ ∀ i, i < T.numBuckets → (rd T.buckets i).deleted = false) := by
  apply Sys.ok_and _ _ _ (lz_sys_ok P)
  · intro n _ i _
    show (rd (mk0 n : LazyLPHash K V).buckets i).deleted = false
    simp only [mk0, rd_replicate]
    rfl
  · intro T k v T1 hinv hq _ h
    exact lz_putEntry_notomb P T k v T1 _ hinv hq h

theorem lz_resize_notomb (P : Params K) (hq : P.Capped) (T : LazyLPHash K V)
    (hinv : Inv P T) (f n : Nat) (hn : 1 ≤ n) (T1 : LazyLPHash K V)
    (h : resize P f n T = some T1) :
    ∀ i, i < T1.numBuckets → (rd T1.buckets i).deleted = false := by
  rw [lz_resize_eq_sys] at h
  exact (Sys.replay_mk0_pc (sys P) _ (lz_sys_ok_notomb P) P hq f n hn (ents T)
    (lz_nodup_ents P T hinv) T1 h).1.2

theorem lz_countP_occupied (P : Params K) (T : LazyLPHash K V) (hinv : Inv P T) :
    T.buckets.countP (fun e => e.occupied) = T.buckets.countP liveEntry := by
  apply List.countP_congr
  intro e he
  obtain ⟨i, hi, rfl⟩ := List.getElem_of_mem he
  have hrd : rd T.buckets i = T.buckets[i] := by simp [rd, List.getD, hi]
  rw [← hrd, lz_liveEntry_iff]
  constructor
  · intro ho
    exact ⟨ho, hinv.excl i (by rw [← hinv.len]; exact hi) ho⟩
  · intro ho
    exact ho.1

end LazyLPHash

/-! ## `RHHash`: a slot that no probe path crosses -/

theorem cdist_le_add (n a b c : Nat) (ha : a < n) (hb : b < n) (hc : c < n) :
    cdist n a c ≤ cdist n a b + cdist n b c := by
  simp only [cdist]
  split_ifs <;> omega

theorem cdist_next_ne (n a b : Nat) (ha : a < n) (hb : b < n)
    (h : b ≠ (a + n - 1) % n) : cdist n a ((b + 1) % n) = cdist n a b + 1 := by
  rw [prev_index n a ha] at h
  rw [next_index n b hb]
  simp only [cdist]
  split_ifs at h ⊢ <;> omega

theorem prev_next (n e : Nat) (he : e < n) : ((e + 1) % n + n - 1) % n = e := by
  rw [prev_index n _ (Nat.mod_lt _ (by omega)), next_index n e he]
  by_cases h : e + 1 = n
  · rw [if_pos h, if_pos rfl]; omega
  · rw [if_neg h, if_neg (by omega)]; omega

theorem cdist_cross (n e h p : Nat) (he : e < n) (hh : h < n) (hp : p < n) (hpe : p ≠ e)
    (h1 : cdist n ((e + 1) % n) p < cdist n ((e + 1) % n) h) :
    cdist n h e < cdist n h p := by
  rw [next_index n e he] at h1
  simp only [cdist] at h1 ⊢
  split_ifs at h1 ⊢ <;> omega

namespace RHHash

variable {K V : Type} [DecidableEq K] [Inhabited K] [Inhabited V]

theorem rh_lin_of_free (P : Params K) (n : Nat) (hn : 1 ≤ n) (bs : List (HashEntry K V))
    (hA : ArrOk P n bs) (e : Nat) (he : e < n) (hfree : (rd bs e).occupied = false) :
    LinFrom n bs ((e + 1) % n) := by
  intro p hp ho
  by_contra hlt
  have hh : (rd bs p).hash < n := by rw [hA.home p hp ho]; exact hash_lt P n _ hn
  have hpe : p ≠ e := by
    rintro rfl
    rw [hfree] at ho
    exact Bool.noConfusion ho
  have := cdist_cross n e _ p he hh hp hpe (by omega)
  have h2 := (hA.path p hp ho e he this).1
  rw [hfree] at h2
  exact Bool.noConfusion h2

theorem rh_putLoop_lin (n : Nat) (hn : 1 ≤ n) (a : Nat) (ha : a < n) :
    ∀ (f : Nat) (bs : List (HashEntry K V)) (key : K) (val : V) (hsh idx : Nat) (cur : Int)
      (bs1 : List (HashEntry K V)), bs.length = n → idx < n →
      (rd bs ((a + n - 1) % n)).occupied = false → LinFrom n bs a →
      cdist n a hsh ≤ cdist n a idx →
      putLoop n f bs key val hsh idx cur = some bs1 → LinFrom n bs1 a := by
  intro f
  induction f with
  | zero => intro bs key val hsh idx cur bs1 _ _ _ _ _ h; simp [putLoop] at h
  | succ f ih =>
    intro bs key val hsh idx cur bs1 hlen hidx hfree hlin hc h
    have hnl := next_index_lt n idx (by omega)
    unfold putLoop at h
    simp only [] at h
    split at h
    · next h1 =>
      have ho : (rd bs idx).occupied = true := by
        simp only [Bool.and_eq_true] at h1
        exact h1.1
      have hne : idx ≠ (a + n - 1) % n := by
        intro e
        rw [← e, ho] at hfree
        exact Bool.noConfusion hfree
      have hnx := cdist_next_ne n a idx ha hidx hne
      split at h
      · next h2 =>
        have hrd : ∀ x, rd (wr bs idx ⟨key, val, hsh, (rd bs idx).occupied⟩) x
            = if x = idx then ⟨key, val, hsh, (rd bs idx).occupied⟩ else rd bs x :=
          fun x => rd_wr _ _ _ _ (by rw [hlen]; exact hidx)
        refine ih _ _ _ _ _ _ bs1 (by rw [length_wr]; exact hlen) hnl ?_ ?_ ?_ h
        · rw [hrd, if_neg (Ne.symm hne)]; exact hfree
        · intro p hp hop
          rw [hrd] at hop ⊢
          split_ifs at hop ⊢ with hpi
          · subst hpi; exact hc
          · exact hlin p hp hop
        · have := hlin idx hidx ho
          omega
      · next h2 =>
        exact ih _ _ _ _ _ _ bs1 hlen hnl hfree hlin (by omega) h
    · next h1 =>
      simp only [Option.some.injEq] at h
      subst h
      have hrd : ∀ x, rd (wr bs idx ⟨key, val, hsh, true⟩) x
          = if x = idx then ⟨key, val, hsh, true⟩ else rd bs x :=
        fun x => rd_wr _ _ _ _ (by rw [hlen]; exact hidx)
      intro p hp hop
      rw [hrd] at hop ⊢
      split_ifs at hop ⊢ with hpi
      · subst hpi; exact hc
      · exact hlin p hp hop

/-- After the write of `put` on a table with a free slot, some slot is crossed by no probe
path. -/
theorem rh_putEntry_cut (P : Params K) (T : RHHash K V) (k : K) (v : V) (T1 : RHHash K V)
    (f : Nat) (hinv : Inv P T) (hlt : T.numEntries < T.numBuckets)
    (h : putEntry P f T k v = some T1) :
    ∃ a, a < T1.numBuckets ∧ LinFrom T1.numBuckets T1.buckets a := by
  have hcnt := hinv.cnt
  have hfree : T.buckets.countP (fun e => e.occupied) < T.buckets.length := by
    rw [hinv.arr.len]; omega
  obtain ⟨e, he, hfe⟩ := exists_not_of_countP_lt (fun e : HashEntry K V => e.occupied)
    T.buckets hfree
  rw [hinv.arr.len] at he
  have ha : (e + 1) % T.numBuckets < T.numBuckets := Nat.mod_lt _ (by omega)
  unfold putEntry at h
  cases hl : putLoop T.numBuckets f T.buckets k v (hash P T.numBuckets k)
      (hash P T.numBuckets k) 0 with
  | none => rw [hl] at h; simp at h
  | some bs =>
    rw [hl] at h
    simp only [Option.some.injEq] at h
    subst h
    refine ⟨(e + 1) % T.numBuckets, ha, ?_⟩
    exact rh_putLoop_lin T.numBuckets hinv.pos _ ha f T.buckets k v _ _ 0 bs hinv.arr.len
      (hash_lt P _ _ hinv.pos) (by rw [prev_next _ _ he]; exact hfe)
      (rh_lin_of_free P _ hinv.pos _ hinv.arr e he hfe) (le_refl _) hl

theorem rh_sys_ok_cut (P : Params K) :
    (sys P : Sys (RHHash K V) K V).Ok
      (fun T => Inv P T ∧ ∃ a, a < T.numBuckets ∧ LinFrom T.numBuckets T.buckets a) := by
  apply Sys.ok_and _ _ _ (rh_sys_ok P)
  · intro n hn
    refine ⟨0, by show 0 < n; omega, ?_⟩
    intro p _ ho
    have : (rd (mk0 n : RHHash K V).buckets p).occupied = false := by
      simp only [mk0, rd_replicate]; rfl
    have ho' : (rd (mk0 n : RHHash K V).buckets p).occupied = true := ho
    rw [this] at ho'
    exact Bool.noConfusion ho'
  · intro T k v T1 hinv _ hlt h
    exact rh_putEntry_cut P T k v T1 _ hinv hlt h

end RHHash

/-! ## Two classes under the same calls -/

section Keys

variable {K V : Type} [DecidableEq K]

theorem keys_length_eq (a b : List (K × V)) (ha : (a.map Prod.fst).Nodup)
    (hb : (b.map Prod.fst).Nodup) (h : ∀ k, k ∈ a.map Prod.fst ↔ k ∈ b.map Prod.fst) :
    a.length = b.length := by
  have h1 : (a.map Prod.fst).toFinset = (b.map Prod.fst).toFinset := by
    ext k
    simp only [List.mem_toFinset]
    exact h k
  have h2 := List.toFinset_card_of_nodup ha
  have h3 := List.toFinset_card_of_nodup hb
  rw [h1] at h2
  simp only [List.length_map] at h2 h3
  omega

theorem Upd.length_old {es1 es : List (K × V)} {k : K} {v : V} (h : Upd es1 es k v)
    (h1 : (es1.map Prod.fst).Nodup) (h0 : (es.map Prod.fst).Nodup)
    (hk : k ∈ es.map Prod.fst) : es1.length = es.length := by
  apply keys_length_eq es1 es h1 h0
  intro k1
  rw [h.keys k1]
  constructor
  · rintro (rfl | h2)
    · exact hk
    · exact h2
  · exact Or.inr

end Keys

namespace Sys

variable {S1 S2 S K V : Type} [DecidableEq K]

theorem putEntry_pc (Y : Sys S K V) (Inv : S → Prop) (ok : Y.Ok Inv) (T : S) (k : K) (v : V)
    (T1 : S) (g : Nat) (hinv : Inv T) (hlt : Y.nE T < Y.nB T)
    (h : Y.putEntry g T k v = some T1) :
    Inv T1 ∧ Y.nE T1 = Y.nE T + 1 ∧ Y.nB T1 = Y.nB T ∧ Upd (Y.ents T1) (Y.ents T) k v := by
  obtain ⟨T2, e, r⟩ := ok.putEntry_ok T k v hinv hlt
  have h1 := ok.putEntry_mono g (max g (Y.nB T)) T k v T1 (le_max_left _ _) h
  have h2 := ok.putEntry_mono (Y.nB T) (max g (Y.nB T)) T k v T2 (le_max_right _ _) e
  rw [h1] at h2
  rw [Option.some.inj h2]
  exact r

theorem putEntry_same (Y1 : Sys S1 K V) (Y2 : Sys S2 K V) (Inv1 : S1 → Prop)
    (Inv2 : S2 → Prop) (ok1 : Y1.Ok Inv1) (ok2 : Y2.Ok Inv2) (T1 : S1) (T2 : S2)
    (k1 k2 : K) (v1 v2 : V) (T1' : S1) (T2' : S2) (g1 g2 : Nat) (hi1 : Inv1 T1)
    (hi2 : Inv2 T2) (hs : Y1.Same Y2 T1 T2) (hlt : Y1.nE T1 < Y1.nB T1)
    (hk : k1 ∈ (Y1.ents T1).map Prod.fst ↔ k2 ∈ (Y2.ents T2).map Prod.fst)
    (h1 : Y1.putEntry g1 T1 k1 v1 = some T1') (h2 : Y2.putEntry g2 T2 k2 v2 = some T2') :
    Y1.Same Y2 T1' T2' := by
  obtain ⟨se, sb, sl⟩ := hs
  obtain ⟨i1, e1, b1, u1⟩ := putEntry_pc Y1 Inv1 ok1 T1 k1 v1 T1' g1 hi1 hlt h1
  obtain ⟨i2, e2, b2, u2⟩ := putEntry_pc Y2 Inv2 ok2 T2 k2 v2 T2' g2 hi2
    (by rw [← se, ← sb]; exact hlt) h2
  refine ⟨by rw [e1, e2, se], by rw [b1, b2, sb], ?_⟩
  by_cases hm : k1 ∈ (Y1.ents T1).map Prod.fst
  · rw [u1.length_old (ok1.nodup _ i1) (ok1.nodup _ hi1) hm,
      u2.length_old (ok2.nodup _ i2) (ok2.nodup _ hi2) (hk.1 hm)]
    exact sl
  · rw [u1.length_new (ok1.nodup _ i1) (ok1.nodup _ hi1) hm,
      u2.length_new (ok2.nodup _ i2) (ok2.nodup _ hi2) (fun h => hm (hk.2 h))]
    omega

end Sys

namespace Sys

variable {S1 S2 S K V : Type} [DecidableEq K]

theorem replay_same (Y1 : Sys S1 K V) (Y2 : Sys S2 K V) (Inv1 : S1 → Prop)
    (Inv2 : S2 → Prop) (ok1 : Y1.Ok Inv1) (ok2 : Y2.Ok Inv2) (P : Params K)
    (hq : P.Capped) (f : Nat)
    (hput : ∀ (T1 : S1) (T2 : S2) (k1 k2 : K) (v1 v2 : V) (T1' : S1) (T2' : S2),
      Inv1 T1 → Inv2 T2 → Y1.Same Y2 T1 T2 →
      (k1 ∈ (Y1.ents T1).map Prod.fst ↔ k2 ∈ (Y2.ents T2).map Prod.fst) →
      Y1.put P f T1 k1 v1 = some T1' → Y2.put P f T2 k2 v2 = some T2' →
      Y1.Same Y2 T1' T2') :
    ∀ (es1 es2 : List (K × V)) (U1 : S1) (U2 : S2) (R1 : S1) (R2 : S2),
      es1.length = es2.length → (es1.map Prod.fst).Nodup → (es2.map Prod.fst).Nodup →
      Inv1 U1 → Inv2 U2 → Y1.Same Y2 U1 U2 →
      (∀ k, k ∈ es1.map Prod.fst → k ∉ (Y1.ents U1).map Prod.fst) →
      (∀ k, k ∈ es2.map Prod.fst → k ∉ (Y2.ents U2).map Prod.fst) →
      replayL (Y1.put P f) es1 U1 = some R1 → replayL (Y2.put P f) es2 U2 = some R2 →
      Y1.Same Y2 R1 R2 := by
  intro es1
  induction es1 with
  | nil =>
    intro es2 U1 U2 R1 R2 hl _ _ _ _ hs _ _ h1 h2
    have : es2 = [] := List.length_eq_zero.1 (by simpa using hl.symm)
    subst this
    simp only [replayL, Option.some.injEq] at h1 h2
    subst h1; subst h2
    exact hs
  | cons e1 es1 ih =>
    intro es2 U1 U2 R1 R2 hl hn1 hn2 hi1 hi2 hs hd1 hd2 h1 h2
    obtain ⟨k1, v1⟩ := e1
    cases es2 with
    | nil => simp at hl
    | cons e2 es2 =>
      obtain ⟨k2, v2⟩ := e2
      simp only [replayL] at h1 h2
      cases hp1 : Y1.put P f U1 k1 v1 with
      | none => rw [hp1] at h1; simp at h1
      | some W1 =>
        cases hp2 : Y2.put P f U2 k2 v2 with
        | none => rw [hp2] at h2; simp at h2
        | some W2 =>
          rw [hp1] at h1
          rw [hp2] at h2
          simp only [] at h1 h2
          have hk1 : k1 ∉ (Y1.ents U1).map Prod.fst := hd1 k1 (by simp)
          have hk2 : k2 ∉ (Y2.ents U2).map Prod.fst := hd2 k2 (by simp)
          have hsW := hput U1 U2 k1 k2 v1 v2 W1 W2 hi1 hi2 hs
            ⟨fun h => absurd h hk1, fun h => absurd h hk2⟩ hp1 hp2
          obtain ⟨iW1, uW1, _, _⟩ := put_pc Y1 Inv1 ok1 P hq f U1 k1 v1 W1 hi1 hp1
          obtain ⟨iW2, uW2, _, _⟩ := put_pc Y2 Inv2 ok2 P hq f U2 k2 v2 W2 hi2 hp2
          simp only [List.map_cons, List.nodup_cons] at hn1 hn2
          refine ih es2 W1 W2 R1 R2 (by simpa using hl) hn1.2 hn2.2 iW1 iW2 hsW ?_ ?_ h1 h2
          · intro k hk hm
            rcases (uW1.keys k).1 hm with rfl | h3
            · exact hn1.1 hk
            · exact hd1 k (by simp only [List.map_cons, List.mem_cons]; exact Or.inr hk) h3
          · intro k hk hm
            rcases (uW2.keys k).1 hm with rfl | h3
            · exact hn2.1 hk
            · exact hd2 k (by simp only [List.map_cons, List.mem_cons]; exact Or.inr hk) h3

end Sys

namespace Sys

variable {S1 S2 S K V : Type} [DecidableEq K]

theorem put_same (Y1 : Sys S1 K V) (Y2 : Sys S2 K V) (Inv1 : S1 → Prop)
    (Inv2 : S2 → Prop) (ok1 : Y1.Ok Inv1) (ok2 : Y2.Ok Inv2) (P : Params K)
    (hq : P.Capped) :
    ∀ (f : Nat) (T1 : S1) (T2 : S2) (k1 k2 : K) (v1 v2 : V) (T1' : S1) (T2' : S2),
      Inv1 T1 → Inv2 T2 → Y1.Same Y2 T1 T2 →
      (k1 ∈ (Y1.ents T1).map Prod.fst ↔ k2 ∈ (Y2.ents T2).map Prod.fst) →
      Y1.put P f T1 k1 v1 = some T1' → Y2.put P f T2 k2 v2 = some T2' →
      Y1.Same Y2 T1' T2' := by
  intro f
  induction f with
  | zero => intro T1 T2 k1 k2 v1 v2 T1' T2' _ _ _ _ h1 _; simp [Sys.put] at h1
  | succ f ih =>
    intro T1 T2 k1 k2 v1 v2 T1' T2' hi1 hi2 hs hk h1 h2
    have hs' := hs
    obtain ⟨se, sb, sl⟩ := hs'
    unfold Sys.put at h1 h2
    rw [← se, ← sb] at h2
    by_cases hov : overThreshold P (Y1.nE T1) (Y1.nB T1) = true
    · rw [if_pos hov] at h1 h2
      by_cases hofl : 2 ^ 31 ≤ Y1.nB T1 * 2
      · rw [if_pos hofl] at h1; simp at h1
      rw [if_neg hofl] at h1 h2
      cases hr1 : replayL (Y1.put P f) (Y1.ents T1) (Y1.mk0 (Y1.nB T1 * 2)) with
      | none => rw [hr1] at h1; simp at h1
      | some U1 =>
        rw [sb] at h2
        cases hr2 : replayL (Y2.put P f) (Y2.ents T2) (Y2.mk0 (Y2.nB T2 * 2)) with
        | none => rw [hr2] at h2; simp at h2
        | some U2 =>
          rw [hr1] at h1
          rw [hr2] at h2
          simp only [] at h1 h2
          have hp1 := ok1.nB_pos T1 hi1
          have hp2 := ok2.nB_pos T2 hi2
          have hsU : Y1.Same Y2 U1 U2 := by
            refine replay_same Y1 Y2 Inv1 Inv2 ok1 ok2 P hq f ih _ _ _ _ U1 U2 sl
              (ok1.nodup _ hi1) (ok2.nodup _ hi2) (ok1.mk0_inv _ (by omega))
              (ok2.mk0_inv _ (by omega)) ?_ ?_ ?_ hr1 hr2
            · refine ⟨?_, ?_, ?_⟩
              · rw [ok1.mk0_nE, ok2.mk0_nE]
              · rw [ok1.mk0_nB, ok2.mk0_nB, sb]
              · rw [ok1.mk0_ents, ok2.mk0_ents]
            · intro k _; rw [ok1.mk0_ents]; simp
            · intro k _; rw [ok2.mk0_ents]; simp
          obtain ⟨iU1, mU1, eU1, lU1, j1, bU1⟩ := replay_mk0_pc Y1 Inv1 ok1 P hq f _
            (by omega) (Y1.ents T1) (ok1.nodup _ hi1) U1 hr1
          obtain ⟨iU2, mU2, _, _, _, _⟩ := replay_mk0_pc Y2 Inv2 ok2 P hq f _
            (by omega) (Y2.ents T2) (ok2.nodup _ hi2) U2 hr2
          have hlt : Y1.nE U1 < Y1.nB U1 := by
            have h3 := ok1.len_le_nB T1 hi1
            have h4 : Y1.nB T1 * 2 ≤ Y1.nB U1 := by
              rw [bU1]
              exact Nat.le_mul_of_pos_right _ (Nat.pow_pos (by omega))
            rw [eU1, lU1]
            have : (Y1.ents T1).length < Y1.nB U1 := by omega
            exact_mod_cast this
          refine putEntry_same Y1 Y2 Inv1 Inv2 ok1 ok2 U1 U2 k1 k2 v1 v2 T1' T2' _ _ iU1 iU2
            hsU hlt ?_ h1 h2
          simp only [mem_keys_iff] at hk ⊢
          constructor
          · rintro ⟨v, hv⟩
            obtain ⟨w, hw⟩ := hk.1 ⟨v, (mU1 _ _).1 hv⟩
            exact ⟨w, (mU2 _ _).2 hw⟩
          · rintro ⟨v, hv⟩
            obtain ⟨w, hw⟩ := hk.2 ⟨v, (mU2 _ _).1 hv⟩
            exact ⟨w, (mU1 _ _).2 hw⟩
    · rw [if_neg hov] at h1 h2
      have hov' : overThreshold P (Y1.nE T1) (Y1.nB T1) = false := by
        simpa using hov
      exact putEntry_same Y1 Y2 Inv1 Inv2 ok1 ok2 T1 T2 k1 k2 v1 v2 T1' T2' _ _ hi1 hi2 hs
        (lt_of_not_overThreshold P hq _ _ (ok1.nB_pos T1 hi1) hov') hk h1 h2

end Sys

namespace Sys

variable {S1 S2 S K V : Type} [DecidableEq K]

theorem runOps_puts_same (Y1 : Sys S1 K V) (Y2 : Sys S2 K V) (Inv1 : S1 → Prop)
    (Inv2 : S2 → Prop) (ok1 : Y1.Ok Inv1) (ok2 : Y2.Ok Inv2) (P : Params K)
    (hq : P.Capped) (f : Nat) (rem1 : S1 → K → Option S1)
    (res1 : Nat → S1 → Option S1) (rem2 : S2 → K → Option S2) (res2 : Nat → S2 → Option S2) :
    ∀ (ops : List (Op K V)) (T1 : S1) (T2 : S2) (R1 : S1) (R2 : S2), onlyPuts ops = true →
      Inv1 T1 → Inv2 T2 → Y1.Same Y2 T1 T2 →
      (∀ k, k ∈ (Y1.ents T1).map Prod.fst ↔ k ∈ (Y2.ents T2).map Prod.fst) →
      runOps (Y1.put P f) rem1 res1 ops T1 = some R1 →
      runOps (Y2.put P f) rem2 res2 ops T2 = some R2 →
      Inv1 R1 ∧ Inv2 R2 ∧ Y1.Same Y2 R1 R2 ∧
        ∀ k, k ∈ (Y1.ents R1).map Prod.fst ↔ k ∈ (Y2.ents R2).map Prod.fst := by
  intro ops
  induction ops with
  | nil =>
    intro T1 T2 R1 R2 _ hi1 hi2 hs hk h1 h2
    simp only [runOps, Option.some.injEq] at h1 h2
    subst h1; subst h2
    exact ⟨hi1, hi2, hs, hk⟩
  | cons op ops ih =>
    intro T1 T2 R1 R2 ho hi1 hi2 hs hk h1 h2
    cases op with
    | remove k => simp [onlyPuts] at ho
    | resize n => simp [onlyPuts] at ho
    | put k v =>
      simp only [onlyPuts] at ho
      simp only [runOps] at h1 h2
      cases hp1 : Y1.put P f T1 k v with
      | none => rw [hp1] at h1; simp at h1
      | some W1 =>
        cases hp2 : Y2.put P f T2 k v with
        | none => rw [hp2] at h2; simp at h2
        | some W2 =>
          rw [hp1] at h1
          rw [hp2] at h2
          simp only [] at h1 h2
          have hsW := put_same Y1 Y2 Inv1 Inv2 ok1 ok2 P hq f T1 T2 k k v v W1 W2 hi1 hi2 hs
            (hk k) hp1 hp2
          obtain ⟨iW1, uW1, _, _⟩ := put_pc Y1 Inv1 ok1 P hq f T1 k v W1 hi1 hp1
          obtain ⟨iW2, uW2, _, _⟩ := put_pc Y2 Inv2 ok2 P hq f T2 k v W2 hi2 hp2
          refine ih W1 W2 R1 R2 ho iW1 iW2 hsW ?_ h1 h2
          intro k1
          rw [uW1.keys k1, uW2.keys k1, hk k1]

end Sys

/-! ## The Robin Hood bound on probe lengths -/

theorem cdist_window (n a y x p : Nat) (ha : a < n) (hy : y < n) (hx : x < n) (hp : p < n)
    (h1 : cdist n a y + 1 ≤ cdist n a p)
    (h2 : cdist n ((y + 1) % n) x ≤ cdist n ((y + 1) % n) p) :
    cdist n a y + 1 ≤ cdist n a x ∧ cdist n a x ≤ cdist n a p := by
  rw [next_index n y hy] at h2
  simp only [cdist] at h1 h2 ⊢
  split_ifs at h1 h2 ⊢ <;> omega

theorem cdist_between (n a h x p : Nat) (ha : a < n) (hh : h < n) (hx : x < n) (hp : p < n)
    (h1 : cdist n a h ≤ cdist n a x) (h2 : cdist n a x ≤ cdist n a p) (hxp : x ≠ p) :
    cdist n h x < cdist n h p := by
  simp only [cdist] at h1 h2 ⊢
  split_ifs at h1 h2 ⊢ <;> omega

theorem cdist_split (n a b c : Nat) (ha : a < n) (hb : b < n) (hc : c < n)
    (h : cdist n a b ≤ cdist n a c) : cdist n a c = cdist n a b + cdist n b c := by
  simp only [cdist] at h ⊢
  split_ifs at h ⊢ <;> omega

theorem cdist_home_le (n c hx h x : Nat) (hc : c < n) (hhx : hx < n) (hh : h < n)
    (hxn : x < n) (h1 : cdist n c hx ≤ cdist n c x) (h2 : cdist n c h ≤ cdist n c x)
    (h3 : cdist n h x ≤ cdist n hx x) : cdist n c hx ≤ cdist n c h := by
  simp only [cdist] at h1 h2 h3 ⊢
  split_ifs at h1 h2 h3 ⊢ <;> omega

namespace RHHash

variable {K V : Type} [DecidableEq K] [Inhabited K] [Inhabited V]

/-- The start of the run of occupied slots that holds the slot `p`: a slot `c` that no probe
path crosses, with every slot from `c` to `p` occupied. -/
theorem rh_cluster_start (P : Params K) (n : Nat) (hn : 1 ≤ n) (bs : List (HashEntry K V))
    (hA : ArrOk P n bs) (a : Nat) (ha : a < n) (hlin : LinFrom n bs a) (p : Nat) (hp : p < n)
    (ho : (rd bs p).occupied = true) :
    ∃ c, c < n ∧ LinFrom n bs c ∧
      ∀ x, x < n → cdist n c x ≤ cdist n c p → (rd bs x).occupied = true := by
  have hh : (rd bs p).hash < n := by rw [hA.home p hp ho]; exact hash_lt P n _ hn
  have hlp := hlin p hp ho
  have hpn := cdist_lt n a p ha hp
  have G : ∀ j, j ≤ cdist n a (rd bs p).hash →
      (∀ x, x < n → j ≤ cdist n a x → cdist n a x ≤ cdist n a p →
        (rd bs x).occupied = true) →
      ∃ c, c < n ∧ LinFrom n bs c ∧
        ∀ x, x < n → cdist n c x ≤ cdist n c p → (rd bs x).occupied = true := by
    intro j
    induction j with
    | zero =>
      intro _ hall
      exact ⟨a, ha, hlin, fun x hx h1 => hall x hx (Nat.zero_le _) h1⟩
    | succ j ih =>
      intro hj hall
      have hyn : (a + j) % n < n := Nat.mod_lt _ (by omega)
      have hy := cdist_add n a j ha (by omega)
      by_cases hoy : (rd bs ((a + j) % n)).occupied = true
      · apply ih (by omega)
        intro x hx h1 h2
        by_cases he : cdist n a x = j
        · have : x = (a + j) % n := cdist_inj n a x _ ha hx hyn (by rw [he, hy])
          rw [this]; exact hoy
        · exact hall x hx (by omega) h2
      · have hfree : (rd bs ((a + j) % n)).occupied = false := by
          simpa using hoy
        refine ⟨((a + j) % n + 1) % n, Nat.mod_lt _ (by omega),
          rh_lin_of_free P n hn bs hA _ hyn hfree, ?_⟩
        intro x hx h1
        obtain ⟨w1, w2⟩ := cdist_window n a _ x p ha hyn hx hp (by omega) h1
        exact hall x hx (by omega) w2
  apply G _ (le_refl _)
  intro x hx h1 h2
  by_cases hxp : x = p
  · rw [hxp]; exact ho
  · exact (hA.path p hp ho x hx (cdist_between n a _ x p ha hh hx hp h1 h2 hxp)).1

end RHHash

namespace RHHash

variable {K V : Type} [DecidableEq K] [Inhabited K] [Inhabited V]

/-- Counting argument of the Robin Hood bound: the `m` keys in the slots from the start `c` of
the run to the slot `p` all have their home index between `c` and the home index of `p`; in
any other array that holds them, one of them is at least as far from its home index as `p`
is. -/
theorem rh_bound_core (P : Params K) (n : Nat) (hn : 1 ≤ n) (bs : List (HashEntry K V))
    (hA : ArrOk P n bs) (a : Nat) (ha : a < n) (hlin : LinFrom n bs a)
    (occL : Nat → Bool) (keyL : Nat → K)
    (hkeys : ∀ x, x < n → (rd bs x).occupied = true →
      ∃ q, q < n ∧ occL q = true ∧ keyL q = (rd bs x).key)
    (p : Nat) (hp : p < n) (ho : (rd bs p).occupied = true) :
    ∃ q, q < n ∧ occL q = true ∧
      cdist n (rd bs p).hash p ≤ cdist n (hash P n (keyL q)) q := by
  by_contra hcon
  have hsmall : ∀ q, q < n → occL q = true →
      cdist n (hash P n (keyL q)) q < cdist n (rd bs p).hash p := by
    intro q hq hoq
    by_contra hge
    exact hcon ⟨q, hq, hoq, by omega⟩
  obtain ⟨c, hc, hlc, hrun⟩ := rh_cluster_start P n hn bs hA a ha hlin p hp ho
  have hh : (rd bs p).hash < n := by rw [hA.home p hp ho]; exact hash_lt P n _ hn
  have hcp := cdist_lt n c p hc hp
  have hsplit := cdist_split n c _ p hc hh hp (hlc p hp ho)
  have H : ∀ t, ∃ q, t < cdist n c p + 1 →
      q < n ∧ occL q = true ∧ keyL q = (rd bs ((c + t) % n)).key := by
    intro t
    by_cases ht : t < cdist n c p + 1
    · have hx : (c + t) % n < n := Nat.mod_lt _ (by omega)
      have hxt := cdist_add n c t hc (by omega)
      obtain ⟨q, h1, h2, h3⟩ := hkeys _ hx (hrun _ hx (by omega))
      exact ⟨q, fun _ => ⟨h1, h2, h3⟩⟩
    · exact ⟨0, fun h => absurd h ht⟩
  choose q hq using H
  have hmaps : ∀ t, t ∈ Finset.range (cdist n c p + 1) →
      cdist n c (q t) ∈ Finset.range (cdist n c p) := by
    intro t ht
    rw [Finset.mem_range] at ht ⊢
    obtain ⟨h1, h2, h3⟩ := hq t ht
    have hx : (c + t) % n < n := Nat.mod_lt _ (by omega)
    have hxt := cdist_add n c t hc (by omega)
    have hox := hrun _ hx (by omega)
    have hhome := hA.home _ hx hox
    have hhx : (rd bs ((c + t) % n)).hash < n := by rw [hhome]; exact hash_lt P n _ hn
    have hl1 := hlc _ hx hox
    have hle : cdist n c (rd bs ((c + t) % n)).hash ≤ cdist n c (rd bs p).hash := by
      by_cases htc : t ≤ cdist n c (rd bs p).hash
      · omega
      · by_cases hxp : (c + t) % n = p
        · rw [hxp]
        · have hb := cdist_between n c _ _ p hc hh hx hp (by omega) (by omega) hxp
          obtain ⟨_, _, hord⟩ := hA.path p hp ho _ hx hb
          exact cdist_home_le n c _ _ _ hc hhx hh hx hl1 (by omega) hord
    have hs := hsmall (q t) h1 h2
    rw [h3, ← hhome] at hs
    have htri := cdist_le_add n c (rd bs ((c + t) % n)).hash (q t) hc hhx h1
    omega
  obtain ⟨t1, ht1, t2, ht2, hne, heq⟩ := Finset.exists_ne_map_eq_of_card_lt_of_maps_to
    (by simp) hmaps
  rw [Finset.mem_range] at ht1 ht2
  obtain ⟨a1, a2, a3⟩ := hq t1 ht1
  obtain ⟨b1, b2, b3⟩ := hq t2 ht2
  have hqq : q t1 = q t2 := cdist_inj n c _ _ hc a1 b1 heq
  have hx1 : (c + t1) % n < n := Nat.mod_lt _ (by omega)
  have hx2 : (c + t2) % n < n := Nat.mod_lt _ (by omega)
  have hxt1 := cdist_add n c t1 hc (by omega)
  have hxt2 := cdist_add n c t2 hc (by omega)
  have hkk : (rd bs ((c + t1) % n)).key = (rd bs ((c + t2) % n)).key := by
    rw [← a3, ← b3, hqq]
  have hxx := rh_arr_keys_unique P n hn bs hA _ _ hx1 hx2 (hrun _ hx1 (by omega))
    (hrun _ hx2 (by omega)) hkk
  rw [hxx] at hxt1
  omega

end RHHash

/-! ## Maximum of the samples -/

theorem foldl_max_ge : ∀ (l : List Int) (b : Int),
    b ≤ l.foldl max b ∧ ∀ d, d ∈ l → d ≤ l.foldl max b := by
  intro l
  induction l with
  | nil => intro b; exact ⟨le_refl _, fun d hd => by simp at hd⟩
  | cons x l ih =>
    intro b
    obtain ⟨h1, h2⟩ := ih (max b x)
    simp only [List.foldl_cons]
    refine ⟨le_trans (le_max_left _ _) h1, ?_⟩
    intro d hd
    rcases List.mem_cons.1 hd with rfl | hd
    · exact le_trans (le_max_right _ _) h1
    · exact h2 d hd

theorem foldl_max_mem : ∀ (l : List Int) (b : Int),
    l.foldl max b = b ∨ l.foldl max b ∈ l := by
  intro l
  induction l with
  | nil => intro b; exact Or.inl rfl
  | cons x l ih =>
    intro b
    simp only [List.foldl_cons]
    rcases ih (max b x) with h | h
    · rw [h]
      rcases max_choice b x with h1 | h1
      · exact Or.inl h1
      · rw [h1]; exact Or.inr (List.mem_cons_self _ _)
    · exact Or.inr (List.mem_cons_of_mem _ h)

theorem maxSample_le_of (l1 l2 : List Int)
    (h : ∀ d, d ∈ l1 → ∃ d', d' ∈ l2 ∧ d ≤ d') : maxSample l1 ≤ maxSample l2 := by
  unfold maxSample
  rcases foldl_max_mem l1 0 with h1 | h1
  · rw [h1]; exact (foldl_max_ge l2 0).1
  · obtain ⟨d', hd', hle⟩ := h _ h1
    exact le_trans hle ((foldl_max_ge l2 0).2 d' hd')

namespace RHHash

variable {K V : Type} [DecidableEq K] [Inhabited K] [Inhabited V]

theorem rh_mem_dibStats (P : Params K) (T : RHHash K V) (d : Int) :
    d ∈ dibStats P T ↔ ∃ i, i < T.numBuckets ∧ (rd T.buckets i).occupied = true ∧
      d = probeLength T.numBuckets (hash P T.numBuckets (rd T.buckets i).key) i := by
  unfold dibStats
  simp only [List.mem_filterMap, List.mem_range]
  constructor
  · rintro ⟨i, hi, h⟩
    split_ifs at h with ho
    exact ⟨i, hi, ho, (Option.some.inj h).symm⟩
  · rintro ⟨i, hi, ho, rfl⟩
    exact ⟨i, hi, by rw [if_pos ho]⟩

end RHHash

namespace LazyLPHash

variable {K V : Type} [DecidableEq K] [Inhabited K] [Inhabited V]

theorem lz_mem_dibStats (P : Params K) (T : LazyLPHash K V) (d : Int) :
    d ∈ dibStats P T ↔ ∃ i, i < T.numBuckets ∧ (rd T.buckets i).occupied = true ∧
      d = probeLength T.numBuckets (hash P T.numBuckets (rd T.buckets i).key) i := by
  unfold dibStats
  simp only [List.mem_filterMap, List.mem_range]
  constructor
  · rintro ⟨i, hi, h⟩
    split_ifs at h with ho
    exact ⟨i, hi, ho, (Option.some.inj h).symm⟩
  · rintro ⟨i, hi, ho, rfl⟩
    exact ⟨i, hi, by rw [if_pos ho]⟩

end LazyLPHash

/-- Every probe length of the `RHHash` is matched or exceeded by one of the `LazyLPHash`, when
the two tables have the same capacity and the `LazyLPHash` holds every key of the `RHHash`. -/
theorem rh_dib_le_lazy {K V : Type} [DecidableEq K] [Inhabited K] [Inhabited V]
    (P : Params K) (R : RHHash K V) (L : LazyLPHash K V) (hR : RHHash.Inv P R)
    (hcut : ∃ a, a < R.numBuckets ∧ RHHash.LinFrom R.numBuckets R.buckets a)
    (hL : LazyLPHash.Inv P L) (hn : R.numBuckets = L.numBuckets)
    (hk : ∀ k, k ∈ (RHHash.ents R).map Prod.fst → k ∈ (LazyLPHash.ents L).map Prod.fst) :
    ∀ d, d ∈ RHHash.dibStats P R → ∃ d', d' ∈ LazyLPHash.dibStats P L ∧ d ≤ d' := by
  intro d hd
  obtain ⟨p, hp, ho, rfl⟩ := (RHHash.rh_mem_dibStats P R d).1 hd
  obtain ⟨a, ha, hlin⟩ := hcut
  have hkeys : ∀ x, x < R.numBuckets → (rd R.buckets x).occupied = true →
      ∃ q, q < R.numBuckets ∧ (fun q => (rd L.buckets q).occupied) q = true ∧
        (fun q => (rd L.buckets q).key) q = (rd R.buckets x).key := by
    intro x hx hox
    have hm : (rd R.buckets x).key ∈ (RHHash.ents R).map Prod.fst :=
      (mem_keys_iff _ _).2 ⟨(rd R.buckets x).val,
        (RHHash.rh_mem_ents_iff R _ _).2 ⟨x, by rw [hR.arr.len]; exact hx, hox, rfl, rfl⟩⟩
    obtain ⟨v, hv⟩ := (mem_keys_iff _ _).1 (hk _ hm)
    obtain ⟨q, hq, hlive, hkq, _⟩ := (LazyLPHash.lz_mem_ents_iff L _ _).1 hv
    exact ⟨q, by rw [hn, ← hL.len]; exact hq, ((LazyLPHash.lz_liveEntry_iff _).1 hlive).1, hkq⟩
  obtain ⟨q, hq, hoq, hle⟩ := RHHash.rh_bound_core P R.numBuckets hR.pos R.buckets hR.arr a ha
    hlin _ _ hkeys p hp ho
  refine ⟨probeLength L.numBuckets (hash P L.numBuckets (rd L.buckets q).key) q,
    (LazyLPHash.lz_mem_dibStats P L _).2 ⟨q, by rw [← hn]; exact hq, hoq, rfl⟩, ?_⟩
  have h1 := hash_lt P R.numBuckets (rd R.buckets p).key hR.pos
  have h2 := hash_lt P R.numBuckets (rd L.buckets q).key hR.pos
  rw [← hn, probeLength_eq_cdist _ _ _ (by omega), probeLength_eq_cdist _ _ _ (by omega),
    ← hR.arr.home p hp ho]
  exact_mod_cast hle

/-! ## Claims C11 to C20 -/

/-- C13. `probeLength` is the forward cyclic distance: for every `numBuckets >= 1` and all
indices `desired`, `current` below `numBuckets`, `probeLength(desired, current)` equals
`(current - desired) mod numBuckets`, lies in `[0, numBuckets)`, is 0 exactly when
`current == desired`, and `(desired + probeLength(desired, current)) mod numBuckets` is
`current`. -/
theorem probeLength_cyclic_distance (numBuckets desired current : Nat) (hn : 1 ≤ numBuckets)
    (hd : desired < numBuckets) (hc : current < numBuckets) :
    probeLength numBuckets desired current = ((current : Int) - desired) % numBuckets ∧
    0 ≤ probeLength numBuckets desired current ∧
    probeLength numBuckets desired current < numBuckets ∧
    (probeLength numBuckets desired current = 0 ↔ current = desired) ∧
    ((desired : Int) + probeLength numBuckets desired current) % numBuckets = current := by
  have hpl := probeLength_eq_cdist numBuckets desired current (by omega)
  have hlt := cdist_lt numBuckets desired current hd hc
  have hz := cdist_eq_zero numBuckets desired current hd hc
  have hmod := cdist_add_mod numBuckets desired current hd hc
  rw [hpl]
  refine ⟨cdist_eq_emod numBuckets desired current hd hc, by omega, by omega, ?_, ?_⟩
  · constructor
    · intro h
      have : cdist numBuckets desired current = 0 := by omega
      exact (hz.1 this).symm
    · intro h
      have := hz.2 h.symm
      omega
  · have : ((desired : Int) + (cdist numBuckets desired current : Nat))
        = ((desired + cdist numBuckets desired current : Nat) : Int) := by push_cast; rfl
    rw [this, ← Int.natCast_mod, hmod]

/-- Witness of C13: in 4 slots, from home index 3 to slot 1 the probe length is 2. -/
theorem probeLength_cyclic_distance_witness :
    (1 ≤ 4 ∧ 3 < 4 ∧ 1 < 4) ∧
    (probeLength 4 3 1 = (((1 : Nat) : Int) - (3 : Nat)) % (4 : Nat) ∧
    0 ≤ probeLength 4 3 1 ∧
    probeLength 4 3 1 < (4 : Nat) ∧
    (probeLength 4 3 1 = 0 ↔ 1 = 3) ∧
    (((3 : Nat) : Int) + probeLength 4 3 1) % (4 : Nat) = (1 : Nat)) ∧
    probeLength 4 3 1 = 2 :=
  ⟨⟨by decide, by decide, by decide⟩,
    probeLength_cyclic_distance 4 3 1 (by decide) (by decide) (by decide), by decide⟩

/-- C17. The shift test of `LPHash::remove` is cyclic-interval membership: for every
`numBuckets >= 1` and all indices `i`, `j`, `k` below `numBuckets` with `i != j`, the condition
`(k <= i && i <= j) || (j < k && (k <= i || i <= j))` holds if and only if
`(i - k) mod numBuckets < (j - k) mod numBuckets`, that is, the empty slot `i` lies in the
cyclic interval `[k, j)`; it holds when `i == k` and fails when `k == j`. -/
theorem shift_test_cyclic_interval (numBuckets i j k : Nat) (hn : 1 ≤ numBuckets)
    (hi : i < numBuckets) (hj : j < numBuckets) (hk : k < numBuckets) (hij : i ≠ j) :
    (LPHash.shiftTest i j k = true ↔
      ((i : Int) - k) % numBuckets < ((j : Int) - k) % numBuckets) ∧
    (i = k → LPHash.shiftTest i j k = true) ∧
    (k = j → LPHash.shiftTest i j k = false) := by
  have h := LPHash.lp_shiftTest_iff numBuckets i j k hi hj hk hij
  have e1 := cdist_eq_emod numBuckets k i hk hi
  have e2 := cdist_eq_emod numBuckets k j hk hj
  refine ⟨?_, ?_, ?_⟩
  · rw [h, ← e1, ← e2]
    exact Nat.cast_lt.symm
  · intro hik
    rw [h]
    have h0 := (cdist_eq_zero numBuckets k i hk hi).2 hik.symm
    have h1 := cdist_eq_zero numBuckets k j hk hj
    have : cdist numBuckets k j ≠ 0 := fun hz => hij (hik.trans (h1.1 hz))
    omega
  · intro hkj
    have h0 := (cdist_eq_zero numBuckets k j hk hj).2 hkj
    cases hs : LPHash.shiftTest i j k with
    | false => rfl
    | true =>
      have := h.1 hs
      omega

/-- Witness of C17: in 4 slots, the empty slot 0 lies in the wrapped interval `[3, 1)`. -/
theorem shift_test_cyclic_interval_witness :
    (1 ≤ 4 ∧ 0 < 4 ∧ 1 < 4 ∧ 3 < 4 ∧ 0 ≠ 1) ∧
    ((LPHash.shiftTest 0 1 3 = true ↔
      (((0 : Nat) : Int) - (3 : Nat)) % (4 : Nat) < (((1 : Nat) : Int) - (3 : Nat)) % (4 : Nat)) ∧
    (0 = 3 → LPHash.shiftTest 0 1 3 = true) ∧
    (3 = 1 → LPHash.shiftTest 0 1 3 = false)) ∧
    LPHash.shiftTest 0 1 3 = true :=
  ⟨⟨by decide, by decide, by decide, by decide, by decide⟩,
    shift_test_cyclic_interval 4 0 1 3 (by decide) (by decide) (by decide) (by decide)
      (by decide), by decide⟩

/-- C15. No holes after backward shift: for every `LPHash` or `RHHash` reachable from a fresh
table (capacity `>= 1`, threshold at most 1) by `put`, `remove` and `resize`
calls, and every occupied slot `p`, the stored `hash` of the entry is the home index `h` of
its key, and every slot `h, h+1, ..., p` (mod `numBuckets`) of the probe path, that is
`(h + t) mod numBuckets` for `t <= probeLength(h, p)`, is occupied. -/
theorem no_holes_on_probe_path {K V : Type} [DecidableEq K] [Inhabited K] [Inhabited V]
    (P : Params K) (cap : Nat) (hcap : 1 ≤ cap) (hthr : P.Capped) :
    (∀ (T : LPHash K V), LPHash.Reachable P cap T →
      ∀ p, p < T.numBuckets → (rd T.buckets p).occupied = true →
        (rd T.buckets p).hash = hash P T.numBuckets (rd T.buckets p).key ∧
        ∀ t : Nat, (t : Int) ≤ probeLength T.numBuckets (rd T.buckets p).hash p →
          (rd T.buckets (((rd T.buckets p).hash + t) % T.numBuckets)).occupied = true) ∧
    (∀ (T : RHHash K V), RHHash.Reachable P cap T →
      ∀ p, p < T.numBuckets → (rd T.buckets p).occupied = true →
        (rd T.buckets p).hash = hash P T.numBuckets (rd T.buckets p).key ∧
        ∀ t : Nat, (t : Int) ≤ probeLength T.numBuckets (rd T.buckets p).hash p →
          (rd T.buckets (((rd T.buckets p).hash + t) % T.numBuckets)).occupied = true) := by
  constructor
  · intro T hT p hpn ho
    have hinv := LPHash.lp_inv_of_reachable P cap hcap hthr T hT
    have hhome := hinv.home p hpn ho
    have hh : (rd T.buckets p).hash < T.numBuckets := by
      rw [hhome]; exact hash_lt P _ _ hinv.pos
    refine ⟨hhome, fun t ht => ?_⟩
    rw [probeLength_eq_cdist _ _ _ (by omega)] at ht
    have hlt := cdist_lt T.numBuckets _ p hh hpn
    have htn : t < T.numBuckets := by omega
    have hx := cdist_add T.numBuckets (rd T.buckets p).hash t hh htn
    have hxn : ((rd T.buckets p).hash + t) % T.numBuckets < T.numBuckets :=
      Nat.mod_lt _ (by omega)
    by_cases he : t = cdist T.numBuckets (rd T.buckets p).hash p
    · have : ((rd T.buckets p).hash + t) % T.numBuckets = p := by
        rw [he]; exact cdist_add_mod _ _ _ hh hpn
      rw [this]; exact ho
    · have hpath := hinv.path p hpn ho _ hxn (by rw [← hhome, hx]; omega)
      exact hpath.1
  · intro T hT p hpn ho
    have hinv := RHHash.rh_inv_of_reachable P cap hcap hthr T hT
    have hhome := hinv.arr.home p hpn ho
    have hh : (rd T.buckets p).hash < T.numBuckets := by
      rw [hhome]; exact hash_lt P _ _ hinv.pos
    refine ⟨hhome, fun t ht => ?_⟩
    rw [probeLength_eq_cdist _ _ _ (by omega)] at ht
    have hlt := cdist_lt T.numBuckets _ p hh hpn
    have htn : t < T.numBuckets := by omega
    have hx := cdist_add T.numBuckets (rd T.buckets p).hash t hh htn
    have hxn : ((rd T.buckets p).hash + t) % T.numBuckets < T.numBuckets :=
      Nat.mod_lt _ (by omega)
    by_cases he : t = cdist T.numBuckets (rd T.buckets p).hash p
    · have : ((rd T.buckets p).hash + t) % T.numBuckets = p := by
        rw [he]; exact cdist_add_mod _ _ _ hh hpn
      rw [this]; exact ho
    · have hpath := hinv.arr.path p hpn ho _ hxn (by rw [hx]; omega)
      exact hpath.1

/-- Witness of C15: capacity 4, threshold 3/4, after `put(1,10)`, `put(5,50)`, `put(9,90)`,
`remove(5)` key 9 (home index 1) is in slot 2 of the `LPHash` and of the `RHHash`. -/
theorem no_holes_on_probe_path_witness :
    (1 ≤ 4 ∧ exParams.Capped) ∧
    (LPHash.run exParams 4 exOps (LPHash.mk0 4) = some exShiftedLP ∧
      RHHash.run exParams 4 exOps (RHHash.mk0 4) = some exShiftedRH) ∧
    ((rd exShiftedLP.buckets 2).hash
        = hash exParams exShiftedLP.numBuckets (rd exShiftedLP.buckets 2).key ∧
      ∀ t : Nat, (t : Int) ≤ probeLength exShiftedLP.numBuckets (rd exShiftedLP.buckets 2).hash 2 →
        (rd exShiftedLP.buckets
          (((rd exShiftedLP.buckets 2).hash + t) % exShiftedLP.numBuckets)).occupied = true) ∧
    ((rd exShiftedRH.buckets 2).hash
        = hash exParams exShiftedRH.numBuckets (rd exShiftedRH.buckets 2).key ∧
      ∀ t : Nat, (t : Int) ≤ probeLength exShiftedRH.numBuckets (rd exShiftedRH.buckets 2).hash 2 →
        (rd exShiftedRH.buckets
          (((rd exShiftedRH.buckets 2).hash + t) % exShiftedRH.numBuckets)).occupied = true) :=
  ⟨⟨by decide, ratTest_capped _ 3 4 (by decide)⟩, ⟨rfl, rfl⟩,
    (no_holes_on_probe_path exParams 4 (by decide) (ratTest_capped _ 3 4 (by decide))).1 exShiftedLP
      (show LPHash.Reachable exParams 4 exShiftedLP from ⟨exOps, 4, rfl, rfl⟩) 2 (by decide) rfl,
    (no_holes_on_probe_path exParams 4 (by decide) (ratTest_capped _ 3 4 (by decide))).2 exShiftedRH
      (show RHHash.Reachable exParams 4 exShiftedRH from ⟨exOps, 4, rfl, rfl⟩) 2 (by decide) rfl⟩

/-- C16. Robin Hood ordering invariant: for every `RHHash` reachable from a fresh table
(capacity `>= 1`, threshold at most 1) by `put`, `remove` and `resize` calls,
and every occupied slot `p` with probe length `d`: when `d > 0`, the cyclically preceding slot
`(p - 1) mod numBuckets` is occupied and its probe length is at least `d - 1`; and along the
probe sequence of the key of `p`, the slot visited at step `t < d` is occupied and holds an
entry of probe length at least `t`. -/
theorem robin_hood_ordering {K V : Type} [DecidableEq K] [Inhabited K] [Inhabited V]
    (P : Params K) (cap : Nat) (hcap : 1 ≤ cap) (hthr : P.Capped)
    (T : RHHash K V) (hT : RHHash.Reachable P cap T) (p : Nat)
    (hpn : p < T.numBuckets) (ho : (rd T.buckets p).occupied = true) :
    (0 < probeLength T.numBuckets (rd T.buckets p).hash p →
      (rd T.buckets ((p + T.numBuckets - 1) % T.numBuckets)).occupied = true ∧
      probeLength T.numBuckets (rd T.buckets p).hash p - 1
        ≤ probeLength T.numBuckets
            (rd T.buckets ((p + T.numBuckets - 1) % T.numBuckets)).hash
            ((p + T.numBuckets - 1) % T.numBuckets)) ∧
    (∀ t : Nat, (t : Int) < probeLength T.numBuckets (rd T.buckets p).hash p →
      (rd T.buckets ((hash P T.numBuckets (rd T.buckets p).key + t) % T.numBuckets)).occupied
        = true ∧
      (t : Int) ≤ probeLength T.numBuckets
        (rd T.buckets ((hash P T.numBuckets (rd T.buckets p).key + t) % T.numBuckets)).hash
        ((hash P T.numBuckets (rd T.buckets p).key + t) % T.numBuckets)) := by
  have hinv := RHHash.rh_inv_of_reachable P cap hcap hthr T hT
  have hhome := hinv.arr.home p hpn ho
  have hh : (rd T.buckets p).hash < T.numBuckets := by
    rw [hhome]; exact hash_lt P _ _ hinv.pos
  have hpl := probeLength_eq_cdist T.numBuckets (rd T.buckets p).hash p (by omega)
  have hlt := cdist_lt T.numBuckets _ p hh hpn
  have key : ∀ x, x < T.numBuckets →
      cdist T.numBuckets (rd T.buckets p).hash x < cdist T.numBuckets (rd T.buckets p).hash p →
      (rd T.buckets x).occupied = true ∧
      ((cdist T.numBuckets (rd T.buckets p).hash x : Nat) : Int)
        ≤ probeLength T.numBuckets (rd T.buckets x).hash x := by
    intro x hx hd
    obtain ⟨hox, _, hord⟩ := hinv.arr.path p hpn ho x hx hd
    have hhx : (rd T.buckets x).hash < T.numBuckets := by
      rw [hinv.arr.home x hx hox]; exact hash_lt P _ _ hinv.pos
    rw [probeLength_eq_cdist T.numBuckets (rd T.buckets x).hash x (by omega)]
    exact ⟨hox, by exact_mod_cast hord⟩
  rw [hpl]
  constructor
  · intro hd
    have hd1 : 0 < cdist T.numBuckets (rd T.buckets p).hash p := by exact_mod_cast hd
    have hprev := cdist_prev T.numBuckets (rd T.buckets p).hash p hh hpn hd1
    have hqn : (p + T.numBuckets - 1) % T.numBuckets < T.numBuckets := Nat.mod_lt _ (by omega)
    obtain ⟨a, b⟩ := key _ hqn (by omega)
    exact ⟨a, by omega⟩
  · intro t ht
    have ht1 : t < cdist T.numBuckets (rd T.buckets p).hash p := by exact_mod_cast ht
    rw [← hhome]
    have hx := cdist_add T.numBuckets (rd T.buckets p).hash t hh (by omega)
    have hxn : ((rd T.buckets p).hash + t) % T.numBuckets < T.numBuckets :=
      Nat.mod_lt _ (by omega)
    obtain ⟨a, b⟩ := key _ hxn (by omega)
    rw [hx] at b
    exact ⟨a, b⟩

/-- Witness of C16: capacity 4, threshold 3/4, after `put(1,10)`, `put(5,50)`, `put(9,90)`,
`remove(5)` key 9 is in slot 2 with probe length 1, behind key 1 in slot 1. -/
theorem robin_hood_ordering_witness :
    (1 ≤ 4 ∧ exParams.Capped ∧
      RHHash.Reachable exParams 4 exShiftedRH ∧ 2 < exShiftedRH.numBuckets ∧
      (rd exShiftedRH.buckets 2).occupied = true) ∧
    ((0 < probeLength exShiftedRH.numBuckets (rd exShiftedRH.buckets 2).hash 2 →
      (rd exShiftedRH.buckets ((2 + exShiftedRH.numBuckets - 1) % exShiftedRH.numBuckets)).occupied
        = true ∧
      probeLength exShiftedRH.numBuckets (rd exShiftedRH.buckets 2).hash 2 - 1
        ≤ probeLength exShiftedRH.numBuckets
            (rd exShiftedRH.buckets
              ((2 + exShiftedRH.numBuckets - 1) % exShiftedRH.numBuckets)).hash
            ((2 + exShiftedRH.numBuckets - 1) % exShiftedRH.numBuckets)) ∧
    (∀ t : Nat, (t : Int) < probeLength exShiftedRH.numBuckets (rd exShiftedRH.buckets 2).hash 2 →
      (rd exShiftedRH.buckets
        ((hash exParams exShiftedRH.numBuckets (rd exShiftedRH.buckets 2).key + t)
          % exShiftedRH.numBuckets)).occupied = true ∧
      (t : Int) ≤ probeLength exShiftedRH.numBuckets
        (rd exShiftedRH.buckets
          ((hash exParams exShiftedRH.numBuckets (rd exShiftedRH.buckets 2).key + t)
            % exShiftedRH.numBuckets)).hash
        ((hash exParams exShiftedRH.numBuckets (rd exShiftedRH.buckets 2).key + t)
          % exShiftedRH.numBuckets))) ∧
    probeLength exShiftedRH.numBuckets (rd exShiftedRH.buckets 2).hash 2 = 1 :=
  ⟨⟨by decide, ratTest_capped _ 3 4 (by decide), ⟨exOps, 4, rfl, rfl⟩, by decide, rfl⟩,
    robin_hood_ordering exParams 4 (by decide) (ratTest_capped _ 3 4 (by decide)) exShiftedRH
      (show RHHash.Reachable exParams 4 exShiftedRH from ⟨exOps, 4, rfl, rfl⟩) 2 (by decide) rfl,
    by decide⟩

/-- Counterexample to C11 as stated: `resize(0)` on a freshly constructed table of capacity 4
is not rejected in any of the three classes. The call returns normally, with
`numBuckets == 0`, `numEntries == 0` and an array of no slots, where the table had
`numBuckets == 4` and an array of 4 slots before. -/
theorem resize_zero_is_not_rejected :
    (∀ f, LazyLPHash.resize exParams f 0 (LazyLPHash.mk0 4 : LazyLPHash Nat Nat)
        = some ⟨0, 0, []⟩) ∧
    (∀ f, LPHash.resize exParams f 0 (LPHash.mk0 4 : LPHash Nat Nat) = some ⟨0, 0, []⟩) ∧
    (∀ f, RHHash.resize exParams f 0 (RHHash.mk0 4 : RHHash Nat Nat) = some ⟨0, 0, []⟩) ∧
    (LazyLPHash.mk0 4 : LazyLPHash Nat Nat).numBuckets = 4 ∧
    (LPHash.mk0 4 : LPHash Nat Nat).numBuckets = 4 ∧
    (RHHash.mk0 4 : RHHash Nat Nat).numBuckets = 4 ∧
    (LPHash.mk0 4 : LPHash Nat Nat).buckets.length = 4 :=
  ⟨fun _ => rfl, fun _ => rfl, fun _ => rfl, rfl, rfl, rfl, rfl⟩

/-- C11, amended. `resize` does not validate its argument: in each of `LazyLPHash`, `LPHash`
and `RHHash`, `resize(0)` on a table without live entries returns normally and leaves
`numBuckets == 0`, `numEntries == 0` and an array of no slots, whatever the table was. -/
theorem resize_zero_on_table_without_live {K V : Type} [DecidableEq K] [Inhabited K]
    [Inhabited V] (P : Params K) (f : Nat) :
    (∀ T : LazyLPHash K V, (∀ e, e ∈ T.buckets → LazyLPHash.liveEntry e = false) →
      LazyLPHash.resize P f 0 T = some ⟨0, 0, []⟩) ∧
    (∀ T : LPHash K V, (∀ e, e ∈ T.buckets → e.occupied = false) →
      LPHash.resize P f 0 T = some ⟨0, 0, []⟩) ∧
    (∀ T : RHHash K V, (∀ e, e ∈ T.buckets → e.occupied = false) →
      RHHash.resize P f 0 T = some ⟨0, 0, []⟩) := by
  refine ⟨?_, ?_, ?_⟩
  · intro T h
    unfold LazyLPHash.resize
    rw [replay_no_live _ _ _ _ _ h]
    rfl
  · intro T h
    unfold LPHash.resize
    rw [replay_no_live _ _ _ _ _ h]
    rfl
  · intro T h
    unfold RHHash.resize
    rw [replay_no_live _ _ _ _ _ h]
    rfl

/-- Witness of C11: the `LazyLPHash` of capacity 4 after `put(1,10)`, `put(5,50)`,
`put(9,90)` and the removal of all three keys holds tombstones only; `resize(0)` returns on
it. -/
theorem resize_zero_on_table_without_live_witness :
    (∀ e, e ∈ exTombs.buckets → LazyLPHash.liveEntry e = false) ∧
    LazyLPHash.run exParams 4
      [Op.put 1 10, Op.put 5 50, Op.put 9 90, Op.remove 1, Op.remove 5, Op.remove 9]
      (LazyLPHash.mk0 4) = some exTombs ∧
    LazyLPHash.resize exParams 0 0 exTombs = some ⟨0, 0, []⟩ :=
  ⟨by decide, rfl,
    (resize_zero_on_table_without_live exParams 0).1 exTombs (by decide)⟩

/-- C14 at its failing input. At capacity 2 and threshold 3/4, `put(0,0)` and `put(1,1)` fill
the array of a `LazyLPHash`: the reachable table `fullLazy` has 2 occupied slots, no
tombstone and `numBuckets == 2`, so the number of used slots is not below `numBuckets`, no
never-used slot is left, and `lookup(2)` does not finish for any fuel. The defect is the
one of C6 and C7: `put` checks the load factor before its write and never after. -/
theorem lazy_full_table_has_no_free_slot :
    LazyLPHash.Reachable exParams 2 fullLazy ∧
    fullLazy.buckets.countP (fun e => e.occupied)
      + fullLazy.buckets.countP (fun e => e.deleted) = 2 ∧
    fullLazy.numBuckets = 2 ∧
    (∀ i, i < fullLazy.numBuckets → LazyLPHash.usedEntry (rd fullLazy.buckets i) = true) ∧
    ∀ f, LazyLPHash.lookup exParams f fullLazy 2 = none := by
  refine ⟨⟨fillOps, 3, rfl, rfl⟩, rfl, rfl, ?_, ?_⟩
  · intro i hi
    have : i = 0 ∨ i = 1 := by
      have : i < 2 := hi
      omega
    rcases this with rfl | rfl <;> rfl
  · intro f
    apply LazyLPHash.lz_lookup_diverges exParams fullLazy (by decide) 2
    intro x hx
    have : x = 0 ∨ x = 1 := by
      have : x < 2 := hx
      omega
    rcases this with rfl | rfl <;> rfl

/-- C19 at its failing input. At capacity 4 and threshold 3/4, after `put(1,10)` the
`LazyLPHash` has `numEntries == 1`; `put(1,11)`, on the key that is already present and
without a resize, overwrites the value in slot 1 and leaves `numEntries == 2`: the table
counts two entries for one key. The `if( deleted ) ... else ++numEntries` of `put` tells a
tombstone from every other slot, not a present key from an empty slot, and `lookup` never
returns a tombstone; the sibling `ChainedHash::put` returns on a key match before its
`++numEntries`. -/
theorem lazy_put_present_increments :
    LazyLPHash.run exParams 1 [Op.put 1 10] (LazyLPHash.mk0 4)
      = some ⟨1, 4, [default, ⟨1, 10, true, false⟩, default, default]⟩ ∧
    overThreshold exParams 1 4 = false ∧
    LazyLPHash.put exParams 1 ⟨1, 4, [default, ⟨1, 10, true, false⟩, default, default]⟩ 1 11
      = some ⟨2, 4, [default, ⟨1, 11, true, false⟩, default, default]⟩ :=
  ⟨rfl, rfl, rfl⟩

/-- What `LazyLPHash::put` does on a table on which it does not trigger a resize: for every
reachable `LazyLPHash` (capacity `>= 1`, threshold at most 1) on which the threshold check of
`put(k, v)` does not fire, the call writes `(k, v)` into one slot `idx`, leaves the other
slots alone and increments `numEntries` by one; `idx` is never a tombstone; when `k` is
already present `idx` is its slot (the value is overwritten in place, and `numEntries` is
incremented all the same), otherwise `idx` is a never-used slot. -/
theorem lazy_put_counts_every_call {K V : Type} [DecidableEq K] [Inhabited K] [Inhabited V]
    (P : Params K) (cap : Nat) (hcap : 1 ≤ cap) (hthr : P.Capped) (T : LazyLPHash K V)
    (hT : LazyLPHash.Reachable P cap T)
    (hov : overThreshold P T.numEntries T.numBuckets = false) (k : K) (v : V) :
    ∃ idx, idx < T.numBuckets ∧
      (∀ f, T.numBuckets ≤ f →
        LazyLPHash.put P f T k v
          = some ⟨T.numEntries + 1, T.numBuckets, wr T.buckets idx ⟨k, v, true, false⟩⟩) ∧
      (rd T.buckets idx).deleted = false ∧
      (∀ i, i < T.numBuckets → (rd T.buckets i).occupied = true → (rd T.buckets i).key = k →
        idx = i) ∧
      ((∀ i, i < T.numBuckets → (rd T.buckets i).occupied = true → (rd T.buckets i).key ≠ k) →
        (rd T.buckets idx).occupied = false) := by
  have hinv := LazyLPHash.lz_inv_of_reachable P cap hcap hthr T hT
  have hlt := lt_of_not_overThreshold P hthr _ _ hinv.pos hov
  have hcnt := hinv.cnt
  have hfree : T.buckets.countP LazyLPHash.usedEntry < T.numBuckets := by omega
  obtain ⟨idx, hl⟩ := LazyLPHash.lz_lookup_total P T hinv.pos hinv.len hfree k
  obtain ⟨hidx, hnd, hstop, _⟩ := LazyLPHash.lz_lookup_spec P T hinv.pos k _ idx hl
  refine ⟨idx, hidx, ?_, hnd, ?_, ?_⟩
  · intro f hf
    have hpos := hinv.pos
    obtain ⟨g, rfl⟩ : ∃ g, f = g + 1 := ⟨f - 1, by omega⟩
    have hl1 := LazyLPHash.lz_lookup_mono P T k _ (g + 1) idx hf hl
    unfold LazyLPHash.put
    simp only [hov, Bool.false_eq_true, if_false]
    unfold LazyLPHash.putEntry
    rw [hl1]
    simp only [hnd, Bool.false_eq_true, if_false]
  · intro i hi ho hk
    have h1 := LazyLPHash.lz_lookup_occupied P T hinv i hi ho T.numBuckets (le_refl _)
    rw [hk, hl] at h1
    exact Option.some.inj h1
  · intro hall
    cases ho : (rd T.buckets idx).occupied with
    | false => rfl
    | true => exact absurd (hstop ho) (hall idx hidx ho)

/-- The call `put(1,11)` on the `LazyLPHash` of capacity 4 that holds key 1. -/
theorem lazy_put_counts_every_call_witness :
    (1 ≤ 4 ∧ exParams.Capped ∧
      LazyLPHash.Reachable exParams 4 exOneLazy ∧
      overThreshold exParams exOneLazy.numEntries exOneLazy.numBuckets = false) ∧
    ∃ idx, idx < exOneLazy.numBuckets ∧
      (∀ f, exOneLazy.numBuckets ≤ f →
        LazyLPHash.put exParams f exOneLazy 1 11
          = some ⟨exOneLazy.numEntries + 1, exOneLazy.numBuckets,
              wr exOneLazy.buckets idx ⟨1, 11, true, false⟩⟩) ∧
      (rd exOneLazy.buckets idx).deleted = false ∧
      (∀ i, i < exOneLazy.numBuckets → (rd exOneLazy.buckets i).occupied = true →
        (rd exOneLazy.buckets i).key = 1 → idx = i) ∧
      ((∀ i, i < exOneLazy.numBuckets → (rd exOneLazy.buckets i).occupied = true →
          (rd exOneLazy.buckets i).key ≠ 1) →
        (rd exOneLazy.buckets idx).occupied = false) :=
  ⟨⟨by decide, ratTest_capped _ 3 4 (by decide), ⟨[Op.put 1 10], 1, rfl, rfl⟩, rfl⟩,
    lazy_put_counts_every_call exParams 4 (by decide) (ratTest_capped _ 3 4 (by decide)) exOneLazy
      (show LazyLPHash.Reachable exParams 4 exOneLazy from ⟨[Op.put 1 10], 1, rfl, rfl⟩)
      rfl 1 11⟩

/-- Counterexample to C18 as stated: in the `LPHash` of capacity 4 reached by `put(0,0)`,
`put(1,1)`, `put(4,4)`, the scan of `remove(0)` first meets slot 1, occupied by key 1 at its
home index, whose entry fails the shift test; the pass does not stop there: it goes on to
slot 2 and moves key 4 from slot 2 into slot 0. -/
theorem lp_shift_goes_on_past_unmoved_entry :
    LPHash.run exParams 4 [Op.put 0 0, Op.put 1 1, Op.put 4 4] (LPHash.mk0 4)
      = some exChainLP ∧
    LPHash.lookup exParams 4 exChainLP 0 = some 0 ∧
    (rd exChainLP.buckets 1).occupied = true ∧
    LPHash.shiftTest 0 1 (rd exChainLP.buckets 1).hash = false ∧
    LPHash.remove exParams 4 exChainLP 0
      = some ⟨2, 4, [⟨4, 4, 0, true⟩, ⟨1, 1, 1, true⟩, ⟨4, 4, 0, false⟩, default]⟩ :=
  ⟨rfl, rfl, rfl, rfl, rfl⟩

/-- C18, amended. The backward-shift pass of `LPHash::remove` ends at the first following
slot that is unoccupied, and only there. With the empty entry at `i` and the scan at `j0`,
when the next `t` slots are occupied by entries that fail the shift test, the pass goes over
them, leaving them and `i` as they are; then, at the slot `j` after them, it ends when `j`
is unoccupied, and when `j` is occupied by an entry that passes the shift test it moves
that entry into `i` and goes on with the empty entry at `j`. For every reachable `LPHash`
(capacity `>= 1`, threshold at most 1) and present key, `remove` returns. -/
theorem lp_shift_pass_ends_at_empty_slot {K V : Type} [DecidableEq K] [Inhabited K]
    [Inhabited V] (P : Params K) (cap : Nat) (hcap : 1 ≤ cap) (hthr : P.Capped) :
    (∀ (n : Nat) (bs : List (LPHash.HashEntry K V)) (i j0 t f : Nat), 1 ≤ n → j0 < n →
      (∀ s, s < t → (rd bs ((j0 + 1 + s) % n)).occupied = true ∧
        LPHash.shiftTest i ((j0 + 1 + s) % n) (rd bs ((j0 + 1 + s) % n)).hash = false) →
      ((rd bs ((j0 + t + 1) % n)).occupied = false →
        LPHash.removeLoop n (f + 1 + t) bs i j0 = some bs) ∧
      ((rd bs ((j0 + t + 1) % n)).occupied = true →
        LPHash.shiftTest i ((j0 + t + 1) % n) (rd bs ((j0 + t + 1) % n)).hash = true →
        LPHash.removeLoop n (f + 1 + t) bs i j0
          = LPHash.removeLoop n f
              (wr (wr bs i (rd bs ((j0 + t + 1) % n))) ((j0 + t + 1) % n)
                ⟨(rd (wr bs i (rd bs ((j0 + t + 1) % n))) ((j0 + t + 1) % n)).key,
                  (rd (wr bs i (rd bs ((j0 + t + 1) % n))) ((j0 + t + 1) % n)).val,
                  (rd (wr bs i (rd bs ((j0 + t + 1) % n))) ((j0 + t + 1) % n)).hash, false⟩)
              ((j0 + t + 1) % n) ((j0 + t + 1) % n))) ∧
    (∀ (T : LPHash K V), LPHash.Reachable P cap T →
      ∀ p, p < T.numBuckets → (rd T.buckets p).occupied = true →
        ∃ T1 f0, ∀ f, f0 ≤ f → LPHash.remove P f T (rd T.buckets p).key = some T1) := by
  constructor
  · intro n bs i j0 t f hn hj0 hskip
    have hstep := LPHash.lp_removeLoop_skip n hn bs i (f + 1) t j0 hj0 hskip
    have hj : ((j0 + t) % n + 1) % n = (j0 + t + 1) % n := by
      rw [Nat.add_mod, Nat.mod_mod, ← Nat.add_mod]
    constructor
    · intro ho
      rw [hstep]
      unfold LPHash.removeLoop
      simp only [hj, ho, Bool.not_false, if_true]
    · intro ho hs
      rw [hstep]
      conv => lhs; unfold LPHash.removeLoop
      simp only [hj, ho, Bool.not_true, Bool.false_eq_true, if_false, hs, if_true]
  · intro T hT p hpn ho
    have hinv := LPHash.lp_inv_of_reachable P cap hcap hthr T hT
    have hm : ((rd T.buckets p).key, (rd T.buckets p).val) ∈ LPHash.ents T :=
      (LPHash.lp_mem_ents_iff T _ _).2 ⟨p, by rw [hinv.len]; exact hpn, ho, rfl, rfl⟩
    obtain ⟨f0, T1, h⟩ := LPHash.lp_remove_total P T hinv (rd T.buckets p).key
      (Or.inl ⟨_, hm⟩)
    exact ⟨T1, f0, fun f hf => LPHash.lp_remove_mono P T _ f0 f T1 hf h⟩

/-- Witness of C18: the pass of `remove(0)` on the `LPHash` of capacity 4 holding keys 0, 1, 4
in slots 0, 1, 2: with the empty entry at 0, slot 1 is gone over and the entry of slot 2 is
moved into slot 0. -/
theorem lp_shift_pass_ends_at_empty_slot_witness :
    (1 ≤ 4 ∧ exParams.Capped ∧ 0 < 4 ∧
      (∀ s, s < 1 → (rd exHoleLP ((0 + 1 + s) % 4)).occupied = true ∧
        LPHash.shiftTest 0 ((0 + 1 + s) % 4) (rd exHoleLP ((0 + 1 + s) % 4)).hash = false) ∧
      (rd exHoleLP ((0 + 1 + 1) % 4)).occupied = true ∧
      LPHash.shiftTest 0 ((0 + 1 + 1) % 4) (rd exHoleLP ((0 + 1 + 1) % 4)).hash = true) ∧
    LPHash.removeLoop 4 (1 + 1 + 1) exHoleLP 0 0
      = LPHash.removeLoop 4 1
          (wr (wr exHoleLP 0 (rd exHoleLP ((0 + 1 + 1) % 4))) ((0 + 1 + 1) % 4)
            ⟨(rd (wr exHoleLP 0 (rd exHoleLP ((0 + 1 + 1) % 4))) ((0 + 1 + 1) % 4)).key,
              (rd (wr exHoleLP 0 (rd exHoleLP ((0 + 1 + 1) % 4))) ((0 + 1 + 1) % 4)).val,
              (rd (wr exHoleLP 0 (rd exHoleLP ((0 + 1 + 1) % 4))) ((0 + 1 + 1) % 4)).hash, false⟩)
          ((0 + 1 + 1) % 4) ((0 + 1 + 1) % 4) ∧
    LPHash.removeLoop 4 3 exHoleLP 0 0
      = some [⟨4, 4, 0, true⟩, ⟨1, 1, 1, true⟩, ⟨4, 4, 0, false⟩, default] :=
  ⟨⟨by decide, ratTest_capped _ 3 4 (by decide), by decide, by decide, rfl, rfl⟩,
    ((lp_shift_pass_ends_at_empty_slot exParams 4 (by decide) (ratTest_capped _ 3 4 (by decide))).1
      4 exHoleLP 0 0 1 1 (by decide) (by decide) (by decide)).2 rfl rfl,
    rfl⟩

/-- Counterexample to C20 as stated: threshold `2^-30`; `put(0,0)`, `put(1,1)` on a fresh
table of capacity 1 give the table with both slots of its capacity 2 live. On it
`resize(2^30)` sets `numEntries = 0`, replays the first entry, finds the load factor
`1 / 2^30 >= loadThreshold` at the `put` of the second and calls `resize( numBuckets * 2 )`
with a product that does not fit into an `int`: the allocation throws, `resize(2^30)` is left
by the exception in each of the three classes, and `numEntries` is not the number of live
slots at any point after it. -/
theorem resize_exact_count_overflow :
    (overThreshold tinyParams 0 (2 ^ 30) = false ∧
      overThreshold tinyParams 1 (2 ^ 30) = true) ∧
    (LazyLPHash.run tinyParams 3 fillOps (LazyLPHash.mk0 1) = some fullLazy ∧
      fullLazy.buckets.countP LazyLPHash.liveEntry = 2 ∧
      ∀ f, LazyLPHash.resize tinyParams f (2 ^ 30) fullLazy = none) ∧
    (LPHash.run tinyParams 3 fillOps (LPHash.mk0 1) = some fullLP ∧
      fullLP.buckets.countP (fun e => e.occupied) = 2 ∧
      ∀ f, LPHash.resize tinyParams f (2 ^ 30) fullLP = none) ∧
    (RHHash.run tinyParams 3 fillOps (RHHash.mk0 1) = some fullRH ∧
      fullRH.buckets.countP (fun e => e.occupied) = 2 ∧
      ∀ f, RHHash.resize tinyParams f (2 ^ 30) fullRH = none) := by
  have h0 : overThreshold tinyParams 0 (2 ^ 30) = false := by decide
  have h1 : overThreshold tinyParams 1 (2 ^ 30) = true := by decide
  refine ⟨⟨h0, h1⟩, ⟨rfl, rfl, ?_⟩, ⟨rfl, rfl, ?_⟩, rfl, rfl, ?_⟩
  · exact Machine.mach_resize_overflow (LazyLPHash.machine tinyParams) tinyParams _
      (LazyLPHash.lz_machine_ok tinyParams) (2 ^ 30) (le_refl _) h0 h1 fullLazy 0 1 0 1 rfl
  · exact Machine.mach_resize_overflow (LPHash.machine tinyParams) tinyParams _
      (LPHash.lp_machine_ok tinyParams) (2 ^ 30) (le_refl _) h0 h1 fullLP 0 1 0 1 rfl
  · exact Machine.mach_resize_overflow (RHHash.machine tinyParams) tinyParams _
      (RHHash.rh_machine_ok tinyParams) (2 ^ 30) (le_refl _) h0 h1 fullRH 0 1 0 1 rfl

/-- C20, amended. Resize leaves no dead slots and an exact count: in each of `LazyLPHash`,
`LPHash` and `RHHash`, for every reachable table `T` (capacity `>= 1`, threshold at most 1)
whose live entries a table of `2^30` buckets or more holds below the threshold (so that no
`put` of the replay doubles a capacity of `2^30` or more) and every `n >= 1`, `resize(n)`
finishes in a table `T1` in which no slot is tombstoned and `numEntries` is the number of
occupied slots, which is the number of slots of `T` that were live (occupied, not
tombstoned), whatever `numEntries` was in `T`. -/
theorem resize_exact_count {K V : Type} [DecidableEq K] [Inhabited K] [Inhabited V]
    (P : Params K) (cap n : Nat) (hcap : 1 ≤ cap) (hthr : P.Capped) (hn : 1 ≤ n) :
    (∀ T : LazyLPHash K V, LazyLPHash.Reachable P cap T →
      P.Fits (T.buckets.countP LazyLPHash.liveEntry) (2 ^ 30) →
      ∃ T1 f0, (∀ f, f0 ≤ f → LazyLPHash.resize P f n T = some T1) ∧
        (∀ i, i < T1.numBuckets → (rd T1.buckets i).deleted = false) ∧
        T1.numEntries = T1.buckets.countP (fun e => e.occupied) ∧
        T1.buckets.countP (fun e => e.occupied) = T.buckets.countP LazyLPHash.liveEntry) ∧
    (∀ T : LPHash K V, LPHash.Reachable P cap T →
      P.Fits (T.buckets.countP (fun e => e.occupied)) (2 ^ 30) →
      ∃ T1 f0, (∀ f, f0 ≤ f → LPHash.resize P f n T = some T1) ∧
        T1.numEntries = T1.buckets.countP (fun e => e.occupied) ∧
        T1.buckets.countP (fun e => e.occupied) = T.buckets.countP (fun e => e.occupied)) ∧
    (∀ T : RHHash K V, RHHash.Reachable P cap T →
      P.Fits (T.buckets.countP (fun e => e.occupied)) (2 ^ 30) →
      ∃ T1 f0, (∀ f, f0 ≤ f → RHHash.resize P f n T = some T1) ∧
        T1.numEntries = T1.buckets.countP (fun e => e.occupied) ∧
        T1.buckets.countP (fun e => e.occupied) = T.buckets.countP (fun e => e.occupied)) := by
  refine ⟨?_, ?_, ?_⟩
  · intro T hT hfit
    have hinv := LazyLPHash.lz_inv_of_reachable P cap hcap hthr T hT
    obtain ⟨T1, f0, h, hinv1, _, hnE, hlen, _, _⟩ := Machine.mach_resize_ok
      (LazyLPHash.machine P) P _ (LazyLPHash.lz_machine_ok P) hthr T hinv n hn
      (by show P.Fits ((LazyLPHash.ents T).length : Nat) _
          rw [LazyLPHash.lz_length_ents]; exact hfit)
    have hnE1 : T1.numEntries = ((LazyLPHash.ents T1).length : Int) := hnE
    have hlen1 : (LazyLPHash.ents T1).length = (LazyLPHash.ents T).length := hlen
    rw [LazyLPHash.lz_length_ents] at hnE1
    rw [LazyLPHash.lz_length_ents, LazyLPHash.lz_length_ents] at hlen1
    have hocc := LazyLPHash.lz_countP_occupied P T1 hinv1
    refine ⟨T1, f0, h, ?_, ?_, ?_⟩
    · exact LazyLPHash.lz_resize_notomb P hthr T hinv f0 n hn T1 (h f0 (le_refl _))
    · rw [hocc]; exact hnE1
    · rw [hocc]; exact hlen1
  · intro T hT hfit
    have hinv := LPHash.lp_inv_of_reachable P cap hcap hthr T hT
    obtain ⟨T1, f0, h, hinv1, _, hnE, hlen, _, _⟩ := Machine.mach_resize_ok
      (LPHash.machine P) P _ (LPHash.lp_machine_ok P) hthr T hinv n hn
      (by show P.Fits ((LPHash.ents T).length : Nat) _
          rw [LPHash.lp_length_ents]; exact hfit)
    have hnE1 : T1.numEntries = ((LPHash.ents T1).length : Int) := hnE
    have hlen1 : (LPHash.ents T1).length = (LPHash.ents T).length := hlen
    rw [LPHash.lp_length_ents] at hnE1
    rw [LPHash.lp_length_ents, LPHash.lp_length_ents] at hlen1
    exact ⟨T1, f0, h, hnE1, hlen1⟩
  · intro T hT hfit
    have hinv := RHHash.rh_inv_of_reachable P cap hcap hthr T hT
    obtain ⟨T1, f0, h, hinv1, _, hnE, hlen, _, _⟩ := Machine.mach_resize_ok
      (RHHash.machine P) P _ (RHHash.rh_machine_ok P) hthr T hinv n hn
      (by show P.Fits ((RHHash.ents T).length : Nat) _
          rw [RHHash.rh_length_ents]; exact hfit)
    have hnE1 : T1.numEntries = ((RHHash.ents T1).length : Int) := hnE
    have hlen1 : (RHHash.ents T1).length = (RHHash.ents T).length := hlen
    rw [RHHash.rh_length_ents] at hnE1
    rw [RHHash.rh_length_ents, RHHash.rh_length_ents] at hlen1
    exact ⟨T1, f0, h, hnE1, hlen1⟩

/-- Witness of C20: `resize(8)` on the `LazyLPHash` of capacity 4 with three tombstones and
`numEntries == 3` gives `numEntries == 0`; on the `LPHash` and the `RHHash` of capacity 4
after `put(1,10)`, `put(5,50)`, `put(9,90)`, `remove(5)` it keeps the two live entries. -/
theorem resize_exact_count_witness :
    (1 ≤ 4 ∧ exParams.Capped ∧ 1 ≤ 8) ∧
    (LazyLPHash.Reachable exParams 4 exTombs ∧ LPHash.Reachable exParams 4 exShiftedLP ∧
      RHHash.Reachable exParams 4 exShiftedRH) ∧
    (exParams.Fits (exTombs.buckets.countP LazyLPHash.liveEntry) (2 ^ 30) ∧
      exParams.Fits (exShiftedLP.buckets.countP (fun e => e.occupied)) (2 ^ 30) ∧
      exParams.Fits (exShiftedRH.buckets.countP (fun e => e.occupied)) (2 ^ 30)) ∧
    (∃ T1 f0, (∀ f, f0 ≤ f → LazyLPHash.resize exParams f 8 exTombs = some T1) ∧
      (∀ i, i < T1.numBuckets → (rd T1.buckets i).deleted = false) ∧
      T1.numEntries = T1.buckets.countP (fun e => e.occupied) ∧
      T1.buckets.countP (fun e => e.occupied)
        = exTombs.buckets.countP LazyLPHash.liveEntry) ∧
    (∃ T1 f0, (∀ f, f0 ≤ f → LPHash.resize exParams f 8 exShiftedLP = some T1) ∧
      T1.numEntries = T1.buckets.countP (fun e => e.occupied) ∧
      T1.buckets.countP (fun e => e.occupied)
        = exShiftedLP.buckets.countP (fun e => e.occupied)) ∧
    (∃ T1 f0, (∀ f, f0 ≤ f → RHHash.resize exParams f 8 exShiftedRH = some T1) ∧
      T1.numEntries = T1.buckets.countP (fun e => e.occupied) ∧
      T1.buckets.countP (fun e => e.occupied)
        = exShiftedRH.buckets.countP (fun e => e.occupied)) ∧
    exTombs.numEntries = 3 ∧ exTombs.buckets.countP LazyLPHash.liveEntry = 0 :=
  ⟨⟨by decide, ratTest_capped _ 3 4 (by decide), by decide⟩,
    ⟨⟨[Op.put 1 10, Op.put 5 50, Op.put 9 90, Op.remove 1, Op.remove 5, Op.remove 9], 4,
        rfl, rfl⟩, ⟨exOps, 4, rfl, rfl⟩, ⟨exOps, 4, rfl, rfl⟩⟩,
    ⟨ratTest_fits _ 3 4 0 (2 ^ 30) (by decide), ratTest_fits _ 3 4 2 (2 ^ 30) (by decide),
      ratTest_fits _ 3 4 2 (2 ^ 30) (by decide)⟩,
    (resize_exact_count exParams 4 8 (by decide) (ratTest_capped _ 3 4 (by decide))
      (by decide)).1 exTombs
      (show LazyLPHash.Reachable exParams 4 exTombs from
        ⟨[Op.put 1 10, Op.put 5 50, Op.put 9 90, Op.remove 1, Op.remove 5, Op.remove 9], 4,
          rfl, rfl⟩)
      (ratTest_fits _ 3 4 0 (2 ^ 30) (by decide)),
    (resize_exact_count exParams 4 8 (by decide) (ratTest_capped _ 3 4 (by decide))
      (by decide)).2.1 exShiftedLP
      (show LPHash.Reachable exParams 4 exShiftedLP from ⟨exOps, 4, rfl, rfl⟩)
      (ratTest_fits _ 3 4 2 (2 ^ 30) (by decide)),
    (resize_exact_count exParams 4 8 (by decide) (ratTest_capped _ 3 4 (by decide))
      (by decide)).2.2 exShiftedRH
      (show RHHash.Reachable exParams 4 exShiftedRH from ⟨exOps, 4, rfl, rfl⟩)
      (ratTest_fits _ 3 4 2 (2 ^ 30) (by decide)),
    rfl, rfl⟩

/-- Counterexample to C12 as stated: capacity `2^30`, threshold `2^-30`, `put(0,0)`,
`put(1,1)`. In the `RHHash` and in the `LazyLPHash` the second `put` finds the load factor
`1 / 2^30 >= loadThreshold` and calls `resize( numBuckets * 2 )` with a product that does not
fit into an `int`: the allocation throws and the call does not return. Neither sequence
finishes, so there are no resulting tables whose probe lengths could be compared. -/
theorem robin_hood_bound_overflow :
    (overThreshold tinyParams 0 (2 ^ 30) = false ∧
      overThreshold tinyParams 1 (2 ^ 30) = true) ∧
    (∀ f, RHHash.run tinyParams f [Op.put 0 0, Op.put 1 1] (RHHash.mk0 (2 ^ 30)) = none) ∧
    (∀ f, LazyLPHash.run tinyParams f [Op.put 0 0, Op.put 1 1] (LazyLPHash.mk0 (2 ^ 30))
      = none) := by
  have h0 : overThreshold tinyParams 0 (2 ^ 30) = false := by decide
  have h1 : overThreshold tinyParams 1 (2 ^ 30) = true := by decide
  exact ⟨⟨h0, h1⟩,
    Machine.mach_two_puts_overflow (RHHash.machine tinyParams) tinyParams _
      (RHHash.rh_machine_ok tinyParams) (2 ^ 30) (le_refl _) h0 h1 0 1 0 1 [],
    Machine.mach_two_puts_overflow (LazyLPHash.machine tinyParams) tinyParams _
      (LazyLPHash.lz_machine_ok tinyParams) (2 ^ 30) (le_refl _) h0 h1 0 1 0 1 []⟩

/-- C12, amended. Robin Hood bound: for every capacity `>= 1`, every threshold at most 1
(whatever the outcome of the `float` comparison on each pair of counts), every hasher and
every sequence of `put` calls such that a table of `2^30` buckets or more holds as many
entries as there are calls below the threshold (so that no `put` doubles a capacity of `2^30`
or more), applied to a fresh `RHHash` and to a fresh `LazyLPHash` of the same capacity and
threshold, both runs finish, the two tables have the same `numBuckets`, every sample
`probeLength( hash( key ), i )` of an occupied slot of the `RHHash` is matched or exceeded by
the sample of an occupied slot of the `LazyLPHash`, and so the maximum over the occupied
slots of the `RHHash` is at most the maximum over the occupied slots of the `LazyLPHash`. -/
theorem robin_hood_bound {K V : Type} [DecidableEq K] [Inhabited K] [Inhabited V]
    (P : Params K) (cap : Nat) (ops : List (Op K V)) (hcap : 1 ≤ cap) (hthr : P.Capped)
    (hfit : P.Fits ops.length (2 ^ 30)) (hops : onlyPuts ops = true) :
    ∃ (R : RHHash K V) (L : LazyLPHash K V) (f0 : Nat), ∀ f, f0 ≤ f →
      RHHash.run P f ops (RHHash.mk0 cap) = some R ∧
      LazyLPHash.run P f ops (LazyLPHash.mk0 cap) = some L ∧
      R.numBuckets = L.numBuckets ∧
      (∀ d, d ∈ RHHash.dibStats P R → ∃ d', d' ∈ LazyLPHash.dibStats P L ∧ d ≤ d') ∧
      maxSample (RHHash.dibStats P R) ≤ maxSample (LazyLPHash.dibStats P L) := by
  have hres := resizesPos_of_noResize ops (noResize_of_onlyPuts ops hops)
  have hlive := removesLive_of_onlyPuts ops (fun _ => none) hops
  obtain ⟨R, fR, hinvR, _, hR⟩ := Machine.mach_run_get (RHHash.machine P) P _
    (RHHash.rh_machine_ok P) hthr cap hcap ops hfit hres (Or.inl hlive)
  obtain ⟨L, fL, hinvL, _, hL⟩ := Machine.mach_run_get (LazyLPHash.machine P) P _
    (LazyLPHash.lz_machine_ok P) hthr cap hcap ops hfit hres (Or.inl hlive)
  have e1 : (RHHash.put P (max fR fL) : RHHash K V → K → V → Option (RHHash K V))
      = (RHHash.sys P).put P (max fR fL) := by
    funext T k v; exact RHHash.rh_put_eq_sys P _ T k v
  have e2 : (LazyLPHash.put P (max fR fL) :
      LazyLPHash K V → K → V → Option (LazyLPHash K V))
      = (LazyLPHash.sys P).put P (max fR fL) := by
    funext T k v; exact LazyLPHash.lz_put_eq_sys P _ T k v
  have h1 : runOps ((RHHash.sys P).put P (max fR fL)) (RHHash.remove P (max fR fL))
      (RHHash.resize P (max fR fL)) ops (RHHash.mk0 cap) = some R := by
    rw [← e1]; exact (hR _ (le_max_left _ _)).1
  have h2 : runOps ((LazyLPHash.sys P).put P (max fR fL)) (LazyLPHash.remove P (max fR fL))
      (LazyLPHash.resize P (max fR fL)) ops (LazyLPHash.mk0 cap) = some L := by
    rw [← e2]; exact (hL _ (le_max_right _ _)).1
  obtain ⟨⟨_, hcut⟩, _, hsame, hkeys⟩ := Sys.runOps_puts_same (RHHash.sys P)
    (LazyLPHash.sys P) _ _ (RHHash.rh_sys_ok_cut P) (LazyLPHash.lz_sys_ok P) P hthr
    (max fR fL) _ _ _ _ ops (RHHash.mk0 cap) (LazyLPHash.mk0 cap) R L hops
    ((RHHash.rh_sys_ok_cut P).mk0_inv cap hcap) ((LazyLPHash.lz_sys_ok P).mk0_inv cap hcap)
    ⟨rfl, rfl, by
      show (RHHash.ents (RHHash.mk0 cap : RHHash K V)).length
        = (LazyLPHash.ents (LazyLPHash.mk0 cap : LazyLPHash K V)).length
      rw [RHHash.rh_ents_mk0, LazyLPHash.lz_ents_mk0]⟩
    (by
      intro k
      show k ∈ (RHHash.ents (RHHash.mk0 cap : RHHash K V)).map Prod.fst
        ↔ k ∈ (LazyLPHash.ents (LazyLPHash.mk0 cap : LazyLPHash K V)).map Prod.fst
      rw [RHHash.rh_ents_mk0, LazyLPHash.lz_ents_mk0])
    h1 h2
  have hdib := rh_dib_le_lazy P R L hinvR hcut hinvL hsame.2.1 (fun k hk => (hkeys k).1 hk)
  exact ⟨R, L, max fR fL, fun f hf =>
    ⟨(hR f (le_trans (le_max_left _ _) hf)).1, (hL f (le_trans (le_max_right _ _) hf)).1,
      hsame.2.1, hdib, maxSample_le_of _ _ hdib⟩⟩

/-- Witness of C12: capacity 4, threshold 3/4, `put` of 2, 1, 5: in the `LazyLPHash` key 5
(home index 1) lands in slot 3, at probe length 2; in the `RHHash` it steals slot 2 from key
2, which moves to slot 3, and the largest probe length is 1. -/
theorem robin_hood_bound_witness :
    (1 ≤ 4 ∧ exParams.Capped ∧ exParams.Fits exSteal.length (2 ^ 30) ∧
      onlyPuts exSteal = true) ∧
    (∃ (R : RHHash Nat Nat) (L : LazyLPHash Nat Nat) (f0 : Nat), ∀ f, f0 ≤ f →
      RHHash.run exParams f exSteal (RHHash.mk0 4) = some R ∧
      LazyLPHash.run exParams f exSteal (LazyLPHash.mk0 4) = some L ∧
      R.numBuckets = L.numBuckets ∧
      (∀ d, d ∈ RHHash.dibStats exParams R →
        ∃ d', d' ∈ LazyLPHash.dibStats exParams L ∧ d ≤ d') ∧
      maxSample (RHHash.dibStats exParams R) ≤ maxSample (LazyLPHash.dibStats exParams L)) ∧
    RHHash.run exParams 4 exSteal (RHHash.mk0 4)
      = some ⟨3, 4, [default, ⟨1, 1, 1, true⟩, ⟨5, 5, 1, true⟩, ⟨2, 2, 2, true⟩]⟩ ∧
    LazyLPHash.run exParams 4 exSteal (LazyLPHash.mk0 4)
      = some ⟨3, 4, [default, ⟨1, 1, true, false⟩, ⟨2, 2, true, false⟩, ⟨5, 5, true, false⟩]⟩ ∧
    maxSample (RHHash.dibStats exParams
      ⟨3, 4, [default, ⟨1, 1, 1, true⟩, ⟨5, 5, 1, true⟩, ⟨2, 2, 2, true⟩]⟩) = 1 ∧
    maxSample (LazyLPHash.dibStats exParams
      ⟨3, 4, [default, ⟨1, 1, true, false⟩, ⟨2, 2, true, false⟩, ⟨5, 5, true, false⟩]⟩) = 2 :=
  ⟨⟨by decide, ratTest_capped _ 3 4 (by decide), ratTest_fits _ 3 4 3 (2 ^ 30) (by decide),
      rfl⟩,
    robin_hood_bound exParams 4 exSteal (by decide) (ratTest_capped _ 3 4 (by decide))
      (ratTest_fits _ 3 4 3 (2 ^ 30) (by decide)) rfl,
    rfl, rfl, by decide, by decide⟩

/-! ## The table on which `put` writes -/

namespace Machine

variable {S K V : Type} [DecidableEq K]

theorem mach_put_finds_slot (M : Machine S K V) (P : Params K) (Inv : S → Prop)
    (ok : M.Ok P Inv) (hq : P.Capped) (T : S) (hinv : Inv T)
    (k : K) (v : V) (hfit : P.Fits (M.sys.nE T) (2 ^ 30)) :
    ∃ T1 f0 T2, Inv T1 ∧ M.sys.nE T1 < M.sys.nB T1 ∧
      (overThreshold P (M.sys.nE T) (M.sys.nB T) = false → T1 = T) ∧
      (overThreshold P (M.sys.nE T) (M.sys.nB T) = true →
        ∀ f, f0 ≤ f → M.resize f (M.sys.nB T * 2) T = some T1) ∧
      ∀ f, f0 ≤ f → M.put (f + 1) T k v = M.sys.putEntry (f + 1) T1 k v ∧
        M.sys.putEntry (f + 1) T1 k v = some T2 := by
  obtain ⟨T1, f0, h⟩ := mach_put_prepare M P Inv ok hq T hinv k v hfit
  obtain ⟨_, hno, hov⟩ := h f0 (le_refl _)
  have hpos := ok.sys_ok.nB_pos T hinv
  have hT1 : Inv T1 ∧ M.sys.nE T1 < M.sys.nB T1 := by
    cases ho : overThreshold P (M.sys.nE T) (M.sys.nB T) with
    | false =>
      rw [hno ho]
      exact ⟨hinv, lt_of_not_overThreshold P hq _ _ hpos ho⟩
    | true =>
      obtain ⟨hr, hnE, hnB⟩ := hov ho
      rw [ok.resize_eq] at hr
      have hi1 := (Sys.resize_pc M.sys Inv ok.sys_ok P hq f0 _ (by omega) T T1 hinv hr).1
      refine ⟨hi1, ?_⟩
      have hl := ok.sys_ok.len_le_nB T hinv
      rw [hnE]
      have : (M.sys.ents T).length < M.sys.nB T1 := by omega
      exact_mod_cast this
  obtain ⟨T2, hput, _⟩ := ok.sys_ok.putEntry_ok T1 k v hT1.1 hT1.2
  refine ⟨T1, max f0 (M.sys.nB T1), T2, hT1.1, hT1.2, hno, ?_, ?_⟩
  · intro ho f hf
    exact ((h f (le_trans (le_max_left _ _) hf)).2.2 ho).1
  · intro f hf
    refine ⟨(h f (le_trans (le_max_left _ _) hf)).1, ?_⟩
    exact ok.sys_ok.putEntry_mono _ (f + 1) T1 k v T2
      (by have := le_trans (le_max_right f0 (M.sys.nB T1)) hf; omega) hput

end Machine

/-! ## Claims C21 to C23 -/

/-- C21. Stored home index: for every `LPHash` or `RHHash` reachable from a fresh table
(capacity `>= 1`, threshold at most 1) by `put`, `remove` and `resize` calls,
the `hash` field of every occupied slot is `hasher.hash( key ) mod numBuckets` for the key of
that slot and the current `numBuckets`, so the probe length computed from the stored field
is the one `get_dib_stats` recomputes from the key. -/
theorem stored_hash_is_home {K V : Type} [DecidableEq K] [Inhabited K] [Inhabited V]
    (P : Params K) (cap : Nat) (hcap : 1 ≤ cap) (hthr : P.Capped) :
    (∀ (T : LPHash K V), LPHash.Reachable P cap T →
      ∀ p, p < T.numBuckets → (rd T.buckets p).occupied = true →
        (rd T.buckets p).hash = P.hasher (rd T.buckets p).key % T.numBuckets ∧
        probeLength T.numBuckets (rd T.buckets p).hash p
          = probeLength T.numBuckets (hash P T.numBuckets (rd T.buckets p).key) p) ∧
    (∀ (T : RHHash K V), RHHash.Reachable P cap T →
      ∀ p, p < T.numBuckets → (rd T.buckets p).occupied = true →
        (rd T.buckets p).hash = P.hasher (rd T.buckets p).key % T.numBuckets ∧
        probeLength T.numBuckets (rd T.buckets p).hash p
          = probeLength T.numBuckets (hash P T.numBuckets (rd T.buckets p).key) p) := by
  constructor
  · intro T hT p hpn ho
    have hinv := LPHash.lp_inv_of_reachable P cap hcap hthr T hT
    have h := hinv.home p hpn ho
    exact ⟨h, by rw [h]⟩
  · intro T hT p hpn ho
    have hinv := RHHash.rh_inv_of_reachable P cap hcap hthr T hT
    have h := hinv.arr.home p hpn ho
    exact ⟨h, by rw [h]⟩

/-- Witness of C21: capacity 4, threshold 3/4. In the `LPHash` after `put(1,10)`, `put(5,50)`,
`put(9,90)`, `remove(5)`, key 9 was moved by the backward shift to slot 2 and stores
`9 mod 4`; in the `RHHash` after `put(2,2)`, `put(1,1)`, `put(5,5)`, key 2 was evicted by
key 5 to slot 3 and stores `2 mod 4`. -/
theorem stored_hash_is_home_witness :
    (1 ≤ 4 ∧ exParams.Capped ∧
      LPHash.Reachable exParams 4 exShiftedLP ∧ RHHash.Reachable exParams 4 exStolenRH ∧
      (rd exShiftedLP.buckets 2).occupied = true ∧ (rd exStolenRH.buckets 3).occupied = true) ∧
    ((rd exShiftedLP.buckets 2).hash
        = exParams.hasher (rd exShiftedLP.buckets 2).key % exShiftedLP.numBuckets ∧
      probeLength exShiftedLP.numBuckets (rd exShiftedLP.buckets 2).hash 2
        = probeLength exShiftedLP.numBuckets
            (hash exParams exShiftedLP.numBuckets (rd exShiftedLP.buckets 2).key) 2) ∧
    ((rd exStolenRH.buckets 3).hash
        = exParams.hasher (rd exStolenRH.buckets 3).key % exStolenRH.numBuckets ∧
      probeLength exStolenRH.numBuckets (rd exStolenRH.buckets 3).hash 3
        = probeLength exStolenRH.numBuckets
            (hash exParams exStolenRH.numBuckets (rd exStolenRH.buckets 3).key) 3) ∧
    (rd exShiftedLP.buckets 2).key = 9 ∧ (rd exStolenRH.buckets 3).key = 2 :=
  ⟨⟨by decide, ratTest_capped _ 3 4 (by decide), ⟨exOps, 4, rfl, rfl⟩,
      ⟨exSteal, 4, rfl, rfl⟩, rfl, rfl⟩,
    (stored_hash_is_home exParams 4 (by decide) (ratTest_capped _ 3 4 (by decide))).1
      exShiftedLP
      (show LPHash.Reachable exParams 4 exShiftedLP from ⟨exOps, 4, rfl, rfl⟩) 2 (by decide) rfl,
    (stored_hash_is_home exParams 4 (by decide) (ratTest_capped _ 3 4 (by decide))).2
      exStolenRH
      (show RHHash.Reachable exParams 4 exStolenRH from ⟨exSteal, 4, rfl, rfl⟩) 3 (by decide)
      rfl,
    rfl, rfl⟩

/-- C22. Robin Hood probing is bounded on any table, full or not. For every `RHHash` state
with `numBuckets >= 1` whose occupied slots store a home index below `numBuckets` (no other
assumption: the array may be completely occupied), and every key `k`: the loop of `get(k)`
returns within `numBuckets + 1` iterations, one slot examined per iteration; so does the
probe of `remove(k)` that looks for the key (it is the same probe, `locate`), after which
`remove` either returns the table as it is or starts the backward shift at a slot that
holds `k`; and when `k` is in no occupied slot, `get(k)` throws the not-found error and
`remove(k)` leaves the table as it is. -/
theorem robin_hood_probe_bounded {K V : Type} [DecidableEq K] [Inhabited K] [Inhabited V]
    (P : Params K) (T : RHHash K V) (k : K) (hpos : 1 ≤ T.numBuckets)
    (hhome : ∀ p, p < T.numBuckets → (rd T.buckets p).occupied = true →
      (rd T.buckets p).hash < T.numBuckets) :
    (∃ r, RHHash.get P (T.numBuckets + 1) T k = some r) ∧
    (∃ r, RHHash.locate T k (T.numBuckets + 1) (hash P T.numBuckets k) 0 = some r ∧
      (r = none → RHHash.remove P (T.numBuckets + 1) T k = some T) ∧
      (∀ i, r = some i →
        i < T.numBuckets ∧ (rd T.buckets i).occupied = true ∧ (rd T.buckets i).key = k ∧
        ∀ g bs, RHHash.shiftLoop T.numBuckets g
            (wr T.buckets i
              ⟨(rd T.buckets i).key, (rd T.buckets i).val, (rd T.buckets i).hash, false⟩) i i
            = some bs →
          RHHash.remove P (T.numBuckets + 1 + g) T k
            = some ⟨T.numEntries - 1, T.numBuckets, bs⟩)) ∧
    ((∀ p, p < T.numBuckets → (rd T.buckets p).occupied = true → (rd T.buckets p).key ≠ k) →
      RHHash.get P (T.numBuckets + 1) T k = some none ∧
      RHHash.remove P (T.numBuckets + 1) T k = some T) := by
  have hh := hash_lt P T.numBuckets k hpos
  obtain ⟨r, hr⟩ := RHHash.rh_locate_total T k hhome T.numBuckets (hash P T.numBuckets k) 0 hh
    (by simp)
  have hget := RHHash.rh_get_eq_locate P T k (T.numBuckets + 1)
  rw [hr] at hget
  have hrem := RHHash.rh_removeLoop_of_locate T k (T.numBuckets + 1) (hash P T.numBuckets k)
    0 r hr
  refine ⟨⟨_, hget⟩, ⟨r, hr, ?_, ?_⟩, ?_⟩
  · intro hn
    subst hn
    exact hrem
  · intro i hi
    subst hi
    obtain ⟨a, b, c⟩ := RHHash.rh_locate_sound T hpos k _ _ 0 i hh hr
    exact ⟨a, b, c, fun g bs hs => hrem g bs hs⟩
  · intro habs
    cases r with
    | none => exact ⟨hget, hrem⟩
    | some i =>
      obtain ⟨a, b, c⟩ := RHHash.rh_locate_sound T hpos k _ _ 0 i hh hr
      exact absurd c (habs i a b)

/-- Witness of C22: the completely occupied `RHHash` of capacity 2 holding keys 0 and 1, and
the absent key 2. -/
theorem robin_hood_probe_bounded_witness :
    (1 ≤ fullRH.numBuckets ∧
      (∀ p, p < fullRH.numBuckets → (rd fullRH.buckets p).occupied = true →
        (rd fullRH.buckets p).hash < fullRH.numBuckets) ∧
      (∀ p, p < fullRH.numBuckets → (rd fullRH.buckets p).occupied = true →
        (rd fullRH.buckets p).key ≠ 2) ∧
      (∀ p, p < fullRH.numBuckets → (rd fullRH.buckets p).occupied = true)) ∧
    (RHHash.get exParams (fullRH.numBuckets + 1) fullRH 2 = some none ∧
      RHHash.remove exParams (fullRH.numBuckets + 1) fullRH 2 = some fullRH) :=
  ⟨⟨by decide, by decide, by decide, by decide⟩,
    (robin_hood_probe_bounded exParams fullRH 2 (by decide) (by decide)).2.2 (by decide)⟩

/-- Counterexample to C23 as stated: capacity `2^30`, threshold `2^-30`. After `put(0,0)`
on a fresh table, `numEntries == 1` and `numBuckets == 2^30`; the threshold check of the next
`put` fires (`1 / 2^30 >= loadThreshold`) and `resize( numBuckets * 2 )` is called with a
product that does not fit into an `int`: the allocation throws, there is no table after the
resize on which the probe loop of `put` could find a slot, and `put(1,1)` does not return, in
each of the three classes. -/
theorem put_finds_a_slot_overflow :
    (overThreshold tinyParams 0 (2 ^ 30) = false ∧
      overThreshold tinyParams 1 (2 ^ 30) = true) ∧
    (∃ T : LazyLPHash Nat Nat, LazyLPHash.Reachable tinyParams (2 ^ 30) T ∧
      T.numEntries = 1 ∧ T.numBuckets = 2 ^ 30 ∧
      ∀ f, LazyLPHash.put tinyParams f T 1 1 = none) ∧
    (∃ T : LPHash Nat Nat, LPHash.Reachable tinyParams (2 ^ 30) T ∧
      T.numEntries = 1 ∧ T.numBuckets = 2 ^ 30 ∧
      ∀ f, LPHash.put tinyParams f T 1 1 = none) ∧
    (∃ T : RHHash Nat Nat, RHHash.Reachable tinyParams (2 ^ 30) T ∧
      T.numEntries = 1 ∧ T.numBuckets = 2 ^ 30 ∧
      ∀ f, RHHash.put tinyParams f T 1 1 = none) := by
  have h0 : overThreshold tinyParams 0 (2 ^ 30) = false := by decide
  have h1 : overThreshold tinyParams 1 (2 ^ 30) = true := by decide
  refine ⟨⟨h0, h1⟩, ?_, ?_, ?_⟩
  · obtain ⟨T, hr, hn, hb, hofl⟩ := Machine.mach_reachable_overflow
      (LazyLPHash.machine tinyParams) tinyParams _ (LazyLPHash.lz_machine_ok tinyParams)
      (2 ^ 30) (le_refl _) h0 h1 0 0
    exact ⟨T, ⟨[Op.put 0 0], 2 ^ 30, rfl, hr⟩, hn, hb, fun f => hofl f 1 1⟩
  · obtain ⟨T, hr, hn, hb, hofl⟩ := Machine.mach_reachable_overflow
      (LPHash.machine tinyParams) tinyParams _ (LPHash.lp_machine_ok tinyParams)
      (2 ^ 30) (le_refl _) h0 h1 0 0
    exact ⟨T, ⟨[Op.put 0 0], 2 ^ 30, rfl, hr⟩, hn, hb, fun f => hofl f 1 1⟩
  · obtain ⟨T, hr, hn, hb, hofl⟩ := Machine.mach_reachable_overflow
      (RHHash.machine tinyParams) tinyParams _ (RHHash.rh_machine_ok tinyParams)
      (2 ^ 30) (le_refl _) h0 h1 0 0
    exact ⟨T, ⟨[Op.put 0 0], 2 ^ 30, rfl, hr⟩, hn, hb, fun f => hofl f 1 1⟩

/-- C23, amended. `put` finds a slot: in each of `LazyLPHash`, `LPHash` and `RHHash`, for
every capacity `>= 1`, threshold at most 1 and every table `T` reachable from a fresh table
by `put`, `remove` and `resize` calls (resize arguments `>= 1`), `numEntries` is at least the
number of slots that are occupied or tombstoned; and when a table of `2^30` buckets or more
holds `numEntries` entries below the threshold (so that `numBuckets * 2` fits into an `int`
whenever the threshold check fires), for every `put(k, v)` the table `T1` on which `put`
does its probe (`T` itself when the threshold check does not fire, the result of
`resize( numBuckets * 2 )`, which returns, when it does) has a never-used slot, and the call
returns. -/
theorem put_finds_a_slot {K V : Type} [DecidableEq K] [Inhabited K] [Inhabited V]
    (P : Params K) (cap : Nat) (hcap : 1 ≤ cap) (hthr : P.Capped) :
    (∀ (T : LazyLPHash K V), LazyLPHash.Reachable P cap T →
      ((T.buckets.countP LazyLPHash.usedEntry : Nat) : Int) ≤ T.numEntries ∧
      (P.Fits T.numEntries (2 ^ 30) → ∀ (k : K) (v : V), ∃ T1 f0 T2,
        (overThreshold P T.numEntries T.numBuckets = false → T1 = T) ∧
        (overThreshold P T.numEntries T.numBuckets = true →
          ∀ f, f0 ≤ f → LazyLPHash.resize P f (T.numBuckets * 2) T = some T1) ∧
        (∃ i, i < T1.numBuckets ∧ (rd T1.buckets i).occupied = false ∧
          (rd T1.buckets i).deleted = false) ∧
        ∀ f, f0 ≤ f →
          LazyLPHash.put P (f + 1) T k v = LazyLPHash.putEntry P (f + 1) T1 k v ∧
          LazyLPHash.put P (f + 1) T k v = some T2)) ∧
    (∀ (T : LPHash K V), LPHash.Reachable P cap T →
      ((T.buckets.countP (fun e => e.occupied) : Nat) : Int) ≤ T.numEntries ∧
      (P.Fits T.numEntries (2 ^ 30) → ∀ (k : K) (v : V), ∃ T1 f0 T2,
        (overThreshold P T.numEntries T.numBuckets = false → T1 = T) ∧
        (overThreshold P T.numEntries T.numBuckets = true →
          ∀ f, f0 ≤ f → LPHash.resize P f (T.numBuckets * 2) T = some T1) ∧
        (∃ i, i < T1.numBuckets ∧ (rd T1.buckets i).occupied = false) ∧
        ∀ f, f0 ≤ f →
          LPHash.put P (f + 1) T k v = LPHash.putEntry P (f + 1) T1 k v ∧
          LPHash.put P (f + 1) T k v = some T2)) ∧
    (∀ (T : RHHash K V), RHHash.Reachable P cap T →
      ((T.buckets.countP (fun e => e.occupied) : Nat) : Int) ≤ T.numEntries ∧
      (P.Fits T.numEntries (2 ^ 30) → ∀ (k : K) (v : V), ∃ T1 f0 T2,
        (overThreshold P T.numEntries T.numBuckets = false → T1 = T) ∧
        (overThreshold P T.numEntries T.numBuckets = true →
          ∀ f, f0 ≤ f → RHHash.resize P f (T.numBuckets * 2) T = some T1) ∧
        (∃ i, i < T1.numBuckets ∧ (rd T1.buckets i).occupied = false) ∧
        ∀ f, f0 ≤ f →
          RHHash.put P (f + 1) T k v = RHHash.putEntry P (f + 1) T1 k v ∧
          RHHash.put P (f + 1) T k v = some T2)) := by
  refine ⟨?_, ?_, ?_⟩
  · intro T hT
    have hinv := LazyLPHash.lz_inv_of_reachable P cap hcap hthr T hT
    refine ⟨hinv.cnt, fun hfit k v => ?_⟩
    obtain ⟨T1, f0, T2, hi1, hlt, hno, hov, hput⟩ := Machine.mach_put_finds_slot
      (LazyLPHash.machine P) P _ (LazyLPHash.lz_machine_ok P) hthr T hinv k v hfit
    have hlt1 : T1.numEntries < T1.numBuckets := hlt
    have hc := hi1.cnt
    obtain ⟨i, hi, hfi⟩ := exists_not_of_countP_lt
      (LazyLPHash.usedEntry : LazyLPHash.HashEntry K V → Bool) T1.buckets
      (by rw [hi1.len]; omega)
    unfold LazyLPHash.usedEntry at hfi
    simp only [Bool.or_eq_false_iff] at hfi
    refine ⟨T1, f0, T2, hno, hov, ⟨i, by rw [← hi1.len]; exact hi, hfi.1, hfi.2⟩, ?_⟩
    intro f hf
    obtain ⟨a, b⟩ := hput f hf
    exact ⟨a, a.trans b⟩
  · intro T hT
    have hinv := LPHash.lp_inv_of_reachable P cap hcap hthr T hT
    refine ⟨hinv.cnt, fun hfit k v => ?_⟩
    obtain ⟨T1, f0, T2, hi1, hlt, hno, hov, hput⟩ := Machine.mach_put_finds_slot
      (LPHash.machine P) P _ (LPHash.lp_machine_ok P) hthr T hinv k v hfit
    have hlt1 : T1.numEntries < T1.numBuckets := hlt
    have hc := hi1.cnt
    obtain ⟨i, hi, hfi⟩ := exists_not_of_countP_lt
      (fun e : LPHash.HashEntry K V => e.occupied) T1.buckets (by rw [hi1.len]; omega)
    refine ⟨T1, f0, T2, hno, hov, ⟨i, by rw [← hi1.len]; exact hi, hfi⟩, ?_⟩
    intro f hf
    obtain ⟨a, b⟩ := hput f hf
    exact ⟨a, a.trans b⟩
  · intro T hT
    have hinv := RHHash.rh_inv_of_reachable P cap hcap hthr T hT
    refine ⟨hinv.cnt, fun hfit k v => ?_⟩
    obtain ⟨T1, f0, T2, hi1, hlt, hno, hov, hput⟩ := Machine.mach_put_finds_slot
      (RHHash.machine P) P _ (RHHash.rh_machine_ok P) hthr T hinv k v hfit
    have hlt1 : T1.numEntries < T1.numBuckets := hlt
    have hc := hi1.cnt
    obtain ⟨i, hi, hfi⟩ := exists_not_of_countP_lt
      (fun e : RHHash.HashEntry K V => e.occupied) T1.buckets (by rw [hi1.arr.len]; omega)
    refine ⟨T1, f0, T2, hno, hov, ⟨i, by rw [← hi1.arr.len]; exact hi, hfi⟩, ?_⟩
    intro f hf
    obtain ⟨a, b⟩ := hput f hf
    exact ⟨a, a.trans b⟩

/-- Witness of C23: threshold 1, capacity 2. After `put(0,0)`, `put(1,1)` the array is
completely occupied and `numEntries == numBuckets == 2`; the next `put(2,2)` finds the load
factor at the threshold, resizes, and probes a table with a never-used slot. -/
theorem put_finds_a_slot_witness :
    (1 ≤ 2 ∧ oneParams.Capped ∧
      LazyLPHash.Reachable oneParams 2 fullLazy ∧ LPHash.Reachable oneParams 2 fullLP ∧
      RHHash.Reachable oneParams 2 fullRH ∧
      oneParams.Fits fullLazy.numEntries (2 ^ 30) ∧ oneParams.Fits fullLP.numEntries (2 ^ 30) ∧
      oneParams.Fits fullRH.numEntries (2 ^ 30)) ∧
    (((fullLazy.buckets.countP LazyLPHash.usedEntry : Nat) : Int) ≤ fullLazy.numEntries ∧
      (oneParams.Fits fullLazy.numEntries (2 ^ 30) → ∀ (k : Nat) (v : Nat), ∃ T1 f0 T2,
        (overThreshold oneParams fullLazy.numEntries fullLazy.numBuckets = false →
          T1 = fullLazy) ∧
        (overThreshold oneParams fullLazy.numEntries fullLazy.numBuckets = true →
          ∀ f, f0 ≤ f →
            LazyLPHash.resize oneParams f (fullLazy.numBuckets * 2) fullLazy = some T1) ∧
        (∃ i, i < T1.numBuckets ∧ (rd T1.buckets i).occupied = false ∧
          (rd T1.buckets i).deleted = false) ∧
        ∀ f, f0 ≤ f →
          LazyLPHash.put oneParams (f + 1) fullLazy k v
            = LazyLPHash.putEntry oneParams (f + 1) T1 k v ∧
          LazyLPHash.put oneParams (f + 1) fullLazy k v = some T2)) ∧
    (((fullLP.buckets.countP (fun e => e.occupied) : Nat) : Int) ≤ fullLP.numEntries ∧
      (oneParams.Fits fullLP.numEntries (2 ^ 30) → ∀ (k : Nat) (v : Nat), ∃ T1 f0 T2,
        (overThreshold oneParams fullLP.numEntries fullLP.numBuckets = false → T1 = fullLP) ∧
        (overThreshold oneParams fullLP.numEntries fullLP.numBuckets = true →
          ∀ f, f0 ≤ f → LPHash.resize oneParams f (fullLP.numBuckets * 2) fullLP = some T1) ∧
        (∃ i, i < T1.numBuckets ∧ (rd T1.buckets i).occupied = false) ∧
        ∀ f, f0 ≤ f →
          LPHash.put oneParams (f + 1) fullLP k v = LPHash.putEntry oneParams (f + 1) T1 k v ∧
          LPHash.put oneParams (f + 1) fullLP k v = some T2)) ∧
    (((fullRH.buckets.countP (fun e => e.occupied) : Nat) : Int) ≤ fullRH.numEntries ∧
      (oneParams.Fits fullRH.numEntries (2 ^ 30) → ∀ (k : Nat) (v : Nat), ∃ T1 f0 T2,
        (overThreshold oneParams fullRH.numEntries fullRH.numBuckets = false → T1 = fullRH) ∧
        (overThreshold oneParams fullRH.numEntries fullRH.numBuckets = true →
          ∀ f, f0 ≤ f → RHHash.resize oneParams f (fullRH.numBuckets * 2) fullRH = some T1) ∧
        (∃ i, i < T1.numBuckets ∧ (rd T1.buckets i).occupied = false) ∧
        ∀ f, f0 ≤ f →
          RHHash.put oneParams (f + 1) fullRH k v = RHHash.putEntry oneParams (f + 1) T1 k v ∧
          RHHash.put oneParams (f + 1) fullRH k v = some T2)) ∧
    overThreshold oneParams fullLP.numEntries fullLP.numBuckets = true ∧
    LPHash.put oneParams 2 fullLP 2 2
      = some ⟨3, 4, [⟨0, 0, 0, true⟩, ⟨1, 1, 1, true⟩, ⟨2, 2, 2, true⟩, default]⟩ :=
  ⟨⟨by decide, ratTest_capped _ 1 1 (by decide), ⟨fillOps, 1, rfl, rfl⟩,
      ⟨fillOps, 1, rfl, rfl⟩, ⟨fillOps, 1, rfl, rfl⟩,
      ratTest_fits _ 1 1 2 (2 ^ 30) (by decide), ratTest_fits _ 1 1 2 (2 ^ 30) (by decide),
      ratTest_fits _ 1 1 2 (2 ^ 30) (by decide)⟩,
    (put_finds_a_slot oneParams 2 (by decide) (ratTest_capped _ 1 1 (by decide))).1 fullLazy
      (show LazyLPHash.Reachable oneParams 2 fullLazy from ⟨fillOps, 1, rfl, rfl⟩),
    (put_finds_a_slot oneParams 2 (by decide) (ratTest_capped _ 1 1 (by decide))).2.1 fullLP
      (show LPHash.Reachable oneParams 2 fullLP from ⟨fillOps, 1, rfl, rfl⟩),
    (put_finds_a_slot oneParams 2 (by decide) (ratTest_capped _ 1 1 (by decide))).2.2 fullRH
      (show RHHash.Reachable oneParams 2 fullRH from ⟨fillOps, 1, rfl, rfl⟩),
    rfl, rfl⟩
